import Mathlib

/-!
GNU netcat 0.7.1: a shallow embedding of `telnet.c`, `flagset.c`, `core_readwrite`,
`core_tcp_listen`, the port arguments, the connect loop and the exit status of `main`,
`netcat_getport`, `netcat_fhexdump`, `netcat_snprintnum`, `netcat_printstats` and the socket
functions `netcat_socket_new`, `netcat_socket_new_connect`, `netcat_socket_new_listen`

C integers of type `int` are `Int`, sizes and offsets that the code keeps non-negative are
`Nat`; an `unsigned char` (and the bit pattern of a `char`) is `Fin 256`.  Code that may touch
memory outside an array returns `Outcome.undefined` there, a failed `assert` is
`Outcome.aborted`.

The definitions `telnet_spec_step`, `telnet_spec_run` and `stats_text_spec` follow the words
of the specification, not the code: they are what the code is compared with.
-/

namespace Netcat

/-- An `unsigned char`, also used for the bit pattern of a `char`. -/
abbrev UChar := Fin 256

/-- Result of running a piece of C code in the model: a value, undefined behaviour (an access
outside an array), a failed `assert` (the process aborts), or the loop bound of the model
was too small. -/
inductive Outcome (α : Type) where
  | ok (a : α)
  | undefined
  | aborted
  | outOfFuel
  deriving DecidableEq, Repr

/-- Sequencing of two runs. -/
def Outcome.bind {α β : Type} (x : Outcome α) (f : α → Outcome β) : Outcome β :=
  match x with
  | .ok a => f a
  | .undefined => .undefined
  | .aborted => .aborted
  | .outOfFuel => .outOfFuel

/-! ## telnet.c -/

def TELNET_SE : UChar := 240
def TELNET_NOP : UChar := 241
def TELNET_DM : UChar := 242
def TELNET_BRK : UChar := 243
def TELNET_IP : UChar := 244
def TELNET_AO : UChar := 245
def TELNET_AYT : UChar := 246
def TELNET_EC : UChar := 247
def TELNET_EL : UChar := 248
def TELNET_GA : UChar := 249
def TELNET_SB : UChar := 250
def TELNET_WILL : UChar := 251
def TELNET_WONT : UChar := 252
def TELNET_DO : UChar := 253
def TELNET_DONT : UChar := 254
def TELNET_IAC : UChar := 255

/-- The two `static` variables of `netcat_telnet_parse`: `getrq[4]` and `l`. -/
structure TelnetStatic where
  getrq : List UChar
  l : Int
  deriving DecidableEq, Repr

/-- State of the variables before the first call: zero-initialised statics. -/
def telnet_static_init : TelnetStatic := { getrq := [0, 0, 0, 0], l := 0 }

/-- The variables of one run of the `for` loop of `netcat_telnet_parse`: the bytes at
`recvq.pos`, the locals `i`, `ref_size`, `eat_chars`, the statics, and the bytes handed to
`write(ncsock->fd, ...)` so far. -/
structure TelnetLoop where
  buf : List UChar
  i : Int
  ref_size : Int
  eat_chars : Int
  getrq : List UChar
  l : Int
  sent : List UChar
  deriving DecidableEq, Repr

/-- Read of `buf[i]`; `none` outside the buffer. -/
def buf_read (buf : List UChar) (i : Int) : Option UChar :=
  if i < 0 then none else buf[i.toNat]?

/-- Store `buf[i] = c`; `none` outside the buffer. -/
def buf_write (buf : List UChar) (i : Int) (c : UChar) : Option (List UChar) :=
  if 0 ≤ i ∧ i < buf.length then some (buf.set i.toNat c) else none

/-- Library call `memmove(&buf[to], &buf[from], n)` inside one buffer; `none` when a range
leaves the buffer or `n` is negative. -/
def memmove (buf : List UChar) (to_ from_ n : Int) : Option (List UChar) :=
  if 0 ≤ to_ ∧ 0 ≤ from_ ∧ 0 ≤ n ∧ from_ + n ≤ buf.length ∧ to_ + n ≤ buf.length then
    some (buf.take to_.toNat ++ ((buf.drop from_.toNat).take n.toNat
      ++ buf.drop (to_.toNat + n.toNat)))
  else none

/-- The code at label `do_eat_chars` (telnet.c 162-188), up to the end of the loop body. -/
def do_eat_chars (s : TelnetLoop) : Outcome TelnetLoop :=
  let s : TelnetLoop := { s with l := 0 }
  if 0 < s.eat_chars then
    let i := s.i + 1
    match memmove s.buf (i - s.eat_chars) i (s.ref_size - i) with
    | none => .undefined
    | some buf =>
      .ok { s with buf := buf, i := i - (s.eat_chars + 1),
                   ref_size := s.ref_size - s.eat_chars, eat_chars := 0 }
  else .ok s

/-- One pass through the body of the `for` loop (telnet.c 89-189), without the `i++` of the
loop header.  A store `getrq[l++]` with `l` outside `0..3` is undefined behaviour. -/
def telnet_body (s : TelnetLoop) : Outcome TelnetLoop :=
  match buf_read s.buf s.i with
  | none => .undefined
  | some c =>
    if c ≠ TELNET_IAC ∧ s.l = 0 then .ok s
    else
      let s : TelnetLoop := { s with eat_chars := s.eat_chars + 1 }
      if s.l < 0 ∨ 4 ≤ s.l then .undefined
      else
        let s : TelnetLoop := { s with getrq := s.getrq.set s.l.toNat c, l := s.l + 1 }
        if s.l = 1 then .ok s
        else
          let code := s.getrq.getD 1 0
          if code = TELNET_SE ∨ code = TELNET_NOP then do_eat_chars s
          else if code = TELNET_DM ∨ code = TELNET_BRK ∨ code = TELNET_IP ∨ code = TELNET_AO
              ∨ code = TELNET_AYT ∨ code = TELNET_EC ∨ code = TELNET_EL ∨ code = TELNET_GA
              ∨ code = TELNET_SB then do_eat_chars s
          else if code = TELNET_WILL ∨ code = TELNET_WONT then
            if s.l < 3 then .ok s
            else do_eat_chars
              { s with sent := s.sent ++ [0xFF, TELNET_DONT, s.getrq.getD 2 0] }
          else if code = TELNET_DO ∨ code = TELNET_DONT then
            if s.l < 3 then .ok s
            else do_eat_chars
              { s with sent := s.sent ++ [0xFF, TELNET_WONT, s.getrq.getD 2 0] }
          else if code = TELNET_IAC then
            let e := s.eat_chars - 1
            match buf_write s.buf (s.i - e) 0xFF with
            | none => .undefined
            | some buf => do_eat_chars { s with eat_chars := e, buf := buf }
          else .ok s

/-- The loop `for (...; i < ref_size; i++)` of `netcat_telnet_parse`, run for at most `fuel`
passes. -/
def telnet_loop : Nat → TelnetLoop → Outcome TelnetLoop
  | fuel, s =>
    if s.i < s.ref_size then
      match fuel with
      | 0 => .outOfFuel
      | fuel + 1 =>
        (telnet_body s).bind fun s1 => telnet_loop fuel { s1 with i := s1.i + 1 }
    else .ok s

/-- What a call of `netcat_telnet_parse` leaves behind: the statics, the bytes now stored at
`recvq.pos` (as many as `recvq.len` was on entry), the new `recvq.len`, and the bytes handed
to `write` on the socket. -/
structure TelnetCall where
  static : TelnetStatic
  buf : List UChar
  len : Int
  sent : List UChar
  deriving DecidableEq, Repr

/-- Function `netcat_telnet_parse(ncsock)` for a non-NULL `ncsock` whose receive queue holds
the bytes `recvq` (`recvq.len` is their number). -/
def netcat_telnet_parse (st : TelnetStatic) (recvq : List UChar) : Outcome TelnetCall :=
  (telnet_loop recvq.length
    { buf := recvq, i := 0, ref_size := recvq.length, eat_chars := 0,
      getrq := st.getrq, l := st.l, sent := [] }).bind fun s =>
  .ok { static := { getrq := s.getrq, l := s.l }, buf := s.buf,
        len := s.ref_size - s.eat_chars, sent := s.sent }

/-- Function `netcat_telnet_parse(NULL)`: the reset command. -/
def netcat_telnet_reset (st : TelnetStatic) : TelnetStatic := { st with l := 0 }

/-- The receive queue after a call: the first `recvq.len` bytes at `recvq.pos`. -/
def TelnetCall.stripped (r : TelnetCall) : List UChar := r.buf.take r.len.toNat

/-- What a sequence of calls on consecutive chunks produces: the final statics, the
concatenation of the stripped chunks and the concatenation of the replies. -/
structure TelnetStream where
  static : TelnetStatic
  stripped : List UChar
  sent : List UChar
  deriving DecidableEq, Repr

/-- Calls of `netcat_telnet_parse` on the chunks in order, the statics kept between calls. -/
def telnet_parse_chunks : TelnetStatic → List (List UChar) → Outcome TelnetStream
  | st, [] => .ok { static := st, stripped := [], sent := [] }
  | st, c :: cs =>
    (netcat_telnet_parse st c).bind fun r =>
    (telnet_parse_chunks r.static cs).bind fun t =>
    .ok { static := t.static, stripped := r.stripped ++ t.stripped, sent := r.sent ++ t.sent }

/-! ### The parser as a machine that consumes one byte at a time -/

/-- Effect of one input byte on the statics, with the bytes it leaves in the receive queue
and the reply it triggers (the branches of `telnet_body`, without the buffer). -/
def telnet_byte (st : TelnetStatic) (c : UChar) : Outcome TelnetStream :=
  if c ≠ TELNET_IAC ∧ st.l = 0 then .ok { static := st, stripped := [c], sent := [] }
  else if st.l < 0 ∨ 4 ≤ st.l then .undefined
  else
    let g := st.getrq.set st.l.toNat c
    let l := st.l + 1
    if l = 1 then .ok { static := { getrq := g, l := l }, stripped := [], sent := [] }
    else
      let code := g.getD 1 0
      if code = TELNET_SE ∨ code = TELNET_NOP then
        .ok { static := { getrq := g, l := 0 }, stripped := [], sent := [] }
      else if code = TELNET_DM ∨ code = TELNET_BRK ∨ code = TELNET_IP ∨ code = TELNET_AO
          ∨ code = TELNET_AYT ∨ code = TELNET_EC ∨ code = TELNET_EL ∨ code = TELNET_GA
          ∨ code = TELNET_SB then
        .ok { static := { getrq := g, l := 0 }, stripped := [], sent := [] }
      else if code = TELNET_WILL ∨ code = TELNET_WONT then
        if l < 3 then .ok { static := { getrq := g, l := l }, stripped := [], sent := [] }
        else .ok { static := { getrq := g, l := 0 }, stripped := [],
                   sent := [0xFF, TELNET_DONT, g.getD 2 0] }
      else if code = TELNET_DO ∨ code = TELNET_DONT then
        if l < 3 then .ok { static := { getrq := g, l := l }, stripped := [], sent := [] }
        else .ok { static := { getrq := g, l := 0 }, stripped := [],
                   sent := [0xFF, TELNET_WONT, g.getD 2 0] }
      else if code = TELNET_IAC then
        .ok { static := { getrq := g, l := 0 }, stripped := [0xFF], sent := [] }
      else .ok { static := { getrq := g, l := l }, stripped := [], sent := [] }

/-- The byte machine run over a whole sequence. -/
def telnet_bytes : TelnetStatic → List UChar → Outcome TelnetStream
  | st, [] => .ok { static := st, stripped := [], sent := [] }
  | st, c :: cs =>
    (telnet_byte st c).bind fun r =>
    (telnet_bytes r.static cs).bind fun t =>
    .ok { static := t.static, stripped := r.stripped ++ t.stripped, sent := r.sent ++ t.sent }

/-- Loop invariant of `netcat_telnet_parse` at the loop header: the buffer is the bytes kept
so far, the `eat_chars` bytes being eaten, the input not yet looked at, and stale bytes. -/
def TelnetInv (s : TelnetLoop) (kept rest : List UChar) : Prop :=
  ∃ junk tail, s.buf = kept ++ junk ++ rest ++ tail
    ∧ s.i = (kept.length : Int) + junk.length
    ∧ s.ref_size = (kept.length : Int) + junk.length + rest.length
    ∧ s.eat_chars = junk.length
    ∧ (junk ≠ [] → s.l ≠ 0)

/-- One call of `netcat_telnet_parse` seen as a stream result. -/
def TelnetCall.toStream (r : TelnetCall) : TelnetStream :=
  { static := r.static, stripped := r.stripped, sent := r.sent }

/-! ### The stripped data in the words of the specification

The specification (section 4.F) describes the parser by the sequences it recognises:
`IAC` and one of the simple commands, `IAC` and `WILL`, `WONT`, `DO` or `DONT` with an option
byte, `IAC IAC`, which leaves one byte `0xFF`, and `IAC x` for an unknown second byte `x`,
which is stripped.  The definitions below follow these words, not the code; they are what the
code is compared with. -/

/-- Where the description of the specification stands between two bytes of the stream:
in data, after an `IAC`, or after `IAC` and one of `WILL`, `WONT`, `DO`, `DONT`, with the
option byte still to come. -/
inductive TelnetSpecState where
  | data
  | iac
  | negotiation
  deriving DecidableEq, Repr

/-- One byte of the stream in the words of the specification: the state after it and the
bytes it leaves in the queue.  A byte in data is kept unless it is `IAC`; after `IAC`, a
second `IAC` leaves the byte `0xFF`, an option command waits for its option byte, and any
other second byte, recognised or not, ends the sequence of two bytes; the option byte ends
the sequence of three.  The bytes of a sequence are not kept. -/
def telnet_spec_step : TelnetSpecState → UChar → TelnetSpecState × List UChar
  | .data, c => if c = TELNET_IAC then (.iac, []) else (.data, [c])
  | .iac, c =>
    if c = TELNET_IAC then (.data, [0xFF])
    else if c = TELNET_WILL ∨ c = TELNET_WONT ∨ c = TELNET_DO ∨ c = TELNET_DONT then
      (.negotiation, [])
    else (.data, [])
  | .negotiation, _ => (.data, [])

/-- The state after a sequence of bytes and the stripped data in the words of the
specification: the bytes that are not part of an IAC sequence, in their original order. -/
def telnet_spec_run : TelnetSpecState → List UChar → TelnetSpecState × List UChar
  | ss, [] => (ss, [])
  | ss, c :: cs =>
    ((telnet_spec_run (telnet_spec_step ss c).1 cs).1,
      (telnet_spec_step ss c).2 ++ (telnet_spec_run (telnet_spec_step ss c).1 cs).2)

/-- The state of the specification that the statics `getrq`, `l` stand for, when there is
one: no sequence pending (`l = 0`), an `IAC` pending (`l = 1`), or an `IAC` and an option
command pending (`l = 2`, `getrq[1]` one of `WILL`, `WONT`, `DO`, `DONT`). -/
def telnet_spec_state (st : TelnetStatic) : Option TelnetSpecState :=
  if st.getrq.length ≠ 4 then none
  else if st.l = 0 then some .data
  else if st.l = 1 then some .iac
  else if st.l = 2 ∧ (st.getrq.getD 1 0 = TELNET_WILL ∨ st.getrq.getD 1 0 = TELNET_WONT
      ∨ st.getrq.getD 1 0 = TELNET_DO ∨ st.getrq.getD 1 0 = TELNET_DONT) then
    some .negotiation
  else none

/-- Every byte of the sequence that follows an `IAC` as the second byte of a sequence is one
of the sixteen command codes `SE` (240) to `IAC` (255). -/
def telnet_known_commands : TelnetSpecState → List UChar → Bool
  | _, [] => true
  | ss, c :: cs =>
    (decide (ss ≠ .iac) || decide (240 ≤ c.val))
      && telnet_known_commands (telnet_spec_step ss c).1 cs

/-! ## flagset.c -/

/-- Value of a `char` with the given bit pattern when promoted to `int` (`char` is signed). -/
def char_to_int (c : UChar) : Int :=
  if c.val < 128 then (c.val : Int) else (c.val : Int) - 256

/-- Conversion of an `int` to `char`: the low eight bits. -/
def int_to_char (x : Int) : UChar := ⟨(x % 256).toNat, by omega⟩

/-- Two's complement bit pattern of a 32-bit `int`. -/
def int_bits (x : Int) : Nat := (x % 4294967296).toNat

/-- The `int` with the given 32-bit two's complement bit pattern. -/
def bits_int (n : Nat) : Int :=
  if n < 2147483648 then (n : Int) else (n : Int) - 4294967296

/-- C operator `x & y` on `int`. -/
def int_and (x y : Int) : Int := bits_int (int_bits x &&& int_bits y)

/-- C operator `x | y` on `int`. -/
def int_or (x y : Int) : Int := bits_int (int_bits x ||| int_bits y)

/-- C operator `~x` on `int`. -/
def int_not (x : Int) : Int := bits_int (4294967295 - int_bits x)

/-- C expression `1 << offset` for `0 <= offset < 31`. -/
def one_shl (offset : Nat) : Int := ((1 <<< offset : Nat) : Int)

/-- The two file-scope variables of flagset.c: `flagset` is NULL (`none`) or points to a
block of `flagset_len` chars, given by their bit patterns. -/
structure FlagState where
  flagset : Option (Nat → UChar)
  flagset_len : Nat

/-- Function `netcat_flag_init(len)`; `malloc_ok` tells whether `malloc` succeeds.  `len` is
an `unsigned int`. -/
def netcat_flag_init (s : FlagState) (len : Nat) (malloc_ok : Bool) : Bool × FlagState :=
  if s.flagset.isSome then (true, s)
  else
    let len := (len + 1) % 4294967296
    let flagset_len := len / 8 + (if len % 8 ≠ 0 then 1 else 0)
    if flagset_len = 0 then (true, { flagset := none, flagset_len := flagset_len })
    else if malloc_ok then (true, { flagset := some (fun _ => 0), flagset_len := flagset_len })
    else (false, { flagset := none, flagset_len := flagset_len })

/-- Function `netcat_flag_set(port, flag)`, `port` an `unsigned short`. -/
def netcat_flag_set (s : FlagState) (port : Nat) (flag : Bool) : Outcome FlagState :=
  match s.flagset with
  | none => .aborted
  | some mem =>
    if port < s.flagset_len * 8 then
      let p := port / 8
      let offset := port % 8
      if flag then
        .ok { s with flagset := some (Function.update mem p
                (int_to_char (int_or (char_to_int (mem p)) (one_shl offset)))) }
      else
        .ok { s with flagset := some (Function.update mem p
                (int_to_char (int_and (char_to_int (mem p)) (int_not (one_shl offset))))) }
    else .aborted

/-- Function `netcat_flag_get(port)`. -/
def netcat_flag_get (s : FlagState) (port : Nat) : Outcome Bool :=
  match s.flagset with
  | none => .aborted
  | some mem =>
    if port < s.flagset_len * 8 then
      if int_and (char_to_int (mem (port / 8))) (one_shl (port % 8)) ≠ 0 then .ok true
      else .ok false
    else .aborted

/-- How a loop of `netcat_flag_next` ends: the function returns a value, or control falls
through to the next statement with the current `port`. -/
inductive NextFlow where
  | returned (v : Nat)
  | through (port : Nat)
  deriving DecidableEq, Repr

/-- The loop `while ((offset = port % 8))` of `netcat_flag_next` (flagset.c 104-110).  A read
of `flagset[pos]` outside the allocated block is undefined behaviour. -/
def flag_next_bits (flagset_len : Nat) (mem : Nat → UChar) (pos : Nat) :
    Nat → Nat → Outcome NextFlow
  | fuel, port =>
    if port % 8 ≠ 0 then
      match fuel with
      | 0 => .outOfFuel
      | fuel + 1 =>
        if pos < flagset_len then
          if int_and (char_to_int (mem pos)) (one_shl (port % 8)) ≠ 0 then .ok (.returned port)
          else if port = 65535 then .ok (.returned 0)
          else flag_next_bits flagset_len mem pos fuel ((port + 1) % 65536)
        else .undefined
    else .ok (.through port)

/-- The loop `while ((flagset[pos] == 0) && (port < 65528))` (flagset.c 117-120); gives the
final `pos` and `port`. -/
def flag_next_bytes (flagset_len : Nat) (mem : Nat → UChar) :
    Nat → Nat → Nat → Outcome (Nat × Nat)
  | fuel, pos, port =>
    if pos < flagset_len then
      if char_to_int (mem pos) = 0 ∧ port < 65528 then
        match fuel with
        | 0 => .outOfFuel
        | fuel + 1 => flag_next_bytes flagset_len mem fuel (pos + 1) ((port + 8) % 65536)
      else .ok (pos, port)
    else .undefined

/-- The loop `do { ... } while (port++ < 65535)` with the `return 0` after it (flagset.c
124-130); `1 << offset` is undefined for `offset >= 31`. -/
def flag_next_last (flagset_len : Nat) (mem : Nat → UChar) (pos : Nat) :
    Nat → Nat → Nat → Outcome Nat
  | 0, _, _ => .outOfFuel
  | fuel + 1, port, offset =>
    if pos < flagset_len ∧ offset < 31 then
      if int_and (char_to_int (mem pos)) (one_shl offset) ≠ 0 then .ok port
      else if port < 65535 then
        flag_next_last flagset_len mem pos fuel ((port + 1) % 65536) (offset + 1)
      else .ok 0
    else .undefined

/-- Function `netcat_flag_next(port)`. -/
def netcat_flag_next (s : FlagState) (port : Nat) : Outcome Nat :=
  let port := (port + 1) % 65536
  let pos := port / 8
  match s.flagset with
  | none => .aborted
  | some mem =>
    if port < s.flagset_len * 8 then
      if port = 0 then .ok 0
      else
        (flag_next_bits s.flagset_len mem pos 8 port).bind fun r =>
        match r with
        | .returned v => .ok v
        | .through port =>
          (flag_next_bytes s.flagset_len mem 8192 (port / 8) port).bind fun pp =>
          flag_next_last s.flagset_len mem pp.1 65536 pp.2 0
    else .aborted

/-- The loop `while (c) { ret -= (c >> 7); c <<= 1; }` of `netcat_flag_count`: `c >> 7` is the
arithmetic shift of the promoted value, `c <<= 1` keeps the low eight bits. -/
def flag_count_bits : Nat → UChar → Int → Outcome Int
  | fuel, c, ret =>
    if char_to_int c ≠ 0 then
      match fuel with
      | 0 => .outOfFuel
      | fuel + 1 =>
        flag_count_bits fuel (int_to_char (char_to_int c * 2)) (ret - (char_to_int c >>> 7))
    else .ok ret

/-- The loop `for (i = 0; i < flagset_len; i++)` of `netcat_flag_count`, from index `i`. -/
def flag_count_loop (flagset_len : Nat) (mem : Nat → UChar) : Nat → Nat → Int → Outcome Int
  | fuel, i, ret =>
    if i < flagset_len then
      match fuel with
      | 0 => .outOfFuel
      | fuel + 1 =>
        match flag_count_bits 8 (mem i) ret with
        | .ok ret => flag_count_loop flagset_len mem fuel (i + 1) ret
        | .undefined => .undefined
        | .aborted => .aborted
        | .outOfFuel => .outOfFuel
    else .ok ret

/-- Function `netcat_flag_count()`. -/
def netcat_flag_count (s : FlagState) : Outcome Int :=
  match s.flagset with
  | none => .aborted
  | some mem => flag_count_loop s.flagset_len mem s.flagset_len 0 0

/-- The loop `while (rand--) ret = netcat_flag_next(ret);` of `netcat_flag_rand`. -/
def flag_rand_loop (s : FlagState) : Nat → Nat → Outcome Nat
  | 0, ret => .ok ret
  | rand + 1, ret => (netcat_flag_next s ret).bind fun ret => flag_rand_loop s rand ret

/-- Function `netcat_flag_rand()`; `rand` is the value the code computes for its local `rand`
(`1` without `USE_RANDOM`).  Gives the returned port and the new flags. -/
def netcat_flag_rand (s : FlagState) (rand : Nat) : Outcome (Nat × FlagState) :=
  (netcat_flag_count s).bind fun count =>
  let randmax := count - 1
  match s.flagset with
  | none => .aborted
  | some _ =>
    if randmax < 0 then .ok (0, s)
    else
      (flag_rand_loop s rand 0).bind fun ret =>
      (netcat_flag_set s ret false).bind fun s1 =>
      .ok (ret, s1)

/-- The state `netcat_flag_init(65535)` establishes and every later call keeps: the block is
allocated and has 8192 bytes. -/
def FlagState.Ready (s : FlagState) : Prop := s.flagset.isSome = true ∧ s.flagset_len = 8192

instance (s : FlagState) : Decidable s.Ready := by unfold FlagState.Ready; infer_instance

/-- The state before `netcat_flag_init` is called. -/
def flag_state_start : FlagState := { flagset := none, flagset_len := 0 }

/-- The flag of `port` in a block of chars: bit `port % 8` of byte `port / 8`. -/
def flag_at (mem : Nat → UChar) (p : Nat) : Bool := (mem (p / 8)).val.testBit (p % 8)

/-- Number of set bits among the eight bits of a char. -/
def popcount8 (c : UChar) : Nat := (List.range 8).countP (fun k => c.val.testBit k)

/-- Sum of the bit counts of the bytes `i .. i + n - 1` of a block. -/
def popcount_from (mem : Nat → UChar) : Nat → Nat → Nat
  | _, 0 => 0
  | i, n + 1 => popcount8 (mem i) + popcount_from mem (i + 1) n

/-- No flag is set at the ports `a .. b - 1`. -/
def NoFlag (mem : Nat → UChar) (a b : Nat) : Prop := ∀ j, a ≤ j → j < b → flag_at mem j = false

/-- Number of set flags among the ports `1 .. a`. -/
def flags_upto (mem : Nat → UChar) (a : Nat) : Nat := (List.range' 1 a).countP (flag_at mem)

/-- Successive calls of `netcat_flag_rand()`, one for each value of `rand` in the list; gives
the returned ports in order and the final flags. -/
def flag_rand_calls : FlagState → List Nat → Outcome (List Nat × FlagState)
  | s, [] => .ok ([], s)
  | s, d :: ds =>
    (netcat_flag_rand s d).bind fun r =>
    (flag_rand_calls r.2 ds).bind fun t =>
    .ok (r.1 :: t.1, t.2)

/-- Every value of `rand` in the list is one the code can compute at the time of its call:
between `1` and the value of `netcat_flag_count()` then. -/
def draws_in_range : FlagState → List Nat → Prop
  | _, [] => True
  | s, d :: ds =>
    (∃ n, netcat_flag_count s = .ok n ∧ 1 ≤ d ∧ (d : Int) ≤ n)
      ∧ ∀ r, netcat_flag_rand s d = .ok r → draws_in_range r.2 ds

/-- Calls of `netcat_flag_set(port, TRUE)` for the ports of a list, as `main` does for its
port arguments. -/
def flag_set_all : FlagState → List Nat → FlagState
  | s, [] => s
  | s, p :: ps =>
    match netcat_flag_set s p true with
    | .ok s1 => flag_set_all s1 ps
    | _ => s

/-- The state after `netcat_flag_init(65535)` and flagging the ports 80 and 443. -/
def flag_demo : FlagState :=
  flag_set_all (netcat_flag_init flag_state_start 65535 true).2 [80, 443]

/-! ## core.c: `core_readwrite`

The loop of `core_readwrite` is a machine that executes one section of the loop body per
step; what the system calls return is read from a `CoreEnv`.  The two descriptors of the
slave side and the main socket are taken to be different.  Debug output, the hex dump and
the statistics printout do not touch the state and are left out.  -/

/-- A queue `nc_buffer_t`.  `head` is NULL (`none`) or the block it owns, given by its
contents; `pos` is the offset of the pointer `pos` inside that block, or inside the scratch
buffer `buf` of `core_readwrite` when `head` is NULL. -/
structure nc_buffer_t where
  head : Option (List UChar)
  pos : Nat
  len : Nat
  deriving DecidableEq, Repr

/-- The bytes `pos[0 .. len)` of a queue, `buf` being the scratch buffer. -/
def nc_buffer_t.data (q : nc_buffer_t) (buf : List UChar) : List UChar :=
  match q.head with
  | some blk => (blk.drop q.pos).take q.len
  | none => (buf.drop q.pos).take q.len

/-- Effect of `memset(q, 0, sizeof(*q))`. -/
def nc_buffer_zero : nc_buffer_t := { head := none, pos := 0, len := 0 }

/-- The three statements `head = malloc(len); memcpy(head, pos, len); pos = head;`. -/
def nc_buffer_t.promote (q : nc_buffer_t) (buf : List UChar) : nc_buffer_t :=
  { head := some (q.data buf), pos := 0, len := q.len }

/-- Where the machine stands: before one of the sections of the loop body, or stopped. -/
inductive CorePc where
  | loop_top
  | slave_read
  | slave_recvq
  | main_sendq
  | main_read
  | main_recvq
  | slave_sendq
  | handle_signal
  | returned
  | exited
  | aborted
  | undefined
  deriving DecidableEq, Repr

/-- The options and globals `core_readwrite` only reads. -/
structure CoreOpts where
  opt_interval : Int
  opt_telnet : Bool
  opt_eofclose : Bool
  tunnel : Bool
  deriving DecidableEq, Repr

/-- Variables of `core_readwrite` and the globals it writes, and, for stating properties, the
bytes that went through each descriptor: `slave_in` returned by reads of the slave input,
`main_out` accepted by the writes of `nc_main->sendq` to the main socket (the calls
`write(fd_sock, data, data_len)` of `core_readwrite`, core.c 732), `main_in` returned by
reads of the main socket, `slave_out` accepted by writes to the slave output, `telnet_out`
the replies handed to the main socket by `netcat_telnet_parse` (`write(ncsock->fd, putrq, 3)`,
telnet.c 134 and 145; they are no part of `main_out`), `parses` the number of calls of
`netcat_telnet_parse` on the block now in `main_recvq`, `main_writes` the bytes handed to
each call `write(fd_sock, data, data_len)` of `core_readwrite`, in order. -/
structure CoreState where
  pc : CorePc
  buf : List UChar
  main_sendq : nc_buffer_t
  main_recvq : nc_buffer_t
  slave_sendq : nc_buffer_t
  slave_recvq : nc_buffer_t
  inloop : Bool
  call_select : Bool
  ins_sock : Bool
  ins_stdin : Bool
  outs_sock : Bool
  delayer_sec : Int
  delayer_usec : Int
  use_stdin : Bool
  got_sigint : Bool
  got_sigterm : Bool
  got_sigusr1 : Bool
  telnet : TelnetStatic
  bytes_sent : Int
  bytes_recv : Int
  slave_in : List UChar
  main_out : List UChar
  main_in : List UChar
  slave_out : List UChar
  telnet_out : List UChar
  parses : Nat
  main_writes : List (List UChar)
  deriving DecidableEq, Repr

/-- What the outside world does during one step: signals delivered, the result of `select`
(return value, `errno == EINTR`, the descriptors it reports ready, the time left in
`delayer`), of `read` (failure, or the bytes stored, none at end of file), of `write`
(return value, `errno == EAGAIN`), and whether `malloc` returns NULL. -/
structure CoreEnv where
  sigint : Bool
  sigterm : Bool
  sigusr1 : Bool
  select_ret : Int
  select_eintr : Bool
  ready_sock_in : Bool
  ready_stdin_in : Bool
  ready_sock_out : Bool
  timer_sec : Int
  timer_usec : Int
  read_fails : Bool
  read_data : List UChar
  write_ret : Int
  write_eagain : Bool
  malloc_null : Bool
  deriving DecidableEq, Repr

/-- Value of `i` after `while (i < data_len) if (data[i++] == '\n') break;`, `data` being the
`data_len` bytes of the queue. -/
def newline_scan : List UChar → Nat
  | [] => 0
  | c :: cs => if c = 10 then 1 else 1 + newline_scan cs

/-- The code after an update of a send queue (core.c 771-779 and 881-889): an emptied queue
is freed and zeroed, a non-empty one that does not own its bytes is copied to a new block.
`none` when `malloc` returned NULL and `memcpy` writes through it. -/
def sendq_settle (q : nc_buffer_t) (buf : List UChar) (malloc_null : Bool) :
    Option nc_buffer_t :=
  if q.len = 0 then some nc_buffer_zero
  else if q.head.isNone then
    if malloc_null then none else some (q.promote buf)
  else some q

/-- Signal handlers run while `signal_handler` is FALSE: they only set the flags. -/
def core_signals (e : CoreEnv) (s : CoreState) : CoreState :=
  { s with got_sigint := s.got_sigint || e.sigint,
           got_sigterm := s.got_sigterm || e.sigterm,
           got_sigusr1 := s.got_sigusr1 || e.sigusr1 }

/-- Top of the loop up to and including `select` (core.c 557-642). -/
def core_loop_top (e : CoreEnv) (o : CoreOpts) (s : CoreState) : CoreState :=
  if ¬ s.inloop then { s with pc := .returned }
  else if s.got_sigint then { s with got_sigint := false, pc := .returned }
  else if s.got_sigterm then { s with pc := .returned }
  else
    let watch_main := decide (s.main_recvq.len = 0)
    let watch_slave := decide (s.slave_recvq.len = 0)
    let ins_sock := watch_main
    let ins_stdin := watch_slave && (s.use_stdin || o.tunnel)
    let call_select := watch_main && watch_slave
    let timer_off := decide (s.delayer_sec = 0 ∧ s.delayer_usec = 0)
    let outs_sock := decide (0 < s.main_sendq.len) && timer_off
    let call_select := call_select || outs_sock
    let s : CoreState := { s with call_select := call_select, ins_sock := ins_sock,
                                  ins_stdin := ins_stdin, outs_sock := outs_sock }
    if call_select ∨ ¬ timer_off then
      if e.select_ret < 0 then
        if e.select_eintr then
          { s with delayer_sec := e.timer_sec, delayer_usec := e.timer_usec,
                   pc := .handle_signal }
        else { s with pc := .exited }
      else
        let got := decide (0 < e.select_ret)
        { s with call_select := true,
                 ins_sock := ins_sock && got && e.ready_sock_in,
                 ins_stdin := ins_stdin && got && e.ready_stdin_in,
                 outs_sock := outs_sock && got && e.ready_sock_out,
                 delayer_sec := if e.select_ret = 0 then 0 else e.timer_sec,
                 delayer_usec := if e.select_ret = 0 then 0 else e.timer_usec,
                 pc := .slave_read }
    else { s with pc := .slave_read }

/-- Reading from the slave input (core.c 649-676); `read` stores at most `sizeof(buf)`
bytes at the start of `buf`. -/
def core_slave_read (e : CoreEnv) (o : CoreOpts) (s : CoreState) : CoreState :=
  if s.call_select ∧ s.ins_stdin then
    if e.read_fails then { s with pc := .exited }
    else
      let d := e.read_data.take 1024
      if d.length = 0 then
        if o.tunnel ∨ o.opt_eofclose then { s with inloop := false, pc := .slave_recvq }
        else { s with use_stdin := false, pc := .slave_recvq }
      else
        { s with buf := d ++ s.buf.drop d.length,
                 slave_recvq := { head := none, pos := 0, len := d.length },
                 slave_in := s.slave_in ++ d,
                 pc := .slave_recvq }
  else { s with pc := .slave_recvq }

/-- Handling of `nc_slave->recvq` (core.c 681-699). -/
def core_slave_recvq (e : CoreEnv) (s : CoreState) : CoreState :=
  if 0 < s.slave_recvq.len then
    if s.main_sendq.len = 0 then
      { s with main_sendq := s.slave_recvq, slave_recvq := nc_buffer_zero, pc := .main_sendq }
    else if s.slave_recvq.head.isNone then
      if e.malloc_null then { s with pc := .undefined }
      else { s with slave_recvq := s.slave_recvq.promote s.buf, pc := .main_sendq }
    else { s with pc := .main_sendq }
  else { s with pc := .main_sendq }

/-- Writing `nc_main->sendq` to the main socket (core.c 705-781). -/
def core_main_sendq (e : CoreEnv) (o : CoreOpts) (s : CoreState) : CoreState :=
  if 0 < s.main_sendq.len then
    let data := s.main_sendq.data s.buf
    if o.opt_interval ≠ 0 ∧ (s.delayer_sec ≠ 0 ∨ s.delayer_usec ≠ 0) then
      match sendq_settle s.main_sendq s.buf e.malloc_null with
      | none => { s with pc := .undefined }
      | some q => { s with main_sendq := q, pc := .main_read }
    else
      let data_len := if o.opt_interval ≠ 0 then newline_scan data else s.main_sendq.len
      let delayer_sec := if o.opt_interval ≠ 0 then o.opt_interval else s.delayer_sec
      if e.write_ret < 0 ∧ ¬ e.write_eagain then
        { s with delayer_sec := delayer_sec,
                 main_writes := s.main_writes ++ [data.take data_len], pc := .exited }
      else
        let write_ret := if e.write_ret < 0 then 0 else e.write_ret
        let sent := if write_ret < data_len then write_ret.toNat else data_len
        let q : nc_buffer_t := { s.main_sendq with len := s.main_sendq.len - sent,
                                                    pos := s.main_sendq.pos + sent }
        let s : CoreState := { s with delayer_sec := delayer_sec,
                                      bytes_sent := s.bytes_sent + write_ret,
                                      main_out := s.main_out
                                        ++ (data.take data_len).take write_ret.toNat,
                                      main_writes := s.main_writes ++ [data.take data_len] }
        match sendq_settle q s.buf e.malloc_null with
        | none => { s with main_sendq := q, pc := .undefined }
        | some q1 => { s with main_sendq := q1, pc := .main_read }
  else { s with pc := .main_read }

/-- Reading from the main socket (core.c 784-813). -/
def core_main_read (e : CoreEnv) (s : CoreState) : CoreState :=
  if s.call_select ∧ s.ins_sock then
    if e.read_fails then { s with pc := .exited }
    else
      let d := e.read_data.take 1024
      if d.length = 0 then { s with inloop := false, pc := .main_recvq }
      else
        { s with buf := d ++ s.buf.drop d.length,
                 main_recvq := { head := none, pos := 0, len := d.length },
                 main_in := s.main_in ++ d,
                 parses := 0,
                 pc := .main_recvq }
  else { s with pc := .main_recvq }

/-- Storing `bytes` at offset `pos` of a block. -/
def block_store (blk : List UChar) (pos : Nat) (bytes : List UChar) : List UChar :=
  blk.take pos ++ bytes ++ blk.drop (pos + bytes.length)

/-- The call `netcat_telnet_parse(nc_main)` made when `opt_telnet` is set (core.c 822-823):
it works in place on the bytes of `nc_main->recvq` and sets its `len`. -/
def core_telnet (o : CoreOpts) (s : CoreState) : Outcome CoreState :=
  if o.opt_telnet then
    (netcat_telnet_parse s.telnet (s.main_recvq.data s.buf)).bind fun r =>
    .ok (match s.main_recvq.head with
      | some blk =>
        { s with main_recvq := { head := some (block_store blk s.main_recvq.pos r.buf),
                                  pos := s.main_recvq.pos, len := r.len.toNat },
                 telnet := r.static, telnet_out := s.telnet_out ++ r.sent,
                 parses := s.parses + 1 }
      | none =>
        { s with buf := block_store s.buf s.main_recvq.pos r.buf,
                 main_recvq := { head := none, pos := s.main_recvq.pos, len := r.len.toNat },
                 telnet := r.static, telnet_out := s.telnet_out ++ r.sent,
                 parses := s.parses + 1 })
  else .ok s

/-- Transfer of `nc_main->recvq` towards `nc_slave->sendq` (core.c 826-838). -/
def core_recvq_transfer (e : CoreEnv) (s : CoreState) : CoreState :=
  if 0 < s.main_recvq.len then
    if s.slave_sendq.len = 0 then
      { s with slave_sendq := s.main_recvq, main_recvq := nc_buffer_zero, pc := .slave_sendq }
    else if s.main_recvq.head.isNone then
      if e.malloc_null then { s with pc := .undefined }
      else { s with main_recvq := s.main_recvq.promote s.buf, pc := .slave_sendq }
    else { s with pc := .slave_sendq }
  else { s with pc := .slave_sendq }

/-- Handling of `nc_main->recvq` (core.c 816-839). -/
def core_main_recvq (e : CoreEnv) (o : CoreOpts) (s : CoreState) : CoreState :=
  if 0 < s.main_recvq.len then
    match core_telnet o s with
    | .ok s1 => core_recvq_transfer e s1
    | _ => { s with pc := .undefined }
  else { s with pc := .slave_sendq }

/-- Writing `nc_slave->sendq` to the slave output (core.c 841-890). -/
def core_slave_sendq (e : CoreEnv) (s : CoreState) : CoreState :=
  if 0 < s.slave_sendq.len then
    let data := s.slave_sendq.data s.buf
    let data_len := s.slave_sendq.len
    let s : CoreState := { s with bytes_recv := s.bytes_recv + e.write_ret }
    if e.write_ret < 0 then { s with pc := .exited }
    else if ¬ (0 < e.write_ret ∧ e.write_ret ≤ data_len) then { s with pc := .aborted }
    else
      let sent := if e.write_ret < data_len then e.write_ret.toNat else data_len
      let q : nc_buffer_t := { s.slave_sendq with len := s.slave_sendq.len - sent,
                                                   pos := s.slave_sendq.pos + sent }
      let s : CoreState := { s with slave_out := s.slave_out ++ data.take e.write_ret.toNat }
      match sendq_settle q s.buf e.malloc_null with
      | none => { s with slave_sendq := q, pc := .undefined }
      | some q1 => { s with slave_sendq := q1, pc := .handle_signal }
  else { s with pc := .handle_signal }

/-- The code at label `handle_signal` (core.c 892-898). -/
def core_handle_signal (s : CoreState) : CoreState :=
  if s.got_sigusr1 then { s with got_sigusr1 := false, pc := .loop_top }
  else { s with pc := .loop_top }

/-- One step of `core_readwrite`: the section of the loop body the machine stands before. -/
def core_step (o : CoreOpts) (s : CoreState) (e : CoreEnv) : CoreState :=
  match s.pc with
  | .loop_top => core_loop_top e o (core_signals e s)
  | .slave_read => core_slave_read e o (core_signals e s)
  | .slave_recvq => core_slave_recvq e (core_signals e s)
  | .main_sendq => core_main_sendq e o (core_signals e s)
  | .main_read => core_main_read e (core_signals e s)
  | .main_recvq => core_main_recvq e o (core_signals e s)
  | .slave_sendq => core_slave_sendq e (core_signals e s)
  | .handle_signal => core_handle_signal (core_signals e s)
  | .returned => s
  | .exited => s
  | .aborted => s
  | .undefined => s

/-- The state when the loop of `core_readwrite` is entered (core.c 537-555), from the state
of the caller (the two `assert`s on the arguments hold).  The bytes already queued count as
read from their source. -/
def core_readwrite_entry (s : CoreState) : CoreState :=
  { s with pc := .loop_top, inloop := true, delayer_sec := 0, delayer_usec := 0,
           slave_in := s.main_sendq.data s.buf ++ s.slave_recvq.data s.buf,
           main_out := [],
           main_in := s.slave_sendq.data s.buf ++ s.main_recvq.data s.buf,
           slave_out := [], telnet_out := [], parses := 0, main_writes := [] }

/-- Function `core_readwrite(nc_main, nc_slave)`, run for as many steps as behaviours of
the outside world are given: the state reached, whose `pc` tells whether the function has
returned, has called `exit`, has failed an `assert`, or is still in its loop. -/
def core_readwrite (o : CoreOpts) (s : CoreState) (es : List CoreEnv) : CoreState :=
  es.foldl (core_step o) (core_readwrite_entry s)

/-- A queue that holds no byte of the scratch buffer: it is empty, or owns a block that
contains its bytes. -/
def nc_buffer_t.Owned (q : nc_buffer_t) : Prop :=
  q.len = 0 ∨ ∃ blk, q.head = some blk ∧ q.pos + q.len ≤ blk.length

/-- A queue whose bytes exist: it is `Owned`, or its bytes lie inside the scratch buffer. -/
def nc_buffer_t.Valid (q : nc_buffer_t) (buf : List UChar) : Prop :=
  q.Owned ∨ (q.head = none ∧ q.pos + q.len ≤ buf.length)

/-- Conservation of the bytes going to the main socket: what was read from the slave input
is what the main socket accepted of `nc_main->sendq`, then what `main_sendq` holds, then what
`slave_recvq` holds. -/
def CoreState.ConservesToMain (s : CoreState) : Prop :=
  s.slave_in = s.main_out ++ (s.main_sendq.data s.buf ++ s.slave_recvq.data s.buf)

/-- Conservation of the bytes going to the slave output. -/
def CoreState.ConservesToSlave (s : CoreState) : Prop :=
  s.main_in = s.slave_out ++ (s.slave_sendq.data s.buf ++ s.main_recvq.data s.buf)

/-- Which queues may refer to the scratch buffer, by position in the loop body: at most the
one that the section about to run handles. -/
def CoreState.Discipline (s : CoreState) : Prop :=
  match s.pc with
  | .slave_recvq => s.main_sendq.Owned ∧ s.main_recvq.Owned ∧ s.slave_sendq.Owned
      ∧ s.slave_recvq.Valid s.buf
  | .main_sendq => s.main_sendq.Valid s.buf ∧ s.main_recvq.Owned ∧ s.slave_sendq.Owned
      ∧ s.slave_recvq.Owned
  | .main_recvq => s.main_sendq.Owned ∧ s.main_recvq.Valid s.buf ∧ s.slave_sendq.Owned
      ∧ s.slave_recvq.Owned
  | .slave_sendq => s.main_sendq.Owned ∧ s.main_recvq.Owned ∧ s.slave_sendq.Valid s.buf
      ∧ s.slave_recvq.Owned
  | .exited => True
  | .aborted => True
  | .undefined => True
  | _ => s.main_sendq.Owned ∧ s.main_recvq.Owned ∧ s.slave_sendq.Owned ∧ s.slave_recvq.Owned

/-- Entry condition of `core_readwrite`: no queue of the two endpoints refers to memory it
does not own. -/
def CoreState.EntryOk (s : CoreState) : Prop :=
  s.main_sendq.Owned ∧ s.main_recvq.Owned ∧ s.slave_sendq.Owned ∧ s.slave_recvq.Owned

/-- A descriptor that `select` was asked to watch for input has an empty receive queue,
up to the section that reads from it. -/
def CoreState.Watched (s : CoreState) : Prop :=
  (s.pc = .slave_read → s.call_select = true → s.ins_stdin = true → s.slave_recvq.len = 0)
  ∧ ((s.pc = .slave_read ∨ s.pc = .slave_recvq ∨ s.pc = .main_sendq ∨ s.pc = .main_read) →
      s.call_select = true → s.ins_sock = true → s.main_recvq.len = 0)

/-- The invariant of the loop of `core_readwrite`. -/
def CoreState.Inv (o : CoreOpts) (s : CoreState) : Prop :=
  s.Discipline ∧ s.Watched ∧ s.ConservesToMain ∧ (o.opt_telnet = false → s.ConservesToSlave)

/-- What holds between the test `recvq.len > 0` and the transfer of `nc_main->recvq`. -/
def CoreState.PreTransfer (o : CoreOpts) (s : CoreState) : Prop :=
  s.main_sendq.Owned ∧ s.main_recvq.Valid s.buf ∧ s.slave_sendq.Owned ∧ s.slave_recvq.Owned
    ∧ s.ConservesToMain ∧ (o.opt_telnet = false → s.ConservesToSlave)

/-- A caller's state with empty queues, standard input in use and no signal pending. -/
def core_state_idle : CoreState :=
  { pc := .loop_top, buf := List.replicate 1024 0,
    main_sendq := nc_buffer_zero, main_recvq := nc_buffer_zero,
    slave_sendq := nc_buffer_zero, slave_recvq := nc_buffer_zero,
    inloop := true, call_select := false, ins_sock := false, ins_stdin := false,
    outs_sock := false, delayer_sec := 0, delayer_usec := 0, use_stdin := true,
    got_sigint := false, got_sigterm := false, got_sigusr1 := false,
    telnet := telnet_static_init, bytes_sent := 0, bytes_recv := 0,
    slave_in := [], main_out := [], main_in := [], slave_out := [], telnet_out := [],
    parses := 0, main_writes := [] }

/-- A step in which nothing arrives: `select` reports one ready descriptor but none of
ours, no signal, `malloc` succeeds. -/
def env_idle : CoreEnv :=
  { sigint := false, sigterm := false, sigusr1 := false, select_ret := 1,
    select_eintr := false, ready_sock_in := false, ready_stdin_in := false,
    ready_sock_out := false, timer_sec := 0, timer_usec := 0, read_fails := false,
    read_data := [], write_ret := 0, write_eagain := false, malloc_null := false }

/-- Plain options: no pacing, no telnet, no close on end of file, not a tunnel. -/
def opts_plain : CoreOpts :=
  { opt_interval := 0, opt_telnet := false, opt_eofclose := false, tunnel := false }

/-- The options of `opts_plain` with telnet mode on. -/
def opts_telnet : CoreOpts := { opts_plain with opt_telnet := true }

/-- A run in which two bytes are read from the standard input, the main socket accepts one
of them, and then the peer closes the connection: steps 1-8 are the first pass through the
loop body, steps 9-16 the second, step 17 leaves the loop. -/
def run_slave_bytes : List CoreEnv :=
  [ { env_idle with ready_stdin_in := true },
    { env_idle with read_data := [97, 98] },
    env_idle,
    { env_idle with write_ret := 1 },
    env_idle, env_idle, env_idle, env_idle,
    { env_idle with ready_sock_in := true },
    env_idle, env_idle,
    { env_idle with write_ret := -1, write_eagain := true },
    { env_idle with read_data := [] },
    env_idle, env_idle, env_idle,
    env_idle ]

/-- A run in which three bytes arrive from the main socket, the slave output accepts one of
them, then the peer closes the connection and the slave output accepts one more. -/
def run_main_bytes : List CoreEnv :=
  [ { env_idle with ready_sock_in := true },
    env_idle, env_idle, env_idle,
    { env_idle with read_data := [97, 98, 99] },
    env_idle,
    { env_idle with write_ret := 1 },
    env_idle,
    { env_idle with ready_sock_in := true },
    env_idle, env_idle, env_idle,
    { env_idle with read_data := [] },
    env_idle,
    { env_idle with write_ret := 1 },
    env_idle,
    env_idle ]

/-- A run with telnet mode on: the block `B C` arrives and the slave output accepts only
`B`; then the block `A IAC IAC` arrives while `C` is still queued, and `C` is written; the
third pass through the loop body finds the second block still in `nc_main->recvq`. -/
def run_telnet_twice : List CoreEnv :=
  [ { env_idle with ready_sock_in := true },
    env_idle, env_idle, env_idle,
    { env_idle with read_data := [66, 67] },
    env_idle,
    { env_idle with write_ret := 1 },
    env_idle,
    { env_idle with ready_sock_in := true },
    env_idle, env_idle, env_idle,
    { env_idle with read_data := [65, 255, 255] },
    env_idle,
    { env_idle with write_ret := 1 },
    env_idle,
    env_idle, env_idle, env_idle, env_idle, env_idle,
    env_idle,
    { env_idle with write_ret := 1 },
    env_idle ]

/-- An expiry of `delayer`: the machine stands at the top of the loop with `delayer` set, and
after the `select` of this step `delayer` is zero (`select` returned 0, or no time was
left). -/
def delayer_expires (o : CoreOpts) (v : CoreState) (e : CoreEnv) : Prop :=
  v.pc = .loop_top ∧ (v.delayer_sec ≠ 0 ∨ v.delayer_usec ≠ 0)
    ∧ (core_step o v e).delayer_sec = 0 ∧ (core_step o v e).delayer_usec = 0

/-- The options of `opts_plain` with a pacing interval of one second (`-i 1`). -/
def opts_paced : CoreOpts := { opts_plain with opt_interval := 1 }

/-- The start of a run in which `a \n b` is read from the standard input: after these
steps the machine stands before the section that writes `nc_main->sendq`. -/
def run_paced_line : List CoreEnv :=
  [ { env_idle with ready_stdin_in := true },
    { env_idle with read_data := [97, 10, 98] },
    env_idle ]

/-! ## core.c: `core_tcp_listen`

The listening socket, `netcat_socket_accept` and `getpeername` are the outside world: what
they return is given.  Messages printed with `ncprint` are left out, except that a call with
`NCPRINT_EXIT` ends the process. -/

/-- What one pass through the accept loop gets from the outside world: the value returned
by `netcat_socket_accept(sock_listen, timeout)` and, for a new descriptor, the address
(`sin_addr.s_addr`) and the port (`ntohs(sin_port)`) that `getpeername` stores. -/
structure AcceptEvent where
  sock_accept : Int
  peer_addr : Nat
  peer_port : Nat
  deriving DecidableEq, Repr

/-- How a run of `core_tcp_listen` stands: it has returned a value, the process has exited
(`ncprint` with `NCPRINT_EXIT`), or it is inside a call of `netcat_socket_accept` that has not
returned. -/
inductive ListenStatus where
  | returned (ret : Int)
  | exited
  | waiting
  deriving DecidableEq, Repr

/-- What a run of `core_tcp_listen` has done: its status, the descriptors it has refused
(passed to `shutdown(fd, 2)` and `close(fd)` at label `refuse`), in order, whether it has
closed the listening socket, and the `timeout` argument of each call of
`netcat_socket_accept`. -/
structure TcpListen where
  status : ListenStatus
  refused : List Int
  listen_closed : Bool
  timeouts : List Int
  deriving DecidableEq, Repr

/-- The test of core.c 458-461 that sends a new connection to label `refuse`: a remote
address is configured and differs from the peer address, or some port is flagged and the
peer port is not.  The operands are evaluated from left to right, as `||` and `&&` do. -/
def listen_unwanted (host_addr : Nat) (fs : FlagState) (a : AcceptEvent) : Outcome Bool :=
  if host_addr ≠ 0 ∧ host_addr ≠ a.peer_addr then .ok true
  else
    (netcat_flag_count fs).bind fun count =>
    if count ≠ 0 then
      (netcat_flag_get fs a.peer_port).bind fun flag => .ok (!flag)
    else .ok false

/-- The loop `while (TRUE)` of `core_tcp_listen` (core.c 440-484); each pass takes the next
result of `netcat_socket_accept`, and the run is waiting when there is none (the call blocks,
or ends the process itself). -/
def tcp_accept_loop (host_addr : Nat) (opt_zero : Bool) (fs : FlagState) :
    List AcceptEvent → Int → TcpListen → Outcome TcpListen
  | [], timeout, r => .ok { r with status := .waiting, timeouts := r.timeouts ++ [timeout] }
  | a :: rest, timeout, r =>
    let r : TcpListen := { r with timeouts := r.timeouts ++ [timeout] }
    if a.sock_accept < 0 then .ok { r with status := .returned (-1) }
    else
      (listen_unwanted host_addr fs a).bind fun unwanted =>
      if unwanted ∨ opt_zero then
        tcp_accept_loop host_addr opt_zero fs rest (-1)
          { r with refused := r.refused ++ [a.sock_accept] }
      else .ok { r with status := .returned a.sock_accept, listen_closed := true }

/-- Function `core_tcp_listen(ncsock)`.  Of `ncsock` it reads `timeout`, `host.iaddrs[0]`
(`host_addr`) and `local_port.num`; `sock_listen` is what `netcat_socket_new_listen` returns
and `getsockname_ret` what `getsockname` returns when it is called. -/
def core_tcp_listen (timeout : Int) (host_addr local_port : Nat) (opt_zero : Bool)
    (fs : FlagState) (sock_listen getsockname_ret : Int) (evs : List AcceptEvent) :
    Outcome TcpListen :=
  let r : TcpListen := { status := .waiting, refused := [], listen_closed := false,
                         timeouts := [] }
  if sock_listen < 0 then .ok { r with status := .exited }
  else if local_port = 0 ∧ getsockname_ret < 0 then
    .ok { r with status := .returned (-1), listen_closed := true }
  else tcp_accept_loop host_addr opt_zero fs evs timeout r

/-- The admission rule in the words of the specification: the configured remote address
is zero or equals the peer address, and the port allow-set is empty or contains the peer
port. -/
def peer_admitted (host_addr : Nat) (fs : FlagState) (a : AcceptEvent) : Prop :=
  (host_addr = 0 ∨ host_addr = a.peer_addr)
    ∧ (netcat_flag_count fs = .ok 0 ∨ netcat_flag_get fs a.peer_port = .ok true)

instance (host_addr : Nat) (fs : FlagState) (a : AcceptEvent) :
    Decidable (peer_admitted host_addr fs a) := by
  unfold peer_admitted; infer_instance

/-! ## netcat.c: the port arguments and the exit status of `main`; network.c: `netcat_getport`

A C string is the list of its characters before the terminating NUL.  The services
database behind `getservbyname` is a parameter. -/

/-- Library function `isspace` in the C locale. -/
def c_isspace (c : Char) : Bool :=
  c = ' ' || (9 ≤ c.toNat && c.toNat ≤ 13)

/-- Value of the longest prefix of decimal digits, and the number of its digits. -/
def strtol_digits : List Char → Int → Nat → Int × Nat
  | [], acc, n => (acc, n)
  | c :: cs, acc, n =>
    if c.isDigit then strtol_digits cs (acc * 10 + ((c.toNat - 48 : Nat) : Int)) (n + 1)
    else (acc, n)

def LONG_MAX : Int := 9223372036854775807
def LONG_MIN : Int := -9223372036854775808

/-- Library function `strtol(nptr, &endptr, 10)` with a 64-bit `long`: the value returned and
the offset of `endptr` from `nptr`.  White space is skipped, a sign is optional, and without
a digit nothing is converted (`endptr == nptr`). -/
def strtol (nptr : List Char) : Int × Nat :=
  let sp := (nptr.takeWhile c_isspace).length
  let rest := nptr.drop sp
  let (neg, sg) : Bool × Nat :=
    match rest with
    | '-' :: _ => (true, 1)
    | '+' :: _ => (false, 1)
    | _ => (false, 0)
  let (v, n) := strtol_digits (rest.drop sg) 0 0
  if n = 0 then (0, 0)
  else
    let v := if neg then -v else v
    (if v > LONG_MAX then LONG_MAX else if v < LONG_MIN then LONG_MIN else v, sp + sg + n)

/-- Function `netcat_getport(dst, NULL, port_num)`: FALSE (`none`) for port 0, else TRUE with
`dst->num = port_num`. -/
def netcat_getport_num (port_num : Nat) : Option Nat :=
  if port_num = 0 then none else some port_num

/-- Function `netcat_getport(dst, port_string, 0)` for a non-NULL `port_string`: `none` when
it returns FALSE, else the value stored in `dst->num`.  `services` gives, for a name that
`getservbyname` finds, the port `ntohs(servent->s_port)`. -/
def netcat_getport (services : List Char → Option Nat) (port_string : List Char) :
    Option Nat :=
  if port_string = [] then none
  else
    let (port, endoff) := strtol port_string
    if endoff = port_string.length then
      if 0 < port ∧ port < 65536 then netcat_getport_num (port.toNat % 65536)
      else none
    else if endoff ≠ 0 then none
    else
      match services port_string with
      | some p => some (p % 65536)
      | none => none

/-- Library function `strchr(s, c)` for `c` other than NUL: the offset of the first `c`. -/
def strchr (s : List Char) (c : Char) : Option Nat :=
  if c ∈ s then some (s.indexOf c) else none

/-- What handling one port argument leads to: the flags after it, or label `got_err`
(message "Invalid port specification" and `exit(EXIT_FAILURE)`). -/
inductive PortArg where
  | flagged (fs : FlagState)
  | got_err

/-- The loop `while (port_lo <= port_hi) netcat_flag_set(port_lo++, TRUE);` (netcat.c 435),
run for at most `fuel` passes; the argument of `netcat_flag_set` is an `unsigned short`. -/
def port_range_loop : Nat → Int → Int → FlagState → Outcome FlagState
  | fuel, port_lo, port_hi, fs =>
    if port_lo ≤ port_hi then
      match fuel with
      | 0 => .outOfFuel
      | fuel + 1 =>
        match netcat_flag_set fs (port_lo % 65536).toNat true with
        | .ok fs1 => port_range_loop fuel (port_lo + 1) port_hi fs1
        | .undefined => .undefined
        | .aborted => .aborted
        | .outOfFuel => .outOfFuel
    else .ok fs

/-- One pass through the loop of `main` over the port arguments (netcat.c 401-446), for the
argument `get_argv`; `strdup` is taken to succeed. -/
def main_port_arg (services : List Char → Option Nat) (fs : FlagState)
    (get_argv : List Char) : Outcome PortArg :=
  let port_lo : Int := 0
  let port_hi : Int := 65535
  let q := match strchr get_argv '-' with
    | some i => some i
    | none => strchr get_argv ':'
  match q with
  | none =>
    match netcat_getport services get_argv with
    | some num => (netcat_flag_set fs num true).bind fun fs1 => .ok (.flagged fs1)
    | none => .ok .got_err
  | some i =>
    let parse := get_argv.take i
    let q := get_argv.drop (i + 1)
    let lo : Option Int :=
      if parse ≠ [] then
        match netcat_getport services parse with
        | some num => some (Int.ofNat num)
        | none => none
      else some port_lo
    match lo with
    | none => .ok .got_err
    | some port_lo =>
      let hi : Option Int :=
        if q ≠ [] then
          match netcat_getport services q with
          | some num => some (Int.ofNat num)
          | none => none
        else some port_hi
      match hi with
      | none => .ok .got_err
      | some port_hi =>
        if parse = [] ∧ q = [] then .ok .got_err
        else
          (port_range_loop 65537 port_lo port_hi fs).bind fun fs1 => .ok (.flagged fs1)

/-- A services database without entries. -/
def no_services : List Char → Option Nat := fun _ => none

/-- Type `nc_mode_t` (netcat.h 138-143); the order of the values is the one of the enum. -/
inductive nc_mode_t where
  | NETCAT_UNSPEC
  | NETCAT_CONNECT
  | NETCAT_LISTEN
  | NETCAT_TUNNEL
  deriving DecidableEq, Repr

def EXIT_SUCCESS : Int := 0
def EXIT_FAILURE : Int := 1

/-- How `main` ends: it returns a status, it calls `exit(status)` (directly or through
`ncprint` with `NCPRINT_EXIT`), or it passes control to the program of `-e` (`ncexec`, which
does not return). -/
inductive MainEnd where
  | returned (status : Int)
  | exited (status : Int)
  | exec
  deriving DecidableEq, Repr

/-- The globals and locals that the last part of `main` (netcat.c 456-618) reads:
`netcat_mode` as the options left it, `opt_zero`, whether `opt_exec` is set, `opt_random`,
whether `opt_proto` is `NETCAT_PROTO_UDP`, and whether a remote host was given
(`remote_host.iaddrs[0].s_addr` is not zero). -/
structure MainOpts where
  netcat_mode : nc_mode_t
  opt_zero : Bool
  opt_exec : Bool
  opt_random : Bool
  proto_udp : Bool
  remote_given : Bool
  deriving DecidableEq, Repr

/-- What the functions called by the last part of `main` do: the value `core_listen`
returns and whether `errno` is `ETIMEDOUT` after it; the value `core_connect` returns for
the target of `-L`; the value `core_connect` returns for the port `c` in connect mode;
whether `got_sigterm` is set when `core_readwrite` returns from the connection to port
`c`; the value of the local `rand` of `netcat_flag_rand` when `left_ports` ports are
left.  `core_readwrite` is taken to return. -/
structure MainEnv where
  accept_ret : Int
  errno_timedout : Bool
  tunnel_connect_ret : Int
  connect_ret : Nat → Int
  got_sigterm : Nat → Bool
  rand : Nat → Nat

/-- A run of the last part of `main`: how it ends, and the ports passed to `core_connect`
in connect mode, in order. -/
structure MainRun where
  ending : MainEnd
  attempted : List Nat
  deriving DecidableEq, Repr

/-- The loop `while (left_ports > 0)` of `main` (netcat.c 555-610), followed by
`return glob_ret`. -/
def main_connect_loop (o : MainOpts) (env : MainEnv) :
    Nat → Nat → FlagState → Int → List Nat → Outcome MainRun
  | 0, _, _, glob_ret, attempted => .ok { ending := .returned glob_ret, attempted := attempted }
  | left_ports + 1, c, fs, glob_ret, attempted =>
    (if o.opt_random then netcat_flag_rand fs (env.rand (left_ports + 1))
     else (netcat_flag_next fs c).bind fun c1 => .ok (c1, fs)).bind fun next =>
    let c := next.1
    let fs := next.2
    let connect_ret := env.connect_ret c
    let attempted := attempted ++ [c]
    if connect_ret < 0 then
      if o.proto_udp then .aborted
      else main_connect_loop o env left_ports c fs glob_ret attempted
    else
      let glob_ret := EXIT_SUCCESS
      if o.opt_zero then main_connect_loop o env left_ports c fs glob_ret attempted
      else if o.opt_exec then .ok { ending := .exec, attempted := attempted }
      else if env.got_sigterm c then .ok { ending := .returned glob_ret, attempted := attempted }
      else main_connect_loop o env left_ports c fs glob_ret attempted

/-- The last part of `main` (netcat.c 456-618), after the arguments have been parsed: the
listen and tunnel modes, then the connect mode; `fs` holds the flags of the port
arguments.  Closing the standard input for `-z` and the messages do not bear on how `main`
ends and are left out. -/
def main_tail (o : MainOpts) (env : MainEnv) (fs : FlagState) : Outcome MainRun :=
  let glob_ret := EXIT_FAILURE
  if o.netcat_mode = .NETCAT_LISTEN ∨ o.netcat_mode = .NETCAT_TUNNEL then
    if env.accept_ret < 0 then
      if o.opt_zero ∧ env.errno_timedout then .ok { ending := .exited 0, attempted := [] }
      else .ok { ending := .exited EXIT_FAILURE, attempted := [] }
    else if o.netcat_mode = .NETCAT_LISTEN then
      if o.opt_exec then .ok { ending := .exec, attempted := [] }
      else .ok { ending := .returned glob_ret, attempted := [] }
    else
      if env.tunnel_connect_ret < 0 then
        if o.proto_udp then .aborted
        else .ok { ending := .returned glob_ret, attempted := [] }
      else .ok { ending := .returned EXIT_SUCCESS, attempted := [] }
  else
    if ¬ o.remote_given then .ok { ending := .exited EXIT_FAILURE, attempted := [] }
    else
      (netcat_flag_count fs).bind fun total_ports =>
      if total_ports = 0 then .ok { ending := .exited EXIT_FAILURE, attempted := [] }
      else main_connect_loop o env total_ports.toNat 0 fs glob_ret []

/-- Options of a plain `netcat -l -p PORT`. -/
def opts_listen : MainOpts :=
  { netcat_mode := .NETCAT_LISTEN, opt_zero := false, opt_exec := false, opt_random := false,
    proto_udp := false, remote_given := false }

/-- A peer connects: `core_listen` returns the descriptor 4; every `core_connect` succeeds
with descriptor 5. -/
def env_accepting : MainEnv :=
  { accept_ret := 4, errno_timedout := false, tunnel_connect_ret := 5,
    connect_ret := fun _ => 5, got_sigterm := fun _ => false, rand := fun _ => 1 }

/-! ## misc.c: `netcat_fhexdump`

The array `char buf[80]` is a function from offsets to bytes, with its size checked at
every store; its contents on entry are arbitrary.  The stream is the list of the
bytes written to it.  `USE_OLD_HEXDUMP` is not defined. -/

/-- The hexadecimal digit that `%X` prints for a value below 16. -/
def hex_digit (n : Nat) : UChar :=
  if n < 10 then Fin.ofNat (48 + n) else Fin.ofNat (55 + n)

/-- What `sprintf` stores for `"%08X  "` and an `unsigned int` (without the final NUL). -/
def sprintf_offset (n : Nat) : List UChar :=
  [hex_digit (n / 268435456 % 16), hex_digit (n / 16777216 % 16), hex_digit (n / 1048576 % 16),
   hex_digit (n / 65536 % 16), hex_digit (n / 4096 % 16), hex_digit (n / 256 % 16),
   hex_digit (n / 16 % 16), hex_digit (n % 16), 32, 32]

/-- What `sprintf` stores for `"%02hhX "` and the byte `x` (without the final NUL). -/
def sprintf_byte (x : UChar) : List UChar :=
  [hex_digit (x.val / 16), hex_digit (x.val % 16), 32]

/-- The array `buf` with `bytes` stored from offset `p` on. -/
def hex_put (buf : Nat → UChar) (p : Nat) (bytes : List UChar) : Nat → UChar :=
  fun i => if p ≤ i ∧ i < p + bytes.length then bytes.getD (i - p) 0 else buf i

/-- Store of `bytes` at `buf[p ...]`; undefined behaviour when it leaves the array. -/
def hex_store (buf : Nat → UChar) (p : Nat) (bytes : List UChar) : Outcome (Nat → UChar) :=
  if p + bytes.length ≤ 80 then .ok (hex_put buf p bytes) else .undefined

/-- The C string that starts at `buf[i]`: the bytes before the first NUL; `none` when the
array holds no NUL from there on (`fuel` is the number of bytes left in the array). -/
def c_string (buf : Nat → UChar) : Nat → Nat → Option (List UChar)
  | 0, _ => none
  | fuel + 1, i =>
    if buf i = 0 then some []
    else
      match c_string buf fuel (i + 1) with
      | some s => some (buf i :: s)
      | none => none

/-- The variables of `netcat_fhexdump`: the array `buf`, the pointer `p` (NULL, or its
offset in `buf`), and the bytes written to `stream` so far. -/
structure HexDump where
  buf : Nat → UChar
  p : Option Nat
  out : List UChar

/-- The call `fprintf(stream, "%s\n", buf)`. -/
def hex_print (s : HexDump) : Outcome HexDump :=
  match c_string s.buf 80 0 with
  | some line => .ok { s with out := s.out ++ line ++ [10] }
  | none => .undefined

/-- The statements `if (((pos + 1) % 4) == 0) *p++ = ' ';` and
`if (flag == 15) fprintf(stream, "%s\n", buf);` that end the body of both loops. -/
def hex_line_end (s : HexDump) (p pos : Nat) : Outcome HexDump :=
  (if (pos + 1) % 4 = 0 then
      (hex_store s.buf p [32]).bind fun buf => .ok { s with buf := buf, p := some (p + 1) }
    else .ok { s with p := some p }).bind fun s =>
  if pos % 16 = 15 then hex_print s else .ok s

/-- Body of the first loop of `netcat_fhexdump` (misc.c 48-87) for the byte `x` at offset
`pos`; `(unsigned int) pos` is `pos` modulo 2^32. -/
def hexdump_byte (s : HexDump) (pos : Nat) (x : UChar) : Outcome HexDump :=
  let flag := pos % 16
  (if flag = 0 then
      (hex_store s.buf 0 (sprintf_offset (pos % 4294967296) ++ [0])).bind fun buf =>
      .ok { s with buf := buf, p := some 10 }
    else .ok s).bind fun s =>
  match s.p with
  | none => .undefined
  | some p =>
    (hex_store s.buf p (sprintf_byte x ++ [0])).bind fun buf =>
    let p := p + 3
    (hex_store buf (62 + flag) [if x.val < 32 ∨ x.val > 126 then 46 else x]).bind fun buf =>
    hex_line_end { s with buf := buf } p pos

/-- The first loop, `for (pos = 0; pos < datalen; pos++)`, from offset `pos` on. -/
def hexdump_loop : HexDump → Nat → List UChar → Outcome HexDump
  | s, _, [] => .ok s
  | s, pos, x :: xs => (hexdump_byte s pos x).bind fun s1 => hexdump_loop s1 (pos + 1) xs

/-- Body of the second loop (misc.c 90-106), which completes a partial last line. -/
def hexdump_pad (s : HexDump) (pos : Nat) : Outcome HexDump :=
  let flag := pos % 16
  (hex_store s.buf (62 + flag) [32]).bind fun buf =>
  match s.p with
  | none => .undefined
  | some p =>
    (hex_store buf p [32, 32, 32, 0]).bind fun buf =>
    hex_line_end { s with buf := buf } (p + 3) pos

/-- The second loop, `for (pos = datalen; (flag = pos % 16); pos++)`, run for at most
`fuel` passes. -/
def hexdump_pad_loop : Nat → HexDump → Nat → Outcome HexDump
  | fuel, s, pos =>
    if pos % 16 ≠ 0 then
      match fuel with
      | 0 => .outOfFuel
      | fuel + 1 => (hexdump_pad s pos).bind fun s1 => hexdump_pad_loop fuel s1 (pos + 1)
    else .ok s

/-- Function `netcat_fhexdump(stream, c, data, datalen)`: the bytes it writes to `stream`
(it returns 0).  `buf0` is what the array `buf` holds on entry. -/
def netcat_fhexdump (buf0 : Nat → UChar) (data : List UChar) : Outcome (List UChar) :=
  let s : HexDump := { buf := fun i => if i = 78 then 0 else buf0 i, p := none, out := [] }
  (hexdump_loop s 0 data).bind fun s1 =>
  (hexdump_pad_loop 16 s1 data.length).bind fun s2 =>
  .ok s2.out

/-- The character shown in the ASCII column for a byte: the byte itself when it is
printable, else a dot. -/
def hex_ascii (x : UChar) : UChar := if x.val < 32 ∨ x.val > 126 then 46 else x

/-- The text of one of the sixteen slots of a line: two upper-case hexadecimal digits and
a space for a byte, three spaces past the end of the data; one more space ends each group
of four. -/
def hex_slot (j : Nat) (b : Option UChar) : List UChar :=
  (match b with
    | some x => [hex_digit (x.val / 16), hex_digit (x.val % 16), 32]
    | none => [32, 32, 32])
  ++ (if j % 4 = 3 then [32] else [])

/-- The character of a slot in the ASCII column; a space past the end of the data. -/
def hex_slot_ascii (b : Option UChar) : UChar :=
  match b with
  | some x => hex_ascii x
  | none => 32

/-- The text of the slots `j, j + 1, ...` of a line. -/
def hex_slots : Nat → List (Option UChar) → List UChar
  | _, [] => []
  | j, b :: bs => hex_slot j b ++ hex_slots (j + 1) bs

/-- A line of the dump, without its newline, for the at most sixteen bytes `chunk` that
start at offset `off`: the offset in eight digits, two spaces, the sixteen slots in four
groups, and the ASCII column of sixteen characters. -/
def hexdump_line (off : Nat) (chunk : List UChar) : List UChar :=
  sprintf_offset (off % 4294967296)
    ++ hex_slots 0 (chunk.map some ++ List.replicate (16 - chunk.length) none)
    ++ (chunk.map some ++ List.replicate (16 - chunk.length) none).map hex_slot_ascii

/-- The lines of the dump of full chunks of sixteen bytes, the first at offset `off`,
each followed by a newline. -/
def hexdump_lines : Nat → List (List UChar) → List UChar
  | _, [] => []
  | off, c :: cs => hexdump_line off c ++ [10] ++ hexdump_lines (off + 16) cs

/-- The line format in the words of the specification: as `hexdump_line`, with the ASCII
column enclosed between two `|` characters. -/
def hexdump_line_spec (off : Nat) (chunk : List UChar) : List UChar :=
  sprintf_offset (off % 4294967296)
    ++ hex_slots 0 (chunk.map some ++ List.replicate (16 - chunk.length) none)
    ++ [124]
    ++ (chunk.map some ++ List.replicate (16 - chunk.length) none).map hex_slot_ascii
    ++ [124]

/-- The array while a line is built, after the slots `slots` of the line at offset `off`:
`buf[78]` is NUL, the text of the slots follows the offset, and the ASCII column holds
their characters. -/
def LinePre (buf : Nat → UChar) (off : Nat) (slots : List (Option UChar)) : Prop :=
  buf 78 = 0
    ∧ (List.range (10 + 3 * slots.length + slots.length / 4)).map buf
        = sprintf_offset (off % 4294967296) ++ hex_slots 0 slots
    ∧ (List.range' 62 slots.length).map buf = slots.map hex_slot_ascii

/-- Loop invariant of both loops of `netcat_fhexdump`, after the slots `slots` of the line at
offset `off`: `buf[78]` is NUL and, once a slot is written, `p` stands behind the text of
the slots and the array is as `LinePre` says. -/
def LineInv (s : HexDump) (off : Nat) (slots : List (Option UChar)) : Prop :=
  s.buf 78 = 0 ∧ (slots ≠ [] →
    s.p = some (10 + 3 * slots.length + slots.length / 4) ∧ LinePre s.buf off slots)

/-- The bytes `ABCDEFGHIJKLMNOP`. -/
def hex_demo : List UChar := [65, 66, 67, 68, 69, 70, 71, 72, 73, 74, 75, 76, 77, 78, 79, 80]

/-- A queue with `head == NULL` and `len > 0`: its bytes are in the scratch buffer `buf`. -/
def nc_buffer_t.scratch (q : nc_buffer_t) : Bool := q.head.isNone && decide (0 < q.len)

/-- The number of queues of the two endpoints whose bytes are in the scratch buffer. -/
def CoreState.scratch_queues (s : CoreState) : Nat :=
  ([s.main_sendq, s.main_recvq, s.slave_sendq, s.slave_recvq].filter nc_buffer_t.scratch).length

/-- A run in which `a b` is read from the standard input and moved to `nc_main->sendq`, the
main socket accepts `a` only, and the rest is copied to a block of its own: after the three
first steps the machine stands before the section that writes `nc_main->sendq`, after the
fourth before the read from the main socket. -/
def run_scratch : List CoreEnv :=
  [ { env_idle with ready_stdin_in := true },
    { env_idle with read_data := [97, 98] },
    env_idle,
    { env_idle with write_ret := 1 } ]

/-- The options of `opts_paced` with telnet mode on (`-i 1 -t`). -/
def opts_paced_telnet : CoreOpts := { opts_paced with opt_telnet := true }

/-- The start of a run in which `select` reports the standard input and the main socket
ready: `a \n b` is read from the standard input, the main socket accepts the line `a \n`,
and the bytes `IAC WILL 1` are read from the main socket; after these steps the machine
stands before the section that handles `nc_main->recvq`. -/
def run_paced_telnet : List CoreEnv :=
  [ { env_idle with select_ret := 2, ready_stdin_in := true, ready_sock_in := true },
    { env_idle with read_data := [97, 10, 98] },
    env_idle,
    { env_idle with write_ret := 2 },
    { env_idle with read_data := [255, 251, 1] } ]

/-- The value of one of the characters `0-9`, `A-F`; `none` for any other character. -/
def hex_value (c : UChar) : Option Nat :=
  if 48 ≤ c.val ∧ c.val ≤ 57 then some (c.val - 48)
  else if 65 ≤ c.val ∧ c.val ≤ 70 then some (c.val - 55)
  else none

/-- The byte written as the two hexadecimal digits `hi lo`; `none` when one of the two
characters is not a digit (as in the blank slots of a last line). -/
def read_hex_byte (hi lo : UChar) : Option UChar :=
  match hex_value hi, hex_value lo with
  | some a, some b => some (Fin.ofNat (16 * a + b))
  | _, _ => none

/-- The bytes of the slots `j, j + 1, ...` (`n` of them) read from the text of a line, left
to right: a slot is two characters and a space, one more space follows each group of four;
a slot that holds no two digits is skipped. -/
def read_slots : Nat → Nat → List UChar → List UChar
  | _, 0, _ => []
  | j, n + 1, text =>
    match read_hex_byte (text.getD 0 32) (text.getD 1 32) with
    | some x => x :: read_slots (j + 1) n (text.drop (if j % 4 = 3 then 4 else 3))
    | none => read_slots (j + 1) n (text.drop (if j % 4 = 3 then 4 else 3))

/-- The bytes read from the sixteen slots of a line, which start after the ten characters
of the offset field. -/
def read_line (line : List UChar) : List UChar := read_slots 0 16 (line.drop 10)

/-- The number written by hexadecimal digits, most significant first. -/
def read_hex_digits : Nat → List UChar → Option Nat
  | acc, [] => some acc
  | acc, c :: cs =>
    match hex_value c with
    | some d => read_hex_digits (16 * acc + d) cs
    | none => none

/-- The number in the offset field of a line, its first eight characters. -/
def read_offset (line : List UChar) : Option Nat := read_hex_digits 0 (line.take 8)

/-- The lines of a text, each ended by a newline; `cur` is the part of the current line
already seen. -/
def text_lines : List UChar → List UChar → List (List UChar)
  | cur, [] => if cur = [] then [] else [cur]
  | cur, c :: cs => if c = 10 then cur :: text_lines [] cs else text_lines (cur ++ [c]) cs

/-- The bytes read back from a dump: those of its lines, in order. -/
def read_back (out : List UChar) : List UChar := ((text_lines [] out).map read_line).flatten

/-- The lines of the dump of chunks of at most sixteen bytes, the first at offset `off`. -/
def hexdump_line_list : Nat → List (List UChar) → List (List UChar)
  | _, [] => []
  | off, c :: cs => hexdump_line off c :: hexdump_line_list (off + 16) cs

/-! ## misc.c: `netcat_snprintnum` and `netcat_printstats`

An `unsigned long` has 64 bits.  A string buffer is a function from offsets to bytes, with
its size checked at every store; `snprintf` is given by the bytes it stores. -/

/-- The number of values of an `unsigned long`. -/
def ULONG_RANGE : Nat := 18446744073709551616

/-- The character of a decimal digit. -/
def dec_digit (d : Nat) : UChar := Fin.ofNat (48 + d)

/-- The decimal digits of `n`, put before `acc`; at most `fuel` digits. -/
def dec_loop : Nat → Nat → List UChar → List UChar
  | 0, _, acc => acc
  | fuel + 1, n, acc =>
    if n / 10 = 0 then dec_digit (n % 10) :: acc
    else dec_loop fuel (n / 10) (dec_digit (n % 10) :: acc)

/-- What `printf` writes for `%lu` (and for `%hu`, `%d` with a value that is not negative):
the decimal digits of the number, of which a 64-bit number has at most twenty. -/
def print_dec (n : Nat) : List UChar := dec_loop 20 n []

/-- The number that a text of decimal digits stands for. -/
def dec_value (s : List UChar) : Nat := s.foldl (fun a c => 10 * a + (c.val - 48)) 0

/-- The bytes `snprintf(str, size, ...)` stores at `str` when the formatted text is `text`:
the text, cut to `size - 1` bytes, and a NUL. -/
def snprintf (size : Nat) (text : List UChar) : List UChar :=
  if size = 0 then [] else text.take (size - 1) ++ [0]

/-- The string `"\0kMGT"` of `netcat_snprintnum`, with its final NUL. -/
def scale_suffixes : List UChar := [0, 107, 77, 71, 84, 0]

/-- The statement `number = (number + 500) / 1000;` on an `unsigned long`. -/
def scale_step (number : Nat) : Nat := (number + 500) % ULONG_RANGE / 1000

/-- The loop `while ((number > 9999) && (*p != 'T'))` of `netcat_snprintnum`, `p` being
the offset of the pointer `p` in the string `"\0kMGT"`; gives the final `number` and `p`. -/
def snprintnum_loop : Nat → Nat → Nat → Outcome (Nat × Nat)
  | fuel, number, p =>
    if p < 6 then
      if 9999 < number ∧ scale_suffixes.getD p 0 ≠ 84 then
        match fuel with
        | 0 => .outOfFuel
        | fuel + 1 => snprintnum_loop fuel (scale_step number) (p + 1)
      else .ok (number, p)
    else .undefined

/-- Function `netcat_snprintnum(str, size, number)`: the bytes it stores at `str` (the text
of `"%lu%c"`, where the character is NUL when no suffix applies, and the final NUL) and the
value it returns. -/
def netcat_snprintnum (size : Nat) (number : Nat) : Outcome (List UChar × Int) :=
  (snprintnum_loop 5 number 0).bind fun r =>
  let text := print_dec r.1 ++ [scale_suffixes.getD r.2 0]
  .ok (snprintf size text, (text.length : Int))

/-- The string that starts a sequence of bytes: the bytes before the first NUL. -/
def c_str (bytes : List UChar) : List UChar := bytes.takeWhile fun c => c ≠ 0

/-- Store of `bytes` at `str[p ...]` in an array of `cap` bytes; undefined behaviour when it
leaves the array. -/
def str_store (cap : Nat) (str : Nat → UChar) (p : Nat) (bytes : List UChar) :
    Outcome (Nat → UChar) :=
  if p + bytes.length ≤ cap then .ok (hex_put str p bytes) else .undefined

/-- The loop `for (p = str; *(p + 1); p++);` of `netcat_printstats` on an array of 64 bytes:
the offset of the last character of the string. -/
def last_char_loop : Nat → (Nat → UChar) → Nat → Outcome Nat
  | fuel, str, p =>
    if p + 1 < 64 then
      if str (p + 1) ≠ 0 then
        match fuel with
        | 0 => .outOfFuel
        | fuel + 1 => last_char_loop fuel str (p + 1)
      else .ok p
    else .undefined

/-- Library function `isdigit` on a byte. -/
def isdigit (c : UChar) : Bool := decide (48 ≤ c.val) && decide (c.val ≤ 57)

/-- The four statements of `netcat_printstats` that fill `str_recv` from `bytes_recv` (and
`str_sent` from `bytes_sent`): the string the array holds afterwards.  `str0` is what the
array of 64 bytes holds on entry. -/
def printstats_counter (str0 : Nat → UChar) (bytes : Nat) : Outcome (List UChar) :=
  (netcat_snprintnum 32 bytes).bind fun r =>
  (str_store 64 str0 0 r.1).bind fun str =>
  if str 0 = 0 then .aborted
  else
    (last_char_loop 64 str 0).bind fun p =>
    (if 0 < bytes ∧ isdigit (str p) = false then
        str_store 64 str (p + 1) (snprintf (64 - 32) ([32, 40] ++ print_dec bytes ++ [41]))
      else .ok str).bind fun str =>
    match c_string str 64 0 with
    | some s => .ok s
    | none => .undefined

/-- The two strings that `netcat_printstats` hands to `ncprint` for the message
`Total received bytes: %s\nTotal sent bytes: %s\n`. -/
structure StatsText where
  str_recv : List UChar
  str_sent : List UChar
  deriving DecidableEq, Repr

/-- Function `netcat_printstats(force)` up to its call of `ncprint`; `str_recv0` and
`str_sent0` are what the two arrays hold on entry. -/
def netcat_printstats (str_recv0 str_sent0 : Nat → UChar) (bytes_recv bytes_sent : Nat) :
    Outcome StatsText :=
  (printstats_counter str_recv0 bytes_recv).bind fun r =>
  (printstats_counter str_sent0 bytes_sent).bind fun s =>
  .ok { str_recv := r, str_sent := s }

/-- The array `str` holds the string `s` at its start: the bytes of `s`, none of them NUL,
and then a NUL. -/
def StrHolds (str : Nat → UChar) (s : List UChar) : Prop :=
  (∀ k, k < s.length → str k = s.getD k 0) ∧ str s.length = 0 ∧ ∀ c ∈ s, c ≠ 0

/-- The text of a counter in the words of the specification: the scaled form that
`netcat_snprintnum` computes, followed by the exact count in parentheses. -/
def stats_text_spec (n : Nat) : Outcome (List UChar) :=
  (netcat_snprintnum 32 n).bind fun r => .ok (c_str r.1 ++ [32, 40] ++ print_dec n ++ [41])

/-! ## network.c: `netcat_getport` with the structure it fills in -/

/-- The structure `nc_port_t`: `name` and `ascnum` are given by the strings they hold. -/
structure nc_port_t where
  name : List Char
  ascnum : List UChar
  num : Nat
  netnum : Nat
  deriving DecidableEq, Repr

/-- The fields of a `struct servent` that `netcat_getport` reads; `s_port` is in network
byte order. -/
structure servent where
  s_name : List Char
  s_port : Nat
  deriving DecidableEq, Repr

/-- What `netcat_getport` depends on besides its arguments: the byte order of the machine
and the services database behind `getservbyname` and `getservbyport` (for the protocol
selected by `opt_proto`). -/
structure ServEnv where
  little_endian : Bool
  getservbyname : List Char → Option servent
  getservbyport : Nat → Option servent

/-- Library function `htons` (and `ntohs`): the two bytes of a 16-bit value are exchanged
on a little-endian machine. -/
def htons (little_endian : Bool) (x : Nat) : Nat :=
  if little_endian then x % 256 * 256 + x / 256 % 256 else x % 65536

/-- The code at label `end` of `netcat_getport`:
`snprintf(dst->ascnum, sizeof(dst->ascnum), "%hu", dst->num)`, with `ascnum` of 8 bytes. -/
def getport_end (dst : nc_port_t) : nc_port_t :=
  { dst with ascnum := c_str (snprintf 8 (print_dec (dst.num % 65536))) }

/-- The call `netcat_getport(dst, NULL, port_num)`: `none` when it returns FALSE, else the
structure `dst` when it returns TRUE; a failed `assert` aborts. -/
def netcat_getport_null (env : ServEnv) (port_num : Nat) : Outcome (Option nc_port_t) :=
  if port_num = 0 then .ok none
  else
    let dst : nc_port_t :=
      { name := [], ascnum := [], num := port_num, netnum := htons env.little_endian port_num }
    match env.getservbyport dst.netnum with
    | some se =>
      if dst.netnum = se.s_port then
        .ok (some (getport_end { dst with name := se.s_name.take 64 }))
      else .aborted
    | none => .ok (some (getport_end dst))

/-- Function `netcat_getport(dst, port_string, port_num)`, with `port_string` NULL (`none`)
or a string: `none` when it returns FALSE, else the structure `dst` when it returns TRUE. -/
def netcat_getport_dst (env : ServEnv) (port_string : Option (List Char)) (port_num : Nat) :
    Outcome (Option nc_port_t) :=
  match port_string with
  | none => netcat_getport_null env port_num
  | some str =>
    if str = [] then .ok none
    else
      let (port, endoff) := strtol str
      if endoff = str.length then
        if 0 < port ∧ port < 65536 then netcat_getport_null env (port.toNat % 65536)
        else .ok none
      else if endoff ≠ 0 then .ok none
      else
        match env.getservbyname str with
        | some se =>
          .ok (some (getport_end
            { name := se.s_name.take 64, ascnum := [],
              num := htons env.little_endian (se.s_port % 65536),
              netnum := se.s_port % 65536 }))
        | none => .ok none

/-- The number that a string of decimal digits stands for. -/
def digits_value (s : List Char) : Nat := s.foldl (fun a c => 10 * a + (c.toNat - 48)) 0

/-- A machine with an empty services database, of little-endian byte order. -/
def serv_none : ServEnv :=
  { little_endian := true, getservbyname := fun _ => none, getservbyport := fun _ => none }

/-! ## network.c: `netcat_socket_new`, `netcat_socket_new_connect`, `netcat_socket_new_listen`

The system calls are an oracle: each call is given by the value it returns and by the value
it stores in `errno`, if it stores one. -/

/-- What a system call does: the value it returns, and the value it leaves in `errno` when
it sets it (`none` when it leaves `errno` alone). -/
structure SysCall where
  ret : Int
  errno : Option Int
  deriving DecidableEq, Repr

/-- The value of `errno` after the call, from its value before. -/
def SysCall.leave (c : SysCall) (errno : Int) : Int := c.errno.getD errno

/-- The system calls made by the three functions, in the order of the source text: the two
`setsockopt` are those for `SO_LINGER` and `SO_REUSEADDR`, the two `fcntl` those for
`F_GETFL` and `F_SETFL`. -/
structure SockEnv where
  socket : SysCall
  setsockopt_linger : SysCall
  setsockopt_reuseaddr : SysCall
  bind : SysCall
  fcntl_getfl : SysCall
  fcntl_setfl : SysCall
  connect : SysCall
  listen : SysCall
  close : SysCall
  deriving DecidableEq, Repr

def PF_INET : Int := 2
def EINPROGRESS : Int := 115

/-- What a function leaves behind: the value it returns, the value of `errno`, and whether
it has called `close` on the socket. -/
structure SockResult where
  ret : Int
  errno : Int
  closed : Bool
  deriving DecidableEq, Repr

/-- Function `netcat_socket_new(domain, type)`; `errno` is the value on entry. -/
def netcat_socket_new (env : SockEnv) (errno : Int) : SockResult :=
  let sock := env.socket.ret
  let errno := env.socket.leave errno
  if sock < 0 then { ret := -1, errno := errno, closed := false }
  else
    let errno := env.setsockopt_linger.leave errno
    if env.setsockopt_linger.ret < 0 then
      { ret := -2, errno := env.close.leave errno, closed := true }
    else
      let errno := env.setsockopt_reuseaddr.leave errno
      if env.setsockopt_reuseaddr.ret < 0 then
        { ret := -2, errno := env.close.leave errno, closed := true }
      else { ret := sock, errno := errno, closed := false }

/-- The code at label `err` of `netcat_socket_new_connect` and `netcat_socket_new_listen`:
`errno` is saved, the socket is closed (an `assert` requires that `close` succeeds), and
`errno` is restored. -/
def socket_err (env : SockEnv) (ret errno : Int) : Outcome SockResult :=
  if ret < 0 then
    let saved_errno := errno
    if 0 ≤ env.close.ret then .ok { ret := ret, errno := saved_errno, closed := true }
    else .aborted
  else .ok { ret := ret, errno := errno, closed := false }

/-- Function `netcat_socket_new_connect(domain, type, addr, port, local_addr, local_port)`:
`addr` and `local_addr` tell whether the pointers are non-NULL. -/
def netcat_socket_new_connect (env : SockEnv) (domain : Int) (addr local_addr : Bool)
    (local_port : Nat) (errno : Int) : Outcome SockResult :=
  if addr = false then .aborted
  else if domain ≠ PF_INET then .ok { ret := -1, errno := errno, closed := false }
  else
    let r := netcat_socket_new env errno
    if r.ret < 0 then .ok r
    else if (local_addr = true ∨ local_port ≠ 0) ∧ env.bind.ret < 0 then
      socket_err env (-3) (env.bind.leave r.errno)
    else
      let errno := if local_addr = true ∨ local_port ≠ 0 then env.bind.leave r.errno
        else r.errno
      let errno1 := env.fcntl_getfl.leave errno
      let ret := if 0 ≤ env.fcntl_getfl.ret then env.fcntl_setfl.ret else env.fcntl_getfl.ret
      let errno := if 0 ≤ env.fcntl_getfl.ret then env.fcntl_setfl.leave errno1 else errno1
      if ret < 0 then socket_err env (-4) errno
      else
        let errno := env.connect.leave errno
        if env.connect.ret < 0 ∧ errno ≠ EINPROGRESS then socket_err env (-5) errno
        else .ok { ret := r.ret, errno := errno, closed := false }

/-- Function `netcat_socket_new_listen(domain, addr, port)`. -/
def netcat_socket_new_listen (env : SockEnv) (domain : Int) (errno : Int) :
    Outcome SockResult :=
  if domain ≠ PF_INET then .ok { ret := -1, errno := errno, closed := false }
  else
    let r := netcat_socket_new env errno
    if r.ret < 0 then .ok r
    else if env.bind.ret < 0 then socket_err env (-3) (env.bind.leave r.errno)
    else
      let errno := env.bind.leave r.errno
      if env.listen.ret < 0 then socket_err env (-4) (env.listen.leave errno)
      else .ok { ret := r.ret, errno := env.listen.leave errno, closed := false }

/-- A system call that succeeds with the value `v` and leaves `errno` alone. -/
def sys_ok (v : Int) : SysCall := { ret := v, errno := none }

/-- A system call that fails and sets `errno` to `e`. -/
def sys_fail (e : Int) : SysCall := { ret := -1, errno := some e }

/-- All calls succeed: `socket` returns the descriptor 3. -/
def sock_env_ok : SockEnv :=
  { socket := sys_ok 3, setsockopt_linger := sys_ok 0, setsockopt_reuseaddr := sys_ok 0,
    bind := sys_ok 0, fcntl_getfl := sys_ok 2, fcntl_setfl := sys_ok 0, connect := sys_ok 0,
    listen := sys_ok 0, close := sys_ok 0 }

/-- The socket is created, `setsockopt(SO_REUSEADDR)` fails with `ENOPROTOOPT` (92), and the
`close` of the socket is interrupted and fails with `EINTR` (4). -/
def sock_env_lost : SockEnv :=
  { sock_env_ok with setsockopt_reuseaddr := sys_fail 92, close := sys_fail 4 }

/-! ## Theorems about telnet.c -/

@[simp]
theorem Outcome.bind_ok {α β : Type} (a : α) (f : α → Outcome β) :
    (Outcome.ok a).bind f = f a := by
  simp only [Outcome.bind]

@[simp]
theorem Outcome.bind_undefined {α β : Type} (f : α → Outcome β) :
    (Outcome.undefined : Outcome α).bind f = .undefined := by
  simp only [Outcome.bind]

@[simp]
theorem Outcome.bind_aborted {α β : Type} (f : α → Outcome β) :
    (Outcome.aborted : Outcome α).bind f = .aborted := by
  simp only [Outcome.bind]

@[simp]
theorem Outcome.bind_outOfFuel {α β : Type} (f : α → Outcome β) :
    (Outcome.outOfFuel : Outcome α).bind f = .outOfFuel := by
  simp only [Outcome.bind]

theorem buf_read_mid (a b rest tail : List UChar) (c : UChar) :
    buf_read (a ++ b ++ (c :: rest) ++ tail) ((a.length : Int) + b.length) = some c := by
  unfold buf_read
  have h : ¬ ((a.length : Int) + b.length < 0) := by omega
  have e : ((a.length : Int) + b.length).toNat = (a ++ b).length := by
    simp only [List.length_append]; omega
  rw [if_neg h, e, List.append_assoc (a ++ b), List.getElem?_append_right (Nat.le_refl _)]
  simp

theorem memmove_mid (a b rest tail : List UChar) (to_ from_ n : Int)
    (hto : to_ = a.length) (hfrom : from_ = (a.length : Int) + b.length)
    (hn : n = rest.length) :
    ∃ tail', memmove (a ++ b ++ rest ++ tail) to_ from_ n = some (a ++ rest ++ tail')
      ∧ tail'.length = b.length + tail.length := by
  subst hto hfrom hn
  refine ⟨List.drop (a.length + rest.length) (a ++ b ++ rest ++ tail), ?_, ?_⟩
  · unfold memmove
    have hc : (0 : Int) ≤ a.length ∧ (0 : Int) ≤ (a.length : Int) + b.length
        ∧ (0 : Int) ≤ rest.length
        ∧ (a.length : Int) + b.length + rest.length ≤ ((a ++ b ++ rest ++ tail).length : Int)
        ∧ (a.length : Int) + rest.length ≤ ((a ++ b ++ rest ++ tail).length : Int) := by
      simp only [List.length_append]; push_cast; omega
    rw [if_pos hc]
    have e1 : ((a.length : Int)).toNat = a.length := by omega
    have e2 : ((a.length : Int) + b.length).toNat = (a ++ b).length := by
      simp only [List.length_append]; omega
    have e3 : ((rest.length : Int)).toNat = rest.length := by omega
    rw [e1, e2, e3]
    have t1 : List.take a.length (a ++ b ++ rest ++ tail) = a := by
      simp [List.append_assoc]
    have t2 : List.drop (a ++ b).length (a ++ b ++ rest ++ tail) = rest ++ tail := by
      rw [List.append_assoc (a ++ b)]; exact List.drop_left _ _
    rw [t1, t2]
    simp [List.append_assoc]
  · simp only [List.length_drop, List.length_append]; omega

theorem buf_write_mid (a ys r : List UChar) (y v : UChar) (i : Int) (hi : i = a.length) :
    buf_write (a ++ (y :: ys) ++ r) i v = some (a ++ [v] ++ ys ++ r) := by
  subst hi
  unfold buf_write
  have hc : (0 : Int) ≤ a.length ∧ (a.length : Int) < ((a ++ (y :: ys) ++ r).length : Int) := by
    simp only [List.length_append, List.length_cons]; push_cast; omega
  rw [if_pos hc]
  have e1 : ((a.length : Int)).toNat = a.length := by omega
  rw [e1]
  simp [List.append_assoc]

theorem do_eat_chars_spec (s : TelnetLoop) (a b rest tail : List UChar)
    (hb : s.buf = a ++ b ++ rest ++ tail)
    (hi : s.i + 1 = (a.length : Int) + b.length)
    (hr : s.ref_size = (a.length : Int) + b.length + rest.length)
    (he : s.eat_chars = b.length) :
    ∃ s1, do_eat_chars s = .ok s1 ∧ TelnetInv { s1 with i := s1.i + 1 } a rest
      ∧ s1.getrq = s.getrq ∧ s1.l = 0 ∧ s1.sent = s.sent
      ∧ s1.buf.length = s.buf.length := by
  obtain ⟨buf, i, ref_size, eat_chars, getrq, l, sent⟩ := s
  simp only at hb hi hr he
  subst hb hr he
  unfold do_eat_chars
  simp only
  by_cases hpos : (0 : Int) < (b.length : Int)
  · rw [if_pos hpos]
    obtain ⟨tail', hm, hlen⟩ := memmove_mid a b rest tail (i + 1 - b.length) (i + 1)
      ((a.length : Int) + b.length + rest.length - (i + 1)) (by omega) (by omega) (by omega)
    rw [hm]
    refine ⟨_, rfl, ⟨[], tail', ?_, ?_, ?_, ?_, ?_⟩, rfl, rfl, rfl, ?_⟩
    · simp
    · simp only [List.length_nil]; push_cast; omega
    · simp only [List.length_nil]; push_cast; omega
    · simp
    · intro h; exact absurd rfl h
    · simp only [List.length_append]; omega
  · rw [if_neg hpos]
    have hb0 : b = [] := by
      cases b with
      | nil => rfl
      | cons x xs => simp only [List.length_cons] at hpos; push_cast at hpos; omega
    subst hb0
    simp only [List.length_nil, Nat.cast_zero, add_zero] at hi
    refine ⟨_, rfl, ⟨[], tail, ?_, ?_, ?_, ?_, ?_⟩, rfl, rfl, rfl, rfl⟩
    · simp
    · simp only [List.length_nil, Nat.cast_zero, add_zero]; omega
    · simp only [List.length_nil, Nat.cast_zero, add_zero]
    · simp
    · intro h; exact absurd rfl h

theorem telnet_byte_ne_outOfFuel (st : TelnetStatic) (c : UChar) :
    telnet_byte st c ≠ .outOfFuel := by
  unfold telnet_byte
  dsimp only
  split_ifs <;> simp

theorem telnet_byte_ne_aborted (st : TelnetStatic) (c : UChar) :
    telnet_byte st c ≠ .aborted := by
  unfold telnet_byte
  dsimp only
  split_ifs <;> simp

theorem telnetInv_continue (kept junk rest tail g sent : List UChar) (c : UChar) (l : Int)
    (hl : l ≠ 0) :
    TelnetInv { buf := kept ++ junk ++ (c :: rest) ++ tail,
                i := (kept.length : Int) + junk.length + 1,
                ref_size := (kept.length : Int) + junk.length + ((c :: rest).length : Nat),
                eat_chars := (junk.length : Int) + 1, getrq := g, l := l, sent := sent }
      kept rest := by
  refine ⟨junk ++ [c], tail, ?_, ?_, ?_, ?_, fun _ => hl⟩
  · simp [List.append_assoc]
  · simp only [List.length_append, List.length_cons, List.length_nil]; push_cast; omega
  · simp only [List.length_append, List.length_cons, List.length_nil]; push_cast; omega
  · simp only [List.length_append, List.length_cons, List.length_nil]; push_cast; omega

theorem do_eat_chars_after (kept junk rest tail g sent : List UChar) (c : UChar) (l : Int) :
    ∃ s1, do_eat_chars (TelnetLoop.mk (kept ++ junk ++ (c :: rest) ++ tail)
                ((kept.length : Int) + junk.length)
                ((kept.length : Int) + junk.length + ((c :: rest).length : Nat))
                ((junk.length : Int) + 1) g l sent)
        = .ok s1 ∧ TelnetInv { s1 with i := s1.i + 1 } kept rest
      ∧ s1.getrq = g ∧ s1.l = 0 ∧ s1.sent = sent
      ∧ s1.buf.length = (kept ++ junk ++ (c :: rest) ++ tail).length := by
  exact do_eat_chars_spec _ kept (junk ++ [c]) rest tail (by simp [List.append_assoc])
    (by simp only [List.length_append, List.length_cons, List.length_nil]; push_cast; omega)
    (by simp only [List.length_append, List.length_cons, List.length_nil]; push_cast; omega)
    (by simp only [List.length_append, List.length_cons, List.length_nil]; omega)

theorem telnet_body_ok (s : TelnetLoop) (kept rest : List UChar) (c : UChar) (t : TelnetStream)
    (h : TelnetInv s kept (c :: rest))
    (ht : telnet_byte { getrq := s.getrq, l := s.l } c = .ok t) :
    ∃ s1, telnet_body s = .ok s1
        ∧ TelnetInv { s1 with i := s1.i + 1 } (kept ++ t.stripped) rest
        ∧ s1.getrq = t.static.getrq ∧ s1.l = t.static.l ∧ s1.sent = s.sent ++ t.sent
        ∧ s1.buf.length = s.buf.length := by
  obtain ⟨junk, tail, hb, hi, hr, he, hl⟩ := h
  obtain ⟨buf, i, ref_size, eat_chars, getrq, l, sent⟩ := s
  dsimp only at hb hi hr he hl ht
  subst hb hi hr he
  unfold telnet_byte at ht
  unfold telnet_body
  dsimp only at ht ⊢
  rw [buf_read_mid kept junk rest tail c]
  dsimp only
  by_cases h1 : c ≠ TELNET_IAC ∧ l = 0
  · rw [if_pos h1] at ht ⊢
    have hj : junk = [] := by
      by_contra hne
      exact hl hne h1.2
    subst hj
    cases ht
    refine ⟨_, rfl, ⟨[], tail, ?_, ?_, ?_, ?_, fun h => absurd rfl h⟩, rfl, rfl, ?_, rfl⟩
    · simp [List.append_assoc]
    · simp only [List.length_append, List.length_cons, List.length_nil]; push_cast; omega
    · simp only [List.length_append, List.length_cons, List.length_nil]; push_cast; omega
    · simp
    · simp
  · rw [if_neg h1] at ht ⊢
    by_cases h2 : l < 0 ∨ 4 ≤ l
    · rw [if_pos h2] at ht; exact absurd ht (by simp)
    · rw [if_neg h2] at ht ⊢
      have hl1 : l + 1 ≠ 0 := by omega
      generalize getrq.set l.toNat c = g at ht ⊢
      generalize g.getD 1 0 = code at ht ⊢
      by_cases h3 : l + 1 = 1
      · rw [if_pos h3] at ht ⊢
        cases ht
        exact ⟨_, rfl, by simpa using telnetInv_continue kept junk rest tail g sent c (l + 1) hl1,
          rfl, rfl, by simp, rfl⟩
      · rw [if_neg h3] at ht ⊢
        by_cases h4 : code = TELNET_SE ∨ code = TELNET_NOP
        · rw [if_pos h4] at ht ⊢
          cases ht
          obtain ⟨s1, e1, e2, e3, e4, e5, e6⟩ :=
            do_eat_chars_after kept junk rest tail g sent c (l + 1)
          exact ⟨s1, e1, by simpa using e2, e3, e4, by simpa using e5, e6⟩
        · rw [if_neg h4] at ht ⊢
          by_cases h5 : code = TELNET_DM ∨ code = TELNET_BRK ∨ code = TELNET_IP
              ∨ code = TELNET_AO ∨ code = TELNET_AYT ∨ code = TELNET_EC ∨ code = TELNET_EL
              ∨ code = TELNET_GA ∨ code = TELNET_SB
          · rw [if_pos h5] at ht ⊢
            cases ht
            obtain ⟨s1, e1, e2, e3, e4, e5, e6⟩ :=
              do_eat_chars_after kept junk rest tail g sent c (l + 1)
            exact ⟨s1, e1, by simpa using e2, e3, e4, by simpa using e5, e6⟩
          · rw [if_neg h5] at ht ⊢
            by_cases h6 : code = TELNET_WILL ∨ code = TELNET_WONT
            · rw [if_pos h6] at ht ⊢
              by_cases h7 : l + 1 < 3
              · rw [if_pos h7] at ht ⊢
                cases ht
                exact ⟨_, rfl,
                  by simpa using telnetInv_continue kept junk rest tail g sent c (l + 1) hl1,
                  rfl, rfl, by simp, rfl⟩
              · rw [if_neg h7] at ht ⊢
                cases ht
                obtain ⟨s1, e1, e2, e3, e4, e5, e6⟩ :=
                  do_eat_chars_after kept junk rest tail g
                    (sent ++ [0xFF, TELNET_DONT, g.getD 2 0]) c (l + 1)
                exact ⟨s1, e1, by simpa using e2, e3, e4, e5, e6⟩
            · rw [if_neg h6] at ht ⊢
              by_cases h8 : code = TELNET_DO ∨ code = TELNET_DONT
              · rw [if_pos h8] at ht ⊢
                by_cases h7 : l + 1 < 3
                · rw [if_pos h7] at ht ⊢
                  cases ht
                  exact ⟨_, rfl,
                    by simpa using telnetInv_continue kept junk rest tail g sent c (l + 1) hl1,
                    rfl, rfl, by simp, rfl⟩
                · rw [if_neg h7] at ht ⊢
                  cases ht
                  obtain ⟨s1, e1, e2, e3, e4, e5, e6⟩ :=
                    do_eat_chars_after kept junk rest tail g
                      (sent ++ [0xFF, TELNET_WONT, g.getD 2 0]) c (l + 1)
                  exact ⟨s1, e1, by simpa using e2, e3, e4, e5, e6⟩
              · rw [if_neg h8] at ht ⊢
                by_cases h9 : code = TELNET_IAC
                · rw [if_pos h9] at ht ⊢
                  cases ht
                  obtain ⟨y, b, hyb⟩ : ∃ y b, junk ++ [c] = y :: b := by
                    cases junk with
                    | nil => exact ⟨c, [], rfl⟩
                    | cons y ys => exact ⟨y, ys ++ [c], rfl⟩
                  have hlen : b.length = junk.length := by
                    have := congrArg List.length hyb
                    simp only [List.length_append, List.length_cons, List.length_nil] at this
                    omega
                  have hbuf : kept ++ junk ++ (c :: rest) ++ tail
                      = kept ++ (y :: b) ++ (rest ++ tail) := by
                    rw [← hyb]; simp [List.append_assoc]
                  rw [hbuf, buf_write_mid kept b (rest ++ tail) y 0xFF _ (by omega)]
                  dsimp only
                  obtain ⟨s1, e1, e2, e3, e4, e5, e6⟩ :=
                    do_eat_chars_spec
                      (TelnetLoop.mk (kept ++ [0xFF] ++ b ++ (rest ++ tail))
                        ((kept.length : Int) + junk.length)
                        ((kept.length : Int) + junk.length + ((c :: rest).length : Nat))
                        ((junk.length : Int) + 1 - 1) g (l + 1) sent)
                      (kept ++ [0xFF]) b rest tail (by simp [List.append_assoc])
                      (by simp only [List.length_append, List.length_cons, List.length_nil]
                          push_cast; omega)
                      (by simp only [List.length_append, List.length_cons, List.length_nil]
                          push_cast; omega)
                      (by simp only []; omega)
                  refine ⟨s1, e1, e2, e3, e4, by simpa using e5, ?_⟩
                  rw [e6]
                  simp only [List.length_append, List.length_cons, List.length_nil]
                  omega
                · rw [if_neg h9] at ht ⊢
                  cases ht
                  exact ⟨_, rfl,
                    by simpa using telnetInv_continue kept junk rest tail g sent c (l + 1) hl1,
                    rfl, rfl, by simp, rfl⟩

theorem telnet_body_undefined (s : TelnetLoop) (kept rest : List UChar) (c : UChar)
    (h : TelnetInv s kept (c :: rest))
    (ht : telnet_byte { getrq := s.getrq, l := s.l } c = .undefined) :
    telnet_body s = .undefined := by
  obtain ⟨junk, tail, hb, hi, hr, he, hl⟩ := h
  obtain ⟨buf, i, ref_size, eat_chars, getrq, l, sent⟩ := s
  dsimp only at hb hi hr he hl ht
  subst hb hi hr he
  unfold telnet_byte at ht
  unfold telnet_body
  dsimp only at ht ⊢
  rw [buf_read_mid kept junk rest tail c]
  dsimp only
  by_cases h1 : c ≠ TELNET_IAC ∧ l = 0
  · rw [if_pos h1] at ht; exact absurd ht (by simp)
  · rw [if_neg h1] at ht ⊢
    by_cases h2 : l < 0 ∨ 4 ≤ l
    · rw [if_pos h2]
    · rw [if_neg h2] at ht
      exfalso
      split_ifs at ht

theorem Outcome.bind_eq_ok {α β : Type} (x : Outcome α) (f : α → Outcome β) (b : β) :
    x.bind f = .ok b ↔ ∃ a, x = .ok a ∧ f a = .ok b := by
  cases x <;> simp

theorem Outcome.bind_eq_undefined {α β : Type} (x : Outcome α) (f : α → Outcome β) :
    x.bind f = .undefined ↔ x = .undefined ∨ ∃ a, x = .ok a ∧ f a = .undefined := by
  cases x <;> simp

theorem telnet_bytes_ne_outOfFuel (cs : List UChar) :
    ∀ st, telnet_bytes st cs ≠ .outOfFuel := by
  induction cs with
  | nil => intro st; simp [telnet_bytes]
  | cons c cs ih =>
    intro st
    unfold telnet_bytes
    cases hb : telnet_byte st c with
    | ok r =>
      simp only [Outcome.bind_ok]
      cases ht : telnet_bytes r.static cs with
      | ok t => simp
      | undefined => simp
      | aborted => simp
      | outOfFuel => exact absurd ht (ih _)
    | undefined => simp
    | aborted => simp
    | outOfFuel => exact absurd hb (telnet_byte_ne_outOfFuel _ _)

theorem telnet_bytes_ne_aborted (cs : List UChar) :
    ∀ st, telnet_bytes st cs ≠ .aborted := by
  induction cs with
  | nil => intro st; simp [telnet_bytes]
  | cons c cs ih =>
    intro st
    unfold telnet_bytes
    cases hb : telnet_byte st c with
    | ok r =>
      simp only [Outcome.bind_ok]
      cases ht : telnet_bytes r.static cs with
      | ok t => simp
      | undefined => simp
      | aborted => exact absurd ht (ih _)
      | outOfFuel => simp
    | undefined => simp
    | aborted => exact absurd hb (telnet_byte_ne_aborted _ _)
    | outOfFuel => simp

theorem telnet_loop_ok (rest : List UChar) :
    ∀ (s : TelnetLoop) (kept : List UChar) (fuel : Nat) (t : TelnetStream),
      TelnetInv s kept rest → rest.length ≤ fuel →
      telnet_bytes { getrq := s.getrq, l := s.l } rest = .ok t →
      ∃ s1, telnet_loop fuel s = .ok s1
        ∧ s1.buf.take (s1.ref_size - s1.eat_chars).toNat = kept ++ t.stripped
        ∧ s1.ref_size - s1.eat_chars = ((kept ++ t.stripped).length : Nat)
        ∧ { getrq := s1.getrq, l := s1.l } = t.static
        ∧ s1.sent = s.sent ++ t.sent
        ∧ s1.buf.length = s.buf.length := by
  induction rest with
  | nil =>
    intro s kept fuel t hinv _ ht
    obtain ⟨junk, tail, hb, hi, hr, he, hl⟩ := hinv
    simp only [telnet_bytes, Outcome.ok.injEq] at ht
    subst ht
    have hlt : ¬ (s.i < s.ref_size) := by
      rw [hi, hr]; simp
    refine ⟨s, ?_, ?_, ?_, rfl, by simp, rfl⟩
    · unfold telnet_loop; rw [if_neg hlt]
    · rw [hr, he, hb]
      have e : ((kept.length : Int) + junk.length + (([] : List UChar).length : Nat)
          - junk.length).toNat = kept.length := by
        simp
      rw [e]; simp [List.append_assoc]
    · rw [hr, he]; simp
  | cons c rest ih =>
    intro s kept fuel t hinv hfuel ht
    have hlt : s.i < s.ref_size := by
      obtain ⟨junk, tail, _, hi, hr, _, _⟩ := hinv
      rw [hi, hr]; simp only [List.length_cons]; push_cast; omega
    obtain ⟨fuel, rfl⟩ : ∃ f, fuel = f + 1 := by
      cases fuel with
      | zero => simp at hfuel
      | succ f => exact ⟨f, rfl⟩
    simp only [telnet_bytes] at ht
    obtain ⟨r, hr1, ht⟩ := (Outcome.bind_eq_ok _ _ _).1 ht
    obtain ⟨t2, ht2, ht⟩ := (Outcome.bind_eq_ok _ _ _).1 ht
    simp only [Outcome.ok.injEq] at ht
    subst ht
    obtain ⟨s1, hs1, hinv1, hg, hl, hsent, hlen⟩ := telnet_body_ok s kept rest c r hinv hr1
    have ht2' : telnet_bytes { getrq := s1.getrq, l := s1.l } rest = .ok t2 := by
      rw [hg, hl]; exact ht2
    obtain ⟨s2, hs2, h1, h2, h3, h4, h5⟩ :=
      ih { s1 with i := s1.i + 1 } (kept ++ r.stripped) fuel t2 hinv1
        (by simp only [List.length_cons] at hfuel; omega) ht2'
    refine ⟨s2, ?_, ?_, ?_, h3, ?_, ?_⟩
    · rw [telnet_loop, if_pos hlt]
      simp only [hs1, Outcome.bind_ok]
      exact hs2
    · rw [h1]; simp [List.append_assoc]
    · rw [h2]; simp [List.append_assoc]
    · rw [h4]; simp only [hsent, List.append_assoc]
    · rw [h5]; exact hlen

theorem telnet_loop_undefined (rest : List UChar) :
    ∀ (s : TelnetLoop) (kept : List UChar) (fuel : Nat),
      TelnetInv s kept rest → rest.length ≤ fuel →
      telnet_bytes { getrq := s.getrq, l := s.l } rest = .undefined →
      telnet_loop fuel s = .undefined := by
  induction rest with
  | nil =>
    intro s kept fuel _ _ ht
    simp [telnet_bytes] at ht
  | cons c rest ih =>
    intro s kept fuel hinv hfuel ht
    have hlt : s.i < s.ref_size := by
      obtain ⟨junk, tail, _, hi, hr, _, _⟩ := hinv
      rw [hi, hr]; simp only [List.length_cons]; push_cast; omega
    obtain ⟨fuel, rfl⟩ : ∃ f, fuel = f + 1 := by
      cases fuel with
      | zero => simp at hfuel
      | succ f => exact ⟨f, rfl⟩
    rw [telnet_loop, if_pos hlt]
    simp only [telnet_bytes] at ht
    rcases (Outcome.bind_eq_undefined _ _).1 ht with hu | ⟨r, hr1, ht⟩
    · simp only [telnet_body_undefined s kept rest c hinv hu, Outcome.bind_undefined]
    · obtain ⟨s1, hs1, hinv1, hg, hl, _, _⟩ := telnet_body_ok s kept rest c r hinv hr1
      simp only [hs1, Outcome.bind_ok]
      apply ih _ (kept ++ r.stripped) fuel hinv1
        (by simp only [List.length_cons] at hfuel; omega)
      rcases (Outcome.bind_eq_undefined _ _).1 ht with hu | ⟨t2, _, h⟩
      · dsimp only; rw [hg, hl]; exact hu
      · simp at h

theorem telnetInv_entry (st : TelnetStatic) (recvq : List UChar) :
    TelnetInv { buf := recvq, i := 0, ref_size := recvq.length, eat_chars := 0,
                getrq := st.getrq, l := st.l, sent := [] } [] recvq :=
  ⟨[], [], by simp, by simp, by simp, by simp, fun h => absurd rfl h⟩

/-- A call of `netcat_telnet_parse` does to the statics, the queue and the socket what the
byte machine does when fed the bytes of the queue. -/
theorem netcat_telnet_parse_eq_bytes (st : TelnetStatic) (recvq : List UChar) :
    (netcat_telnet_parse st recvq).bind (fun r => .ok r.toStream) = telnet_bytes st recvq := by
  have hinv := telnetInv_entry st recvq
  cases hb : telnet_bytes st recvq with
  | ok t =>
    obtain ⟨s1, hs1, h1, _, h3, h4, _⟩ :=
      telnet_loop_ok recvq _ [] recvq.length t hinv (Nat.le_refl _) hb
    unfold netcat_telnet_parse
    simp only [hs1, Outcome.bind_ok, TelnetCall.toStream, TelnetCall.stripped, h1, h3]
    simp only [List.nil_append] at h4 ⊢
    rw [h4]
  | undefined =>
    have := telnet_loop_undefined recvq _ [] recvq.length hinv (Nat.le_refl _) hb
    unfold netcat_telnet_parse
    simp only [this, Outcome.bind_undefined]
  | aborted => exact absurd hb (telnet_bytes_ne_aborted _ _)
  | outOfFuel => exact absurd hb (telnet_bytes_ne_outOfFuel _ _)

theorem netcat_telnet_parse_len (st : TelnetStatic) (recvq : List UChar) (r : TelnetCall)
    (h : netcat_telnet_parse st recvq = .ok r) :
    r.buf.length = recvq.length ∧ r.len.toNat ≤ recvq.length := by
  have hinv := telnetInv_entry st recvq
  cases hb : telnet_bytes st recvq with
  | ok t =>
    obtain ⟨s1, hs1, h1, h2, _, _, h5⟩ :=
      telnet_loop_ok recvq _ [] recvq.length t hinv (Nat.le_refl _) hb
    unfold netcat_telnet_parse at h
    simp only [hs1, Outcome.bind_ok, Outcome.ok.injEq] at h
    subst h
    dsimp only at h5 ⊢
    refine ⟨h5, ?_⟩
    have hl := congrArg List.length h1
    rw [List.length_take, h2] at hl
    rw [h2, ← h5]
    simp only [Int.toNat_ofNat] at hl ⊢
    omega
  | undefined =>
    have := telnet_loop_undefined recvq _ [] recvq.length hinv (Nat.le_refl _) hb
    unfold netcat_telnet_parse at h
    simp [this] at h
  | aborted => exact absurd hb (telnet_bytes_ne_aborted _ _)
  | outOfFuel => exact absurd hb (telnet_bytes_ne_outOfFuel _ _)

theorem netcat_telnet_parse_bind (st : TelnetStatic) (recvq : List UChar)
    (F : TelnetStream → Outcome TelnetStream) :
    (netcat_telnet_parse st recvq).bind (fun r => F r.toStream)
      = (telnet_bytes st recvq).bind F := by
  rw [← netcat_telnet_parse_eq_bytes]
  cases netcat_telnet_parse st recvq <;> simp

theorem telnet_bytes_append (a b : List UChar) :
    ∀ st, telnet_bytes st (a ++ b) = (telnet_bytes st a).bind fun x =>
      (telnet_bytes x.static b).bind fun y =>
      .ok { static := y.static, stripped := x.stripped ++ y.stripped,
            sent := x.sent ++ y.sent } := by
  induction a with
  | nil =>
    intro st
    simp only [List.nil_append, telnet_bytes, Outcome.bind_ok]
    cases telnet_bytes st b <;> simp
  | cons c a ih =>
    intro st
    simp only [List.cons_append, telnet_bytes]
    cases telnet_byte st c with
    | ok r =>
      simp only [Outcome.bind_ok, List.append_eq]
      rw [ih r.static]
      cases telnet_bytes r.static a with
      | ok x =>
        simp only [Outcome.bind_ok]
        cases telnet_bytes x.static b <;> simp [List.append_assoc]
      | undefined => simp
      | aborted => simp
      | outOfFuel => simp
    | undefined => simp
    | aborted => simp
    | outOfFuel => simp

theorem telnet_parse_chunks_eq_bytes (chunks : List (List UChar)) :
    ∀ st, telnet_parse_chunks st chunks = telnet_bytes st chunks.flatten := by
  induction chunks with
  | nil => intro st; simp [telnet_parse_chunks, telnet_bytes]
  | cons c cs ih =>
    intro st
    rw [List.flatten_cons, telnet_bytes_append, telnet_parse_chunks]
    have := netcat_telnet_parse_bind st c (fun x =>
      (telnet_parse_chunks x.static cs).bind fun t =>
        .ok { static := t.static, stripped := x.stripped ++ t.stripped,
              sent := x.sent ++ t.sent })
    simp only [TelnetCall.toStream] at this
    rw [this]
    congr 1
    funext x
    rw [ih]

/-- Claim C1 (telnet split invariance): from the reset state, calling `netcat_telnet_parse`
on the consecutive chunks of a byte sequence, the statics kept between the calls, gives the
same stripped bytes, the same reply bytes (and the same statics) as one call on the whole
sequence; this covers the case where the one call stores outside `getrq`, and the bound of
the model's loop is never reached. -/
theorem telnet_split_invariance (st : TelnetStatic) (chunks : List (List UChar)) :
    telnet_parse_chunks (netcat_telnet_reset st) chunks
        = (netcat_telnet_parse (netcat_telnet_reset st) chunks.flatten).bind
            (fun r => .ok { static := r.static, stripped := r.stripped, sent := r.sent })
      ∧ netcat_telnet_parse (netcat_telnet_reset st) chunks.flatten ≠ .outOfFuel
      ∧ telnet_parse_chunks (netcat_telnet_reset st) chunks ≠ .outOfFuel := by
  have h := netcat_telnet_parse_eq_bytes (netcat_telnet_reset st) chunks.flatten
  simp only [TelnetCall.toStream] at h
  refine ⟨by rw [h, telnet_parse_chunks_eq_bytes], ?_, ?_⟩
  · intro hf
    rw [hf] at h
    exact telnet_bytes_ne_outOfFuel _ _ h.symm
  · rw [telnet_parse_chunks_eq_bytes]
    exact telnet_bytes_ne_outOfFuel _ _

/-! ### The telnet parser on single command sequences -/

/-- What the byte machine computes is what a call of `netcat_telnet_parse` returns. -/
theorem netcat_telnet_parse_of_bytes (st : TelnetStatic) (recvq : List UChar)
    (t : TelnetStream) (h : telnet_bytes st recvq = .ok t) :
    ∃ r, netcat_telnet_parse st recvq = .ok r ∧ r.static = t.static
      ∧ r.stripped = t.stripped ∧ r.sent = t.sent
      ∧ r.len = ((t.stripped.length : Nat) : Int) ∧ r.buf.length = recvq.length := by
  have hinv := telnetInv_entry st recvq
  obtain ⟨s1, hs1, h1, h2, h3, h4, h5⟩ :=
    telnet_loop_ok recvq _ [] recvq.length t hinv (Nat.le_refl _) h
  unfold netcat_telnet_parse
  simp only [hs1, Outcome.bind_ok]
  refine ⟨_, rfl, h3, ?_, ?_, ?_, h5⟩
  · simp only [TelnetCall.stripped, h1, List.nil_append]
  · simpa using h4
  · simpa using h2

/-- A call of `netcat_telnet_parse` is undefined when the byte machine is. -/
theorem netcat_telnet_parse_of_undefined (st : TelnetStatic) (recvq : List UChar)
    (h : telnet_bytes st recvq = .undefined) :
    netcat_telnet_parse st recvq = .undefined := by
  have := netcat_telnet_parse_eq_bytes st recvq
  rw [h] at this
  cases hp : netcat_telnet_parse st recvq with
  | ok r => rw [hp] at this; simp at this
  | undefined => rfl
  | aborted => rw [hp] at this; simp at this
  | outOfFuel => rw [hp] at this; simp at this

/-- Data bytes met while no sequence is pending are kept and leave the statics alone. -/
theorem telnet_bytes_data (a : List UChar) (ha : ∀ c ∈ a, c ≠ TELNET_IAC) :
    ∀ st : TelnetStatic, st.l = 0 →
      telnet_bytes st a = .ok { static := st, stripped := a, sent := [] } := by
  induction a with
  | nil => intro st _; rfl
  | cons c cs ih =>
    intro st hl
    have hc : c ≠ TELNET_IAC := ha c (List.mem_cons_self _ _)
    have hb : telnet_byte st c = .ok { static := st, stripped := [c], sent := [] } := by
      unfold telnet_byte
      rw [if_pos ⟨hc, hl⟩]
    unfold telnet_bytes
    rw [hb, Outcome.bind_ok]
    dsimp only
    rw [ih (fun x hx => ha x (List.mem_cons_of_mem _ hx)) st hl, Outcome.bind_ok]
    rfl

/-- The byte machine on `a ++ seq ++ b`, when `seq` is a complete sequence and `a`, `b` are
data. -/
theorem telnet_bytes_around (st : TelnetStatic) (a seq b : List UChar) (t : TelnetStream)
    (hl : st.l = 0) (ha : ∀ c ∈ a, c ≠ TELNET_IAC) (hb : ∀ c ∈ b, c ≠ TELNET_IAC)
    (hseq : telnet_bytes st seq = .ok t) (htl : t.static.l = 0) :
    telnet_bytes st (a ++ seq ++ b)
      = .ok { static := t.static, stripped := a ++ t.stripped ++ b, sent := t.sent } := by
  rw [List.append_assoc, telnet_bytes_append, telnet_bytes_data a ha st hl, Outcome.bind_ok,
    telnet_bytes_append, hseq, Outcome.bind_ok, telnet_bytes_data b hb t.static htl]
  simp only [Outcome.bind_ok, List.nil_append, List.append_nil, List.append_assoc]

theorem getrq_cells (g : List UChar) (h : g.length = 4) :
    ∃ g0 g1 g2 g3, g = [g0, g1, g2, g3] := by
  match g, h with
  | [g0, g1, g2, g3], _ => exact ⟨g0, g1, g2, g3, rfl⟩

/-- The three bytes `IAC WILL x` or `IAC WONT x` met with no sequence pending. -/
theorem telnet_bytes_will (g0 g1 g2 g3 x cmd : UChar)
    (hc : cmd = TELNET_WILL ∨ cmd = TELNET_WONT) :
    telnet_bytes { getrq := [g0, g1, g2, g3], l := 0 } [TELNET_IAC, cmd, x]
      = .ok { static := { getrq := [TELNET_IAC, cmd, x, g3], l := 0 }, stripped := [],
              sent := [TELNET_IAC, TELNET_DONT, x] } := by
  rcases hc with rfl | rfl <;>
    simp [telnet_bytes, telnet_byte, TELNET_IAC, TELNET_WILL, TELNET_WONT, TELNET_DONT,
      TELNET_DO, TELNET_SE, TELNET_NOP, TELNET_DM, TELNET_BRK, TELNET_IP, TELNET_AO,
      TELNET_AYT, TELNET_EC, TELNET_EL, TELNET_GA, TELNET_SB]

/-- The three bytes `IAC DO x` or `IAC DONT x` met with no sequence pending. -/
theorem telnet_bytes_do (g0 g1 g2 g3 x cmd : UChar)
    (hc : cmd = TELNET_DO ∨ cmd = TELNET_DONT) :
    telnet_bytes { getrq := [g0, g1, g2, g3], l := 0 } [TELNET_IAC, cmd, x]
      = .ok { static := { getrq := [TELNET_IAC, cmd, x, g3], l := 0 }, stripped := [],
              sent := [TELNET_IAC, TELNET_WONT, x] } := by
  rcases hc with rfl | rfl <;>
    simp [telnet_bytes, telnet_byte, TELNET_IAC, TELNET_WILL, TELNET_WONT, TELNET_DONT,
      TELNET_DO, TELNET_SE, TELNET_NOP, TELNET_DM, TELNET_BRK, TELNET_IP, TELNET_AO,
      TELNET_AYT, TELNET_EC, TELNET_EL, TELNET_GA, TELNET_SB]

/-- The two bytes `IAC IAC` met with no sequence pending. -/
theorem telnet_bytes_iac_iac (g0 g1 g2 g3 : UChar) :
    telnet_bytes { getrq := [g0, g1, g2, g3], l := 0 } [TELNET_IAC, TELNET_IAC]
      = .ok { static := { getrq := [TELNET_IAC, TELNET_IAC, g2, g3], l := 0 },
              stripped := [TELNET_IAC], sent := [] } := by
  simp [telnet_bytes, telnet_byte, TELNET_IAC, TELNET_WILL, TELNET_WONT, TELNET_DONT,
    TELNET_DO, TELNET_SE, TELNET_NOP, TELNET_DM, TELNET_BRK, TELNET_IP, TELNET_AO,
    TELNET_AYT, TELNET_EC, TELNET_EL, TELNET_GA, TELNET_SB]
/-- Claim C12: from the reset state, a call of `netcat_telnet_parse` on a queue holding
data `a`, the three bytes `IAC WILL x` or `IAC WONT x`, and data `b` writes exactly
`IAC DONT x` to the socket; on `IAC DO x` or `IAC DONT x` it writes exactly `IAC WONT x`.
In both cases the queue is left holding `a ++ b` (`recvq.len` is their number) and no
sequence is pending. -/
theorem telnet_refusal (st : TelnetStatic) (a b : List UChar) (x : UChar)
    (hg : st.getrq.length = 4)
    (ha : ∀ c ∈ a, c ≠ TELNET_IAC) (hb : ∀ c ∈ b, c ≠ TELNET_IAC) :
    (∀ cmd, cmd = TELNET_WILL ∨ cmd = TELNET_WONT →
      ∃ r, netcat_telnet_parse (netcat_telnet_reset st) (a ++ [TELNET_IAC, cmd, x] ++ b)
          = .ok r
        ∧ r.sent = [TELNET_IAC, TELNET_DONT, x] ∧ r.stripped = a ++ b
        ∧ r.len = ((a.length + b.length : Nat) : Int) ∧ r.static.l = 0)
    ∧ (∀ cmd, cmd = TELNET_DO ∨ cmd = TELNET_DONT →
      ∃ r, netcat_telnet_parse (netcat_telnet_reset st) (a ++ [TELNET_IAC, cmd, x] ++ b)
          = .ok r
        ∧ r.sent = [TELNET_IAC, TELNET_WONT, x] ∧ r.stripped = a ++ b
        ∧ r.len = ((a.length + b.length : Nat) : Int) ∧ r.static.l = 0) := by
  obtain ⟨g0, g1, g2, g3, hgl⟩ := getrq_cells st.getrq hg
  have hst : netcat_telnet_reset st = { getrq := [g0, g1, g2, g3], l := 0 } := by
    simp only [netcat_telnet_reset, hgl]
  rw [hst]
  constructor
  · intro cmd hc
    have h := telnet_bytes_around _ a _ b _ rfl ha hb (telnet_bytes_will g0 g1 g2 g3 x cmd hc)
      rfl
    obtain ⟨r, h1, h2, h3, h4, h5, _⟩ := netcat_telnet_parse_of_bytes _ _ _ h
    refine ⟨r, h1, h4, ?_, ?_, ?_⟩
    · rw [h3]; simp
    · rw [h5]; simp
    · rw [h2]
  · intro cmd hc
    have h := telnet_bytes_around _ a _ b _ rfl ha hb (telnet_bytes_do g0 g1 g2 g3 x cmd hc)
      rfl
    obtain ⟨r, h1, h2, h3, h4, h5, _⟩ := netcat_telnet_parse_of_bytes _ _ _ h
    refine ⟨r, h1, h4, ?_, ?_, ?_⟩
    · rw [h3]; simp
    · rw [h5]; simp
    · rw [h2]

/-- Witness for C12: the queue `FF FB 01` alone, statics as at program start. -/
theorem telnet_refusal_witness :
    telnet_static_init.getrq.length = 4
    ∧ (∀ c ∈ ([] : List UChar), c ≠ TELNET_IAC)
    ∧ ∃ r, netcat_telnet_parse (netcat_telnet_reset telnet_static_init)
          ([] ++ [TELNET_IAC, TELNET_WILL, 1] ++ []) = .ok r
        ∧ r.sent = [TELNET_IAC, TELNET_DONT, 1] ∧ r.stripped = [] ++ []
        ∧ r.len = (((([] : List UChar).length + ([] : List UChar).length : Nat)) : Int)
        ∧ r.static.l = 0 :=
  ⟨rfl, fun _ h => absurd h (List.not_mem_nil _),
    (telnet_refusal telnet_static_init [] [] 1 rfl
      (fun _ h => absurd h (List.not_mem_nil _))
      (fun _ h => absurd h (List.not_mem_nil _))).1 TELNET_WILL (Or.inl rfl)⟩

theorem telnet_unknown_ne : ∀ x : UChar, x.val < 240 →
    x ≠ TELNET_SE ∧ x ≠ TELNET_NOP ∧ x ≠ TELNET_DM ∧ x ≠ TELNET_BRK ∧ x ≠ TELNET_IP
      ∧ x ≠ TELNET_AO ∧ x ≠ TELNET_AYT ∧ x ≠ TELNET_EC ∧ x ≠ TELNET_EL ∧ x ≠ TELNET_GA
      ∧ x ≠ TELNET_SB ∧ x ≠ TELNET_WILL ∧ x ≠ TELNET_WONT ∧ x ≠ TELNET_DO
      ∧ x ≠ TELNET_DONT ∧ x ≠ TELNET_IAC := by
  decide!

/-- The byte machine on `IAC x` followed by the bytes `d`, for an unrecognised `x`: nothing
resets `l`, so up to two bytes of `d` are stored in `getrq` and eaten, and a third one is
stored outside the array. -/
theorem telnet_bytes_unknown (g0 g1 g2 g3 x : UChar) (hx : x.val < 240) (d : List UChar) :
    (d.length ≤ 2 → ∃ g, telnet_bytes { getrq := [g0, g1, g2, g3], l := 0 }
        ([TELNET_IAC, x] ++ d)
        = .ok { static := { getrq := g, l := 2 + (d.length : Nat) }, stripped := [],
                sent := [] })
    ∧ (3 ≤ d.length → telnet_bytes { getrq := [g0, g1, g2, g3], l := 0 }
        ([TELNET_IAC, x] ++ d) = .undefined) := by
  obtain ⟨h1, h2, h3, h4, h5, h6, h7, h8, h9, h10, h11, h12, h13, h14, h15, h16⟩ :=
    telnet_unknown_ne x hx
  match d with
  | [] =>
    refine ⟨fun _ => ⟨[TELNET_IAC, x, g2, g3], ?_⟩, fun h => absurd h (by simp)⟩
    simp [telnet_bytes, telnet_byte, h1, h2, h3, h4, h5, h6, h7, h8, h9, h10, h11, h12, h13,
      h14, h15, h16]
  | [c1] =>
    refine ⟨fun _ => ⟨[TELNET_IAC, x, c1, g3], ?_⟩, fun h => absurd h (by simp)⟩
    simp [telnet_bytes, telnet_byte, h1, h2, h3, h4, h5, h6, h7, h8, h9, h10, h11, h12, h13,
      h14, h15, h16]
  | [c1, c2] =>
    refine ⟨fun _ => ⟨[TELNET_IAC, x, c1, c2], ?_⟩, fun h => absurd h (by simp)⟩
    simp [telnet_bytes, telnet_byte, h1, h2, h3, h4, h5, h6, h7, h8, h9, h10, h11, h12, h13,
      h14, h15, h16]
  | c1 :: c2 :: c3 :: rest =>
    refine ⟨fun h => absurd h (by simp), fun _ => ?_⟩
    simp [telnet_bytes, telnet_byte, h1, h2, h3, h4, h5, h6, h7, h8, h9, h10, h11, h12, h13,
      h14, h15, h16]

/-- Claim C13 fails on the code.  From the reset state, a call of `netcat_telnet_parse` on
`IAC x d` with `x < 240` does not leave `d` as output: with at most two bytes in `d` the
whole queue is eaten (`recvq.len` becomes 0) and the sequence stays pending with
`l = 2 + |d|`; with three bytes or more the third byte of `d` is stored at `getrq[4]`, outside
the array. -/
theorem telnet_unknown_command (st : TelnetStatic) (x : UChar) (d : List UChar)
    (hg : st.getrq.length = 4) (hx : x.val < 240) :
    (d.length ≤ 2 →
      ∃ r, netcat_telnet_parse (netcat_telnet_reset st) ([TELNET_IAC, x] ++ d) = .ok r
        ∧ r.stripped = [] ∧ r.len = 0 ∧ r.sent = []
        ∧ r.static.l = 2 + ((d.length : Nat) : Int))
    ∧ (3 ≤ d.length →
      netcat_telnet_parse (netcat_telnet_reset st) ([TELNET_IAC, x] ++ d) = .undefined) := by
  obtain ⟨g0, g1, g2, g3, hgl⟩ := getrq_cells st.getrq hg
  have hst : netcat_telnet_reset st = { getrq := [g0, g1, g2, g3], l := 0 } := by
    simp only [netcat_telnet_reset, hgl]
  rw [hst]
  obtain ⟨hA, hB⟩ := telnet_bytes_unknown g0 g1 g2 g3 x hx d
  constructor
  · intro hd
    obtain ⟨g, h⟩ := hA hd
    obtain ⟨r, h1, h2, h3, h4, h5, _⟩ := netcat_telnet_parse_of_bytes _ _ _ h
    refine ⟨r, h1, h3, ?_, h4, ?_⟩
    · rw [h5]; rfl
    · rw [h2]
  · intro hd
    exact netcat_telnet_parse_of_undefined _ _ (hB hd)

/-- Witness for C13: the queue `FF 01 'B'` (one data byte after the unknown command), statics
as at program start: the data byte is eaten and `l` is left at 3. -/
theorem telnet_unknown_command_witness :
    telnet_static_init.getrq.length = 4 ∧ (1 : UChar).val < 240
    ∧ ([66] : List UChar).length ≤ 2
    ∧ ∃ r, netcat_telnet_parse (netcat_telnet_reset telnet_static_init)
          ([TELNET_IAC, 1] ++ [66]) = .ok r
        ∧ r.stripped = [] ∧ r.len = 0 ∧ r.sent = []
        ∧ r.static.l = 2 + ((([66] : List UChar).length : Nat) : Int) :=
  ⟨rfl, by decide, by decide,
    (telnet_unknown_command telnet_static_init 1 [66] rfl (by decide)).1 (by decide)⟩

/-- Claim C14: from the reset state, a call of `netcat_telnet_parse` on data `a`, the two
bytes `FF FF`, and data `b` leaves `a ++ [FF] ++ b` in the queue and writes no reply; when
the first `FF` ends one call and the second `FF` starts the next, the two calls leave `a` and
`[FF] ++ b`, again without a reply. -/
theorem telnet_escaped_iac (st : TelnetStatic) (a b : List UChar)
    (hg : st.getrq.length = 4)
    (ha : ∀ c ∈ a, c ≠ TELNET_IAC) (hb : ∀ c ∈ b, c ≠ TELNET_IAC) :
    (∃ r, netcat_telnet_parse (netcat_telnet_reset st) (a ++ [TELNET_IAC, TELNET_IAC] ++ b)
          = .ok r
        ∧ r.stripped = a ++ [TELNET_IAC] ++ b ∧ r.sent = [] ∧ r.static.l = 0)
    ∧ (∃ r1 r2, netcat_telnet_parse (netcat_telnet_reset st) (a ++ [TELNET_IAC]) = .ok r1
        ∧ netcat_telnet_parse r1.static ([TELNET_IAC] ++ b) = .ok r2
        ∧ r1.stripped = a ∧ r2.stripped = [TELNET_IAC] ++ b
        ∧ r1.sent = [] ∧ r2.sent = [] ∧ r2.static.l = 0) := by
  obtain ⟨g0, g1, g2, g3, hgl⟩ := getrq_cells st.getrq hg
  have hst : netcat_telnet_reset st = { getrq := [g0, g1, g2, g3], l := 0 } := by
    simp only [netcat_telnet_reset, hgl]
  rw [hst]
  constructor
  · have h := telnet_bytes_around _ a _ b _ rfl ha hb (telnet_bytes_iac_iac g0 g1 g2 g3) rfl
    obtain ⟨r, h1, h2, h3, h4, _, _⟩ := netcat_telnet_parse_of_bytes _ _ _ h
    exact ⟨r, h1, h3, h4, by rw [h2]⟩
  · have e1 : telnet_bytes { getrq := [g0, g1, g2, g3], l := 0 } (a ++ [TELNET_IAC])
        = .ok { static := { getrq := [TELNET_IAC, g1, g2, g3], l := 1 }, stripped := a,
                sent := [] } := by
      rw [telnet_bytes_append, telnet_bytes_data a ha _ rfl, Outcome.bind_ok]
      simp [telnet_bytes, telnet_byte, TELNET_IAC]
    have e2 : telnet_bytes { getrq := [TELNET_IAC, g1, g2, g3], l := 1 } ([TELNET_IAC] ++ b)
        = .ok { static := { getrq := [TELNET_IAC, TELNET_IAC, g2, g3], l := 0 },
                stripped := [TELNET_IAC] ++ b, sent := [] } := by
      rw [telnet_bytes_append]
      have e3 : telnet_bytes { getrq := [TELNET_IAC, g1, g2, g3], l := 1 } [TELNET_IAC]
          = .ok { static := { getrq := [TELNET_IAC, TELNET_IAC, g2, g3], l := 0 },
                  stripped := [TELNET_IAC], sent := [] } := by
        simp [telnet_bytes, telnet_byte, TELNET_IAC, TELNET_WILL, TELNET_WONT, TELNET_DONT,
          TELNET_DO, TELNET_SE, TELNET_NOP, TELNET_DM, TELNET_BRK, TELNET_IP, TELNET_AO,
          TELNET_AYT, TELNET_EC, TELNET_EL, TELNET_GA, TELNET_SB]
      rw [e3, Outcome.bind_ok, telnet_bytes_data b hb _ rfl]
      simp only [Outcome.bind_ok, List.append_nil]
    obtain ⟨r1, p1, q1, q2, q3, _, _⟩ := netcat_telnet_parse_of_bytes _ _ _ e1
    dsimp only at q1 q2 q3
    rw [← q1] at e2
    obtain ⟨r2, p2, s1, s2, s3, _, _⟩ := netcat_telnet_parse_of_bytes _ _ _ e2
    exact ⟨r1, r2, p1, p2, q2, s2, q3, s3, by rw [s1]⟩

/-- Witness for C14: the queue `'A' FF FF 'B'`, whole and cut between the two `FF`. -/
theorem telnet_escaped_iac_witness :
    telnet_static_init.getrq.length = 4
    ∧ (∀ c ∈ ([65] : List UChar), c ≠ TELNET_IAC)
    ∧ (∀ c ∈ ([66] : List UChar), c ≠ TELNET_IAC)
    ∧ (∃ r, netcat_telnet_parse (netcat_telnet_reset telnet_static_init)
          ([65] ++ [TELNET_IAC, TELNET_IAC] ++ [66]) = .ok r
        ∧ r.stripped = [65] ++ [TELNET_IAC] ++ [66] ∧ r.sent = [] ∧ r.static.l = 0)
    ∧ (∃ r1 r2, netcat_telnet_parse (netcat_telnet_reset telnet_static_init)
          ([65] ++ [TELNET_IAC]) = .ok r1
        ∧ netcat_telnet_parse r1.static ([TELNET_IAC] ++ [66]) = .ok r2
        ∧ r1.stripped = [65] ∧ r2.stripped = [TELNET_IAC] ++ [66]
        ∧ r1.sent = [] ∧ r2.sent = [] ∧ r2.static.l = 0) :=
  ⟨rfl, by decide!, by decide!,
    telnet_escaped_iac telnet_static_init [65] [66] rfl (by decide!) (by decide!)⟩

/-! ## Theorems about flagset.c -/

theorem char_test_bit : ∀ (c : UChar) (k : Fin 8),
    decide (int_and (char_to_int c) (one_shl k.val) ≠ 0) = c.val.testBit k.val := by decide!

theorem char_or_bit : ∀ (c : UChar) (k j : Fin 8),
    (int_to_char (int_or (char_to_int c) (one_shl k.val))).val.testBit j.val
      = (decide (j = k) || c.val.testBit j.val) := by decide!

theorem char_andnot_bit : ∀ (c : UChar) (k j : Fin 8),
    (int_to_char (int_and (char_to_int c) (int_not (one_shl k.val)))).val.testBit j.val
      = (!decide (j = k) && c.val.testBit j.val) := by decide!

theorem char_zero_iff : ∀ (c : UChar), (char_to_int c = 0) ↔ c = 0 := by decide!

theorem char_zero_bits : ∀ (c : UChar), c = 0 ↔ ∀ k : Fin 8, c.val.testBit k.val = false := by
  decide!

theorem flag_count_bits_zero : ∀ (c : UChar),
    flag_count_bits 8 c 0 = .ok (popcount8 c : Int) := by decide!

theorem char_test_bit_lt (c : UChar) (k : Nat) (hk : k < 8) :
    (int_and (char_to_int c) (one_shl k) ≠ 0) ↔ c.val.testBit k = true := by
  have := char_test_bit c ⟨k, hk⟩
  simp only [decide_eq_true_eq, ← this]

theorem netcat_flag_get_eq (s : FlagState) (mem : Nat → UChar) (p : Nat)
    (hm : s.flagset = some mem) (hl : s.flagset_len = 8192) (hp : p < 65536) :
    netcat_flag_get s p = .ok (flag_at mem p) := by
  unfold netcat_flag_get
  simp only [hm, hl]
  rw [if_pos (by omega)]
  have := char_test_bit_lt (mem (p / 8)) (p % 8) (Nat.mod_lt _ (by omega))
  unfold flag_at
  by_cases h : (mem (p / 8)).val.testBit (p % 8) = true
  · rw [if_pos (this.2 h), h]
  · rw [if_neg (fun hh => h (this.1 hh))]
    simp only [Bool.not_eq_true] at h
    rw [h]

theorem netcat_flag_set_eq (s : FlagState) (mem : Nat → UChar) (p : Nat) (b : Bool)
    (hm : s.flagset = some mem) (hl : s.flagset_len = 8192) (hp : p < 65536) :
    ∃ mem1, netcat_flag_set s p b = .ok { flagset := some mem1, flagset_len := 8192 }
      ∧ ∀ q, flag_at mem1 q = if q = p then b else flag_at mem q := by
  unfold netcat_flag_set
  simp only [hm, hl]
  rw [if_pos (by omega)]
  have hk : p % 8 < 8 := Nat.mod_lt _ (by omega)
  cases b with
  | true =>
    simp only [if_true]
    refine ⟨_, rfl, ?_⟩
    intro q
    unfold flag_at
    by_cases hq : q / 8 = p / 8
    · rw [hq, Function.update_same]
      have := char_or_bit (mem (p / 8)) ⟨p % 8, hk⟩ ⟨q % 8, Nat.mod_lt _ (by omega)⟩
      simp only [Fin.mk.injEq] at this
      rw [this]
      by_cases hqp : q = p
      · subst hqp; simp
      · have : q % 8 ≠ p % 8 := by omega
        simp [this, hqp]
    · rw [Function.update_noteq hq]
      have : q ≠ p := fun h => hq (by rw [h])
      simp [this]
  | false =>
    simp only [Bool.false_eq_true, if_false]
    refine ⟨_, rfl, ?_⟩
    intro q
    unfold flag_at
    by_cases hq : q / 8 = p / 8
    · rw [hq, Function.update_same]
      have := char_andnot_bit (mem (p / 8)) ⟨p % 8, hk⟩ ⟨q % 8, Nat.mod_lt _ (by omega)⟩
      simp only [Fin.mk.injEq] at this
      rw [this]
      by_cases hqp : q = p
      · subst hqp; simp
      · have : q % 8 ≠ p % 8 := by omega
        simp [this, hqp]
    · rw [Function.update_noteq hq]
      have : q ≠ p := fun h => hq (by rw [h])
      simp [this]

theorem FlagState.Ready.mem {s : FlagState} (h : s.Ready) :
    ∃ mem, s = { flagset := some mem, flagset_len := 8192 } := by
  obtain ⟨flagset, len⟩ := s
  obtain ⟨h1, h2⟩ := h
  simp only at h1 h2
  subst h2
  cases flagset with
  | none => simp at h1
  | some mem => exact ⟨mem, rfl⟩

theorem netcat_flag_init_ready :
    (netcat_flag_init flag_state_start 65535 true).1 = true
      ∧ (netcat_flag_init flag_state_start 65535 true).2.Ready := by
  decide
theorem flag_count_bits_shift (fuel : Nat) :
    ∀ (c : UChar) (ret : Int),
      flag_count_bits fuel c ret = (flag_count_bits fuel c 0).bind fun r => .ok (ret + r) := by
  induction fuel with
  | zero =>
    intro c ret
    unfold flag_count_bits
    by_cases h : char_to_int c ≠ 0
    · simp only [if_pos h, Outcome.bind_outOfFuel]
    · simp only [if_neg h, Outcome.bind_ok, add_zero]
  | succ fuel ih =>
    intro c ret
    unfold flag_count_bits
    by_cases h : char_to_int c ≠ 0
    · simp only [if_pos h]
      rw [ih _ (ret - _), ih _ (0 - _)]
      cases flag_count_bits fuel (int_to_char (char_to_int c * 2)) 0 with
      | ok r => simp only [Outcome.bind_ok, Outcome.ok.injEq]; omega
      | undefined => rfl
      | aborted => rfl
      | outOfFuel => rfl
    · simp only [if_neg h, Outcome.bind_ok, add_zero]

theorem flag_count_bits_eq (c : UChar) (ret : Int) :
    flag_count_bits 8 c ret = .ok (ret + (popcount8 c : Int)) := by
  rw [flag_count_bits_shift, flag_count_bits_zero]
  rfl

theorem flag_count_loop_eq (mem : Nat → UChar) (len : Nat) (n : Nat) :
    ∀ (fuel i : Nat) (ret : Int), i + n = len → n ≤ fuel →
      flag_count_loop len mem fuel i ret = .ok (ret + (popcount_from mem i n : Int)) := by
  induction n with
  | zero =>
    intro fuel i ret hi _
    unfold flag_count_loop
    rw [if_neg (by omega)]
    simp [popcount_from]
  | succ n ih =>
    intro fuel i ret hi hf
    obtain ⟨fuel, rfl⟩ : ∃ f, fuel = f + 1 := ⟨fuel - 1, by omega⟩
    unfold flag_count_loop
    rw [if_pos (by omega)]
    simp only [flag_count_bits_eq]
    rw [ih fuel (i + 1) _ (by omega) (by omega)]
    simp only [popcount_from, Outcome.ok.injEq]
    push_cast
    omega

theorem flag_at_byte (mem : Nat → UChar) (n k : Nat) (hk : k < 8) :
    flag_at mem (8 * n + k) = (mem n).val.testBit k := by
  unfold flag_at
  have h1 : (8 * n + k) / 8 = n := by omega
  have h2 : (8 * n + k) % 8 = k := by omega
  rw [h1, h2]

theorem countP_flag_at (mem : Nat → UChar) (n : Nat) :
    ∀ i, ((List.range' (8 * i) (8 * n)).countP (flag_at mem)) = popcount_from mem i n := by
  induction n with
  | zero => intro i; simp [popcount_from]
  | succ n ih =>
    intro i
    have e : 8 * (n + 1) = 8 * n + 8 := by omega
    rw [e, ← List.range'_append_1, List.countP_append, popcount_from]
    have e2 : 8 * i + 8 = 8 * (i + 1) := by omega
    rw [e2, ih (i + 1)]
    congr 1
    unfold popcount8
    rw [List.range'_eq_map_range, List.countP_map]
    apply List.countP_congr
    intro k hk
    simp only [List.mem_range] at hk
    simp only [Function.comp, flag_at_byte mem i k hk]

theorem netcat_flag_count_mem (mem : Nat → UChar) :
    netcat_flag_count { flagset := some mem, flagset_len := 8192 }
      = .ok (((List.range 65536).countP (flag_at mem) : Nat) : Int) := by
  unfold netcat_flag_count
  simp only
  rw [flag_count_loop_eq mem 8192 8192 8192 0 0 rfl (Nat.le_refl _)]
  have h := countP_flag_at mem 8192 0
  simp only [Nat.mul_zero, Nat.reduceMul] at h
  rw [← h, List.range_eq_range']
  simp only [zero_add]

/-- Claim C9: after `netcat_flag_init(65535)`, `netcat_flag_count()` returns the number of
ports `p` in `0..65535` with `netcat_flag_get(p) = TRUE` (chars signed, `c >> 7` arithmetic,
`c <<= 1` cut to eight bits). -/
theorem netcat_flag_count_popcount (s : FlagState) (hs : s.Ready) :
    netcat_flag_count s
      = .ok (((List.range 65536).countP
          (fun p => decide (netcat_flag_get s p = .ok true)) : Nat) : Int) := by
  obtain ⟨mem, rfl⟩ := hs.mem
  rw [netcat_flag_count_mem]
  simp only [Outcome.ok.injEq, Nat.cast_inj]
  apply List.countP_congr
  intro p hp
  rw [netcat_flag_get_eq _ mem p rfl rfl (by simpa using hp)]
  simp

theorem NoFlag.trans {mem : Nat → UChar} {a b c : Nat} (h1 : NoFlag mem a b)
    (h2 : NoFlag mem b c) : NoFlag mem a c := by
  intro j hj1 hj2
  by_cases h : j < b
  · exact h1 j hj1 h
  · exact h2 j (by omega) hj2

theorem NoFlag.single {mem : Nat → UChar} {a : Nat} (h : flag_at mem a = false) :
    NoFlag mem a (a + 1) := by
  intro j hj1 hj2
  have : j = a := by omega
  rw [this]; exact h

theorem flag_test_eq (mem : Nat → UChar) (port pos : Nat) (h : port / 8 = pos) :
    (int_and (char_to_int (mem pos)) (one_shl (port % 8)) ≠ 0) ↔ flag_at mem port = true := by
  rw [char_test_bit_lt _ _ (Nat.mod_lt _ (by omega))]
  unfold flag_at
  rw [h]

theorem flag_next_bits_spec (mem : Nat → UChar) (pos : Nat) (m : Nat) :
    ∀ (fuel port : Nat), m ≤ fuel → port < 65536 →
      ((port % 8 = 0 ∧ m = 0) ∨ (port % 8 ≠ 0 ∧ port % 8 + m = 8 ∧ port / 8 = pos)) →
      ∃ r, flag_next_bits 8192 mem pos fuel port = .ok r ∧
        match r with
        | .returned v => (v ≠ 0 ∧ port ≤ v ∧ v < 65536 ∧ flag_at mem v = true
              ∧ NoFlag mem port v) ∨ (v = 0 ∧ NoFlag mem port 65536)
        | .through q => port ≤ q ∧ q % 8 = 0 ∧ q ≤ 65528 ∧ NoFlag mem port q := by
  induction m with
  | zero =>
    intro fuel port _ hp h
    have h0 : port % 8 = 0 := by omega
    refine ⟨.through port, ?_, Nat.le_refl _, h0, by omega, fun j h1 h2 => by omega⟩
    unfold flag_next_bits
    rw [if_neg (by simpa using h0)]
  | succ m ih =>
    intro fuel port hf hp h
    obtain ⟨fuel, rfl⟩ : ∃ f, fuel = f + 1 := ⟨fuel - 1, by omega⟩
    have hk : port % 8 ≠ 0 := by omega
    have hpos : port / 8 = pos := by omega
    unfold flag_next_bits
    rw [if_pos hk]
    simp only
    rw [if_pos (by omega : pos < 8192)]
    by_cases hb : flag_at mem port = true
    · rw [if_pos ((flag_test_eq mem port pos hpos).2 hb)]
      exact ⟨_, rfl, Or.inl ⟨by omega, Nat.le_refl _, hp, hb, fun j h1 h2 => by omega⟩⟩
    · rw [if_neg (fun hh => hb ((flag_test_eq mem port pos hpos).1 hh))]
      have hb' : flag_at mem port = false := by simpa using hb
      by_cases h65 : port = 65535
      · rw [if_pos h65]
        refine ⟨_, rfl, Or.inr ⟨rfl, ?_⟩⟩
        intro j h1 h2
        have : j = port := by omega
        rw [this]; exact hb'
      · rw [if_neg h65]
        have e : (port + 1) % 65536 = port + 1 := Nat.mod_eq_of_lt (by omega)
        rw [e]
        obtain ⟨r, hr, hspec⟩ := ih fuel (port + 1) (by omega) (by omega) (by omega)
        refine ⟨r, hr, ?_⟩
        cases r with
        | returned v =>
          simp only at hspec ⊢
          rcases hspec with ⟨h1, h2, h3, h4, h5⟩ | ⟨h1, h2⟩
          · exact Or.inl ⟨h1, by omega, h3, h4, (NoFlag.single hb').trans h5⟩
          · exact Or.inr ⟨h1, (NoFlag.single hb').trans h2⟩
        | through q =>
          simp only at hspec ⊢
          obtain ⟨h1, h2, h3, h4⟩ := hspec
          exact ⟨by omega, h2, h3, (NoFlag.single hb').trans h4⟩

theorem NoFlag.byte {mem : Nat → UChar} {pos : Nat} (h : mem pos = 0) :
    NoFlag mem (8 * pos) (8 * pos + 8) := by
  intro j h1 h2
  have hj : j = 8 * pos + (j - 8 * pos) := by omega
  rw [hj, flag_at_byte mem pos _ (by omega)]
  exact (char_zero_bits (mem pos)).1 h ⟨j - 8 * pos, by omega⟩

theorem flag_next_bytes_spec (mem : Nat → UChar) (m : Nat) :
    ∀ (fuel pos port : Nat), port = 8 * pos → m ≤ fuel → pos + m = 8191 →
      ∃ pos1 port1, flag_next_bytes 8192 mem fuel pos port = .ok (pos1, port1)
        ∧ port1 = 8 * pos1
        ∧ pos ≤ pos1 ∧ pos1 ≤ 8191 ∧ NoFlag mem port port1
        ∧ (mem pos1 ≠ 0 ∨ pos1 = 8191) := by
  induction m with
  | zero =>
    intro fuel pos port hport _ hp
    subst hport
    have hp' : pos = 8191 := by omega
    subst hp'
    refine ⟨8191, _, ?_, rfl, Nat.le_refl _, Nat.le_refl _, fun j h1 h2 => by omega, Or.inr rfl⟩
    unfold flag_next_bytes
    rw [if_pos (by omega), if_neg (by omega)]
  | succ m ih =>
    intro fuel pos port hport hf hp
    subst hport
    obtain ⟨fuel, rfl⟩ : ∃ f, fuel = f + 1 := ⟨fuel - 1, by omega⟩
    unfold flag_next_bytes
    rw [if_pos (by omega : pos < 8192)]
    by_cases hz : mem pos = 0
    · rw [if_pos ⟨(char_zero_iff _).2 hz, by omega⟩]
      have e : (8 * pos + 8) % 65536 = 8 * pos + 8 := Nat.mod_eq_of_lt (by omega)
      rw [e]
      obtain ⟨pos1, port1, h1, h0, h2, h3, h4, h5⟩ :=
        ih fuel (pos + 1) (8 * pos + 8) (by omega) (by omega) (by omega)
      exact ⟨pos1, port1, h1, h0, by omega, h3, (NoFlag.byte hz).trans h4, h5⟩
    · rw [if_neg (fun hh => hz ((char_zero_iff _).1 hh.1))]
      exact ⟨pos, _, rfl, rfl, Nat.le_refl _, by omega, fun j h1 h2 => by omega, Or.inl hz⟩

theorem flag_next_last_spec (mem : Nat → UChar) (pos : Nat) (hpos : pos ≤ 8191) (m : Nat) :
    ∀ (fuel offset port : Nat), port = 8 * pos + offset → m < fuel → offset + m = 7 →
      1 ≤ port →
      ((∃ k, offset ≤ k ∧ k < 8 ∧ (mem pos).val.testBit k = true) ∨ pos = 8191) →
      ∃ v, flag_next_last 8192 mem pos fuel port offset = .ok v ∧
        ((v ≠ 0 ∧ port ≤ v ∧ v < 65536 ∧ flag_at mem v = true ∧ NoFlag mem port v)
          ∨ (v = 0 ∧ NoFlag mem port 65536)) := by
  induction m with
  | zero =>
    intro fuel offset port hport hf ho h1 hH
    subst hport
    obtain ⟨fuel, rfl⟩ : ∃ f, fuel = f + 1 := ⟨fuel - 1, by omega⟩
    have ho7 : offset = 7 := by omega
    subst ho7
    unfold flag_next_last
    rw [if_pos (by omega)]
    have hft := flag_test_eq mem (8 * pos + 7) pos (by omega)
    have e7 : (8 * pos + 7) % 8 = 7 := by omega
    rw [e7] at hft
    by_cases hb : flag_at mem (8 * pos + 7) = true
    · rw [if_pos (hft.2 hb)]
      exact ⟨_, rfl, Or.inl ⟨by omega, Nat.le_refl _, by omega, hb, fun j h1 h2 => by omega⟩⟩
    · rw [if_neg (fun hh => hb (hft.1 hh))]
      have hb' : flag_at mem (8 * pos + 7) = false := by simpa using hb
      have hp : pos = 8191 := by
        rcases hH with ⟨k, hk1, hk2, hk3⟩ | hp
        · have : k = 7 := by omega
          subst this
          rw [flag_at_byte mem pos 7 (by omega)] at hb'
          rw [hb'] at hk3; exact absurd hk3 (by simp)
        · exact hp
      subst hp
      rw [if_neg (by omega)]
      refine ⟨0, rfl, Or.inr ⟨rfl, ?_⟩⟩
      intro j h1 h2
      have : j = 8 * 8191 + 7 := by omega
      rw [this]; exact hb'
  | succ m ih =>
    intro fuel offset port hport hf ho h1 hH
    subst hport
    obtain ⟨fuel, rfl⟩ : ∃ f, fuel = f + 1 := ⟨fuel - 1, by omega⟩
    unfold flag_next_last
    rw [if_pos (by omega)]
    have hft := flag_test_eq mem (8 * pos + offset) pos (by omega)
    have e7 : (8 * pos + offset) % 8 = offset := by omega
    rw [e7] at hft
    by_cases hb : flag_at mem (8 * pos + offset) = true
    · rw [if_pos (hft.2 hb)]
      exact ⟨_, rfl, Or.inl ⟨by omega, Nat.le_refl _, by omega, hb, fun j h1 h2 => by omega⟩⟩
    · rw [if_neg (fun hh => hb (hft.1 hh))]
      have hb' : flag_at mem (8 * pos + offset) = false := by simpa using hb
      rw [if_pos (by omega)]
      have e : (8 * pos + offset + 1) % 65536 = 8 * pos + offset + 1 :=
        Nat.mod_eq_of_lt (by omega)
      rw [e]
      have hH' : (∃ k, offset + 1 ≤ k ∧ k < 8 ∧ (mem pos).val.testBit k = true)
          ∨ pos = 8191 := by
        rcases hH with ⟨k, hk1, hk2, hk3⟩ | hp
        · by_cases hko : k = offset
          · subst hko
            rw [flag_at_byte mem pos k (by omega)] at hb'
            rw [hb'] at hk3; exact absurd hk3 (by simp)
          · exact Or.inl ⟨k, by omega, hk2, hk3⟩
        · exact Or.inr hp
      obtain ⟨v, hv, hspec⟩ := ih fuel (offset + 1) (8 * pos + offset + 1) (by omega)
        (by omega) (by omega) (by omega) hH'
      refine ⟨v, hv, ?_⟩
      have hs : NoFlag mem (8 * pos + offset) (8 * pos + offset + 1) := NoFlag.single hb'
      rcases hspec with ⟨h1, h2, h3, h4, h5⟩ | ⟨h1, h2⟩
      · exact Or.inl ⟨h1, by omega, h3, h4, hs.trans h5⟩
      · exact Or.inr ⟨h1, hs.trans h2⟩
theorem netcat_flag_next_mem (mem : Nat → UChar) (p : Nat) (hp : p < 65536) :
    ∃ r, netcat_flag_next { flagset := some mem, flagset_len := 8192 } p = .ok r ∧
      ((r = 0 ∧ NoFlag mem (p + 1) 65536)
        ∨ (p < r ∧ r < 65536 ∧ flag_at mem r = true ∧ NoFlag mem (p + 1) r)) := by
  unfold netcat_flag_next
  simp only
  by_cases h65 : p = 65535
  · subst h65
    refine ⟨0, ?_, Or.inl ⟨rfl, fun j h1 h2 => by omega⟩⟩
    rw [if_pos (by omega), if_pos (by omega)]
  · have e : (p + 1) % 65536 = p + 1 := Nat.mod_eq_of_lt (by omega)
    rw [e, if_pos (by omega), if_neg (by omega)]
    obtain ⟨r, hr, hspec⟩ := flag_next_bits_spec mem ((p + 1) / 8)
      (if (p + 1) % 8 = 0 then 0 else 8 - (p + 1) % 8) 8 (p + 1)
      (by split_ifs <;> omega) (by omega) (by split_ifs <;> omega)
    rw [hr]
    simp only [Outcome.bind_ok]
    cases r with
    | returned v =>
      simp only at hspec ⊢
      refine ⟨v, rfl, ?_⟩
      rcases hspec with ⟨h1, h2, h3, h4, h5⟩ | ⟨h1, h2⟩
      · exact Or.inr ⟨by omega, h3, h4, h5⟩
      · exact Or.inl ⟨h1, h2⟩
    | through q =>
      simp only at hspec ⊢
      obtain ⟨h1, h2, h3, h4⟩ := hspec
      obtain ⟨pos1, port1, hb, hb0, hb1, hb2, hb3, hb4⟩ :=
        flag_next_bytes_spec mem (8191 - q / 8) 8192 (q / 8) q (by omega) (by omega) (by omega)
      rw [hb]
      simp only [Outcome.bind_ok]
      have hH : (∃ k, 0 ≤ k ∧ k < 8 ∧ (mem pos1).val.testBit k = true) ∨ pos1 = 8191 := by
        rcases hb4 with hne | h8191
        · left
          by_contra hcon
          apply hne
          apply (char_zero_bits (mem pos1)).2
          intro k
          by_contra hk
          exact hcon ⟨k.val, Nat.zero_le _, k.isLt, by simpa using hk⟩
        · exact Or.inr h8191
      obtain ⟨v, hv, hspec⟩ :=
        flag_next_last_spec mem pos1 hb2 7 65536 0 port1 (by omega) (by omega) (by omega)
          (by omega) hH
      refine ⟨v, hv, ?_⟩
      rcases hspec with ⟨g1, g2, g3, g4, g5⟩ | ⟨g1, g2⟩
      · exact Or.inr ⟨by omega, g3, g4, (h4.trans hb3).trans g5⟩
      · exact Or.inl ⟨g1, (h4.trans hb3).trans g2⟩

/-- Claim C6: after `netcat_flag_init(65535)`, for every port `p` in `0..65535`,
`netcat_flag_next(p)` returns the smallest port `q` with `p < q <= 65535` whose flag is set,
and `0` when there is none; so the result is `0` or greater than `p`, and the flag of a
non-zero result is set. -/
theorem netcat_flag_next_smallest (s : FlagState) (p : Nat) (hs : s.Ready) (hp : p < 65536) :
    ∃ r, netcat_flag_next s p = .ok r ∧
      ((r = 0 ∧ ∀ q, p < q → q < 65536 → netcat_flag_get s q = .ok false)
        ∨ (p < r ∧ r < 65536 ∧ netcat_flag_get s r = .ok true
            ∧ ∀ q, p < q → q < r → netcat_flag_get s q = .ok false))
      ∧ (r = 0 ∨ p < r) ∧ (r ≠ 0 → netcat_flag_get s r = .ok true) := by
  obtain ⟨mem, rfl⟩ := hs.mem
  obtain ⟨r, hr, hspec⟩ := netcat_flag_next_mem mem p hp
  refine ⟨r, hr, ?_, ?_, ?_⟩
  · rcases hspec with ⟨h1, h2⟩ | ⟨h1, h2, h3, h4⟩
    · left
      refine ⟨h1, fun q hq1 hq2 => ?_⟩
      rw [netcat_flag_get_eq _ mem q rfl rfl hq2, h2 q (by omega) hq2]
    · right
      refine ⟨h1, h2, ?_, fun q hq1 hq2 => ?_⟩
      · rw [netcat_flag_get_eq _ mem r rfl rfl h2, h3]
      · rw [netcat_flag_get_eq _ mem q rfl rfl (by omega), h4 q (by omega) hq2]
  · rcases hspec with ⟨h1, _⟩ | ⟨h1, _⟩
    · exact Or.inl h1
    · exact Or.inr h1
  · intro hne
    rcases hspec with ⟨h1, _⟩ | ⟨_, h2, h3, _⟩
    · exact absurd h1 hne
    · rw [netcat_flag_get_eq _ mem r rfl rfl h2, h3]
/-- Claim C10: after `netcat_flag_init(65535)`, for every port `p` in `0..65535` and boolean
`b`, after `netcat_flag_set(p, b)` the call `netcat_flag_get(p)` returns `b`, and
`netcat_flag_get(q)` is unchanged for every other port `q`. -/
theorem netcat_flag_set_get (s : FlagState) (p : Nat) (b : Bool) (hs : s.Ready)
    (hp : p < 65536) :
    ∃ s1, netcat_flag_set s p b = .ok s1 ∧ s1.Ready ∧ netcat_flag_get s1 p = .ok b
      ∧ ∀ q, q < 65536 → q ≠ p → netcat_flag_get s1 q = netcat_flag_get s q := by
  obtain ⟨mem, rfl⟩ := hs.mem
  obtain ⟨mem1, h1, h2⟩ := netcat_flag_set_eq ⟨some mem, 8192⟩ mem p b rfl rfl hp
  refine ⟨_, h1, ⟨rfl, rfl⟩, ?_, ?_⟩
  · rw [netcat_flag_get_eq _ mem1 p rfl rfl hp, h2 p, if_pos rfl]
  · intro q hq hne
    rw [netcat_flag_get_eq _ mem1 q rfl rfl hq, netcat_flag_get_eq _ mem q rfl rfl hq, h2 q,
      if_neg hne]

theorem countP_noFlag (mem : Nat → UChar) (n : Nat) :
    ∀ a, NoFlag mem a (a + n) → (List.range' a n).countP (flag_at mem) = 0 := by
  induction n with
  | zero => intro a _; rfl
  | succ n ih =>
    intro a h
    rw [List.range'_succ, List.countP_cons, ih (a + 1) (fun j h1 h2 => h j (by omega) (by omega)),
      h a (Nat.le_refl _) (by omega)]
    rfl

theorem range'_split (s a b : Nat) :
    List.range' s (a + b) = List.range' s a ++ List.range' (s + a) b := by
  rw [List.range'_append_1, Nat.add_comm]

theorem flags_upto_step (mem : Nat → UChar) (a r : Nat) (har : a < r)
    (hno : NoFlag mem (a + 1) r) (hr : flag_at mem r = true) :
    flags_upto mem r = flags_upto mem a + 1 := by
  obtain ⟨d, rfl⟩ : ∃ d, r = a + d + 1 := ⟨r - a - 1, by omega⟩
  unfold flags_upto
  rw [range'_split 1 (a + d) 1, range'_split 1 a d, List.countP_append, List.countP_append,
    countP_noFlag mem d (1 + a) (fun j h1 h2 => hno j (by omega) (by omega))]
  have e2 : 1 + (a + d) = a + d + 1 := by omega
  rw [e2]
  simp [List.range'_succ, hr]

theorem flags_upto_rest (mem : Nat → UChar) (a : Nat) (ha : a ≤ 65535)
    (hno : NoFlag mem (a + 1) 65536) :
    flags_upto mem 65535 = flags_upto mem a := by
  obtain ⟨d, hd⟩ : ∃ d, 65535 = a + d := ⟨65535 - a, by omega⟩
  unfold flags_upto
  rw [hd, range'_split 1 a d, List.countP_append,
    countP_noFlag mem d (1 + a) (fun j h1 h2 => hno j (by omega) (by omega))]
  rfl

theorem flag_rand_loop_spec (mem : Nat → UChar) (k : Nat) :
    ∀ (ret0 j : Nat),
      ((ret0 = 0 ∧ j = 0) ∨ (0 < ret0 ∧ ret0 < 65536 ∧ flag_at mem ret0 = true
          ∧ flags_upto mem ret0 = j)) →
      j + (k + 1) ≤ flags_upto mem 65535 + 1 →
      (j + (k + 1) = flags_upto mem 65535 + 1 → flag_at mem 0 = true) →
      ∃ ret, flag_rand_loop { flagset := some mem, flagset_len := 8192 } (k + 1) ret0 = .ok ret
        ∧ ret < 65536 ∧ flag_at mem ret = true := by
  induction k with
  | zero =>
    intro ret0 j hinv hle h0
    have hret0 : ret0 < 65536 := by rcases hinv with ⟨h, _⟩ | ⟨_, h, _⟩ <;> omega
    have hj : flags_upto mem ret0 = j := by
      rcases hinv with ⟨h, hj⟩ | ⟨_, _, _, h⟩
      · rw [h, hj]; rfl
      · exact h
    obtain ⟨r, hr, hspec⟩ := netcat_flag_next_mem mem ret0 hret0
    simp only [flag_rand_loop, hr, Outcome.bind_ok]
    refine ⟨r, rfl, ?_⟩
    rcases hspec with ⟨h1, h2⟩ | ⟨h1, h2, h3, _⟩
    · have := flags_upto_rest mem ret0 (by omega) h2
      subst h1
      exact ⟨by omega, h0 (by omega)⟩
    · exact ⟨h2, h3⟩
  | succ k ih =>
    intro ret0 j hinv hle h0
    have hret0 : ret0 < 65536 := by rcases hinv with ⟨h, _⟩ | ⟨_, h, _⟩ <;> omega
    have hj : flags_upto mem ret0 = j := by
      rcases hinv with ⟨h, hj⟩ | ⟨_, _, _, h⟩
      · rw [h, hj]; rfl
      · exact h
    obtain ⟨r, hr, hspec⟩ := netcat_flag_next_mem mem ret0 hret0
    rw [flag_rand_loop]
    simp only [hr, Outcome.bind_ok]
    rcases hspec with ⟨h1, h2⟩ | ⟨h1, h2, h3, h4⟩
    · have := flags_upto_rest mem ret0 (by omega) h2
      omega
    · have hstep := flags_upto_step mem ret0 r h1 h4 h3
      exact ih r (j + 1) (Or.inr ⟨by omega, h2, h3, by omega⟩) (by omega)
        (fun h => h0 (by omega))

theorem countP_range_flags (mem : Nat → UChar) :
    (List.range 65536).countP (flag_at mem)
      = (if flag_at mem 0 = true then 1 else 0) + flags_upto mem 65535 := by
  unfold flags_upto
  rw [List.range_eq_range']
  have e : 65536 = 65535 + 1 := rfl
  rw [e, List.range'_succ, List.countP_cons]
  simp only [zero_add]
  omega

theorem countP_change (f g : Nat → Bool) (N r : Nat) (hr : r < N)
    (hne : ∀ q, q ≠ r → g q = f q) :
    (List.range N).countP g + (if f r = true then 1 else 0)
      = (List.range N).countP f + (if g r = true then 1 else 0) := by
  obtain ⟨d, rfl⟩ : ∃ d, N = r + (1 + d) := ⟨N - r - 1, by omega⟩
  rw [List.range_eq_range', range'_split 0 r (1 + d), range'_split (0 + r) 1 d]
  simp only [List.countP_append, zero_add]
  have h1 : (List.range' 0 r).countP g = (List.range' 0 r).countP f := by
    apply List.countP_congr
    intro q hq
    simp only [List.mem_range'_1] at hq
    rw [hne q (by omega)]
  have h2 : (List.range' (r + 1) d).countP g = (List.range' (r + 1) d).countP f := by
    apply List.countP_congr
    intro q hq
    simp only [List.mem_range'_1] at hq
    rw [hne q (by omega)]
  rw [h1, h2]
  simp only [List.range'_succ, List.range'_zero, List.countP_cons, List.countP_nil, zero_add]
  omega

theorem countP_change_one (f g : Nat → Bool) (N r : Nat) (hr : r < N)
    (hne : ∀ q, q ≠ r → g q = f q) (hf : f r = true) (hg : g r = false) :
    (List.range N).countP g + 1 = (List.range N).countP f := by
  have := countP_change f g N r hr hne
  rw [if_pos hf, hg] at this
  simpa using this

theorem netcat_flag_rand_empty (mem : Nat → UChar) (rand : Nat)
    (h : (List.range 65536).countP (flag_at mem) = 0) :
    netcat_flag_rand { flagset := some mem, flagset_len := 8192 } rand
      = .ok (0, { flagset := some mem, flagset_len := 8192 }) := by
  unfold netcat_flag_rand
  rw [netcat_flag_count_mem, h]
  simp only [Outcome.bind_ok]
  rw [if_pos (by omega)]

theorem netcat_flag_rand_mem (mem : Nat → UChar) (rand : Nat) (h1 : 1 ≤ rand)
    (h2 : rand ≤ (List.range 65536).countP (flag_at mem)) :
    ∃ r mem1, netcat_flag_rand { flagset := some mem, flagset_len := 8192 } rand
        = .ok (r, { flagset := some mem1, flagset_len := 8192 })
      ∧ r < 65536 ∧ flag_at mem r = true
      ∧ ∀ q, flag_at mem1 q = if q = r then false else flag_at mem q := by
  unfold netcat_flag_rand
  rw [netcat_flag_count_mem]
  simp only [Outcome.bind_ok]
  rw [if_neg (by omega)]
  obtain ⟨k, rfl⟩ : ∃ k, rand = k + 1 := ⟨rand - 1, by omega⟩
  have hc := countP_range_flags mem
  obtain ⟨ret, hret, hlt, hflag⟩ := flag_rand_loop_spec mem k 0 0 (Or.inl ⟨rfl, rfl⟩)
    (by split_ifs at hc <;> omega)
    (by intro h; by_contra hcon; rw [if_neg hcon] at hc; omega)
  rw [hret]
  simp only [Outcome.bind_ok]
  obtain ⟨mem1, hs1, hfl⟩ := netcat_flag_set_eq ⟨some mem, 8192⟩ mem ret false rfl rfl hlt
  rw [hs1]
  simp only [Outcome.bind_ok]
  exact ⟨ret, mem1, rfl, hlt, hflag, fun q => by rw [hfl q]⟩

/-- Claim C8: one call of `netcat_flag_rand`, after `netcat_flag_init(65535)`.  If no flag is
set it returns 0 and leaves the flags as they are; otherwise (for every value of `rand`
between 1 and the count) it returns a port whose flag was set, that flag is clear after the
call and every other flag is unchanged. -/
theorem netcat_flag_rand_once (s : FlagState) (rand : Nat) (hs : s.Ready) :
    ((∀ q, q < 65536 → netcat_flag_get s q = .ok false) →
        netcat_flag_rand s rand = .ok (0, s))
    ∧ ((∃ q, q < 65536 ∧ netcat_flag_get s q = .ok true) →
        (∃ n, netcat_flag_count s = .ok n ∧ 1 ≤ rand ∧ (rand : Int) ≤ n) →
        ∃ r s1, netcat_flag_rand s rand = .ok (r, s1) ∧ s1.Ready ∧ r < 65536
          ∧ netcat_flag_get s r = .ok true ∧ netcat_flag_get s1 r = .ok false
          ∧ ∀ q, q < 65536 → q ≠ r → netcat_flag_get s1 q = netcat_flag_get s q) := by
  obtain ⟨mem, rfl⟩ := hs.mem
  constructor
  · intro hnone
    apply netcat_flag_rand_empty
    rw [List.countP_eq_zero]
    intro q hq
    have hq' : q < 65536 := by simpa using hq
    have := hnone q hq'
    rw [netcat_flag_get_eq _ mem q rfl rfl hq'] at this
    simpa using this
  · rintro - ⟨n, hn, h1, h2⟩
    rw [netcat_flag_count_mem] at hn
    simp only [Outcome.ok.injEq] at hn
    subst hn
    obtain ⟨r, mem1, hr, hlt, hflag, hfl⟩ := netcat_flag_rand_mem mem rand h1 (by exact_mod_cast h2)
    refine ⟨r, _, hr, ⟨rfl, rfl⟩, hlt, ?_, ?_, ?_⟩
    · rw [netcat_flag_get_eq _ mem r rfl rfl hlt, hflag]
    · rw [netcat_flag_get_eq _ mem1 r rfl rfl hlt, hfl r, if_pos rfl]
    · intro q hq hne
      rw [netcat_flag_get_eq _ mem1 q rfl rfl hq, netcat_flag_get_eq _ mem q rfl rfl hq, hfl q,
        if_neg hne]

theorem flag_rand_calls_mem (draws : List Nat) :
    ∀ (mem : Nat → UChar), (List.range 65536).countP (flag_at mem) = draws.length →
      draws_in_range { flagset := some mem, flagset_len := 8192 } draws →
      ∃ rs mem1, flag_rand_calls { flagset := some mem, flagset_len := 8192 } draws
          = .ok (rs, { flagset := some mem1, flagset_len := 8192 })
        ∧ rs.length = draws.length
        ∧ (List.range 65536).countP (flag_at mem1) = 0
        ∧ (∀ r, r ∈ rs → r < 65536 ∧ flag_at mem r = true)
        ∧ (∀ q, flag_at mem1 q = true → flag_at mem q = true) := by
  induction draws with
  | nil =>
    intro mem hc _
    exact ⟨[], mem, rfl, rfl, hc, fun r hr => by simp at hr, fun q h => h⟩
  | cons d ds ih =>
    intro mem hc hd
    obtain ⟨⟨n, hn, h1, h2⟩, hrest⟩ := hd
    rw [netcat_flag_count_mem] at hn
    simp only [Outcome.ok.injEq] at hn
    subst hn
    obtain ⟨r, mem1, hr, hlt, hflag, hfl⟩ := netcat_flag_rand_mem mem d h1 (by exact_mod_cast h2)
    have hcount := countP_change_one (flag_at mem) (flag_at mem1) 65536 r hlt
      (fun q hq => by rw [hfl q, if_neg hq]) hflag (by rw [hfl r, if_pos rfl])
    obtain ⟨rs, mem2, hcalls, hlen, hzero, hrs, hsub⟩ := ih mem1
      (by simp only [List.length_cons] at hc; omega) (hrest _ hr)
    have hsub1 : ∀ q, flag_at mem1 q = true → flag_at mem q = true := by
      intro q hq
      rw [hfl q] at hq
      by_cases hqr : q = r
      · rw [if_pos hqr] at hq; exact absurd hq (by simp)
      · rw [if_neg hqr] at hq; exact hq
    refine ⟨r :: rs, mem2, ?_, by simp [hlen], hzero, ?_, fun q hq => hsub1 q (hsub q hq)⟩
    · rw [flag_rand_calls]
      simp only [hr, Outcome.bind_ok, hcalls]
    · intro x hx
      simp only [List.mem_cons] at hx
      rcases hx with rfl | hx
      · exact ⟨hlt, hflag⟩
      · exact ⟨(hrs x hx).1, hsub1 x (hrs x hx).2⟩

/-- Claim C7 (exhaustion): after `netcat_flag_init(65535)`, if `netcat_flag_count()` is `n`,
then `n` successive calls of `netcat_flag_rand`, whatever values between 1 and the current
count the code draws for `rand`, leave no flag set, and every value they returned is a port
whose flag was set in the original state. -/
theorem netcat_flag_rand_exhausts (s : FlagState) (draws : List Nat) (hs : s.Ready)
    (hcount : netcat_flag_count s = .ok (draws.length : Int))
    (hdraws : draws_in_range s draws) :
    ∃ rs s1, flag_rand_calls s draws = .ok (rs, s1) ∧ rs.length = draws.length
      ∧ (∀ q, q < 65536 → netcat_flag_get s1 q = .ok false)
      ∧ (∀ r, r ∈ rs → r < 65536 ∧ netcat_flag_get s r = .ok true) := by
  obtain ⟨mem, rfl⟩ := hs.mem
  rw [netcat_flag_count_mem] at hcount
  simp only [Outcome.ok.injEq, Nat.cast_inj] at hcount
  obtain ⟨rs, mem1, hcalls, hlen, hzero, hrs, _⟩ := flag_rand_calls_mem draws mem hcount hdraws
  refine ⟨rs, _, hcalls, hlen, ?_, ?_⟩
  · intro q hq
    rw [netcat_flag_get_eq _ mem1 q rfl rfl hq]
    rw [List.countP_eq_zero] at hzero
    have := hzero q (by simpa using hq)
    simp only [Bool.not_eq_true] at this
    rw [this]
  · intro r hr
    refine ⟨(hrs r hr).1, ?_⟩
    rw [netcat_flag_get_eq _ mem r rfl rfl (hrs r hr).1, (hrs r hr).2]

theorem netcat_flag_count_set (s : FlagState) (p : Nat) (n : Int) (hs : s.Ready)
    (hp : p < 65536) (hclear : netcat_flag_get s p = .ok false)
    (hn : netcat_flag_count s = .ok n) :
    ∃ s1, netcat_flag_set s p true = .ok s1 ∧ s1.Ready
      ∧ netcat_flag_count s1 = .ok (n + 1) := by
  obtain ⟨mem, rfl⟩ := hs.mem
  obtain ⟨mem1, h1, h2⟩ := netcat_flag_set_eq ⟨some mem, 8192⟩ mem p true rfl rfl hp
  refine ⟨_, h1, ⟨rfl, rfl⟩, ?_⟩
  rw [netcat_flag_count_mem] at hn ⊢
  simp only [Outcome.ok.injEq] at hn ⊢
  rw [netcat_flag_get_eq _ mem p rfl rfl hp] at hclear
  simp only [Outcome.ok.injEq] at hclear
  have := countP_change_one (flag_at mem1) (flag_at mem) 65536 p hp
    (fun q hq => by rw [h2 q, if_neg hq]) (by rw [h2 p, if_pos rfl]) hclear
  omega

theorem draws_in_range_ones (n : Nat) :
    ∀ (mem : Nat → UChar), (List.range 65536).countP (flag_at mem) = n →
      draws_in_range { flagset := some mem, flagset_len := 8192 } (List.replicate n 1) := by
  induction n with
  | zero => intro mem _; exact trivial
  | succ n ih =>
    intro mem hc
    refine ⟨⟨_, netcat_flag_count_mem mem, Nat.le_refl _, by rw [hc]; push_cast; omega⟩, ?_⟩
    intro r hr
    obtain ⟨ret, mem1, hr1, hlt, hflag, hfl⟩ := netcat_flag_rand_mem mem 1 (Nat.le_refl _)
      (by omega)
    rw [hr1] at hr
    simp only [Outcome.ok.injEq] at hr
    subst hr
    apply ih
    have := countP_change_one (flag_at mem) (flag_at mem1) 65536 ret hlt
      (fun q hq => by rw [hfl q, if_neg hq]) hflag (by rw [hfl ret, if_pos rfl])
    omega

theorem flag_demo_ready : flag_demo.Ready := by decide

theorem flag_demo_count : netcat_flag_count flag_demo = .ok 2 := by
  have h0 : netcat_flag_count (netcat_flag_init flag_state_start 65535 true).2 = .ok 0 := by
    have e : (netcat_flag_init flag_state_start 65535 true).2
        = { flagset := some (fun _ => 0), flagset_len := 8192 } := rfl
    rw [e, netcat_flag_count_mem]
    have : (List.range 65536).countP (flag_at (fun _ => 0)) = 0 := by
      rw [List.countP_eq_zero]
      intro q _
      simp [flag_at]
    rw [this]; rfl
  obtain ⟨s1, hs1, hr1, hc1⟩ := netcat_flag_count_set _ 80 0 netcat_flag_init_ready.2
    (by decide) (by decide) h0
  have hg : netcat_flag_get s1 443 = .ok false := by
    have e : netcat_flag_set (netcat_flag_init flag_state_start 65535 true).2 80 true
        = .ok ({ flagset := some (Function.update (fun _ => 0) 10
            (int_to_char (int_or (char_to_int 0) (one_shl 0)))), flagset_len := 8192 }) := by
      rfl
    rw [e] at hs1
    simp only [Outcome.ok.injEq] at hs1
    subst hs1
    decide
  obtain ⟨s2, hs2, _, hc2⟩ := netcat_flag_count_set s1 443 (0 + 1) hr1 (by decide) hg hc1
  have : flag_demo = s2 := by
    unfold flag_demo flag_set_all
    simp only [hs1]
    unfold flag_set_all
    simp only [hs2]
    rfl
  rw [this, hc2]
  rfl

/-- Witness for C6 at the state with ports 80 and 443 flagged, `p = 80`. -/
theorem netcat_flag_next_smallest_witness :
    flag_demo.Ready ∧ 80 < 65536 ∧
    ∃ r, netcat_flag_next flag_demo 80 = .ok r ∧
      ((r = 0 ∧ ∀ q, 80 < q → q < 65536 → netcat_flag_get flag_demo q = .ok false)
        ∨ (80 < r ∧ r < 65536 ∧ netcat_flag_get flag_demo r = .ok true
            ∧ ∀ q, 80 < q → q < r → netcat_flag_get flag_demo q = .ok false))
      ∧ (r = 0 ∨ 80 < r) ∧ (r ≠ 0 → netcat_flag_get flag_demo r = .ok true) :=
  ⟨flag_demo_ready, by decide, netcat_flag_next_smallest flag_demo 80 flag_demo_ready (by decide)⟩

/-- Witness for C9 at the state with ports 80 and 443 flagged. -/
theorem netcat_flag_count_popcount_witness :
    flag_demo.Ready ∧ netcat_flag_count flag_demo
      = .ok (((List.range 65536).countP
          (fun p => decide (netcat_flag_get flag_demo p = .ok true)) : Nat) : Int) :=
  ⟨flag_demo_ready, netcat_flag_count_popcount flag_demo flag_demo_ready⟩

/-- Witness for C10 at the state with ports 80 and 443 flagged: port 443 is cleared. -/
theorem netcat_flag_set_get_witness :
    flag_demo.Ready ∧ 443 < 65536 ∧
    ∃ s1, netcat_flag_set flag_demo 443 false = .ok s1 ∧ s1.Ready
      ∧ netcat_flag_get s1 443 = .ok false
      ∧ ∀ q, q < 65536 → q ≠ 443 → netcat_flag_get s1 q = netcat_flag_get flag_demo q :=
  ⟨flag_demo_ready, by decide,
    netcat_flag_set_get flag_demo 443 false flag_demo_ready (by decide)⟩

/-- Witness for C8 at the state with ports 80 and 443 flagged and `rand = 2`. -/
theorem netcat_flag_rand_once_witness :
    flag_demo.Ready ∧ (∃ q, q < 65536 ∧ netcat_flag_get flag_demo q = .ok true)
    ∧ (∃ n, netcat_flag_count flag_demo = .ok n ∧ 1 ≤ 2 ∧ ((2 : Nat) : Int) ≤ n)
    ∧ ∃ r s1, netcat_flag_rand flag_demo 2 = .ok (r, s1) ∧ s1.Ready ∧ r < 65536
        ∧ netcat_flag_get flag_demo r = .ok true ∧ netcat_flag_get s1 r = .ok false
        ∧ ∀ q, q < 65536 → q ≠ r → netcat_flag_get s1 q = netcat_flag_get flag_demo q :=
  ⟨flag_demo_ready, ⟨80, by decide, by decide⟩, ⟨2, flag_demo_count, by decide, by decide⟩,
    (netcat_flag_rand_once flag_demo 2 flag_demo_ready).2 ⟨80, by decide, by decide⟩
      ⟨2, flag_demo_count, by decide, by decide⟩⟩

/-- Witness for C7 at the state with ports 80 and 443 flagged, `rand = 1` in both calls. -/
theorem netcat_flag_rand_exhausts_witness :
    flag_demo.Ready ∧ netcat_flag_count flag_demo = .ok (([1, 1] : List Nat).length : Int)
    ∧ draws_in_range flag_demo [1, 1]
    ∧ ∃ rs s1, flag_rand_calls flag_demo [1, 1] = .ok (rs, s1) ∧ rs.length = [1, 1].length
      ∧ (∀ q, q < 65536 → netcat_flag_get s1 q = .ok false)
      ∧ (∀ r, r ∈ rs → r < 65536 ∧ netcat_flag_get flag_demo r = .ok true) :=
  have hd : draws_in_range flag_demo [1, 1] := by
    obtain ⟨mem, hm⟩ := flag_demo_ready.mem
    have hc := flag_demo_count
    rw [hm, netcat_flag_count_mem] at hc
    simp only [Outcome.ok.injEq] at hc
    rw [hm]
    exact draws_in_range_ones 2 mem (by exact_mod_cast hc)
  ⟨flag_demo_ready, flag_demo_count, hd,
    netcat_flag_rand_exhausts flag_demo [1, 1] flag_demo_ready flag_demo_count hd⟩

/-! ### Setting and clearing one flag -/

theorem netcat_flag_set_clear_mem (mem : Nat → UChar) (p : Nat) (hp : p < 65536) :
    ∃ s1 s2, netcat_flag_set { flagset := some mem, flagset_len := 8192 } p true = .ok s1
      ∧ netcat_flag_set s1 p false = .ok s2 ∧ s2.Ready
      ∧ netcat_flag_get s2 p = .ok false
      ∧ (∀ q, q < 65536 → q ≠ p → netcat_flag_get s2 q
          = netcat_flag_get { flagset := some mem, flagset_len := 8192 } q)
      ∧ netcat_flag_count s2
          = .ok ((((List.range 65536).countP (flag_at mem) : Nat) : Int)
              - (if flag_at mem p = true then 1 else 0)) := by
  obtain ⟨mem1, h1, f1⟩ := netcat_flag_set_eq ⟨some mem, 8192⟩ mem p true rfl rfl hp
  obtain ⟨mem2, h2, f2⟩ := netcat_flag_set_eq ⟨some mem1, 8192⟩ mem1 p false rfl rfl hp
  refine ⟨_, _, h1, h2, ⟨rfl, rfl⟩, ?_, ?_, ?_⟩
  · rw [netcat_flag_get_eq _ mem2 p rfl rfl hp, f2 p, if_pos rfl]
  · intro q hq hne
    rw [netcat_flag_get_eq _ mem2 q rfl rfl hq, netcat_flag_get_eq _ mem q rfl rfl hq, f2 q,
      if_neg hne, f1 q, if_neg hne]
  · rw [netcat_flag_count_mem]
    have := countP_change (flag_at mem) (flag_at mem2) 65536 p hp
      (fun q hq => by rw [f2 q, if_neg hq, f1 q, if_neg hq])
    have h0 : flag_at mem2 p = false := by rw [f2 p, if_pos rfl]
    rw [h0] at this
    simp only [Bool.false_eq_true, if_false, Nat.add_zero] at this
    simp only [Outcome.ok.injEq]
    by_cases hf : flag_at mem p = true
    · rw [if_pos hf] at this ⊢
      omega
    · rw [if_neg hf] at this ⊢
      omega

/-- Claim C11, as stated, fails when the port is already flagged: with the ports 80 and 443
flagged, `netcat_flag_count()` is 2, and after `netcat_flag_set(80, TRUE)` and
`netcat_flag_set(80, FALSE)` it is 1. -/
theorem netcat_flag_set_clear_count_drops :
    ∃ s1 s2, flag_demo.Ready ∧ netcat_flag_set flag_demo 80 true = .ok s1
      ∧ netcat_flag_set s1 80 false = .ok s2
      ∧ netcat_flag_count flag_demo = .ok 2 ∧ netcat_flag_count s2 = .ok 1 := by
  obtain ⟨mem, hm⟩ := flag_demo_ready.mem
  have hc := flag_demo_count
  have hg : netcat_flag_get flag_demo 80 = .ok true := by decide
  rw [hm] at hc hg
  rw [netcat_flag_count_mem] at hc
  rw [netcat_flag_get_eq _ mem 80 rfl rfl (by decide)] at hg
  simp only [Outcome.ok.injEq] at hc hg
  obtain ⟨s1, s2, h1, h2, _, _, _, h5⟩ := netcat_flag_set_clear_mem mem 80 (by decide)
  refine ⟨s1, s2, flag_demo_ready, ?_, h2, flag_demo_count, ?_⟩
  · rw [hm]; exact h1
  · rw [h5, hc, if_pos hg]; rfl

/-- Claim C11 (amended): after `netcat_flag_init(65535)`, for every port `p` in `0..65535`,
`netcat_flag_set(p, TRUE)` followed by `netcat_flag_set(p, FALSE)` leaves `p` clear and every
other flag as it was; `netcat_flag_count()` then has the value it had before the two calls
when `p` was clear before them, and one less when `p` was flagged. -/
theorem netcat_flag_set_clear (s : FlagState) (p : Nat) (n : Int) (hs : s.Ready)
    (hp : p < 65536) (hn : netcat_flag_count s = .ok n) :
    ∃ s1 s2, netcat_flag_set s p true = .ok s1 ∧ netcat_flag_set s1 p false = .ok s2
      ∧ s2.Ready ∧ netcat_flag_get s2 p = .ok false
      ∧ (∀ q, q < 65536 → q ≠ p → netcat_flag_get s2 q = netcat_flag_get s q)
      ∧ (netcat_flag_get s p = .ok false → netcat_flag_count s2 = .ok n)
      ∧ (netcat_flag_get s p = .ok true → netcat_flag_count s2 = .ok (n - 1)) := by
  obtain ⟨mem, rfl⟩ := hs.mem
  obtain ⟨s1, s2, h1, h2, h3, h4, h5, h6⟩ := netcat_flag_set_clear_mem mem p hp
  rw [netcat_flag_count_mem] at hn
  simp only [Outcome.ok.injEq] at hn
  rw [hn] at h6
  refine ⟨s1, s2, h1, h2, h3, h4, h5, ?_, ?_⟩
  · intro hg
    rw [netcat_flag_get_eq _ mem p rfl rfl hp] at hg
    simp only [Outcome.ok.injEq] at hg
    rw [h6, hg]
    simp
  · intro hg
    rw [netcat_flag_get_eq _ mem p rfl rfl hp] at hg
    simp only [Outcome.ok.injEq] at hg
    rw [h6, hg]
    simp

/-- Witness for C11 at the state with ports 80 and 443 flagged and the clear port 8080. -/
theorem netcat_flag_set_clear_witness :
    flag_demo.Ready ∧ 8080 < 65536 ∧ netcat_flag_count flag_demo = .ok 2 ∧
    ∃ s1 s2, netcat_flag_set flag_demo 8080 true = .ok s1
      ∧ netcat_flag_set s1 8080 false = .ok s2
      ∧ s2.Ready ∧ netcat_flag_get s2 8080 = .ok false
      ∧ (∀ q, q < 65536 → q ≠ 8080 → netcat_flag_get s2 q = netcat_flag_get flag_demo q)
      ∧ (netcat_flag_get flag_demo 8080 = .ok false → netcat_flag_count s2 = .ok 2)
      ∧ (netcat_flag_get flag_demo 8080 = .ok true → netcat_flag_count s2 = .ok (2 - 1)) :=
  ⟨flag_demo_ready, by decide, flag_demo_count,
    netcat_flag_set_clear flag_demo 8080 2 flag_demo_ready (by decide) flag_demo_count⟩

/-! ## Theorems about `core_readwrite` -/

theorem nc_buffer_t.Owned.data_eq {q : nc_buffer_t} (h : q.Owned) (buf buf1 : List UChar) :
    q.data buf = q.data buf1 := by
  unfold nc_buffer_t.data
  rcases h with h | ⟨blk, hb, _⟩
  · cases q.head <;> simp [h]
  · simp [hb]

theorem nc_buffer_t.Owned.valid {q : nc_buffer_t} (h : q.Owned) (buf : List UChar) :
    q.Valid buf := Or.inl h

theorem nc_buffer_t.Valid.length {q : nc_buffer_t} {buf : List UChar} (h : q.Valid buf) :
    (q.data buf).length = q.len := by
  unfold nc_buffer_t.data
  rcases h with (h | ⟨blk, hb, hl⟩) | ⟨hn, hl⟩
  · cases q.head <;> simp [h]
  · simp only [hb, List.length_take, List.length_drop]; omega
  · simp only [hn, List.length_take, List.length_drop]; omega

theorem nc_buffer_zero_owned : nc_buffer_zero.Owned := Or.inl rfl

theorem nc_buffer_zero_data (buf : List UChar) : nc_buffer_zero.data buf = [] := by
  simp [nc_buffer_zero, nc_buffer_t.data]

theorem nc_buffer_t.data_of_len_zero {q : nc_buffer_t} (h : q.len = 0) (buf : List UChar) :
    q.data buf = [] := by
  unfold nc_buffer_t.data
  cases q.head <;> simp [h]

theorem nc_buffer_t.promote_owned {q : nc_buffer_t} {buf : List UChar} (h : q.Valid buf) :
    (q.promote buf).Owned := by
  right
  exact ⟨q.data buf, rfl, by simp [nc_buffer_t.promote, h.length]⟩

theorem nc_buffer_t.promote_data {q : nc_buffer_t} {buf : List UChar} (h : q.Valid buf)
    (buf1 : List UChar) : (q.promote buf).data buf1 = q.data buf := by
  have hl := h.length
  simp only [nc_buffer_t.promote]
  unfold nc_buffer_t.data
  simp only [List.drop_zero]
  exact List.take_of_length_le (Nat.le_of_eq hl)

/-- A queue after `len -= k; pos += k`. -/
theorem nc_buffer_t.advance_valid {q : nc_buffer_t} {buf : List UChar} (h : q.Valid buf)
    (k : Nat) (hk : k ≤ q.len) :
    nc_buffer_t.Valid { q with len := q.len - k, pos := q.pos + k } buf := by
  rcases h with (h | ⟨blk, hb, hl⟩) | ⟨hn, hl⟩
  · exact Or.inl (Or.inl (by simp only; omega))
  · exact Or.inl (Or.inr ⟨blk, hb, by simp only; omega⟩)
  · exact Or.inr ⟨hn, by simp only; omega⟩

theorem nc_buffer_t.advance_owned {q : nc_buffer_t} (h : q.Owned)
    (k : Nat) (hk : k ≤ q.len) :
    nc_buffer_t.Owned { q with len := q.len - k, pos := q.pos + k } := by
  rcases h with h | ⟨blk, hb, hl⟩
  · exact Or.inl (by simp only; omega)
  · exact Or.inr ⟨blk, hb, by simp only; omega⟩

theorem take_drop_split (l : List UChar) (p n k : Nat) (hk : k ≤ n) :
    (l.drop p).take n = ((l.drop p).take n).take k ++ (l.drop (p + k)).take (n - k) := by
  rw [List.take_take, Nat.min_eq_left hk, ← List.drop_drop, ← List.take_add]
  congr 1
  omega

theorem nc_buffer_t.advance_data (q : nc_buffer_t) (buf : List UChar) (k : Nat)
    (hk : k ≤ q.len) :
    q.data buf = (q.data buf).take k
      ++ nc_buffer_t.data { q with len := q.len - k, pos := q.pos + k } buf := by
  unfold nc_buffer_t.data
  cases q.head with
  | none => exact take_drop_split buf q.pos q.len k hk
  | some blk => exact take_drop_split blk q.pos q.len k hk

theorem sendq_settle_spec {q q1 : nc_buffer_t} {buf : List UChar} {m : Bool}
    (h : q.Valid buf) (hs : sendq_settle q buf m = some q1) :
    q1.Owned ∧ ∀ buf1, q1.data buf1 = q.data buf := by
  unfold sendq_settle at hs
  by_cases h0 : q.len = 0
  · rw [if_pos h0] at hs
    cases hs
    exact ⟨nc_buffer_zero_owned, fun b => by
      rw [nc_buffer_zero_data, nc_buffer_t.data_of_len_zero h0]⟩
  · rw [if_neg h0] at hs
    by_cases hn : q.head.isNone = true
    · rw [if_pos hn] at hs
      cases m with
      | true => simp at hs
      | false =>
        simp only [Bool.false_eq_true, if_false, Option.some.injEq] at hs
        subst hs
        exact ⟨nc_buffer_t.promote_owned h, fun b => nc_buffer_t.promote_data h b⟩
    · rw [if_neg hn] at hs
      cases hs
      have ho : q.Owned := by
        rcases h with h | ⟨hnone, _⟩
        · exact h
        · rw [hnone] at hn; simp at hn
      exact ⟨ho, fun b => ho.data_eq b buf⟩

theorem read_queue_valid (d buf : List UChar) :
    nc_buffer_t.Valid { head := none, pos := 0, len := d.length } (d ++ buf.drop d.length) :=
  Or.inr ⟨rfl, by simp⟩

theorem read_queue_data (d buf : List UChar) :
    nc_buffer_t.data { head := none, pos := 0, len := d.length } (d ++ buf.drop d.length)
      = d := by
  simp [nc_buffer_t.data]
/-- The parts of the state the conservation laws speak about. -/
theorem CoreState.Inv.frame {o : CoreOpts} {s s1 : CoreState} (h : s.Inv o)
    (hbuf : s1.buf = s.buf) (h1 : s1.main_sendq = s.main_sendq)
    (h2 : s1.main_recvq = s.main_recvq) (h3 : s1.slave_sendq = s.slave_sendq)
    (h4 : s1.slave_recvq = s.slave_recvq) (t1 : s1.slave_in = s.slave_in)
    (t2 : s1.main_out = s.main_out) (t3 : s1.main_in = s.main_in)
    (t4 : s1.slave_out = s.slave_out) (hd : s1.Discipline) (hw : s1.Watched) : s1.Inv o := by
  obtain ⟨_, _, hA, hB⟩ := h
  refine ⟨hd, hw, ?_, fun ht => ?_⟩
  · unfold CoreState.ConservesToMain at hA ⊢
    rw [hbuf, h1, h4, t1, t2]; exact hA
  · have := hB ht
    unfold CoreState.ConservesToSlave at this ⊢
    rw [hbuf, h2, h3, t3, t4]; exact this

theorem core_loop_top_inv (o : CoreOpts) (e : CoreEnv) (s : CoreState) (h : s.Inv o)
    (hpc : s.pc = .loop_top) : (core_loop_top e o (core_signals e s)).Inv o := by
  have hd := h.1
  unfold CoreState.Discipline at hd
  rw [hpc] at hd
  simp only at hd
  unfold core_loop_top core_signals
  dsimp only
  split_ifs <;>
    refine h.frame rfl rfl rfl rfl rfl rfl rfl rfl rfl
      (by unfold CoreState.Discipline; first | exact hd | trivial) ?_
  all_goals
    unfold CoreState.Watched
    simp only [reduceCtorEq, false_or, or_false, false_implies, true_implies, implies_true,
      and_self, true_and, Bool.and_eq_true, Bool.or_eq_true, decide_eq_true_eq, and_imp]
  all_goals
    first
    | trivial
    | (refine ⟨?_, ?_⟩ <;> intros <;> omega)

theorem CoreState.Watched.of_later {s : CoreState}
    (h1 : s.pc ≠ .slave_read) (h2 : s.pc ≠ .slave_recvq) (h3 : s.pc ≠ .main_sendq)
    (h4 : s.pc ≠ .main_read) : s.Watched :=
  ⟨fun h => absurd h h1, fun h => by rcases h with h | h | h | h <;> contradiction⟩

theorem core_slave_read_inv (o : CoreOpts) (e : CoreEnv) (s : CoreState) (h : s.Inv o)
    (hpc : s.pc = .slave_read) : (core_slave_read e o (core_signals e s)).Inv o := by
  have hinv := h
  obtain ⟨hd, hw, hA, hB⟩ := h
  unfold CoreState.Discipline at hd
  rw [hpc] at hd
  simp only at hd
  obtain ⟨d1, d2, d3, d4⟩ := hd
  have hwm : s.call_select = true → s.ins_sock = true → s.main_recvq.len = 0 :=
    hw.2 (Or.inl hpc)
  have hdisc : ∀ s1 : CoreState, s1.pc = .slave_recvq → s1.buf = s.buf →
      s1.main_sendq = s.main_sendq → s1.main_recvq = s.main_recvq →
      s1.slave_sendq = s.slave_sendq → s1.slave_recvq = s.slave_recvq → s1.Discipline := by
    intro s1 e0 e1 e2 e3 e4 e5
    unfold CoreState.Discipline
    rw [e0]
    simp only
    rw [e1, e2, e3, e4, e5]
    exact ⟨d1, d2, d3, d4.valid _⟩
  have hwat : ∀ s1 : CoreState, s1.pc = .slave_recvq → s1.call_select = s.call_select →
      s1.ins_sock = s.ins_sock → s1.main_recvq = s.main_recvq → s1.Watched := by
    intro s1 e0 e1 e2 e3
    refine ⟨fun hh => by rw [e0] at hh; contradiction, fun _ => ?_⟩
    rw [e1, e2, e3]; exact hwm
  unfold core_slave_read core_signals
  dsimp only
  by_cases hsel : s.call_select = true ∧ s.ins_stdin = true
  · rw [if_pos hsel]
    by_cases hf : e.read_fails = true
    · rw [if_pos hf]
      exact hinv.frame rfl rfl rfl rfl rfl rfl rfl rfl rfl trivial
        (CoreState.Watched.of_later (by simp) (by simp) (by simp) (by simp))
    · rw [if_neg hf]
      by_cases hz : (List.take 1024 e.read_data).length = 0
      · rw [if_pos hz]
        split_ifs
        · exact hinv.frame rfl rfl rfl rfl rfl rfl rfl rfl rfl
            (hdisc _ rfl rfl rfl rfl rfl rfl) (hwat _ rfl rfl rfl rfl)
        · exact hinv.frame rfl rfl rfl rfl rfl rfl rfl rfl rfl
            (hdisc _ rfl rfl rfl rfl rfl rfl) (hwat _ rfl rfl rfl rfl)
      · rw [if_neg hz]
        have hlen0 : s.slave_recvq.len = 0 := hw.1 hpc hsel.1 hsel.2
        refine ⟨?_, hwat _ rfl rfl rfl rfl, ?_, fun ht => ?_⟩
        · unfold CoreState.Discipline
          exact ⟨d1, d2, d3, read_queue_valid _ _⟩
        · unfold CoreState.ConservesToMain at hA ⊢
          dsimp only
          rw [read_queue_data, ← d1.data_eq s.buf, hA,
            nc_buffer_t.data_of_len_zero hlen0]
          simp
        · have := hB ht
          unfold CoreState.ConservesToSlave at this ⊢
          dsimp only
          rw [← d3.data_eq s.buf, ← d2.data_eq s.buf]
          exact this
  · rw [if_neg hsel]
    exact hinv.frame rfl rfl rfl rfl rfl rfl rfl rfl rfl
      (hdisc _ rfl rfl rfl rfl rfl rfl) (hwat _ rfl rfl rfl rfl)

theorem core_main_read_inv (o : CoreOpts) (e : CoreEnv) (s : CoreState) (h : s.Inv o)
    (hpc : s.pc = .main_read) : (core_main_read e (core_signals e s)).Inv o := by
  have hinv := h
  obtain ⟨hd, hw, hA, hB⟩ := h
  unfold CoreState.Discipline at hd
  rw [hpc] at hd
  simp only at hd
  obtain ⟨d1, d2, d3, d4⟩ := hd
  have hdisc : ∀ s1 : CoreState, s1.pc = .main_recvq → s1.buf = s.buf →
      s1.main_sendq = s.main_sendq → s1.main_recvq = s.main_recvq →
      s1.slave_sendq = s.slave_sendq → s1.slave_recvq = s.slave_recvq → s1.Discipline := by
    intro s1 e0 e1 e2 e3 e4 e5
    unfold CoreState.Discipline
    rw [e0]
    simp only
    rw [e1, e2, e3, e4, e5]
    exact ⟨d1, d2.valid _, d3, d4⟩
  have hwat : ∀ s1 : CoreState, s1.pc = .main_recvq → s1.Watched := fun s1 e0 =>
    CoreState.Watched.of_later (by rw [e0]; simp) (by rw [e0]; simp) (by rw [e0]; simp)
      (by rw [e0]; simp)
  unfold core_main_read core_signals
  dsimp only
  by_cases hsel : s.call_select = true ∧ s.ins_sock = true
  · rw [if_pos hsel]
    by_cases hf : e.read_fails = true
    · rw [if_pos hf]
      exact hinv.frame rfl rfl rfl rfl rfl rfl rfl rfl rfl trivial
        (CoreState.Watched.of_later (by simp) (by simp) (by simp) (by simp))
    · rw [if_neg hf]
      by_cases hz : (List.take 1024 e.read_data).length = 0
      · rw [if_pos hz]
        exact hinv.frame rfl rfl rfl rfl rfl rfl rfl rfl rfl
          (hdisc _ rfl rfl rfl rfl rfl rfl) (hwat _ rfl)
      · rw [if_neg hz]
        have hlen0 : s.main_recvq.len = 0 := hw.2 (Or.inr (Or.inr (Or.inr hpc))) hsel.1 hsel.2
        refine ⟨?_, hwat _ rfl, ?_, fun ht => ?_⟩
        · unfold CoreState.Discipline
          exact ⟨d1, read_queue_valid _ _, d3, d4⟩
        · unfold CoreState.ConservesToMain at hA ⊢
          dsimp only
          rw [← d1.data_eq s.buf, ← d4.data_eq s.buf]
          exact hA
        · have := hB ht
          unfold CoreState.ConservesToSlave at this ⊢
          dsimp only
          rw [read_queue_data, ← d3.data_eq s.buf, this,
            nc_buffer_t.data_of_len_zero hlen0]
          simp
  · rw [if_neg hsel]
    exact hinv.frame rfl rfl rfl rfl rfl rfl rfl rfl rfl
      (hdisc _ rfl rfl rfl rfl rfl rfl) (hwat _ rfl)
theorem nc_buffer_t.Valid.owned_of_head {q : nc_buffer_t} {buf : List UChar} (h : q.Valid buf)
    (hn : ¬ q.head.isNone = true) : q.Owned := by
  rcases h with h | ⟨hnone, _⟩
  · exact h
  · rw [hnone] at hn; simp at hn

theorem core_slave_recvq_inv (o : CoreOpts) (e : CoreEnv) (s : CoreState) (h : s.Inv o)
    (hpc : s.pc = .slave_recvq) : (core_slave_recvq e (core_signals e s)).Inv o := by
  have hinv := h
  obtain ⟨hd, hw, hA, hB⟩ := h
  unfold CoreState.Discipline at hd
  rw [hpc] at hd
  simp only at hd
  obtain ⟨d1, d2, d3, d4⟩ := hd
  have hwm : s.call_select = true → s.ins_sock = true → s.main_recvq.len = 0 :=
    hw.2 (Or.inr (Or.inl hpc))
  have hwat : ∀ s1 : CoreState, s1.pc = .main_sendq → s1.call_select = s.call_select →
      s1.ins_sock = s.ins_sock → s1.main_recvq = s.main_recvq → s1.Watched := by
    intro s1 e0 e1 e2 e3
    refine ⟨fun hh => by rw [e0] at hh; contradiction, fun _ => ?_⟩
    rw [e1, e2, e3]; exact hwm
  have hB' : ∀ s1 : CoreState, s1.buf = s.buf → s1.main_recvq = s.main_recvq →
      s1.slave_sendq = s.slave_sendq → s1.main_in = s.main_in → s1.slave_out = s.slave_out →
      o.opt_telnet = false → s1.ConservesToSlave := by
    intro s1 e1 e2 e3 e4 e5 ht
    have := hB ht
    unfold CoreState.ConservesToSlave at this ⊢
    rw [e1, e2, e3, e4, e5]; exact this
  unfold core_slave_recvq core_signals
  dsimp only
  by_cases hlen : 0 < s.slave_recvq.len
  · rw [if_pos hlen]
    by_cases hm : s.main_sendq.len = 0
    · rw [if_pos hm]
      refine ⟨?_, hwat _ rfl rfl rfl rfl, ?_, hB' _ rfl rfl rfl rfl rfl⟩
      · unfold CoreState.Discipline
        exact ⟨d4, d2, d3, nc_buffer_zero_owned⟩
      · unfold CoreState.ConservesToMain at hA ⊢
        dsimp only
        rw [hA, nc_buffer_t.data_of_len_zero hm, nc_buffer_zero_data]
        simp
    · rw [if_neg hm]
      by_cases hn : s.slave_recvq.head.isNone = true
      · rw [if_pos hn]
        by_cases hmal : e.malloc_null = true
        · rw [if_pos hmal]
          exact hinv.frame rfl rfl rfl rfl rfl rfl rfl rfl rfl trivial
            (CoreState.Watched.of_later (by simp) (by simp) (by simp) (by simp))
        · rw [if_neg hmal]
          refine ⟨?_, hwat _ rfl rfl rfl rfl, ?_, hB' _ rfl rfl rfl rfl rfl⟩
          · unfold CoreState.Discipline
            exact ⟨d1.valid _, d2, d3, nc_buffer_t.promote_owned d4⟩
          · unfold CoreState.ConservesToMain at hA ⊢
            dsimp only
            rw [nc_buffer_t.promote_data d4]
            exact hA
      · rw [if_neg hn]
        refine hinv.frame rfl rfl rfl rfl rfl rfl rfl rfl rfl ?_ (hwat _ rfl rfl rfl rfl)
        unfold CoreState.Discipline
        exact ⟨d1.valid _, d2, d3, d4.owned_of_head hn⟩
  · rw [if_neg hlen]
    refine hinv.frame rfl rfl rfl rfl rfl rfl rfl rfl rfl ?_ (hwat _ rfl rfl rfl rfl)
    unfold CoreState.Discipline
    exact ⟨d1.valid _, d2, d3, Or.inl (Nat.eq_zero_of_not_pos hlen)⟩

theorem newline_scan_le (l : List UChar) : newline_scan l ≤ l.length := by
  induction l with
  | nil => exact Nat.le_refl _
  | cons c cs ih =>
    unfold newline_scan
    split_ifs
    · simp
    · simp only [List.length_cons]; omega

theorem core_handle_signal_inv (o : CoreOpts) (e : CoreEnv) (s : CoreState) (h : s.Inv o)
    (hpc : s.pc = .handle_signal) : (core_handle_signal (core_signals e s)).Inv o := by
  have hd := h.1
  unfold CoreState.Discipline at hd
  rw [hpc] at hd
  simp only at hd
  unfold core_handle_signal core_signals
  dsimp only
  split_ifs <;>
    exact h.frame rfl rfl rfl rfl rfl rfl rfl rfl rfl
      (by unfold CoreState.Discipline; exact hd)
      (CoreState.Watched.of_later (by simp) (by simp) (by simp) (by simp))
theorem write_sent_le (len data_len : Nat) (w : Int) (hdl : data_len ≤ len) :
    (if w < (data_len : Int) then w.toNat else data_len) ≤ len := by
  split_ifs <;> omega

theorem write_accepted (data : List UChar) (data_len : Nat) (w : Int) :
    (data.take data_len).take w.toNat
      = data.take (if w < (data_len : Int) then w.toNat else data_len) := by
  rw [List.take_take]
  congr 1
  split_ifs <;> omega

theorem core_main_sendq_inv (o : CoreOpts) (e : CoreEnv) (s : CoreState) (h : s.Inv o)
    (hpc : s.pc = .main_sendq) : (core_main_sendq e o (core_signals e s)).Inv o := by
  have hinv := h
  obtain ⟨hd, hw, hA, hB⟩ := h
  unfold CoreState.Discipline at hd
  rw [hpc] at hd
  simp only at hd
  obtain ⟨d1, d2, d3, d4⟩ := hd
  have hwm : s.call_select = true → s.ins_sock = true → s.main_recvq.len = 0 :=
    hw.2 (Or.inr (Or.inr (Or.inl hpc)))
  have hwat : ∀ s1 : CoreState, s1.pc = .main_read → s1.call_select = s.call_select →
      s1.ins_sock = s.ins_sock → s1.main_recvq = s.main_recvq → s1.Watched := by
    intro s1 e0 e1 e2 e3
    refine ⟨fun hh => by rw [e0] at hh; contradiction, fun _ => ?_⟩
    rw [e1, e2, e3]; exact hwm
  have hB' : ∀ s1 : CoreState, s1.buf = s.buf → s1.main_recvq = s.main_recvq →
      s1.slave_sendq = s.slave_sendq → s1.main_in = s.main_in → s1.slave_out = s.slave_out →
      o.opt_telnet = false → s1.ConservesToSlave := by
    intro s1 e1 e2 e3 e4 e5 ht
    have := hB ht
    unfold CoreState.ConservesToSlave at this ⊢
    rw [e1, e2, e3, e4, e5]; exact this
  have hlater : ∀ s1 : CoreState, s1.pc = .undefined ∨ s1.pc = .exited → s1.Watched := by
    intro s1 hs1
    rcases hs1 with hs1 | hs1 <;>
      exact CoreState.Watched.of_later (by rw [hs1]; simp) (by rw [hs1]; simp)
        (by rw [hs1]; simp) (by rw [hs1]; simp)
  unfold core_main_sendq core_signals
  dsimp only
  by_cases hlen : 0 < s.main_sendq.len
  · rw [if_pos hlen]
    by_cases hskip : o.opt_interval ≠ 0 ∧ (s.delayer_sec ≠ 0 ∨ s.delayer_usec ≠ 0)
    · rw [if_pos hskip]
      cases hset : sendq_settle s.main_sendq s.buf e.malloc_null with
      | none =>
        exact hinv.frame rfl rfl rfl rfl rfl rfl rfl rfl rfl trivial (hlater _ (Or.inl rfl))
      | some q1 =>
        obtain ⟨ho, hdata⟩ := sendq_settle_spec d1 hset
        refine ⟨?_, hwat _ rfl rfl rfl rfl, ?_, hB' _ rfl rfl rfl rfl rfl⟩
        · unfold CoreState.Discipline
          exact ⟨ho, d2, d3, d4⟩
        · unfold CoreState.ConservesToMain at hA ⊢
          dsimp only
          rw [hdata]; exact hA
    · rw [if_neg hskip]
      by_cases hex : e.write_ret < 0 ∧ ¬ e.write_eagain = true
      · rw [if_pos hex]
        exact hinv.frame rfl rfl rfl rfl rfl rfl rfl rfl rfl trivial (hlater _ (Or.inr rfl))
      · rw [if_neg hex]
        generalize hdl : (if o.opt_interval ≠ 0 then newline_scan (s.main_sendq.data s.buf)
          else s.main_sendq.len) = data_len
        generalize hwr : (if e.write_ret < 0 then (0 : Int) else e.write_ret) = w
        have hdle : data_len ≤ s.main_sendq.len := by
          rw [← hdl]
          split_ifs
          · have := newline_scan_le (s.main_sendq.data s.buf)
            rw [d1.length] at this; exact this
          · exact Nat.le_refl _
        have hsent := write_sent_le s.main_sendq.len data_len w hdle
        have hacc := write_accepted (s.main_sendq.data s.buf) data_len w
        generalize (if w < (data_len : Int) then w.toNat else data_len) = sent at hsent hacc
        have hv := nc_buffer_t.advance_valid d1 sent hsent
        have hdata := nc_buffer_t.advance_data s.main_sendq s.buf sent hsent
        have hA1 : s.slave_in = (s.main_out ++ List.take w.toNat
              (List.take data_len (s.main_sendq.data s.buf)))
            ++ ((nc_buffer_t.mk s.main_sendq.head (s.main_sendq.pos + sent)
                  (s.main_sendq.len - sent)).data s.buf ++ s.slave_recvq.data s.buf) := by
          unfold CoreState.ConservesToMain at hA
          rw [hacc, hA]
          conv_lhs => rw [hdata]
          simp only [List.append_assoc]
        cases hset : sendq_settle (nc_buffer_t.mk s.main_sendq.head (s.main_sendq.pos + sent)
              (s.main_sendq.len - sent)) s.buf e.malloc_null with
        | none =>
          refine ⟨trivial, hlater _ (Or.inl rfl), ?_, hB' _ rfl rfl rfl rfl rfl⟩
          unfold CoreState.ConservesToMain
          exact hA1
        | some q1 =>
          obtain ⟨ho, hdq⟩ := sendq_settle_spec hv hset
          refine ⟨?_, hwat _ rfl rfl rfl rfl, ?_, hB' _ rfl rfl rfl rfl rfl⟩
          · unfold CoreState.Discipline
            exact ⟨ho, d2, d3, d4⟩
          · unfold CoreState.ConservesToMain
            dsimp only
            rw [hdq]; exact hA1
  · rw [if_neg hlen]
    refine hinv.frame rfl rfl rfl rfl rfl rfl rfl rfl rfl ?_ (hwat _ rfl rfl rfl rfl)
    unfold CoreState.Discipline
    exact ⟨Or.inl (Nat.eq_zero_of_not_pos hlen), d2, d3, d4⟩
theorem core_slave_sendq_inv (o : CoreOpts) (e : CoreEnv) (s : CoreState) (h : s.Inv o)
    (hpc : s.pc = .slave_sendq) : (core_slave_sendq e (core_signals e s)).Inv o := by
  have hinv := h
  obtain ⟨hd, hw, hA, hB⟩ := h
  unfold CoreState.Discipline at hd
  rw [hpc] at hd
  simp only at hd
  obtain ⟨d1, d2, d3, d4⟩ := hd
  have hwat : ∀ s1 : CoreState, s1.pc = .handle_signal ∨ s1.pc = .undefined
      ∨ s1.pc = .exited ∨ s1.pc = .aborted → s1.Watched := by
    intro s1 hs1
    rcases hs1 with hs1 | hs1 | hs1 | hs1 <;>
      exact CoreState.Watched.of_later (by rw [hs1]; simp) (by rw [hs1]; simp)
        (by rw [hs1]; simp) (by rw [hs1]; simp)
  have hA' : ∀ s1 : CoreState, s1.buf = s.buf → s1.main_sendq = s.main_sendq →
      s1.slave_recvq = s.slave_recvq → s1.slave_in = s.slave_in → s1.main_out = s.main_out →
      s1.ConservesToMain := by
    intro s1 e1 e2 e3 e4 e5
    unfold CoreState.ConservesToMain at hA ⊢
    rw [e1, e2, e3, e4, e5]; exact hA
  unfold core_slave_sendq core_signals
  dsimp only
  by_cases hlen : 0 < s.slave_sendq.len
  · rw [if_pos hlen]
    by_cases hex : e.write_ret < 0
    · rw [if_pos hex]
      exact hinv.frame rfl rfl rfl rfl rfl rfl rfl rfl rfl trivial
        (hwat _ (Or.inr (Or.inr (Or.inl rfl))))
    · rw [if_neg hex]
      by_cases hab : ¬ (0 < e.write_ret ∧ e.write_ret ≤ (s.slave_sendq.len : Int))
      · rw [if_pos hab]
        exact hinv.frame rfl rfl rfl rfl rfl rfl rfl rfl rfl trivial
          (hwat _ (Or.inr (Or.inr (Or.inr rfl))))
      · rw [if_neg hab]
        have hab' : 0 < e.write_ret ∧ e.write_ret ≤ (s.slave_sendq.len : Int) := by
          by_contra hc; exact hab hc
        have hsent := write_sent_le s.slave_sendq.len s.slave_sendq.len e.write_ret
          (Nat.le_refl _)
        have hacc : (s.slave_sendq.data s.buf).take e.write_ret.toNat
            = (s.slave_sendq.data s.buf).take
              (if e.write_ret < (s.slave_sendq.len : Int) then e.write_ret.toNat
                else s.slave_sendq.len) := by
          congr 1
          split_ifs <;> omega
        generalize (if e.write_ret < (s.slave_sendq.len : Int) then e.write_ret.toNat
          else s.slave_sendq.len) = sent at hsent hacc
        have hv := nc_buffer_t.advance_valid d3 sent hsent
        have hdata := nc_buffer_t.advance_data s.slave_sendq s.buf sent hsent
        have hB1 : o.opt_telnet = false →
            s.main_in = (s.slave_out ++ List.take e.write_ret.toNat (s.slave_sendq.data s.buf))
            ++ ((nc_buffer_t.mk s.slave_sendq.head (s.slave_sendq.pos + sent)
                  (s.slave_sendq.len - sent)).data s.buf ++ s.main_recvq.data s.buf) := by
          intro ht
          have hB0 := hB ht
          unfold CoreState.ConservesToSlave at hB0
          rw [hacc, hB0]
          conv_lhs => rw [hdata]
          simp only [List.append_assoc]
        cases hset : sendq_settle (nc_buffer_t.mk s.slave_sendq.head (s.slave_sendq.pos + sent)
              (s.slave_sendq.len - sent)) s.buf e.malloc_null with
        | none =>
          refine ⟨trivial, hwat _ (Or.inr (Or.inl rfl)), hA' _ rfl rfl rfl rfl rfl, ?_⟩
          intro ht
          unfold CoreState.ConservesToSlave
          exact hB1 ht
        | some q1 =>
          obtain ⟨ho, hdq⟩ := sendq_settle_spec hv hset
          refine ⟨?_, hwat _ (Or.inl rfl), hA' _ rfl rfl rfl rfl rfl, ?_⟩
          · unfold CoreState.Discipline
            exact ⟨d1, d2, ho, d4⟩
          · intro ht
            unfold CoreState.ConservesToSlave
            dsimp only
            rw [hdq]; exact hB1 ht
  · rw [if_neg hlen]
    refine hinv.frame rfl rfl rfl rfl rfl rfl rfl rfl rfl ?_ (hwat _ (Or.inl rfl))
    unfold CoreState.Discipline
    exact ⟨d1, d2, Or.inl (Nat.eq_zero_of_not_pos hlen), d4⟩
theorem block_store_length (blk bytes : List UChar) (pos : Nat)
    (h : pos + bytes.length ≤ blk.length) : (block_store blk pos bytes).length = blk.length := by
  unfold block_store
  simp only [List.length_append, List.length_take, List.length_drop]
  omega

theorem nc_buffer_t.Valid.cases_pos {q : nc_buffer_t} {buf : List UChar} (h : q.Valid buf)
    (hlen : 0 < q.len) :
    (∃ blk, q.head = some blk ∧ q.pos + q.len ≤ blk.length)
      ∨ (q.head = none ∧ q.pos + q.len ≤ buf.length) := by
  rcases h with (h | h) | h
  · omega
  · exact Or.inl h
  · exact Or.inr h

theorem core_telnet_pre (o : CoreOpts) (s s1 : CoreState) (h : s.PreTransfer o)
    (hlen : 0 < s.main_recvq.len) (ht : core_telnet o s = .ok s1) :
    s1.PreTransfer o ∧ s1.pc = s.pc := by
  obtain ⟨p1, p2, p3, p4, hA, hB⟩ := h
  unfold core_telnet at ht
  by_cases hon : o.opt_telnet = true
  · rw [if_pos hon] at ht
    obtain ⟨r, hr, ht⟩ := (Outcome.bind_eq_ok _ _ _).1 ht
    obtain ⟨hl1, hl2⟩ := netcat_telnet_parse_len _ _ _ hr
    rw [p2.length] at hl1 hl2
    simp only [Outcome.ok.injEq] at ht
    have hBoff : o.opt_telnet = false → s1.ConservesToSlave := by
      intro hoff; rw [hon] at hoff; exact absurd hoff (by simp)
    rcases p2.cases_pos hlen with ⟨blk, hblk, hfit⟩ | ⟨hnone, hfit⟩
    · rw [hblk] at ht
      dsimp only at ht
      subst ht
      refine ⟨⟨p1, ?_, p3, p4, ?_, hBoff⟩, rfl⟩
      · refine Or.inl (Or.inr ⟨_, rfl, ?_⟩)
        dsimp only
        rw [block_store_length _ _ _ (by omega)]
        omega
      · unfold CoreState.ConservesToMain at hA ⊢
        exact hA
    · rw [hnone] at ht
      dsimp only at ht
      subst ht
      refine ⟨⟨p1, ?_, p3, p4, ?_, hBoff⟩, rfl⟩
      · refine Or.inr ⟨rfl, ?_⟩
        dsimp only
        rw [block_store_length _ _ _ (by omega)]
        omega
      · unfold CoreState.ConservesToMain at hA ⊢
        dsimp only
        rw [← p1.data_eq s.buf, ← p4.data_eq s.buf]
        exact hA
  · rw [if_neg hon] at ht
    simp only [Outcome.ok.injEq] at ht
    subst ht
    exact ⟨⟨p1, p2, p3, p4, hA, hB⟩, rfl⟩

theorem core_recvq_transfer_inv (o : CoreOpts) (e : CoreEnv) (s : CoreState)
    (h : s.PreTransfer o) : (core_recvq_transfer e s).Inv o := by
  obtain ⟨p1, p2, p3, p4, hA, hB⟩ := h
  have hwat : ∀ s1 : CoreState, s1.pc = .slave_sendq ∨ s1.pc = .undefined → s1.Watched := by
    intro s1 hs1
    rcases hs1 with hs1 | hs1 <;>
      exact CoreState.Watched.of_later (by rw [hs1]; simp) (by rw [hs1]; simp)
        (by rw [hs1]; simp) (by rw [hs1]; simp)
  have hA' : ∀ s1 : CoreState, s1.buf = s.buf → s1.main_sendq = s.main_sendq →
      s1.slave_recvq = s.slave_recvq → s1.slave_in = s.slave_in → s1.main_out = s.main_out →
      s1.ConservesToMain := by
    intro s1 e1 e2 e3 e4 e5
    unfold CoreState.ConservesToMain at hA ⊢
    rw [e1, e2, e3, e4, e5]; exact hA
  have hB' : ∀ s1 : CoreState, s1.buf = s.buf → s1.main_recvq = s.main_recvq →
      s1.slave_sendq = s.slave_sendq → s1.main_in = s.main_in → s1.slave_out = s.slave_out →
      o.opt_telnet = false → s1.ConservesToSlave := by
    intro s1 e1 e2 e3 e4 e5 ht
    have := hB ht
    unfold CoreState.ConservesToSlave at this ⊢
    rw [e1, e2, e3, e4, e5]; exact this
  unfold core_recvq_transfer
  by_cases hlen : 0 < s.main_recvq.len
  · rw [if_pos hlen]
    by_cases hm : s.slave_sendq.len = 0
    · rw [if_pos hm]
      refine ⟨?_, hwat _ (Or.inl rfl), hA' _ rfl rfl rfl rfl rfl, fun ht => ?_⟩
      · unfold CoreState.Discipline
        exact ⟨p1, nc_buffer_zero_owned, p2, p4⟩
      · have := hB ht
        unfold CoreState.ConservesToSlave at this ⊢
        dsimp only
        rw [this, nc_buffer_t.data_of_len_zero hm, nc_buffer_zero_data]
        simp
    · rw [if_neg hm]
      by_cases hn : s.main_recvq.head.isNone = true
      · rw [if_pos hn]
        by_cases hmal : e.malloc_null = true
        · rw [if_pos hmal]
          exact ⟨trivial, hwat _ (Or.inr rfl), hA' _ rfl rfl rfl rfl rfl,
            hB' _ rfl rfl rfl rfl rfl⟩
        · rw [if_neg hmal]
          refine ⟨?_, hwat _ (Or.inl rfl), hA' _ rfl rfl rfl rfl rfl, fun ht => ?_⟩
          · unfold CoreState.Discipline
            exact ⟨p1, nc_buffer_t.promote_owned p2, p3.valid _, p4⟩
          · have := hB ht
            unfold CoreState.ConservesToSlave at this ⊢
            dsimp only
            rw [nc_buffer_t.promote_data p2]
            exact this
      · rw [if_neg hn]
        refine ⟨?_, hwat _ (Or.inl rfl), hA' _ rfl rfl rfl rfl rfl, hB' _ rfl rfl rfl rfl rfl⟩
        unfold CoreState.Discipline
        exact ⟨p1, p2.owned_of_head hn, p3.valid _, p4⟩
  · rw [if_neg hlen]
    refine ⟨?_, hwat _ (Or.inl rfl), hA' _ rfl rfl rfl rfl rfl, hB' _ rfl rfl rfl rfl rfl⟩
    unfold CoreState.Discipline
    exact ⟨p1, Or.inl (Nat.eq_zero_of_not_pos hlen), p3.valid _, p4⟩

theorem core_main_recvq_inv (o : CoreOpts) (e : CoreEnv) (s : CoreState) (h : s.Inv o)
    (hpc : s.pc = .main_recvq) : (core_main_recvq e o (core_signals e s)).Inv o := by
  have hinv := h
  obtain ⟨hd, hw, hA, hB⟩ := h
  unfold CoreState.Discipline at hd
  rw [hpc] at hd
  simp only at hd
  obtain ⟨d1, d2, d3, d4⟩ := hd
  have hpre : (core_signals e s).PreTransfer o := by
    refine ⟨d1, d2, d3, d4, ?_, fun ht => ?_⟩
    · unfold CoreState.ConservesToMain at hA ⊢; exact hA
    · have := hB ht
      unfold CoreState.ConservesToSlave at this ⊢; exact this
  unfold core_main_recvq
  by_cases hlen : 0 < (core_signals e s).main_recvq.len
  · rw [if_pos hlen]
    cases ht : core_telnet o (core_signals e s) with
    | ok s1 =>
      dsimp only
      exact core_recvq_transfer_inv o e s1 (core_telnet_pre o _ s1 hpre hlen ht).1
    | undefined =>
      dsimp only
      exact hinv.frame rfl rfl rfl rfl rfl rfl rfl rfl rfl trivial
        (CoreState.Watched.of_later (by simp) (by simp) (by simp) (by simp))
    | aborted =>
      dsimp only
      exact hinv.frame rfl rfl rfl rfl rfl rfl rfl rfl rfl trivial
        (CoreState.Watched.of_later (by simp) (by simp) (by simp) (by simp))
    | outOfFuel =>
      dsimp only
      exact hinv.frame rfl rfl rfl rfl rfl rfl rfl rfl rfl trivial
        (CoreState.Watched.of_later (by simp) (by simp) (by simp) (by simp))
  · rw [if_neg hlen]
    refine hinv.frame rfl rfl rfl rfl rfl rfl rfl rfl rfl ?_
      (CoreState.Watched.of_later (by simp) (by simp) (by simp) (by simp))
    unfold CoreState.Discipline
    exact ⟨d1, Or.inl (Nat.eq_zero_of_not_pos hlen), d3.valid _, d4⟩

theorem core_step_inv (o : CoreOpts) (e : CoreEnv) (s : CoreState) (h : s.Inv o) :
    (core_step o s e).Inv o := by
  unfold core_step
  cases hpc : s.pc with
  | loop_top => exact core_loop_top_inv o e s h hpc
  | slave_read => exact core_slave_read_inv o e s h hpc
  | slave_recvq => exact core_slave_recvq_inv o e s h hpc
  | main_sendq => exact core_main_sendq_inv o e s h hpc
  | main_read => exact core_main_read_inv o e s h hpc
  | main_recvq => exact core_main_recvq_inv o e s h hpc
  | slave_sendq => exact core_slave_sendq_inv o e s h hpc
  | handle_signal => exact core_handle_signal_inv o e s h hpc
  | returned => exact h
  | exited => exact h
  | aborted => exact h
  | undefined => exact h

theorem core_readwrite_entry_inv (o : CoreOpts) (s : CoreState) (h : s.EntryOk) :
    (core_readwrite_entry s).Inv o := by
  obtain ⟨h1, h2, h3, h4⟩ := h
  refine ⟨⟨h1, h2, h3, h4⟩,
    CoreState.Watched.of_later (by simp [core_readwrite_entry])
      (by simp [core_readwrite_entry]) (by simp [core_readwrite_entry])
      (by simp [core_readwrite_entry]), ?_, fun _ => ?_⟩
  · unfold CoreState.ConservesToMain core_readwrite_entry
    simp
  · unfold CoreState.ConservesToSlave core_readwrite_entry
    simp

theorem core_steps_inv (o : CoreOpts) (es : List CoreEnv) :
    ∀ s : CoreState, s.Inv o → (es.foldl (core_step o) s).Inv o := by
  induction es with
  | nil => intro s h; exact h
  | cons e es ih => intro s h; exact ih _ (core_step_inv o e s h)

theorem core_readwrite_inv (o : CoreOpts) (s : CoreState) (es : List CoreEnv) (h : s.EntryOk) :
    (core_readwrite o s es).Inv o :=
  core_steps_inv o es _ (core_readwrite_entry_inv o s h)
theorem core_state_idle_entryOk : core_state_idle.EntryOk :=
  ⟨Or.inl rfl, Or.inl rfl, Or.inl rfl, Or.inl rfl⟩

/-- Counterexample to claim C3: with telnet mode off, a run of `core_readwrite` that returns
after the bytes `a b c` were received from the main socket and only `a b` were accepted by
the slave output. -/
theorem core_main_byte_dropped :
    opts_plain.opt_telnet = false
      ∧ (core_readwrite opts_plain core_state_idle run_main_bytes).pc = .returned
      ∧ (core_readwrite opts_plain core_state_idle run_main_bytes).main_in = [97, 98, 99]
      ∧ (core_readwrite opts_plain core_state_idle run_main_bytes).slave_out = [97, 98] := by
  decide!

/-- Claim C3 as amended: with telnet mode off, at every point of every run of
`core_readwrite` (so also when it returns), the bytes received from the main socket are, in
order, the bytes accepted by writes to the slave output, then the bytes held in
`nc_slave->sendq`, then those held in `nc_main->recvq`: each received byte is written at
most once, in order, and what the two queues hold when the loop ends is dropped. -/
theorem core_main_bytes_conserved (o : CoreOpts) (s : CoreState) (es : List CoreEnv)
    (h : s.EntryOk) (ht : o.opt_telnet = false) :
    (core_readwrite o s es).main_in
      = (core_readwrite o s es).slave_out
        ++ ((core_readwrite o s es).slave_sendq.data (core_readwrite o s es).buf
          ++ (core_readwrite o s es).main_recvq.data (core_readwrite o s es).buf) :=
  (core_readwrite_inv o s es h).2.2.2 ht

/-- Witness for the amended claim C3, on the run of its counterexample. -/
theorem core_main_bytes_conserved_witness :
    core_state_idle.EntryOk ∧ opts_plain.opt_telnet = false ∧
    (core_readwrite opts_plain core_state_idle run_main_bytes).main_in
      = (core_readwrite opts_plain core_state_idle run_main_bytes).slave_out
        ++ ((core_readwrite opts_plain core_state_idle run_main_bytes).slave_sendq.data
              (core_readwrite opts_plain core_state_idle run_main_bytes).buf
          ++ (core_readwrite opts_plain core_state_idle run_main_bytes).main_recvq.data
              (core_readwrite opts_plain core_state_idle run_main_bytes).buf) :=
  ⟨core_state_idle_entryOk, rfl,
    core_main_bytes_conserved opts_plain core_state_idle run_main_bytes
      core_state_idle_entryOk rfl⟩

/-- Claim C4 (FIFO order per direction): with telnet mode off, at every point of every run
of `core_readwrite`, the bytes accepted so far by writes to the main socket are a prefix of
the bytes read so far from the slave input, and the bytes accepted so far by writes to the
slave output are a prefix of the bytes read so far from the main socket. -/
theorem core_fifo_order (o : CoreOpts) (s : CoreState) (es : List CoreEnv)
    (h : s.EntryOk) (ht : o.opt_telnet = false) :
    (core_readwrite o s es).main_out <+: (core_readwrite o s es).slave_in
      ∧ (core_readwrite o s es).slave_out <+: (core_readwrite o s es).main_in := by
  obtain ⟨_, _, hA, hB⟩ := core_readwrite_inv o s es h
  exact ⟨⟨_, hA.symm⟩, ⟨_, (hB ht).symm⟩⟩

/-- Witness for claim C4, on a run with partial writes. -/
theorem core_fifo_order_witness :
    core_state_idle.EntryOk ∧ opts_plain.opt_telnet = false ∧
    (core_readwrite opts_plain core_state_idle run_main_bytes).main_out
        <+: (core_readwrite opts_plain core_state_idle run_main_bytes).slave_in
      ∧ (core_readwrite opts_plain core_state_idle run_main_bytes).slave_out
        <+: (core_readwrite opts_plain core_state_idle run_main_bytes).main_in :=
  ⟨core_state_idle_entryOk, rfl,
    core_fifo_order opts_plain core_state_idle run_main_bytes core_state_idle_entryOk rfl⟩

/-- Claim C5 fails on the code: in this run with telnet mode on, the block `A IAC IAC`
arrives while `nc_slave->sendq` still holds a byte; after its parse (13 steps and the
section `main_recvq`) it stays in `nc_main->recvq` as `A 0xFF`.  In the next pass of the
loop (steps 17-22) it is passed through `netcat_telnet_parse` a second time before it is
transferred: the second call takes the data byte `0xFF` for an `IAC` and removes it, and
leaves `l = 1`.  The slave output gets `B C A`, where one call on the whole input keeps
`B C A 0xFF`. -/
theorem core_telnet_parsed_twice :
    (core_readwrite opts_telnet core_state_idle (run_telnet_twice.take 14)).parses = 1
      ∧ (core_readwrite opts_telnet core_state_idle (run_telnet_twice.take 14)).main_recvq.data
          (core_readwrite opts_telnet core_state_idle (run_telnet_twice.take 14)).buf = [65, 255]
      ∧ (core_readwrite opts_telnet core_state_idle (run_telnet_twice.take 14)).slave_sendq.len = 1
      ∧ (core_readwrite opts_telnet core_state_idle (run_telnet_twice.take 22)).parses = 2
      ∧ (core_readwrite opts_telnet core_state_idle (run_telnet_twice.take 22)).pc = .slave_sendq
      ∧ (core_readwrite opts_telnet core_state_idle (run_telnet_twice.take 22)).slave_sendq.data
          (core_readwrite opts_telnet core_state_idle (run_telnet_twice.take 22)).buf = [65]
      ∧ (core_readwrite opts_telnet core_state_idle run_telnet_twice).pc = .loop_top
      ∧ (core_readwrite opts_telnet core_state_idle run_telnet_twice).main_in
          = [66, 67, 65, 255, 255]
      ∧ (core_readwrite opts_telnet core_state_idle run_telnet_twice).slave_out = [66, 67, 65]
      ∧ (core_readwrite opts_telnet core_state_idle run_telnet_twice).main_recvq.len = 0
      ∧ (core_readwrite opts_telnet core_state_idle run_telnet_twice).slave_sendq.len = 0
      ∧ (core_readwrite opts_telnet core_state_idle run_telnet_twice).telnet.l = 1
      ∧ (netcat_telnet_parse telnet_static_init [66, 67, 65, 255, 255]).bind
          (fun r => .ok (r.stripped, r.static.l)) = .ok ([66, 67, 65, 255], 0) := by
  decide!

/-! ### End of file on the slave input, and pacing -/

/-- What `netcat_telnet_parse` leaves alone in the state of `core_readwrite`. -/
theorem core_telnet_frame (o : CoreOpts) (s s1 : CoreState) (h : core_telnet o s = .ok s1) :
    s1.pc = s.pc ∧ s1.use_stdin = s.use_stdin ∧ s1.ins_stdin = s.ins_stdin
      ∧ s1.slave_in = s.slave_in ∧ s1.inloop = s.inloop
      ∧ s1.delayer_sec = s.delayer_sec ∧ s1.delayer_usec = s.delayer_usec
      ∧ s1.main_writes = s.main_writes ∧ s1.main_sendq = s.main_sendq := by
  unfold core_telnet at h
  split_ifs at h with ht
  · rw [Outcome.bind_eq_ok] at h
    obtain ⟨r, _, hr⟩ := h
    simp only [Outcome.ok.injEq] at hr
    subst hr
    split <;> simp
  · simp only [Outcome.ok.injEq] at h
    subst h
    simp

/-- What the transfer of `nc_main->recvq` leaves alone. -/
theorem core_recvq_transfer_frame (e : CoreEnv) (s : CoreState) :
    (core_recvq_transfer e s).pc ≠ .slave_read ∧ (core_recvq_transfer e s).pc ≠ .loop_top
      ∧ (core_recvq_transfer e s).use_stdin = s.use_stdin
      ∧ (core_recvq_transfer e s).slave_in = s.slave_in
      ∧ (core_recvq_transfer e s).inloop = s.inloop
      ∧ (core_recvq_transfer e s).delayer_sec = s.delayer_sec
      ∧ (core_recvq_transfer e s).delayer_usec = s.delayer_usec
      ∧ (core_recvq_transfer e s).main_writes = s.main_writes := by
  unfold core_recvq_transfer
  split_ifs <;> simp

/-- What the handling of `nc_main->recvq` leaves alone. -/
theorem core_main_recvq_frame (e : CoreEnv) (o : CoreOpts) (s : CoreState) :
    (core_main_recvq e o s).pc ≠ .slave_read ∧ (core_main_recvq e o s).pc ≠ .loop_top
      ∧ (core_main_recvq e o s).use_stdin = s.use_stdin
      ∧ (core_main_recvq e o s).slave_in = s.slave_in
      ∧ (core_main_recvq e o s).inloop = s.inloop
      ∧ (core_main_recvq e o s).delayer_sec = s.delayer_sec
      ∧ (core_main_recvq e o s).delayer_usec = s.delayer_usec
      ∧ (core_main_recvq e o s).main_writes = s.main_writes := by
  unfold core_main_recvq
  split_ifs
  · cases ht : core_telnet o s with
    | ok s1 =>
      simp only
      obtain ⟨_, f2, _, f4, f5, f6, f7, f8, _⟩ := core_telnet_frame o s s1 ht
      obtain ⟨g1, g1', g2, g3, g4, g5, g6, g7⟩ := core_recvq_transfer_frame e s1
      exact ⟨g1, g1', g2.trans f2, g3.trans f4, g4.trans f5, g5.trans f6, g6.trans f7,
        g7.trans f8⟩
    | undefined => simp
    | aborted => simp
    | outOfFuel => simp
  · simp

/-- The standard input stays closed: once `use_stdin` is FALSE outside tunnel mode, no step
puts the slave input in the read set or reads from it. -/
theorem core_step_stdin_closed (o : CoreOpts) (e : CoreEnv) (u : CoreState) (c : List UChar)
    (ht : o.tunnel = false) (h1 : u.use_stdin = false)
    (h2 : u.pc = .slave_read → u.ins_stdin = false) (h3 : u.slave_in = c) :
    (core_step o u e).use_stdin = false
      ∧ ((core_step o u e).pc = .slave_read → (core_step o u e).ins_stdin = false)
      ∧ (core_step o u e).slave_in = c := by
  unfold core_step
  cases hpc : u.pc with
  | loop_top =>
    simp only
    unfold core_loop_top core_signals
    dsimp only
    split_ifs <;> simp [h1, h3, ht]
  | slave_read =>
    simp only
    unfold core_slave_read core_signals
    dsimp only
    rw [h2 hpc]
    simp [h1, h3]
  | slave_recvq =>
    simp only
    unfold core_slave_recvq core_signals
    dsimp only
    split_ifs <;> simp [h1, h3]
  | main_sendq =>
    simp only
    unfold core_main_sendq core_signals
    dsimp only
    split_ifs <;> (try split) <;> simp [h1, h3]
  | main_read =>
    simp only
    unfold core_main_read core_signals
    dsimp only
    split_ifs <;> simp [h1, h3]
  | main_recvq =>
    simp only
    obtain ⟨g1, _, g2, g3, _⟩ := core_main_recvq_frame e o (core_signals e u)
    refine ⟨g2.trans ?_, fun h => absurd h g1, g3.trans ?_⟩
    · simp [core_signals, h1]
    · simp [core_signals, h3]
  | slave_sendq =>
    simp only
    unfold core_slave_sendq core_signals
    dsimp only
    split_ifs <;> (try split) <;> simp [h1, h3]
  | handle_signal =>
    simp only
    unfold core_handle_signal core_signals
    dsimp only
    split_ifs <;> simp [h1, h3]
  | returned => simp only; exact ⟨h1, fun h => absurd (hpc ▸ h) (by simp), h3⟩
  | exited => simp only; exact ⟨h1, fun h => absurd (hpc ▸ h) (by simp), h3⟩
  | aborted => simp only; exact ⟨h1, fun h => absurd (hpc ▸ h) (by simp), h3⟩
  | undefined => simp only; exact ⟨h1, fun h => absurd (hpc ▸ h) (by simp), h3⟩

theorem core_steps_stdin_closed (o : CoreOpts) (ht : o.tunnel = false) (c : List UChar)
    (es : List CoreEnv) :
    ∀ u : CoreState, u.use_stdin = false → (u.pc = .slave_read → u.ins_stdin = false) →
      u.slave_in = c →
      (es.foldl (core_step o) u).use_stdin = false
        ∧ ((es.foldl (core_step o) u).pc = .slave_read →
            (es.foldl (core_step o) u).ins_stdin = false)
        ∧ (es.foldl (core_step o) u).slave_in = c := by
  induction es with
  | nil => intro u h1 h2 h3; exact ⟨h1, h2, h3⟩
  | cons e es ih =>
    intro u h1 h2 h3
    obtain ⟨k1, k2, k3⟩ := core_step_stdin_closed o e u c ht h1 h2 h3
    exact ih _ k1 k2 k3

/-- The section that reads the slave input is entered only from the top of the loop, with
`inloop` TRUE. -/
theorem core_step_slave_read (o : CoreOpts) (e : CoreEnv) (s : CoreState)
    (h : (core_step o s e).pc = .slave_read) : (core_step o s e).inloop = true := by
  unfold core_step at h ⊢
  cases hpc : s.pc with
  | loop_top =>
    simp only [hpc] at h ⊢
    unfold core_loop_top core_signals at h ⊢
    dsimp only at h ⊢
    split_ifs at h ⊢ <;> simp_all
  | slave_read =>
    simp only [hpc] at h
    unfold core_slave_read core_signals at h
    dsimp only at h
    split_ifs at h
  | slave_recvq =>
    simp only [hpc] at h
    unfold core_slave_recvq core_signals at h
    dsimp only at h
    split_ifs at h
  | main_sendq =>
    simp only [hpc] at h
    unfold core_main_sendq core_signals at h
    dsimp only at h
    split_ifs at h <;> (try split at h) <;> simp at h
  | main_read =>
    simp only [hpc] at h
    unfold core_main_read core_signals at h
    dsimp only at h
    split_ifs at h
  | main_recvq =>
    simp only [hpc] at h
    exact absurd h (core_main_recvq_frame e o (core_signals e s)).1
  | slave_sendq =>
    simp only [hpc] at h
    unfold core_slave_sendq core_signals at h
    dsimp only at h
    split_ifs at h <;> (try split at h) <;> simp at h
  | handle_signal =>
    simp only [hpc] at h
    unfold core_handle_signal core_signals at h
    dsimp only at h
    split_ifs at h
  | returned => simp only [hpc] at h; simp at h
  | exited => simp only [hpc] at h; simp at h
  | aborted => simp only [hpc] at h; simp at h
  | undefined => simp only [hpc] at h; simp at h

theorem core_steps_slave_read (o : CoreOpts) (es : List CoreEnv) :
    ∀ s : CoreState, (s.pc = .slave_read → s.inloop = true) →
      (es.foldl (core_step o) s).pc = .slave_read → (es.foldl (core_step o) s).inloop = true := by
  induction es with
  | nil => intro s hs h; exact hs h
  | cons e es ih =>
    intro s hs h
    exact ih _ (core_step_slave_read o e s) h

/-- Claim C19: when a read from the slave input returns 0 (`read` is called in the section
that reads the slave input, does not fail and stores no byte), `inloop` becomes FALSE exactly
when the mode is tunnel or `opt_eofclose` is set; otherwise `use_stdin` becomes FALSE, `inloop`
stays TRUE, and at every later point of the run `use_stdin` is FALSE, the slave input is not in
the read set when the reading section is reached, and no byte has been read from it. -/
theorem core_slave_eof (o : CoreOpts) (s : CoreState) (es : List CoreEnv) (e : CoreEnv)
    (hpc : (core_readwrite o s es).pc = .slave_read)
    (hsel : (core_readwrite o s es).call_select = true)
    (hin : (core_readwrite o s es).ins_stdin = true)
    (hread : e.read_fails = false) (hzero : e.read_data = []) :
    ((core_step o (core_readwrite o s es) e).inloop = false
        ↔ (o.tunnel = true ∨ o.opt_eofclose = true))
    ∧ (¬ (o.tunnel = true ∨ o.opt_eofclose = true) →
        (core_step o (core_readwrite o s es) e).use_stdin = false
        ∧ (core_step o (core_readwrite o s es) e).inloop = true
        ∧ (core_step o (core_readwrite o s es) e).pc = .slave_recvq
        ∧ ∀ es2 : List CoreEnv,
            (es2.foldl (core_step o) (core_step o (core_readwrite o s es) e)).use_stdin = false
            ∧ ((es2.foldl (core_step o) (core_step o (core_readwrite o s es) e)).pc
                  = .slave_read →
                (es2.foldl (core_step o) (core_step o (core_readwrite o s es) e)).ins_stdin
                  = false)
            ∧ (es2.foldl (core_step o) (core_step o (core_readwrite o s es) e)).slave_in
                = (core_readwrite o s es).slave_in) := by
  have hloop : (core_readwrite o s es).inloop = true :=
    core_steps_slave_read o es (core_readwrite_entry s)
      (fun h => by simp [core_readwrite_entry] at h) hpc
  generalize core_readwrite o s es = t at hpc hsel hin hloop
  have hstep : core_step o t e
      = if o.tunnel = true ∨ o.opt_eofclose = true then
          { core_signals e t with inloop := false, pc := .slave_recvq }
        else { core_signals e t with use_stdin := false, pc := .slave_recvq } := by
    unfold core_step
    simp only [hpc]
    unfold core_slave_read
    have h1 : (core_signals e t).call_select = true ∧ (core_signals e t).ins_stdin = true :=
      ⟨hsel, hin⟩
    rw [if_pos h1]
    simp only [hread, hzero, Bool.false_eq_true, if_false, List.take_nil, List.length_nil,
      if_true]
  constructor
  · rw [hstep]
    split_ifs with hc
    · simp [hc]
    · simp only [hc, iff_false]
      simp [core_signals, hloop]
  · intro hc
    have ht : o.tunnel = false := by
      cases h : o.tunnel with
      | false => rfl
      | true => exact absurd (Or.inl h) hc
    rw [hstep, if_neg hc]
    refine ⟨rfl, by simp [core_signals, hloop], rfl, fun es2 => ?_⟩
    exact core_steps_stdin_closed o ht t.slave_in es2 _ rfl (fun h => by simp at h)
      (by simp [core_signals])

/-- Witness for C19: standard input is reported ready and `read` returns 0, plain options. -/
theorem core_slave_eof_witness :
    (core_readwrite opts_plain core_state_idle [{ env_idle with ready_stdin_in := true }]).pc
        = .slave_read
    ∧ env_idle.read_fails = false ∧ env_idle.read_data = []
    ∧ ((core_step opts_plain
          (core_readwrite opts_plain core_state_idle [{ env_idle with ready_stdin_in := true }])
          env_idle).inloop = false
        ↔ (opts_plain.tunnel = true ∨ opts_plain.opt_eofclose = true)) :=
  ⟨by decide!, rfl, rfl,
    (core_slave_eof opts_plain core_state_idle [{ env_idle with ready_stdin_in := true }]
      env_idle (by decide!) (by decide!) (by decide!) rfl rfl).1⟩

theorem newline_scan_eq (data : List UChar) :
    newline_scan data = if (10 : UChar) ∈ data then data.indexOf 10 + 1 else data.length := by
  induction data with
  | nil => simp [newline_scan]
  | cons c cs ih =>
    unfold newline_scan
    by_cases hc : c = 10
    · subst hc
      simp
    · rw [if_neg hc, ih]
      have hc' : ¬ (10 : UChar) = c := fun h => hc h.symm
      by_cases hm : (10 : UChar) ∈ cs
      · have : (10 : UChar) ∈ c :: cs := List.mem_cons_of_mem _ hm
        rw [if_pos hm, if_pos this, List.indexOf_cons_ne _ (Ne.symm hc')]
        omega
      · have : ¬ (10 : UChar) ∈ c :: cs := by
          simp only [List.mem_cons, not_or]; exact ⟨hc', hm⟩
        rw [if_neg hm, if_neg this, List.length_cons]
        omega

/-- The sections other than the top of the loop and the writing of `nc_main->sendq` neither
touch `delayer` nor call `write` on the main socket. -/
theorem core_step_no_write (o : CoreOpts) (e : CoreEnv) (t : CoreState)
    (h1 : t.pc ≠ .loop_top) (h2 : t.pc ≠ .main_sendq) :
    (core_step o t e).delayer_sec = t.delayer_sec
      ∧ (core_step o t e).delayer_usec = t.delayer_usec
      ∧ (core_step o t e).main_writes = t.main_writes := by
  unfold core_step
  cases hpc : t.pc with
  | loop_top => exact absurd hpc h1
  | main_sendq => exact absurd hpc h2
  | slave_read =>
    simp only
    unfold core_slave_read core_signals
    dsimp only
    split_ifs <;> simp
  | slave_recvq =>
    simp only
    unfold core_slave_recvq core_signals
    dsimp only
    split_ifs <;> simp
  | main_read =>
    simp only
    unfold core_main_read core_signals
    dsimp only
    split_ifs <;> simp
  | main_recvq =>
    simp only
    obtain ⟨_, _, _, _, _, g1, g2, g3⟩ := core_main_recvq_frame e o (core_signals e t)
    exact ⟨g1, g2, g3⟩
  | slave_sendq =>
    simp only
    unfold core_slave_sendq core_signals
    dsimp only
    split_ifs <;> (try split) <;> simp
  | handle_signal =>
    simp only
    unfold core_handle_signal core_signals
    dsimp only
    split_ifs <;> simp
  | returned => simp
  | exited => simp
  | aborted => simp
  | undefined => simp

/-- The top of the loop does not call `write`. -/
theorem core_step_loop_top_writes (o : CoreOpts) (e : CoreEnv) (t : CoreState)
    (h : t.pc = .loop_top) : (core_step o t e).main_writes = t.main_writes := by
  unfold core_step
  simp only [h]
  unfold core_loop_top core_signals
  dsimp only
  split_ifs <;> simp

/-- The section that writes `nc_main->sendq` (core.c 705-781): with a non-empty queue, and,
when pacing is on, `delayer` at zero, it calls `write` once, with the bytes up to the first
newline when pacing is on, and arms `delayer`; otherwise it does not call `write`. -/
theorem core_step_main_sendq (o : CoreOpts) (e : CoreEnv) (t : CoreState)
    (h : t.pc = .main_sendq) :
    (0 < t.main_sendq.len ∧ ¬ (o.opt_interval ≠ 0 ∧ (t.delayer_sec ≠ 0 ∨ t.delayer_usec ≠ 0)) →
      (core_step o t e).main_writes = t.main_writes
          ++ [(t.main_sendq.data t.buf).take
                (if o.opt_interval ≠ 0 then newline_scan (t.main_sendq.data t.buf)
                 else t.main_sendq.len)]
        ∧ (core_step o t e).delayer_sec
            = (if o.opt_interval ≠ 0 then o.opt_interval else t.delayer_sec)
        ∧ (core_step o t e).delayer_usec = t.delayer_usec)
    ∧ (¬ (0 < t.main_sendq.len
          ∧ ¬ (o.opt_interval ≠ 0 ∧ (t.delayer_sec ≠ 0 ∨ t.delayer_usec ≠ 0))) →
      (core_step o t e).main_writes = t.main_writes
        ∧ (core_step o t e).delayer_sec = t.delayer_sec
        ∧ (core_step o t e).delayer_usec = t.delayer_usec) := by
  unfold core_step
  simp only [h]
  unfold core_main_sendq core_signals
  dsimp only
  constructor
  · rintro ⟨h1, h2⟩
    rw [if_pos h1, if_neg h2]
    split_ifs <;> (try split) <;> simp
  · intro h1
    by_cases hl : 0 < t.main_sendq.len
    · have h2 : o.opt_interval ≠ 0 ∧ (t.delayer_sec ≠ 0 ∨ t.delayer_usec ≠ 0) := by
        by_contra hc
        exact h1 ⟨hl, hc⟩
      rw [if_pos hl, if_pos h2]
      split <;> simp
    · rw [if_neg hl]
      simp

/-- A step that calls `write` on the main socket is a step of the section that writes
`nc_main->sendq`, taken with a non-empty queue and, when pacing is on, `delayer` at zero. -/
theorem core_step_write_cond (o : CoreOpts) (e : CoreEnv) (t : CoreState)
    (h : (core_step o t e).main_writes ≠ t.main_writes) :
    t.pc = .main_sendq ∧ 0 < t.main_sendq.len
      ∧ ¬ (o.opt_interval ≠ 0 ∧ (t.delayer_sec ≠ 0 ∨ t.delayer_usec ≠ 0)) := by
  by_cases h1 : t.pc = .loop_top
  · exact absurd (core_step_loop_top_writes o e t h1) h
  · by_cases h2 : t.pc = .main_sendq
    · refine ⟨h2, ?_⟩
      by_contra hc
      have hc' : ¬ (0 < t.main_sendq.len
          ∧ ¬ (o.opt_interval ≠ 0 ∧ (t.delayer_sec ≠ 0 ∨ t.delayer_usec ≠ 0))) := hc
      exact h ((core_step_main_sendq o e t h2).2 hc').1
    · exact absurd (core_step_no_write o e t h1 h2).2.2 h

/-- With pacing on, a step that finds `delayer` set and leaves it at zero is an expiry. -/
theorem core_step_expiry (o : CoreOpts) (e : CoreEnv) (t : CoreState)
    (hi : o.opt_interval ≠ 0) (hd : t.delayer_sec ≠ 0 ∨ t.delayer_usec ≠ 0)
    (h0 : (core_step o t e).delayer_sec = 0 ∧ (core_step o t e).delayer_usec = 0) :
    delayer_expires o t e := by
  by_cases h1 : t.pc = .loop_top
  · exact ⟨h1, hd, h0.1, h0.2⟩
  · exfalso
    by_cases h2 : t.pc = .main_sendq
    · have hc : ¬ (0 < t.main_sendq.len
          ∧ ¬ (o.opt_interval ≠ 0 ∧ (t.delayer_sec ≠ 0 ∨ t.delayer_usec ≠ 0))) :=
        fun hh => hh.2 ⟨hi, hd⟩
      obtain ⟨_, k1, k2⟩ := (core_step_main_sendq o e t h2).2 hc
      rw [k1, k2] at h0
      rcases hd with hd | hd
      · exact hd h0.1
      · exact hd h0.2
    · obtain ⟨k1, k2, _⟩ := core_step_no_write o e t h1 h2
      rw [k1, k2] at h0
      rcases hd with hd | hd
      · exact hd h0.1
      · exact hd h0.2

/-- With pacing on, `delayer` goes from set to zero only through an expiry. -/
theorem core_steps_expiry (o : CoreOpts) (hi : o.opt_interval ≠ 0) (es : List CoreEnv) :
    ∀ t : CoreState, (t.delayer_sec ≠ 0 ∨ t.delayer_usec ≠ 0) →
      ((es.foldl (core_step o) t).delayer_sec ≠ 0 ∨ (es.foldl (core_step o) t).delayer_usec ≠ 0)
      ∨ ∃ p e1 q, es = p ++ e1 :: q ∧ delayer_expires o (p.foldl (core_step o) t) e1 := by
  induction es with
  | nil => intro t hd; exact Or.inl hd
  | cons e es ih =>
    intro t hd
    by_cases h0 : (core_step o t e).delayer_sec = 0 ∧ (core_step o t e).delayer_usec = 0
    · exact Or.inr ⟨[], e, es, rfl, core_step_expiry o e t hi hd h0⟩
    · have hd1 : (core_step o t e).delayer_sec ≠ 0 ∨ (core_step o t e).delayer_usec ≠ 0 := by
        by_contra hc
        push_neg at hc
        exact h0 hc
      rcases ih _ hd1 with h | ⟨p, e1, q, hq, hx⟩
      · exact Or.inl h
      · exact Or.inr ⟨e :: p, e1, q, by rw [hq]; rfl, hx⟩

/-- With telnet mode off nothing but the section that writes `nc_main->sendq` writes to the
main socket: `netcat_telnet_parse` is not called and `telnet_out` stays as it is. -/
theorem core_step_telnet_off (o : CoreOpts) (e : CoreEnv) (t : CoreState)
    (ht : o.opt_telnet = false) : (core_step o t e).telnet_out = t.telnet_out := by
  unfold core_step
  cases hpc : t.pc with
  | loop_top =>
    simp only
    unfold core_loop_top core_signals
    dsimp only
    split_ifs <;> simp
  | slave_read =>
    simp only
    unfold core_slave_read core_signals
    dsimp only
    split_ifs <;> simp
  | slave_recvq =>
    simp only
    unfold core_slave_recvq core_signals
    dsimp only
    split_ifs <;> simp
  | main_sendq =>
    simp only
    unfold core_main_sendq core_signals
    dsimp only
    split_ifs <;> (try split) <;> simp
  | main_read =>
    simp only
    unfold core_main_read core_signals
    dsimp only
    split_ifs <;> simp
  | main_recvq =>
    simp only
    unfold core_main_recvq core_telnet core_recvq_transfer core_signals
    simp only [ht, Bool.false_eq_true, if_false]
    split_ifs <;> simp
  | slave_sendq =>
    simp only
    unfold core_slave_sendq core_signals
    dsimp only
    split_ifs <;> (try split) <;> simp
  | handle_signal =>
    simp only
    unfold core_handle_signal core_signals
    dsimp only
    split_ifs <;> simp
  | returned => simp
  | exited => simp
  | aborted => simp
  | undefined => simp

/-- Claim C18 as amended: with `opt_interval > 0`, at every point `t` of a run of
`core_readwrite`: a step taken while `delayer` is non-zero does not call
`write(fd_sock, ...)`, the write of `nc_main->sendq`, and with telnet mode off, when
`netcat_telnet_parse` sends no replies, it writes nothing at all to the main socket; a step
of the section that writes `nc_main->sendq`, taken with a non-empty queue and `delayer` at
zero, calls `write` once, with the bytes of the queue up to and including the first newline
(all of them when there is none), and sets `delayer.tv_sec` to `opt_interval`; and between a
step that calls `write` and a later one that does, `delayer` expires. -/
theorem core_pacing (o : CoreOpts) (s : CoreState) (es : List CoreEnv) (e : CoreEnv)
    (t : CoreState) (hi : 0 < o.opt_interval) (hs : s.EntryOk)
    (ht : t = core_readwrite o s es) :
    ((t.delayer_sec ≠ 0 ∨ t.delayer_usec ≠ 0) →
        (core_step o t e).main_writes = t.main_writes
        ∧ (o.opt_telnet = false → (core_step o t e).telnet_out = t.telnet_out))
    ∧ (t.pc = .main_sendq → 0 < t.main_sendq.len → t.delayer_sec = 0 → t.delayer_usec = 0 →
        (t.main_sendq.data t.buf).length = t.main_sendq.len
        ∧ (core_step o t e).main_writes = t.main_writes
            ++ [(t.main_sendq.data t.buf).take
                  (if (10 : UChar) ∈ t.main_sendq.data t.buf
                   then (t.main_sendq.data t.buf).indexOf 10 + 1 else t.main_sendq.len)]
        ∧ (core_step o t e).delayer_sec = o.opt_interval)
    ∧ (∀ (es2 : List CoreEnv) (e2 : CoreEnv),
        (core_step o t e).main_writes ≠ t.main_writes →
        (core_step o (es2.foldl (core_step o) (core_step o t e)) e2).main_writes
          ≠ (es2.foldl (core_step o) (core_step o t e)).main_writes →
        ∃ p e1 q, es2 = p ++ e1 :: q
          ∧ delayer_expires o (p.foldl (core_step o) (core_step o t e)) e1) := by
  have hi0 : o.opt_interval ≠ 0 := by omega
  refine ⟨?_, ?_, ?_⟩
  · intro hd
    refine ⟨?_, core_step_telnet_off o e t⟩
    by_contra hc
    exact (core_step_write_cond o e t hc).2.2 ⟨hi0, hd⟩
  · intro hpc hlen h1 h2
    have hinv : t.Inv o := by rw [ht]; exact core_readwrite_inv o s es hs
    have hdis := hinv.1
    unfold CoreState.Discipline at hdis
    rw [hpc] at hdis
    have hlen' := hdis.1.length
    have hc : 0 < t.main_sendq.len
        ∧ ¬ (o.opt_interval ≠ 0 ∧ (t.delayer_sec ≠ 0 ∨ t.delayer_usec ≠ 0)) :=
      ⟨hlen, fun hh => by rcases hh.2 with h | h <;> contradiction⟩
    obtain ⟨k1, k2, _⟩ := (core_step_main_sendq o e t hpc).1 hc
    rw [if_pos hi0] at k1 k2
    rw [newline_scan_eq, hlen'] at k1
    exact ⟨hlen', k1, k2⟩
  · intro es2 e2 hw1 hw2
    obtain ⟨hpc, hlen, hcond⟩ := core_step_write_cond o e t hw1
    obtain ⟨_, k2, _⟩ := (core_step_main_sendq o e t hpc).1 ⟨hlen, hcond⟩
    rw [if_pos hi0] at k2
    have hd1 : (core_step o t e).delayer_sec ≠ 0 ∨ (core_step o t e).delayer_usec ≠ 0 :=
      Or.inl (by rw [k2]; exact hi0)
    obtain ⟨_, _, hcond2⟩ := core_step_write_cond o e2 _ hw2
    rcases core_steps_expiry o hi0 es2 _ hd1 with h | h
    · exact absurd ⟨hi0, h⟩ hcond2
    · exact h

/-- Witness for C18: with `-i 1`, the queue holds `a \n b` when the writing section is
reached with `delayer` at zero; `write` is handed `a \n` and `delayer.tv_sec` becomes 1. -/
theorem core_pacing_witness :
    0 < opts_paced.opt_interval ∧ core_state_idle.EntryOk
    ∧ (core_readwrite opts_paced core_state_idle run_paced_line).pc = .main_sendq
    ∧ (core_step opts_paced (core_readwrite opts_paced core_state_idle run_paced_line)
        env_idle).main_writes = [[97, 10]]
    ∧ (core_step opts_paced (core_readwrite opts_paced core_state_idle run_paced_line)
        env_idle).delayer_sec = 1 := by
  have h := (core_pacing opts_paced core_state_idle run_paced_line env_idle _ (by decide)
    core_state_idle_entryOk rfl).2.1 (by decide!) (by decide!) (by decide!) (by decide!)
  exact ⟨by decide, core_state_idle_entryOk, by decide!, by decide!, h.2.2⟩

/-! ### Bytes of the slave input, and the replies of the telnet parser -/

/-- With telnet mode off no reply of `netcat_telnet_parse` is written, whatever the steps. -/
theorem core_steps_telnet_off (o : CoreOpts) (ht : o.opt_telnet = false)
    (es : List CoreEnv) :
    ∀ t : CoreState, (es.foldl (core_step o) t).telnet_out = t.telnet_out := by
  induction es with
  | nil => intro t; rfl
  | cons e es ih =>
    intro t
    rw [List.foldl_cons, ih, core_step_telnet_off o e t ht]

/-- Counterexample to claim C2: a run of `core_readwrite` that returns (the peer closed the
connection) after the bytes `a b` were read from the standard input and only `a` was
accepted by the main socket; `b` is dropped. -/
theorem core_slave_byte_dropped :
    (core_readwrite opts_plain core_state_idle run_slave_bytes).pc = .returned
      ∧ (core_readwrite opts_plain core_state_idle run_slave_bytes).slave_in = [97, 98]
      ∧ (core_readwrite opts_plain core_state_idle run_slave_bytes).main_out = [97] := by
  decide!

/-- Claim C2 as amended: at every point of every run of `core_readwrite` (so also when it
returns), the bytes read from the slave input are, in order, the bytes of `nc_main->sendq`
accepted by the main socket (by the calls `write(fd_sock, data, data_len)`, core.c 732),
then the bytes held in `nc_main->sendq`, then those held in `nc_slave->recvq`; nothing else
happens to a byte read, and what the two queues hold when the loop ends is dropped.  With
telnet mode off these writes are the only ones made on the main socket; in telnet mode the
socket also takes the replies of `netcat_telnet_parse`, which are no bytes of the slave
input and are recorded apart, in `telnet_out`. -/
theorem core_slave_bytes_conserved (o : CoreOpts) (s : CoreState) (es : List CoreEnv)
    (h : s.EntryOk) :
    (core_readwrite o s es).slave_in
      = (core_readwrite o s es).main_out
        ++ ((core_readwrite o s es).main_sendq.data (core_readwrite o s es).buf
          ++ (core_readwrite o s es).slave_recvq.data (core_readwrite o s es).buf)
    ∧ (o.opt_telnet = false → (core_readwrite o s es).telnet_out = []) :=
  ⟨(core_readwrite_inv o s es h).2.2.1,
    fun ht => by
      unfold core_readwrite
      rw [core_steps_telnet_off o ht]
      rfl⟩

/-- Witness for the amended claim C2, on the run of its counterexample. -/
theorem core_slave_bytes_conserved_witness :
    core_state_idle.EntryOk ∧
    ((core_readwrite opts_plain core_state_idle run_slave_bytes).slave_in
      = (core_readwrite opts_plain core_state_idle run_slave_bytes).main_out
        ++ ((core_readwrite opts_plain core_state_idle run_slave_bytes).main_sendq.data
              (core_readwrite opts_plain core_state_idle run_slave_bytes).buf
          ++ (core_readwrite opts_plain core_state_idle run_slave_bytes).slave_recvq.data
              (core_readwrite opts_plain core_state_idle run_slave_bytes).buf)
    ∧ (opts_plain.opt_telnet = false →
        (core_readwrite opts_plain core_state_idle run_slave_bytes).telnet_out = [])) :=
  ⟨core_state_idle_entryOk,
    core_slave_bytes_conserved opts_plain core_state_idle run_slave_bytes
      core_state_idle_entryOk⟩

/-- Counterexample to claim C18: with `-i 1 -t`, in one pass through the loop body the line
`a \n` is written to the main socket, which sets `delayer.tv_sec` to 1, and `IAC WILL 1` is
then read from the main socket; the step that handles `nc_main->recvq` is taken with
`delayer` non-zero, and in it `netcat_telnet_parse` writes the reply `IAC DONT 1` to the main
socket. -/
theorem core_pacing_telnet_reply :
    0 < opts_paced_telnet.opt_interval
      ∧ (core_readwrite opts_paced_telnet core_state_idle run_paced_telnet).pc = .main_recvq
      ∧ (core_readwrite opts_paced_telnet core_state_idle run_paced_telnet).main_writes
          = [[97, 10]]
      ∧ (core_readwrite opts_paced_telnet core_state_idle run_paced_telnet).delayer_sec = 1
      ∧ (core_readwrite opts_paced_telnet core_state_idle run_paced_telnet).telnet_out = []
      ∧ (core_step opts_paced_telnet
          (core_readwrite opts_paced_telnet core_state_idle run_paced_telnet)
          env_idle).telnet_out = [255, 254, 1] := by
  decide!

/-! ## Theorems about `core_tcp_listen` -/

/-- With the flags initialised, the test of core.c 458-461 refuses exactly the peers that the
admission rule does not admit. -/
theorem listen_unwanted_eq (host_addr : Nat) (fs : FlagState) (a : AcceptEvent)
    (hs : fs.Ready) (hp : a.peer_port < 65536) :
    listen_unwanted host_addr fs a = .ok (decide (¬ peer_admitted host_addr fs a)) := by
  obtain ⟨mem, rfl⟩ := hs.mem
  have hcnt := netcat_flag_count_mem mem
  have hget := netcat_flag_get_eq ⟨some mem, 8192⟩ mem a.peer_port rfl rfl hp
  unfold listen_unwanted peer_admitted
  simp only [hcnt, hget, Outcome.bind_ok, Outcome.ok.injEq]
  by_cases h1 : host_addr ≠ 0 ∧ host_addr ≠ a.peer_addr
  · rw [if_pos h1]
    have : ¬ (host_addr = 0 ∨ host_addr = a.peer_addr) := by
      rintro (h | h)
      · exact h1.1 h
      · exact h1.2 h
    simp [this]
  · rw [if_neg h1]
    have h1' : host_addr = 0 ∨ host_addr = a.peer_addr := by
      by_contra hc
      push_neg at hc
      exact h1 hc
    by_cases h2 : (((List.range 65536).countP (flag_at mem) : Nat) : Int) ≠ 0
    · rw [if_pos h2]
      cases hf : flag_at mem a.peer_port <;> simp [h1', h2]
    · rw [if_neg h2]
      push_neg at h2
      simp [h1', h2]

/-- The accept loop refuses the peers that are not admitted, or all peers in zero-I/O mode,
until the first result that ends it. -/
theorem tcp_accept_loop_refuses (host_addr : Nat) (opt_zero : Bool) (fs : FlagState)
    (hs : fs.Ready) (pre : List AcceptEvent) :
    ∀ (rest : List AcceptEvent) (timeout : Int) (r : TcpListen),
      (∀ a ∈ pre, 0 ≤ a.sock_accept ∧ a.peer_port < 65536
        ∧ (opt_zero = true ∨ ¬ peer_admitted host_addr fs a)) →
      ∃ t1 ts, tcp_accept_loop host_addr opt_zero fs (pre ++ rest) timeout r
        = tcp_accept_loop host_addr opt_zero fs rest t1
            { r with refused := r.refused ++ pre.map (fun a => a.sock_accept),
                     timeouts := ts } := by
  induction pre with
  | nil => intro rest timeout r _; exact ⟨timeout, r.timeouts, by simp⟩
  | cons a pre ih =>
    intro rest timeout r h
    obtain ⟨h1, h2, h3⟩ := h a (List.mem_cons_self _ _)
    rw [List.cons_append, tcp_accept_loop]
    dsimp only
    rw [if_neg (by omega), listen_unwanted_eq host_addr fs a hs h2, Outcome.bind_ok]
    have hc : (decide (¬ peer_admitted host_addr fs a) = true ∨ opt_zero = true) := by
      rcases h3 with h3 | h3
      · exact Or.inr h3
      · exact Or.inl (by simpa using h3)
    rw [if_pos hc]
    obtain ⟨t1, ts, e⟩ := ih rest (-1)
      { status := r.status, refused := r.refused ++ [a.sock_accept],
        listen_closed := r.listen_closed, timeouts := r.timeouts ++ [timeout] }
      (fun b hb => h b (List.mem_cons_of_mem _ hb))
    refine ⟨t1, ts, ?_⟩
    rw [e]
    simp

/-- In zero-I/O mode the accept loop never returns a descriptor. -/
theorem tcp_accept_loop_zero (host_addr : Nat) (fs : FlagState) (evs : List AcceptEvent) :
    ∀ (timeout : Int) (r r1 : TcpListen),
      tcp_accept_loop host_addr true fs evs timeout r = .ok r1 →
      (r1.status = .returned (-1) ∧ ∃ a ∈ evs, a.sock_accept < 0)
        ∨ (r1.status = .waiting ∧ ∀ a ∈ evs, 0 ≤ a.sock_accept) := by
  induction evs with
  | nil =>
    intro timeout r r1 h
    simp only [tcp_accept_loop, Outcome.ok.injEq] at h
    subst h
    exact Or.inr ⟨rfl, fun a ha => absurd ha (List.not_mem_nil _)⟩
  | cons a evs ih =>
    intro timeout r r1 h
    rw [tcp_accept_loop] at h
    dsimp only at h
    by_cases ha : a.sock_accept < 0
    · rw [if_pos ha] at h
      simp only [Outcome.ok.injEq] at h
      subst h
      exact Or.inl ⟨rfl, a, List.mem_cons_self _ _, ha⟩
    · rw [if_neg ha, Outcome.bind_eq_ok] at h
      obtain ⟨u, _, hu⟩ := h
      simp only [or_true, if_true] at hu
      rcases ih _ _ _ hu with ⟨k1, b, hb, k2⟩ | ⟨k1, k2⟩
      · exact Or.inl ⟨k1, b, List.mem_cons_of_mem _ hb, k2⟩
      · refine Or.inr ⟨k1, fun b hb => ?_⟩
        rcases List.mem_cons.1 hb with rfl | hb
        · omega
        · exact k2 b hb

/-- Claim C17: with the listening socket set up and the port flags initialised,
`core_tcp_listen` refuses (shuts down and closes) each new connection until the first one
whose peer is admitted (the configured remote address is zero or equals the peer address,
and no port is flagged or the peer port is), and returns that connection's descriptor; in
zero-I/O mode it refuses every connection, never returns a descriptor, and returns -1 as
soon as `netcat_socket_accept` returns a negative value. -/
theorem core_tcp_listen_admission (timeout : Int) (host_addr local_port : Nat)
    (fs : FlagState) (sock_listen getsockname_ret : Int) (pre rest : List AcceptEvent)
    (c : AcceptEvent)
    (hs : fs.Ready) (hl : 0 ≤ sock_listen) (hg : local_port ≠ 0 ∨ 0 ≤ getsockname_ret)
    (hpre : ∀ a ∈ pre, 0 ≤ a.sock_accept ∧ a.peer_port < 65536) (hc : c.peer_port < 65536) :
    ((∀ a ∈ pre, ¬ peer_admitted host_addr fs a) → 0 ≤ c.sock_accept →
        peer_admitted host_addr fs c →
        ∃ r, core_tcp_listen timeout host_addr local_port false fs sock_listen
            getsockname_ret (pre ++ c :: rest) = .ok r
          ∧ r.status = .returned c.sock_accept
          ∧ r.refused = pre.map (fun a => a.sock_accept) ∧ r.listen_closed = true)
    ∧ (c.sock_accept < 0 →
        ∃ r, core_tcp_listen timeout host_addr local_port true fs sock_listen
            getsockname_ret (pre ++ c :: rest) = .ok r
          ∧ r.status = .returned (-1)
          ∧ r.refused = pre.map (fun a => a.sock_accept))
    ∧ (∀ evs r, core_tcp_listen timeout host_addr local_port true fs sock_listen
            getsockname_ret evs = .ok r →
          (r.status = .returned (-1) ∧ ∃ a ∈ evs, a.sock_accept < 0)
            ∨ (r.status = .waiting ∧ ∀ a ∈ evs, 0 ≤ a.sock_accept)) := by
  have hsetup : ∀ (z : Bool) (evs : List AcceptEvent),
      core_tcp_listen timeout host_addr local_port z fs sock_listen getsockname_ret evs
        = tcp_accept_loop host_addr z fs evs timeout
            { status := .waiting, refused := [], listen_closed := false, timeouts := [] } := by
    intro z evs
    unfold core_tcp_listen
    dsimp only
    rw [if_neg (by omega), if_neg (by omega)]
  refine ⟨?_, ?_, ?_⟩
  · intro hn hc0 hadm
    obtain ⟨t1, ts, e⟩ := tcp_accept_loop_refuses host_addr false fs hs pre (c :: rest) timeout
      { status := .waiting, refused := [], listen_closed := false, timeouts := [] }
      (fun a ha => ⟨(hpre a ha).1, (hpre a ha).2, Or.inr (hn a ha)⟩)
    rw [hsetup, e, tcp_accept_loop]
    dsimp only
    rw [if_neg (by omega), listen_unwanted_eq host_addr fs c hs hc, Outcome.bind_ok]
    have : ¬ (decide (¬ peer_admitted host_addr fs c) = true ∨ false = true) := by
      simp [hadm]
    rw [if_neg this]
    exact ⟨_, rfl, rfl, by simp, rfl⟩
  · intro hneg
    obtain ⟨t1, ts, e⟩ := tcp_accept_loop_refuses host_addr true fs hs pre (c :: rest) timeout
      { status := .waiting, refused := [], listen_closed := false, timeouts := [] }
      (fun a ha => ⟨(hpre a ha).1, (hpre a ha).2, Or.inl rfl⟩)
    rw [hsetup, e, tcp_accept_loop]
    dsimp only
    rw [if_pos hneg]
    exact ⟨_, rfl, rfl, by simp⟩
  · intro evs r h
    rw [hsetup] at h
    exact tcp_accept_loop_zero host_addr fs evs _ _ _ h

/-- Witness for C17: ports 80 and 443 are allowed and no remote address is configured; a
peer with port 81 is refused, the next one with port 80 is accepted. -/
theorem core_tcp_listen_admission_witness :
    flag_demo.Ready ∧ (0 : Int) ≤ 3 ∧ ¬ peer_admitted 0 flag_demo ⟨4, 1, 81⟩
    ∧ peer_admitted 0 flag_demo ⟨5, 1, 80⟩
    ∧ ∃ r, core_tcp_listen 5 0 4000 false flag_demo 3 0 ([⟨4, 1, 81⟩] ++ ⟨5, 1, 80⟩ :: [])
          = .ok r
        ∧ r.status = .returned 5 ∧ r.refused = [4] ∧ r.listen_closed = true := by
  have hc2 : netcat_flag_count flag_demo = .ok 2 := flag_demo_count
  have h81 : ¬ peer_admitted 0 flag_demo ⟨4, 1, 81⟩ := by
    unfold peer_admitted
    rw [hc2]
    have : netcat_flag_get flag_demo 81 = .ok false := by decide
    simp [this]
  have h80 : peer_admitted 0 flag_demo ⟨5, 1, 80⟩ := by
    unfold peer_admitted
    have : netcat_flag_get flag_demo 80 = .ok true := by decide
    simp [this]
  exact ⟨flag_demo_ready, by decide, h81, h80,
    (core_tcp_listen_admission 5 0 4000 flag_demo 3 0 [⟨4, 1, 81⟩] [] ⟨5, 1, 80⟩
      flag_demo_ready (by decide) (Or.inl (by decide))
      (fun a ha => by simp at ha; subst ha; exact ⟨by decide, by decide⟩) (by decide)).1
      (fun a ha => by simp at ha; subst ha; exact h81) (by decide) h80⟩

/-! ## Theorems about the port arguments and the exit status of `main` -/

theorem netcat_getport_lt (services : List Char → Option Nat) (str : List Char) (p : Nat)
    (h : netcat_getport services str = some p) : p < 65536 := by
  unfold netcat_getport at h
  generalize strtol str = r at h
  obtain ⟨port, endoff⟩ := r
  dsimp only at h
  split_ifs at h
  · unfold netcat_getport_num at h
    split_ifs at h
    simp only [Option.some.injEq] at h
    omega
  · split at h
    · simp only [Option.some.injEq] at h
      omega
    · exact absurd h (by simp)

/-- The loop that flags a range of ports: from the state after `netcat_flag_init(65535)`,
with `0 ≤ port_lo` and `port_hi ≤ 65535`, it ends and has flagged exactly the ports of the
closed interval. -/
theorem port_range_loop_spec (fuel : Nat) :
    ∀ (port_lo port_hi : Int) (mem : Nat → UChar), 0 ≤ port_lo → port_hi ≤ 65535 →
      (port_hi + 1 - port_lo).toNat ≤ fuel →
      ∃ mem1, port_range_loop fuel port_lo port_hi { flagset := some mem, flagset_len := 8192 }
          = .ok { flagset := some mem1, flagset_len := 8192 }
        ∧ ∀ q : Nat, flag_at mem1 q
            = if port_lo ≤ (q : Int) ∧ (q : Int) ≤ port_hi then true else flag_at mem q := by
  induction fuel with
  | zero =>
    intro lo hi mem h0 h1 hf
    have : ¬ lo ≤ hi := by omega
    refine ⟨mem, by unfold port_range_loop; rw [if_neg this], fun q => ?_⟩
    rw [if_neg (by omega)]
  | succ fuel ih =>
    intro lo hi mem h0 h1 hf
    by_cases hle : lo ≤ hi
    · unfold port_range_loop
      rw [if_pos hle]
      have hmod : (lo % 65536).toNat = lo.toNat := by
        rw [Int.emod_eq_of_lt h0 (by omega)]
      obtain ⟨mem1, e1, f1⟩ := netcat_flag_set_eq ⟨some mem, 8192⟩ mem lo.toNat true rfl rfl
        (by omega)
      simp only [hmod, e1]
      obtain ⟨mem2, e2, f2⟩ := ih (lo + 1) hi mem1 (by omega) h1 (by omega)
      refine ⟨mem2, e2, fun q => ?_⟩
      rw [f2 q, f1 q]
      by_cases hq : lo + 1 ≤ (q : Int) ∧ (q : Int) ≤ hi
      · rw [if_pos hq, if_pos ⟨by omega, hq.2⟩]
      · rw [if_neg hq]
        by_cases hq0 : q = lo.toNat
        · rw [if_pos hq0, if_pos ⟨by omega, by omega⟩]
        · rw [if_neg hq0]
          have : ¬ (lo ≤ (q : Int) ∧ (q : Int) ≤ hi) := by omega
          rw [if_neg this]
    · refine ⟨mem, by unfold port_range_loop; rw [if_neg hle], fun q => ?_⟩
      rw [if_neg (by omega)]

theorem strchr_head (c : Char) (str : List Char) : strchr (c :: str) c = some 0 := by
  simp [strchr]

theorem strchr_not_mem (c : Char) (str : List Char) (h : c ∉ str) : strchr str c = none := by
  simp [strchr, h]

theorem strchr_last (c : Char) (str : List Char) (h : c ∉ str) :
    strchr (str ++ [c]) c = some str.length := by
  unfold strchr
  rw [if_pos (by simp)]
  congr 1
  induction str with
  | nil => simp
  | cons d ds ih =>
    have hd : d ≠ c := fun e => h (by rw [e]; exact List.mem_cons_self _ _)
    have hds : c ∉ ds := fun e => h (List.mem_cons_of_mem _ e)
    rw [List.cons_append, List.indexOf_cons_ne _ hd, ih hds, List.length_cons]

/-- A port argument with the separator first (`-N2` or `:N2`): the ports `0..N2` are
flagged, port 0 included. -/
theorem main_port_arg_low_omitted (services : List Char → Option Nat) (mem : Nat → UChar)
    (str : List Char) (p : Nat) (sep : Char) (hsep : sep = '-' ∨ sep = ':')
    (hstr : str ≠ []) (hd : '-' ∉ str) (hport : netcat_getport services str = some p) :
    ∃ mem1, main_port_arg services { flagset := some mem, flagset_len := 8192 } (sep :: str)
        = .ok (.flagged { flagset := some mem1, flagset_len := 8192 })
      ∧ ∀ q : Nat, flag_at mem1 q = if q ≤ p then true else flag_at mem q := by
  have hp := netcat_getport_lt services str p hport
  obtain ⟨mem1, e1, f1⟩ := port_range_loop_spec 65537 0 p mem (by omega) (by omega) (by omega)
  refine ⟨mem1, ?_, fun q => ?_⟩
  · have hq : (match strchr (sep :: str) '-' with
        | some i => some i
        | none => strchr (sep :: str) ':') = some 0 := by
      rcases hsep with rfl | rfl
      · rw [strchr_head]
      · rw [strchr_not_mem '-' (':' :: str) (by simp [hd]), strchr_head]
    unfold main_port_arg
    simp only [hq, List.take_zero, List.drop_succ_cons, List.drop_zero, ne_eq,
      not_true_eq_false, if_false, hstr, not_false_eq_true, if_true, hport, Int.ofNat_eq_coe,
      and_false, e1, Outcome.bind_ok]
  · rw [f1 q]
    by_cases h : q ≤ p
    · rw [if_pos h, if_pos ⟨by omega, by omega⟩]
    · rw [if_neg h, if_neg (by omega)]

/-- A port argument with the separator last (`N1-` or `N1:`): the ports `N1..65535` are
flagged. -/
theorem main_port_arg_high_omitted (services : List Char → Option Nat) (mem : Nat → UChar)
    (str : List Char) (p : Nat) (sep : Char) (hsep : sep = '-' ∨ sep = ':')
    (hstr : str ≠ []) (hd : '-' ∉ str) (hc : ':' ∉ str)
    (hport : netcat_getport services str = some p) :
    ∃ mem1, main_port_arg services { flagset := some mem, flagset_len := 8192 } (str ++ [sep])
        = .ok (.flagged { flagset := some mem1, flagset_len := 8192 })
      ∧ ∀ q : Nat, flag_at mem1 q = if p ≤ q ∧ q ≤ 65535 then true else flag_at mem q := by
  have hp := netcat_getport_lt services str p hport
  obtain ⟨mem1, e1, f1⟩ := port_range_loop_spec 65537 p 65535 mem (by omega) (by omega)
    (by omega)
  refine ⟨mem1, ?_, fun q => ?_⟩
  · have hq : (match strchr (str ++ [sep]) '-' with
        | some i => some i
        | none => strchr (str ++ [sep]) ':') = some str.length := by
      rcases hsep with rfl | rfl
      · rw [strchr_last _ _ hd]
      · rw [strchr_not_mem '-' (str ++ [':']) (by simp [hd]), strchr_last _ _ hc]
    unfold main_port_arg
    simp only [hq, List.take_left', List.drop_left', List.drop_succ_cons, ne_eq, hstr,
      not_false_eq_true, if_true, hport, Int.ofNat_eq_coe, not_true_eq_false, if_false,
      false_and]
    have hdrop : List.drop (str.length + 1) (str ++ [sep]) = [] := by simp
    simp only [hdrop, not_true_eq_false, if_false, and_true, hstr, e1, Outcome.bind_ok]
  · rw [f1 q]
    by_cases h : p ≤ q ∧ q ≤ 65535
    · rw [if_pos h, if_pos ⟨by omega, by omega⟩]
    · rw [if_neg h, if_neg (by omega)]

/-- Claim C15 fails on the code for an omitted low endpoint.  After `netcat_flag_init(65535)`,
for a port `N` that `netcat_getport` accepts: the argument `-N` or `:N` flags the ports
`0..N`, port 0 included (the omitted low endpoint is taken as 0, not 1), and changes no other
port; the argument `N-` or `N:` flags exactly the ports `N..65535`. -/
theorem main_port_range_omitted (services : List Char → Option Nat) (fs : FlagState)
    (str : List Char) (p : Nat) (sep : Char) (hs : fs.Ready) (hsep : sep = '-' ∨ sep = ':')
    (hstr : str ≠ []) (hd : '-' ∉ str) (hc : ':' ∉ str)
    (hport : netcat_getport services str = some p) :
    (∃ fs1, main_port_arg services fs (sep :: str) = .ok (.flagged fs1) ∧ fs1.Ready
        ∧ netcat_flag_get fs1 0 = .ok true
        ∧ ∀ q, q < 65536 →
            netcat_flag_get fs1 q = if q ≤ p then .ok true else netcat_flag_get fs q)
    ∧ (∃ fs1, main_port_arg services fs (str ++ [sep]) = .ok (.flagged fs1) ∧ fs1.Ready
        ∧ ∀ q, q < 65536 →
            netcat_flag_get fs1 q = if p ≤ q then .ok true else netcat_flag_get fs q) := by
  obtain ⟨mem, rfl⟩ := hs.mem
  constructor
  · obtain ⟨mem1, e1, f1⟩ := main_port_arg_low_omitted services mem str p sep hsep hstr hd hport
    refine ⟨_, e1, ⟨rfl, rfl⟩, ?_, fun q hq => ?_⟩
    · rw [netcat_flag_get_eq _ mem1 0 rfl rfl (by omega), f1 0, if_pos (Nat.zero_le _)]
    · rw [netcat_flag_get_eq _ mem1 q rfl rfl hq, netcat_flag_get_eq _ mem q rfl rfl hq, f1 q]
      split_ifs <;> rfl
  · obtain ⟨mem1, e1, f1⟩ :=
      main_port_arg_high_omitted services mem str p sep hsep hstr hd hc hport
    refine ⟨_, e1, ⟨rfl, rfl⟩, fun q hq => ?_⟩
    rw [netcat_flag_get_eq _ mem1 q rfl rfl hq, netcat_flag_get_eq _ mem q rfl rfl hq, f1 q]
    by_cases h : p ≤ q
    · rw [if_pos ⟨h, by omega⟩, if_pos h]
    · rw [if_neg (fun hh => h hh.1), if_neg h]

/-- Witness for C15: the argument `:80` given right after `netcat_flag_init(65535)`, when no
port is flagged: afterwards port 0 is flagged. -/
theorem main_port_range_omitted_witness :
    (netcat_flag_init flag_state_start 65535 true).2.Ready
    ∧ netcat_getport no_services ['8', '0'] = some 80
    ∧ netcat_flag_get (netcat_flag_init flag_state_start 65535 true).2 0 = .ok false
    ∧ ∃ fs1, main_port_arg no_services (netcat_flag_init flag_state_start 65535 true).2
          (':' :: ['8', '0']) = .ok (.flagged fs1) ∧ fs1.Ready
        ∧ netcat_flag_get fs1 0 = .ok true
        ∧ ∀ q, q < 65536 → netcat_flag_get fs1 q
            = if q ≤ 80 then .ok true
              else netcat_flag_get (netcat_flag_init flag_state_start 65535 true).2 q :=
  ⟨netcat_flag_init_ready.2, by decide!, by decide!,
    (main_port_range_omitted no_services (netcat_flag_init flag_state_start 65535 true).2
      ['8', '0'] 80 ':' netcat_flag_init_ready.2 (Or.inr rfl) (by decide!) (by decide!)
      (by decide!) (by decide!)).1⟩

/-! ### The exit status of `main` -/

theorem flag_rand_loop_ok (mem : Nat → UChar) (k : Nat) :
    ∀ ret, ret < 65536 →
      ∃ r, flag_rand_loop { flagset := some mem, flagset_len := 8192 } k ret = .ok r
        ∧ r < 65536 := by
  induction k with
  | zero => intro ret h; exact ⟨ret, rfl, h⟩
  | succ k ih =>
    intro ret h
    obtain ⟨r, hr, hspec⟩ := netcat_flag_next_mem mem ret h
    have hr65 : r < 65536 := by
      rcases hspec with ⟨h0, _⟩ | ⟨_, h1, _⟩ <;> omega
    obtain ⟨r2, h2, h3⟩ := ih r hr65
    refine ⟨r2, ?_, h3⟩
    unfold flag_rand_loop
    rw [hr, Outcome.bind_ok, h2]

/-- A call of `netcat_flag_rand` after `netcat_flag_init(65535)` returns, whatever the value
of `rand`. -/
theorem netcat_flag_rand_ok (fs : FlagState) (rand : Nat) (hs : fs.Ready) :
    ∃ r fs1, netcat_flag_rand fs rand = .ok (r, fs1) ∧ fs1.Ready ∧ r < 65536 := by
  obtain ⟨mem, rfl⟩ := hs.mem
  unfold netcat_flag_rand
  rw [netcat_flag_count_mem]
  simp only [Outcome.bind_ok]
  split_ifs
  · exact ⟨0, _, rfl, ⟨rfl, rfl⟩, by omega⟩
  · obtain ⟨r, hr, hlt⟩ := flag_rand_loop_ok mem rand 0 (by omega)
    obtain ⟨mem1, h1, _⟩ := netcat_flag_set_eq ⟨some mem, 8192⟩ mem r false rfl rfl hlt
    rw [hr, Outcome.bind_ok, h1, Outcome.bind_ok]
    exact ⟨r, _, rfl, ⟨rfl, rfl⟩, hlt⟩

/-- The connect loop of `main` returns, and its status is `EXIT_SUCCESS` exactly when it
started with it or some `core_connect` succeeded. -/
theorem main_connect_loop_spec (o : MainOpts) (env : MainEnv) (hx : o.opt_exec = false)
    (hu : o.proto_udp = false) (left_ports : Nat) :
    ∀ (c : Nat) (fs : FlagState) (glob_ret : Int) (attempted : List Nat),
      fs.Ready → c < 65536 → (glob_ret = 0 ∨ glob_ret = 1) →
      (glob_ret = 0 ↔ ∃ p ∈ attempted, 0 ≤ env.connect_ret p) →
      ∃ g att, main_connect_loop o env left_ports c fs glob_ret attempted
          = .ok { ending := .returned g, attempted := att }
        ∧ (g = 0 ∨ g = 1) ∧ (g = 0 ↔ ∃ p ∈ att, 0 ≤ env.connect_ret p) := by
  induction left_ports with
  | zero =>
    intro c fs glob_ret attempted _ _ h1 h2
    exact ⟨glob_ret, attempted, rfl, h1, h2⟩
  | succ n ih =>
    intro c fs glob_ret attempted hs hc h1 h2
    have hnext : ∃ c1 fs1, (if o.opt_random then netcat_flag_rand fs (env.rand (n + 1))
          else (netcat_flag_next fs c).bind fun c1 => .ok (c1, fs)) = .ok (c1, fs1)
        ∧ fs1.Ready ∧ c1 < 65536 := by
      split_ifs
      · exact netcat_flag_rand_ok fs _ hs
      · obtain ⟨mem, rfl⟩ := hs.mem
        obtain ⟨r, hr, hspec⟩ := netcat_flag_next_mem mem c hc
        refine ⟨r, ⟨some mem, 8192⟩, by rw [hr, Outcome.bind_ok], ⟨rfl, rfl⟩, ?_⟩
        rcases hspec with ⟨h0, _⟩ | ⟨_, h1, _⟩ <;> omega
    obtain ⟨c1, fs1, e, hs1, hc1⟩ := hnext
    unfold main_connect_loop
    rw [e, Outcome.bind_ok]
    dsimp only
    by_cases hconn : env.connect_ret c1 < 0
    · rw [if_pos hconn]
      simp only [hu, Bool.false_eq_true, if_false]
      apply ih c1 fs1 glob_ret _ hs1 hc1 h1
      rw [h2]
      constructor
      · rintro ⟨p, hp, hp2⟩
        exact ⟨p, List.mem_append_left _ hp, hp2⟩
      · rintro ⟨p, hp, hp2⟩
        rcases List.mem_append.1 hp with hp | hp
        · exact ⟨p, hp, hp2⟩
        · simp only [List.mem_singleton] at hp
          subst hp
          omega
    · rw [if_neg hconn]
      simp only [hx, Bool.false_eq_true, if_false]
      have hsucc : (EXIT_SUCCESS = 0 ↔ ∃ p ∈ attempted ++ [c1], 0 ≤ env.connect_ret p) :=
        ⟨fun _ => ⟨c1, by simp, by omega⟩, fun _ => rfl⟩
      split_ifs
      · exact ih c1 fs1 EXIT_SUCCESS _ hs1 hc1 (Or.inl rfl) hsucc
      · exact ⟨EXIT_SUCCESS, _, rfl, Or.inl rfl, hsucc⟩
      · exact ih c1 fs1 EXIT_SUCCESS _ hs1 hc1 (Or.inl rfl) hsucc

/-- Claim C16 fails on the code in listen mode.  With the port flags initialised, no `-e`
program and TCP: in listen mode, when `core_listen` returns a descriptor (a connection was
accepted) `main` returns `EXIT_FAILURE` (1); in tunnel mode it then returns 0 exactly when
`core_connect` succeeds; when `core_listen` fails it exits with 0 in zero-I/O mode after a
timeout and with 1 otherwise; in connect mode it returns 0 when some `core_connect`
succeeded and ends with status 1 otherwise. -/
theorem main_exit_status (o : MainOpts) (env : MainEnv) (fs : FlagState) (hs : fs.Ready)
    (hx : o.opt_exec = false) (hu : o.proto_udp = false) :
    (o.netcat_mode = .NETCAT_LISTEN → 0 ≤ env.accept_ret →
        main_tail o env fs = .ok { ending := .returned 1, attempted := [] })
    ∧ (o.netcat_mode = .NETCAT_TUNNEL → 0 ≤ env.accept_ret →
        main_tail o env fs
          = .ok { ending := .returned (if 0 ≤ env.tunnel_connect_ret then 0 else 1),
                  attempted := [] })
    ∧ (o.netcat_mode = .NETCAT_LISTEN ∨ o.netcat_mode = .NETCAT_TUNNEL → env.accept_ret < 0 →
        main_tail o env fs
          = .ok { ending := .exited (if o.opt_zero = true ∧ env.errno_timedout = true then 0
                                     else 1),
                  attempted := [] })
    ∧ (o.netcat_mode = .NETCAT_UNSPEC ∨ o.netcat_mode = .NETCAT_CONNECT →
        ∃ r, main_tail o env fs = .ok r
          ∧ (r.ending = .returned 0 ∨ r.ending = .returned 1 ∨ r.ending = .exited 1)
          ∧ (r.ending = .returned 0 ↔ ∃ p ∈ r.attempted, 0 ≤ env.connect_ret p)) := by
  refine ⟨?_, ?_, ?_, ?_⟩
  · intro hm ha
    unfold main_tail
    simp only [hm, true_or, if_true, hx, Bool.false_eq_true, if_false]
    rw [if_neg (by omega)]
    rfl
  · intro hm ha
    unfold main_tail
    simp only [hm, or_true, if_true, reduceCtorEq, if_false, hu, Bool.false_eq_true]
    rw [if_neg (by omega)]
    by_cases hc : 0 ≤ env.tunnel_connect_ret
    · rw [if_neg (by omega), if_pos hc]; rfl
    · rw [if_pos (by omega), if_neg hc]; rfl
  · intro hm ha
    unfold main_tail
    rw [if_pos hm, if_pos ha]
    split_ifs <;> rfl
  · intro hm
    have hmode : ¬ (o.netcat_mode = .NETCAT_LISTEN ∨ o.netcat_mode = .NETCAT_TUNNEL) := by
      rcases hm with h | h <;> simp [h]
    unfold main_tail
    rw [if_neg hmode]
    by_cases hr : o.remote_given = true
    · rw [if_neg (by simp [hr])]
      obtain ⟨mem, rfl⟩ := hs.mem
      rw [netcat_flag_count_mem, Outcome.bind_ok]
      split_ifs
      · exact ⟨_, rfl, Or.inr (Or.inr rfl), by simp⟩
      · obtain ⟨g, att, e, hg, hiff⟩ := main_connect_loop_spec o env hx hu _ 0
          ⟨some mem, 8192⟩ EXIT_FAILURE [] ⟨rfl, rfl⟩ (by omega) (Or.inr rfl)
          (by simp [EXIT_FAILURE])
        refine ⟨_, e, ?_, ?_⟩
        · rcases hg with rfl | rfl
          · exact Or.inl rfl
          · exact Or.inr (Or.inl rfl)
        · simp only [MainEnd.returned.injEq]
          exact hiff
    · rw [if_pos hr]
      exact ⟨_, rfl, Or.inr (Or.inr rfl), by simp⟩

/-- Witness for C16: `netcat -l -p PORT`, a peer connects and the session runs to its end;
`main` returns 1. -/
theorem main_exit_status_witness :
    flag_demo.Ready ∧ opts_listen.opt_exec = false ∧ opts_listen.proto_udp = false
    ∧ opts_listen.netcat_mode = .NETCAT_LISTEN ∧ 0 ≤ env_accepting.accept_ret
    ∧ main_tail opts_listen env_accepting flag_demo
        = .ok { ending := .returned 1, attempted := [] } :=
  ⟨flag_demo_ready, rfl, rfl, rfl, by decide,
    (main_exit_status opts_listen env_accepting flag_demo flag_demo_ready rfl rfl).1 rfl
      (by decide)⟩

/-! ## Theorems about `netcat_fhexdump` -/

theorem hex_put_lt (buf : Nat → UChar) (p : Nat) (bytes : List UChar) (i : Nat) (h : i < p) :
    hex_put buf p bytes i = buf i := by
  unfold hex_put
  rw [if_neg (by omega)]

theorem hex_put_ge (buf : Nat → UChar) (p : Nat) (bytes : List UChar) (i : Nat)
    (h : p + bytes.length ≤ i) : hex_put buf p bytes i = buf i := by
  unfold hex_put
  rw [if_neg (by omega)]

theorem hex_put_at (buf : Nat → UChar) (p : Nat) (bytes : List UChar) (k : Nat)
    (h : k < bytes.length) : hex_put buf p bytes (p + k) = bytes.getD k 0 := by
  unfold hex_put
  rw [if_pos (by omega), Nat.add_sub_cancel_left]

theorem hex_store_ok (buf : Nat → UChar) (p : Nat) (bytes : List UChar)
    (h : p + bytes.length ≤ 80) : hex_store buf p bytes = .ok (hex_put buf p bytes) := by
  unfold hex_store
  rw [if_pos h]

theorem hex_digit_ne_zero (n : Nat) (h : n < 16) : hex_digit n ≠ 0 := by
  have : ∀ k : Fin 16, hex_digit k.val ≠ 0 := by decide
  exact this ⟨n, h⟩

theorem hex_ascii_ne_zero : ∀ x : UChar, hex_ascii x ≠ 0 := by decide!

theorem sprintf_offset_ne_zero (n : Nat) : ∀ c ∈ sprintf_offset n, c ≠ 0 := by
  intro c hc
  simp only [sprintf_offset, List.mem_cons, List.mem_singleton, List.not_mem_nil,
    or_false] at hc
  rcases hc with rfl | rfl | rfl | rfl | rfl | rfl | rfl | rfl | rfl | rfl
  all_goals first
    | exact hex_digit_ne_zero _ (Nat.mod_lt _ (by omega))
    | decide

theorem hex_slot_ne_zero (j : Nat) (b : Option UChar) : ∀ c ∈ hex_slot j b, c ≠ 0 := by
  intro c hc
  unfold hex_slot at hc
  rcases List.mem_append.1 hc with h | h
  · cases b with
    | none =>
      simp only [List.mem_cons, List.mem_singleton, List.not_mem_nil, or_false] at h
      rcases h with rfl | rfl | rfl <;> decide
    | some x =>
      simp only [List.mem_cons, List.mem_singleton, List.not_mem_nil, or_false] at h
      rcases h with rfl | rfl | rfl
      · exact hex_digit_ne_zero _ (by have := x.isLt; omega)
      · exact hex_digit_ne_zero _ (Nat.mod_lt _ (by omega))
      · decide
  · split_ifs at h
    · simp only [List.mem_singleton] at h
      subst h
      decide
    · exact absurd h (List.not_mem_nil _)

theorem hex_slots_ne_zero (slots : List (Option UChar)) :
    ∀ j, ∀ c ∈ hex_slots j slots, c ≠ 0 := by
  induction slots with
  | nil => intro j c hc; exact absurd hc (List.not_mem_nil _)
  | cons b bs ih =>
    intro j c hc
    unfold hex_slots at hc
    rcases List.mem_append.1 hc with h | h
    · exact hex_slot_ne_zero j b c h
    · exact ih (j + 1) c h

theorem hex_slot_ascii_ne_zero (b : Option UChar) : hex_slot_ascii b ≠ 0 := by
  cases b with
  | none => decide
  | some x => exact hex_ascii_ne_zero x

theorem hex_slots_append (a b : List (Option UChar)) :
    ∀ j, hex_slots j (a ++ b) = hex_slots j a ++ hex_slots (j + a.length) b := by
  induction a with
  | nil => intro j; simp [hex_slots]
  | cons x xs ih =>
    intro j
    have e : j + 1 + xs.length = j + (xs.length + 1) := by omega
    rw [List.cons_append, hex_slots, hex_slots, ih (j + 1), List.append_assoc,
      List.length_cons, e]

theorem c_string_spec (buf : Nat → UChar) (n : Nat) :
    ∀ (fuel i : Nat), (∀ k, k < n → buf (i + k) ≠ 0) → buf (i + n) = 0 → n < fuel →
      c_string buf fuel i = some ((List.range' i n).map buf) := by
  induction n with
  | zero =>
    intro fuel i _ h0 hf
    obtain ⟨f, rfl⟩ : ∃ f, fuel = f + 1 := ⟨fuel - 1, by omega⟩
    unfold c_string
    rw [if_pos (by simpa using h0)]
    rfl
  | succ n ih =>
    intro fuel i hne h0 hf
    obtain ⟨f, rfl⟩ : ∃ f, fuel = f + 1 := ⟨fuel - 1, by omega⟩
    unfold c_string
    rw [if_neg (by simpa using hne 0 (by omega))]
    rw [ih f (i + 1) (fun k hk => by have := hne (k + 1) (by omega); rwa [Nat.add_assoc, Nat.add_comm 1 k])
      (by rw [Nat.add_assoc, Nat.add_comm 1 n]; exact h0) (by omega)]
    simp [List.range'_succ]

theorem hex_slot_eq (j : Nat) (b : Option UChar) :
    ∃ t0 t1 t2, hex_slot j b = [t0, t1, t2] ++ (if j % 4 = 3 then [32] else [])
      ∧ (∀ x, b = some x → t0 = hex_digit (x.val / 16) ∧ t1 = hex_digit (x.val % 16) ∧ t2 = 32)
      ∧ (b = none → t0 = 32 ∧ t1 = 32 ∧ t2 = 32) := by
  cases b with
  | none => exact ⟨32, 32, 32, rfl, fun x h => by simp at h, fun _ => ⟨rfl, rfl, rfl⟩⟩
  | some x =>
    refine ⟨_, _, _, rfl, fun y h => ?_, fun h => by simp at h⟩
    simp only [Option.some.injEq] at h
    subst h
    exact ⟨rfl, rfl, rfl⟩

/-- Appending one slot to the line under construction: the array `buf1` agrees with `buf`
before `p` and in the ASCII column, holds the three characters of the slot at `p` (and the
space that ends a group), and the character of the slot in the ASCII column. -/
theorem linePre_append (buf buf1 : Nat → UChar) (off : Nat) (slots : List (Option UChar))
    (b : Option UChar) (t0 t1 t2 : UChar)
    (hlen : slots.length < 16) (h : LinePre buf off slots)
    (hslot : hex_slot slots.length b = [t0, t1, t2]
      ++ (if slots.length % 4 = 3 then [32] else []))
    (f1 : ∀ i, i < 10 + 3 * slots.length + slots.length / 4 → buf1 i = buf i)
    (f2 : ∀ i, 62 ≤ i → i ≠ 62 + slots.length → buf1 i = buf i)
    (g0 : buf1 (10 + 3 * slots.length + slots.length / 4) = t0)
    (g1 : buf1 (10 + 3 * slots.length + slots.length / 4 + 1) = t1)
    (g2 : buf1 (10 + 3 * slots.length + slots.length / 4 + 2) = t2)
    (g3 : slots.length % 4 = 3 → buf1 (10 + 3 * slots.length + slots.length / 4 + 3) = 32)
    (g4 : buf1 (62 + slots.length) = hex_slot_ascii b) :
    LinePre buf1 off (slots ++ [b]) := by
  obtain ⟨h1, h2, h3⟩ := h
  refine ⟨?_, ?_, ?_⟩
  · rw [f2 78 (by omega) (by omega)]
    exact h1
  · have hs := hex_slots_append slots [b] 0
    rw [hs, ← List.append_assoc, ← h2]
    simp only [List.length_append, List.length_singleton, hex_slots, List.append_nil,
      Nat.zero_add, hslot]
    generalize hp : 10 + 3 * slots.length + slots.length / 4 = p at f1 g0 g1 g2 g3
    by_cases h4 : slots.length % 4 = 3
    · have e : 10 + 3 * (slots.length + 1) + (slots.length + 1) / 4 = p + 4 := by omega
      rw [e, if_pos h4, List.range_eq_range', range'_split 0 p 4, List.map_append,
        List.range_eq_range']
      congr 1
      · apply List.map_congr_left
        intro i hi
        simp only [List.mem_range'_1] at hi
        exact f1 i (by omega)
      · simp only [Nat.zero_add, List.range'_succ, List.range'_zero, List.map_cons,
          List.map_nil, List.cons_append, List.nil_append, g0, g1, g2, g3 h4]
    · have e : 10 + 3 * (slots.length + 1) + (slots.length + 1) / 4 = p + 3 := by omega
      rw [e, if_neg h4, List.range_eq_range', range'_split 0 p 3, List.map_append,
        List.range_eq_range']
      congr 1
      · apply List.map_congr_left
        intro i hi
        simp only [List.mem_range'_1] at hi
        exact f1 i (by omega)
      · simp only [Nat.zero_add, List.range'_succ, List.range'_zero, List.map_cons,
          List.map_nil, List.append_nil, g0, g1, g2]
  · rw [List.length_append, List.length_singleton, range'_split 62 slots.length 1,
      List.map_append, List.map_append, ← h3]
    congr 1
    · apply List.map_congr_left
      intro i hi
      simp only [List.mem_range'_1] at hi
      exact f2 i (by omega) (by omega)
    · simp only [List.range'_succ, List.range'_zero, List.map_cons, List.map_nil, g4]

theorem hex_put_map_front (buf : Nat → UChar) (p : Nat) (a b : List UChar) :
    (List.range' p a.length).map (hex_put buf p (a ++ b)) = a := by
  apply List.ext_getElem
  · simp
  · intro k h1 h2
    simp only [List.getElem_map, List.getElem_range'_1]
    rw [hex_put_at buf p (a ++ b) k (by simp; omega), List.getD_eq_getElem?_getD,
      List.getElem?_append_left h2, List.getElem?_eq_getElem h2]
    rfl

theorem sprintf_offset_length (n : Nat) : (sprintf_offset n).length = 10 := rfl

/-- After the offset is printed at the start of `buf`, the line is under construction with
no slot yet. -/
theorem linePre_offset (buf : Nat → UChar) (off : Nat) (h : buf 78 = 0) :
    LinePre (hex_put buf 0 (sprintf_offset (off % 4294967296) ++ [0])) off [] := by
  refine ⟨?_, ?_, rfl⟩
  · rw [hex_put_ge _ _ _ _ (by simp [sprintf_offset_length])]
    exact h
  · have := hex_put_map_front buf 0 (sprintf_offset (off % 4294967296)) [0]
    rw [sprintf_offset_length] at this
    simp only [List.length_nil, Nat.mul_zero, Nat.add_zero, Nat.zero_div, hex_slots,
      List.append_nil, List.range_eq_range']
    exact this

/-- The line printed when all sixteen slots are written. -/
theorem linePre_print (buf : Nat → UChar) (off : Nat) (slots : List (Option UChar))
    (hlen : slots.length = 16) (h : LinePre buf off slots) :
    c_string buf 80 0
      = some (sprintf_offset (off % 4294967296) ++ hex_slots 0 slots
          ++ slots.map hex_slot_ascii) := by
  obtain ⟨h1, h2, h3⟩ := h
  rw [hlen] at h2 h3
  have hall : (List.range' 0 78).map buf
      = sprintf_offset (off % 4294967296) ++ hex_slots 0 slots ++ slots.map hex_slot_ascii := by
    rw [← h2, ← h3, List.range_eq_range']
    have : (10 + 3 * 16 + 16 / 4) = 62 := by norm_num
    rw [this, ← List.map_append]
    have e78 : 78 = 62 + 16 := rfl
    rw [e78, range'_split 0 62 16]
  rw [← hall]
  apply c_string_spec buf 78 80 0 _ (by simpa using h1) (by omega)
  intro k hk
  have hmem : buf (0 + k) ∈ (List.range' 0 78).map buf :=
    List.mem_map.2 ⟨k, by simp [List.mem_range'_1]; omega, by simp⟩
  rw [hall] at hmem
  rcases List.mem_append.1 hmem with hm | hm
  · rcases List.mem_append.1 hm with hm | hm
    · exact sprintf_offset_ne_zero _ _ hm
    · exact hex_slots_ne_zero _ _ _ hm
  · obtain ⟨b, _, hb⟩ := List.mem_map.1 hm
    rw [← hb]
    exact hex_slot_ascii_ne_zero b

/-- The end of a loop body (the space after a group, the print of a full line), from an
array `buf1` that holds the new slot. -/
theorem hex_line_end_spec (t : HexDump) (buf1 : Nat → UChar) (off pos : Nat)
    (slots : List (Option UChar)) (b : Option UChar) (t0 t1 t2 : UChar)
    (p : Nat) (hp : p = 10 + 3 * slots.length + slots.length / 4)
    (hlen : slots.length < 16) (hoff : off % 16 = 0) (hpos : pos = off + slots.length)
    (h : LinePre t.buf off slots)
    (hslot : hex_slot slots.length b = [t0, t1, t2]
      ++ (if slots.length % 4 = 3 then [32] else []))
    (f1 : ∀ i, i < p → buf1 i = t.buf i)
    (f2 : ∀ i, 62 ≤ i → i ≠ 62 + slots.length → buf1 i = t.buf i)
    (g0 : buf1 p = t0)
    (g1 : buf1 (p + 1) = t1)
    (g2 : buf1 (p + 2) = t2)
    (g4 : buf1 (62 + slots.length) = hex_slot_ascii b) :
    ∃ s1, hex_line_end { t with buf := buf1 } (p + 3) pos
        = .ok s1
      ∧ s1.buf 78 = 0
      ∧ (slots.length < 15 → s1.out = t.out
          ∧ s1.p = some (10 + 3 * (slots.length + 1) + (slots.length + 1) / 4)
          ∧ LinePre s1.buf off (slots ++ [b]))
      ∧ (slots.length = 15 → s1.out = t.out
          ++ (sprintf_offset (off % 4294967296) ++ hex_slots 0 (slots ++ [b])
              ++ (slots ++ [b]).map hex_slot_ascii) ++ [10]) := by
  subst hp
  unfold hex_line_end
  by_cases h4 : slots.length % 4 = 3
  · have hc : (pos + 1) % 4 = 0 := by omega
    rw [if_pos hc, hex_store_ok _ _ _ (by simp only [List.length_singleton]; omega)]
    simp only [Outcome.bind_ok]
    have hpre : LinePre (hex_put buf1 (10 + 3 * slots.length + slots.length / 4 + 3) [32]) off
        (slots ++ [b]) := by
      apply linePre_append t.buf _ off slots b t0 t1 t2 hlen h hslot
      · intro i hi
        rw [hex_put_lt _ _ _ _ (by omega)]
        exact f1 i hi
      · intro i hi hne
        rw [hex_put_ge _ _ _ _ (by simp only [List.length_singleton]; omega)]
        exact f2 i hi hne
      · rw [hex_put_lt _ _ _ _ (by omega)]; exact g0
      · rw [hex_put_lt _ _ _ _ (by omega)]; exact g1
      · rw [hex_put_lt _ _ _ _ (by omega)]; exact g2
      · intro _
        have := hex_put_at buf1 (10 + 3 * slots.length + slots.length / 4 + 3) [32] 0
          (by simp)
        simpa using this
      · rw [hex_put_ge _ _ _ _ (by simp only [List.length_singleton]; omega)]; exact g4
    by_cases h15 : slots.length = 15
    · rw [if_pos (by omega)]
      unfold hex_print
      simp only
      rw [linePre_print _ off (slots ++ [b]) (by simp [h15]) hpre]
      exact ⟨_, rfl, hpre.1, fun hh => by omega, fun _ => rfl⟩
    · rw [if_neg (by omega)]
      refine ⟨_, rfl, hpre.1, fun _ => ⟨rfl, ?_, hpre⟩, fun hh => absurd hh h15⟩
      simp only [Option.some.injEq]
      omega
  · have hc : ¬ (pos + 1) % 4 = 0 := by omega
    rw [if_neg hc]
    simp only [Outcome.bind_ok]
    have hpre : LinePre buf1 off (slots ++ [b]) :=
      linePre_append t.buf _ off slots b t0 t1 t2 hlen h hslot f1 f2 g0 g1 g2
        (fun hh => absurd hh h4) g4
    rw [if_neg (by omega)]
    refine ⟨_, rfl, hpre.1, fun _ => ⟨rfl, ?_, hpre⟩, fun hh => by omega⟩
    simp only [Option.some.injEq]
    omega

/-- One pass through the first loop: the byte `x` becomes the next slot of the line; the
sixteenth slot makes the line complete and it is printed. -/
theorem hexdump_byte_step (s : HexDump) (off : Nat) (slots : List (Option UChar)) (x : UChar)
    (hinv : LineInv s off slots) (hlen : slots.length < 16) (hoff : off % 16 = 0) :
    ∃ s1, hexdump_byte s (off + slots.length) x = .ok s1
      ∧ s1.buf 78 = 0
      ∧ (slots.length < 15 → s1.out = s.out ∧ LineInv s1 off (slots ++ [some x]))
      ∧ (slots.length = 15 → s1.out = s.out
          ++ (sprintf_offset (off % 4294967296) ++ hex_slots 0 (slots ++ [some x])
              ++ (slots ++ [some x]).map hex_slot_ascii) ++ [10]) := by
  have key : ∀ t : HexDump, t.out = s.out →
      t.p = some (10 + 3 * slots.length + slots.length / 4) → LinePre t.buf off slots →
      ∃ s1, (match t.p with
          | none => Outcome.undefined
          | some p =>
            (hex_store t.buf p (sprintf_byte x ++ [0])).bind fun buf =>
            (hex_store buf (62 + (off + slots.length) % 16)
              [if x.val < 32 ∨ x.val > 126 then 46 else x]).bind fun buf =>
            hex_line_end { t with buf := buf } (p + 3) (off + slots.length)) = .ok s1
        ∧ s1.buf 78 = 0
        ∧ (slots.length < 15 → s1.out = s.out ∧ LineInv s1 off (slots ++ [some x]))
        ∧ (slots.length = 15 → s1.out = s.out
            ++ (sprintf_offset (off % 4294967296) ++ hex_slots 0 (slots ++ [some x])
                ++ (slots ++ [some x]).map hex_slot_ascii) ++ [10]) := by
    intro t hout hp hpre
    have hflag : (off + slots.length) % 16 = slots.length := by omega
    rw [hp, hflag]
    simp only
    rw [hex_store_ok _ _ _ (by simp [sprintf_byte]; omega), Outcome.bind_ok,
      hex_store_ok _ _ _ (by simp only [List.length_singleton]; omega), Outcome.bind_ok]
    obtain ⟨t0, t1, t2, hslot, hsome, _⟩ := hex_slot_eq slots.length (some x)
    obtain ⟨e0, e1, e2⟩ := hsome x rfl
    obtain ⟨s1, hs1, h78, hA, hB⟩ := hex_line_end_spec t
      (hex_put (hex_put t.buf (10 + 3 * slots.length + slots.length / 4)
        (sprintf_byte x ++ [0])) (62 + slots.length)
        [if x.val < 32 ∨ x.val > 126 then 46 else x])
      off (off + slots.length) slots (some x) t0 t1 t2 _ rfl hlen hoff rfl hpre hslot
      (fun i hi => by
        rw [hex_put_lt _ _ _ _ (by omega), hex_put_lt _ _ _ _ hi])
      (fun i hi hne => by
        have hsz : (sprintf_byte x ++ [0]).length = 4 := rfl
        by_cases hlt : i < 62 + slots.length
        · rw [hex_put_lt _ _ _ _ hlt, hex_put_ge _ _ _ _ (by rw [hsz]; omega)]
        · rw [hex_put_ge _ _ _ _ (by simp only [List.length_singleton]; omega),
            hex_put_ge _ _ _ _ (by rw [hsz]; omega)])
      (by
        rw [hex_put_lt _ _ _ _ (by omega)]
        have := hex_put_at t.buf (10 + 3 * slots.length + slots.length / 4)
          (sprintf_byte x ++ [0]) 0 (by simp [sprintf_byte])
        rw [Nat.add_zero] at this
        rw [this, e0]; rfl)
      (by
        rw [hex_put_lt _ _ _ _ (by omega),
          hex_put_at _ _ _ 1 (by simp [sprintf_byte]), e1]; rfl)
      (by
        rw [hex_put_lt _ _ _ _ (by omega),
          hex_put_at _ _ _ 2 (by simp [sprintf_byte]), e2]; rfl)
      (by
        have := hex_put_at (hex_put t.buf (10 + 3 * slots.length + slots.length / 4)
          (sprintf_byte x ++ [0])) (62 + slots.length)
          [if x.val < 32 ∨ x.val > 126 then 46 else x] 0 (by simp)
        rw [Nat.add_zero] at this
        rw [this]; rfl)
    refine ⟨s1, hs1, h78, fun h15 => ?_, fun h15 => ?_⟩
    · obtain ⟨a1, a2, a3⟩ := hA h15
      refine ⟨a1.trans hout, h78, fun _ => ⟨?_, ?_⟩⟩
      · rw [a2]; simp
      · exact a3
    · rw [hB h15, hout]
  unfold hexdump_byte
  by_cases hs : slots = []
  · subst hs
    simp only [List.length_nil, Nat.add_zero] at key ⊢
    rw [if_pos hoff, hex_store_ok _ _ _ (by simp [sprintf_offset_length]), Outcome.bind_ok,
      Outcome.bind_ok]
    exact key { s with buf := hex_put s.buf 0 (sprintf_offset (off % 4294967296) ++ [0]),
                       p := some 10 } rfl rfl
      (linePre_offset s.buf off hinv.1)
  · have hne : slots.length ≠ 0 := fun h => hs (List.length_eq_zero.1 h)
    have hflag : ¬ (off + slots.length) % 16 = 0 := by omega
    dsimp only
    rw [if_neg hflag, Outcome.bind_ok]
    exact key s rfl (hinv.2 hs).1 (hinv.2 hs).2

/-- One pass through the second loop: the next slot of the line is filled with spaces; the
sixteenth slot makes the line complete and it is printed. -/
theorem hexdump_pad_step (s : HexDump) (off : Nat) (slots : List (Option UChar))
    (hinv : LineInv s off slots) (hne : slots ≠ []) (hlen : slots.length < 16)
    (hoff : off % 16 = 0) :
    ∃ s1, hexdump_pad s (off + slots.length) = .ok s1
      ∧ s1.buf 78 = 0
      ∧ (slots.length < 15 → s1.out = s.out ∧ LineInv s1 off (slots ++ [none]))
      ∧ (slots.length = 15 → s1.out = s.out
          ++ (sprintf_offset (off % 4294967296) ++ hex_slots 0 (slots ++ [none])
              ++ (slots ++ [none]).map hex_slot_ascii) ++ [10]) := by
  obtain ⟨hp, hpre⟩ := hinv.2 hne
  have hflag : (off + slots.length) % 16 = slots.length := by omega
  unfold hexdump_pad
  dsimp only
  rw [hflag, hex_store_ok _ _ _ (by simp only [List.length_singleton]; omega), Outcome.bind_ok,
    hp]
  simp only
  have hsz : ([32, 32, 32, 0] : List UChar).length = 4 := rfl
  rw [hex_store_ok _ _ _ (by rw [hsz]; omega), Outcome.bind_ok]
  obtain ⟨t0, t1, t2, hslot, _, hnone⟩ := hex_slot_eq slots.length none
  obtain ⟨e0, e1, e2⟩ := hnone rfl
  obtain ⟨s1, hs1, h78, hA, hB⟩ := hex_line_end_spec s
    (hex_put (hex_put s.buf (62 + slots.length) [32])
      (10 + 3 * slots.length + slots.length / 4) [32, 32, 32, 0])
    off (off + slots.length) slots none t0 t1 t2 _ rfl hlen hoff rfl hpre hslot
    (fun i hi => by
      rw [hex_put_lt _ _ _ _ hi, hex_put_lt _ _ _ _ (by omega)])
    (fun i hi hne => by
      rw [hex_put_ge _ _ _ _ (by rw [hsz]; omega)]
      by_cases hlt : i < 62 + slots.length
      · rw [hex_put_lt _ _ _ _ hlt]
      · rw [hex_put_ge _ _ _ _ (by simp only [List.length_singleton]; omega)])
    (by
      have := hex_put_at (hex_put s.buf (62 + slots.length) [32])
        (10 + 3 * slots.length + slots.length / 4) [32, 32, 32, 0] 0 (by simp)
      rw [Nat.add_zero] at this
      rw [this, e0]; rfl)
    (by rw [hex_put_at _ _ _ 1 (by simp), e1]; rfl)
    (by rw [hex_put_at _ _ _ 2 (by simp), e2]; rfl)
    (by
      rw [hex_put_ge _ _ _ _ (by rw [hsz]; omega)]
      have := hex_put_at s.buf (62 + slots.length) [32] 0 (by simp)
      rw [Nat.add_zero] at this
      rw [this]; rfl)
  refine ⟨s1, hs1, h78, fun h15 => ?_, fun h15 => hB h15⟩
  obtain ⟨a1, a2, a3⟩ := hA h15
  refine ⟨a1, h78, fun _ => ⟨?_, a3⟩⟩
  rw [a2]; simp

theorem hexdump_loop_append (a b : List UChar) :
    ∀ (s : HexDump) (pos : Nat), hexdump_loop s pos (a ++ b)
      = (hexdump_loop s pos a).bind fun s1 => hexdump_loop s1 (pos + a.length) b := by
  induction a with
  | nil => intro s pos; simp [hexdump_loop]
  | cons x xs ih =>
    intro s pos
    rw [List.cons_append, hexdump_loop, hexdump_loop]
    cases hexdump_byte s pos x with
    | ok s1 =>
      simp only [Outcome.bind_ok, ih s1 (pos + 1), List.length_cons]
      have : pos + 1 + xs.length = pos + (xs.length + 1) := by omega
      rw [this]
    | undefined => simp
    | aborted => simp
    | outOfFuel => simp

/-- The first loop on bytes that do not complete the line. -/
theorem hexdump_loop_line (off : Nat) (hoff : off % 16 = 0) (xs : List UChar) :
    ∀ (slots : List (Option UChar)) (s : HexDump), LineInv s off slots →
      slots.length + xs.length < 16 →
      ∃ s1, hexdump_loop s (off + slots.length) xs = .ok s1 ∧ s1.out = s.out
        ∧ LineInv s1 off (slots ++ xs.map some) := by
  induction xs with
  | nil => intro slots s h _; exact ⟨s, rfl, rfl, by simpa using h⟩
  | cons x xs ih =>
    intro slots s h hl
    simp only [List.length_cons] at hl
    obtain ⟨s1, e1, _, hA, _⟩ := hexdump_byte_step s off slots x h (by omega) hoff
    obtain ⟨o1, inv1⟩ := hA (by omega)
    obtain ⟨s2, e2, o2, inv2⟩ := ih (slots ++ [some x]) s1 inv1
      (by simp only [List.length_append, List.length_singleton]; omega)
    refine ⟨s2, ?_, o2.trans o1, ?_⟩
    · rw [hexdump_loop, e1, Outcome.bind_ok]
      simp only [List.length_append, List.length_singleton] at e2
      rw [← e2, Nat.add_assoc]
    · simpa using inv2

/-- The first loop on a full chunk of sixteen bytes starting a line: the line is printed. -/
theorem hexdump_loop_chunk (off : Nat) (hoff : off % 16 = 0) (chunk : List UChar)
    (hlen : chunk.length = 16) (s : HexDump) (h78 : s.buf 78 = 0) :
    ∃ s1, hexdump_loop s off chunk = .ok s1 ∧ s1.buf 78 = 0
      ∧ s1.out = s.out ++ hexdump_line off chunk ++ [10] := by
  obtain ⟨ini, x, rfl⟩ : ∃ ini x, chunk = ini ++ [x] := by
    have hne : chunk ≠ [] := fun h => by rw [h] at hlen; simp at hlen
    exact ⟨chunk.dropLast, chunk.getLast hne, (List.dropLast_append_getLast hne).symm⟩
  simp only [List.length_append, List.length_singleton] at hlen
  have hinv0 : LineInv s off [] := ⟨h78, fun h => absurd rfl h⟩
  obtain ⟨s1, e1, o1, inv1⟩ := hexdump_loop_line off hoff ini [] s hinv0
    (by simp only [List.length_nil]; omega)
  simp only [List.length_nil, Nat.add_zero, List.nil_append] at e1 inv1
  obtain ⟨s2, e2, k78, _, hB⟩ := hexdump_byte_step s1 off (ini.map some) x inv1
    (by simp only [List.length_map]; omega) hoff
  simp only [List.length_map] at e2 hB
  refine ⟨s2, ?_, k78, ?_⟩
  · rw [hexdump_loop_append, e1, Outcome.bind_ok, hexdump_loop, e2, Outcome.bind_ok]
    rfl
  · rw [hB (by omega), o1]
    unfold hexdump_line
    have : 16 - (ini ++ [x]).length = 0 := by
      simp only [List.length_append, List.length_singleton]; omega
    simp only [this, List.replicate_zero, List.append_nil, List.map_append, List.map_cons,
      List.map_nil]

/-- The first loop on full chunks. -/
theorem hexdump_loop_chunks (chunks : List (List UChar)) :
    ∀ (off : Nat) (s : HexDump), off % 16 = 0 → s.buf 78 = 0 →
      (∀ c ∈ chunks, c.length = 16) →
      ∃ s1, hexdump_loop s off chunks.flatten = .ok s1 ∧ s1.buf 78 = 0
        ∧ s1.out = s.out ++ hexdump_lines off chunks := by
  induction chunks with
  | nil => intro off s _ h78 _; exact ⟨s, rfl, h78, by simp [hexdump_lines]⟩
  | cons c cs ih =>
    intro off s hoff h78 hc
    have hc16 := hc c (List.mem_cons_self _ _)
    obtain ⟨s1, e1, k78, o1⟩ := hexdump_loop_chunk off hoff c hc16 s h78
    obtain ⟨s2, e2, j78, o2⟩ := ih (off + 16) s1 (by omega) k78
      (fun d hd => hc d (List.mem_cons_of_mem _ hd))
    refine ⟨s2, ?_, j78, ?_⟩
    · rw [List.flatten_cons, hexdump_loop_append, e1, Outcome.bind_ok, hc16, e2]
    · rw [o2, o1, hexdump_lines]
      simp only [List.append_assoc]

/-- The second loop completes a partial line and prints it. -/
theorem hexdump_pad_loop_spec (off : Nat) (hoff : off % 16 = 0) (k : Nat) :
    ∀ (slots : List (Option UChar)) (s : HexDump) (fuel : Nat), LineInv s off slots →
      slots ≠ [] → slots.length + (k + 1) = 16 → k + 1 ≤ fuel →
      ∃ s1, hexdump_pad_loop fuel s (off + slots.length) = .ok s1
        ∧ s1.out = s.out
          ++ (sprintf_offset (off % 4294967296)
              ++ hex_slots 0 (slots ++ List.replicate (k + 1) none)
              ++ (slots ++ List.replicate (k + 1) none).map hex_slot_ascii) ++ [10] := by
  induction k with
  | zero =>
    intro slots s fuel h hne hl hf
    obtain ⟨f, rfl⟩ : ∃ f, fuel = f + 1 := ⟨fuel - 1, by omega⟩
    obtain ⟨s1, e1, _, _, hB⟩ := hexdump_pad_step s off slots h hne (by omega) hoff
    refine ⟨s1, ?_, ?_⟩
    · unfold hexdump_pad_loop
      rw [if_pos (by omega)]
      simp only [e1, Outcome.bind_ok]
      unfold hexdump_pad_loop
      rw [if_neg (by omega)]
    · rw [hB (by omega)]
      rfl
  | succ k ih =>
    intro slots s fuel h hne hl hf
    have hpos : 0 < slots.length := List.length_pos.2 hne
    obtain ⟨f, rfl⟩ : ∃ f, fuel = f + 1 := ⟨fuel - 1, by omega⟩
    obtain ⟨s1, e1, _, hA, _⟩ := hexdump_pad_step s off slots h hne (by omega) hoff
    obtain ⟨o1, inv1⟩ := hA (by omega)
    obtain ⟨s2, e2, o2⟩ := ih (slots ++ [none]) s1 f inv1 (by simp)
      (by simp only [List.length_append, List.length_singleton]; omega) (by omega)
    refine ⟨s2, ?_, ?_⟩
    · unfold hexdump_pad_loop
      rw [if_pos (by omega)]
      simp only [e1, Outcome.bind_ok]
      simp only [List.length_append, List.length_singleton] at e2
      rw [← e2, Nat.add_assoc]
    · rw [o2, o1]
      have : slots ++ [none] ++ List.replicate (k + 1) none
          = slots ++ List.replicate (k + 1 + 1) (none : Option UChar) := by
        rw [List.append_assoc, List.replicate_succ (n := k + 1)]
        rfl
      rw [this]

theorem flatten_length_16 (chunks : List (List UChar)) (h : ∀ c ∈ chunks, c.length = 16) :
    chunks.flatten.length = 16 * chunks.length := by
  induction chunks with
  | nil => rfl
  | cons c cs ih =>
    rw [List.flatten_cons, List.length_append, h c (List.mem_cons_self _ _),
      ih (fun d hd => h d (List.mem_cons_of_mem _ hd)), List.length_cons]
    omega

theorem hex_slots_length (slots : List (Option UChar)) :
    ∀ j, (hex_slots j slots).length
      = 3 * slots.length + ((j + slots.length) / 4 - j / 4) := by
  induction slots with
  | nil => intro j; simp [hex_slots]
  | cons b bs ih =>
    intro j
    have hb : (hex_slot j b).length = 3 + (if j % 4 = 3 then 1 else 0) := by
      unfold hex_slot
      cases b <;> split_ifs <;> rfl
    rw [hex_slots, List.length_append, ih (j + 1), hb, List.length_cons]
    split_ifs <;> omega

/-- A line of the dump has 78 characters. -/
theorem hexdump_line_length (off : Nat) (chunk : List UChar) (h : chunk.length ≤ 16) :
    (hexdump_line off chunk).length = 78 := by
  unfold hexdump_line
  simp only [List.length_append, sprintf_offset_length, hex_slots_length, List.length_map,
    List.length_replicate]
  omega

/-- What `netcat_fhexdump` writes for a buffer made of full chunks of sixteen bytes and a
shorter rest: one line for each chunk, and one for the rest when it is not empty. -/
theorem netcat_fhexdump_eq (buf0 : Nat → UChar) (chunks : List (List UChar))
    (last : List UChar) (hc : ∀ c ∈ chunks, c.length = 16) (hl : last.length < 16) :
    netcat_fhexdump buf0 (chunks.flatten ++ last)
      = .ok (hexdump_lines 0 chunks
          ++ (if last = [] then [] else hexdump_line (16 * chunks.length) last ++ [10])) := by
  unfold netcat_fhexdump
  dsimp only
  obtain ⟨s1, e1, h78, o1⟩ := hexdump_loop_chunks chunks 0
    { buf := fun i => if i = 78 then 0 else buf0 i, p := none, out := [] } rfl (by simp) hc
  have hfl := flatten_length_16 chunks hc
  have hoff : (16 * chunks.length) % 16 = 0 := by omega
  obtain ⟨s2, e2, o2, inv2⟩ := hexdump_loop_line (16 * chunks.length) hoff last [] s1
    ⟨h78, fun h => absurd rfl h⟩ (by simp only [List.length_nil]; omega)
  simp only [List.length_nil, Nat.add_zero, List.nil_append] at e2 inv2
  rw [hexdump_loop_append, e1, Outcome.bind_ok, Nat.zero_add, hfl, e2, Outcome.bind_ok,
    List.length_append, hfl]
  simp only [List.nil_append] at o1
  by_cases hlast : last = []
  · subst hlast
    rw [if_pos rfl]
    unfold hexdump_pad_loop
    rw [if_neg (by simp only [List.length_nil]; omega)]
    simp only [Outcome.bind_ok, o2, o1, List.append_nil]
  · rw [if_neg hlast]
    have hpos : 0 < last.length := List.length_pos.2 hlast
    obtain ⟨s3, e3, o3⟩ := hexdump_pad_loop_spec (16 * chunks.length) hoff
      (16 - last.length - 1) (last.map some) s2 16 inv2 (by simpa using hlast)
      (by simp only [List.length_map]; omega) (by omega)
    simp only [List.length_map] at e3
    rw [e3, Outcome.bind_ok, o3, o2, o1]
    have : 16 - last.length - 1 + 1 = 16 - last.length := by omega
    rw [this]
    unfold hexdump_line
    simp only [List.append_assoc]

/-- Counterexample to claim C20: for the sixteen bytes `ABCDEFGHIJKLMNOP` the function
writes one line of 78 characters that ends with the ASCII column; the line holds no `|`
and is not the line of the format with the column between two `|`. -/
theorem netcat_fhexdump_no_bars :
    netcat_fhexdump (fun _ => 0) hex_demo = .ok (hexdump_line 0 hex_demo ++ [10])
      ∧ (124 : UChar) ∉ hexdump_line 0 hex_demo
      ∧ hexdump_line 0 hex_demo ≠ hexdump_line_spec 0 hex_demo
      ∧ (hexdump_line 0 hex_demo).drop 62 = hex_demo := by
  decide!

/-- Every buffer is made of full chunks of sixteen bytes and a shorter rest. -/
theorem chunks16_exists (n : Nat) :
    ∀ data : List UChar, data.length ≤ n →
      ∃ (chunks : List (List UChar)) (last : List UChar),
        data = chunks.flatten ++ last ∧ (∀ c ∈ chunks, c.length = 16)
          ∧ last.length < 16 := by
  induction n with
  | zero =>
    intro data h
    exact ⟨[], data, rfl, fun c hc => absurd hc (List.not_mem_nil _), by omega⟩
  | succ n ih =>
    intro data h
    by_cases h16 : data.length < 16
    · exact ⟨[], data, rfl, fun c hc => absurd hc (List.not_mem_nil _), h16⟩
    · obtain ⟨cs, last, e, hc, hl⟩ := ih (data.drop 16) (by rw [List.length_drop]; omega)
      refine ⟨data.take 16 :: cs, last, ?_, ?_, hl⟩
      · rw [List.flatten_cons, List.append_assoc, ← e, List.take_append_drop]
      · intro c hmem
        rcases List.mem_cons.1 hmem with rfl | hmem
        · rw [List.length_take]; omega
        · exact hc c hmem

/-- Claim C20 (amended): every buffer is made of full chunks of sixteen bytes and a shorter
rest, and `netcat_fhexdump` writes one line for each chunk and one for a non-empty rest, each
followed by a newline; a line is `hexdump_line`: the offset of its first byte (modulo 2^32)
in eight upper-case hexadecimal digits, two spaces, sixteen slots in four groups (two
upper-case hexadecimal digits and a space for a byte, three spaces in the last line past
the end of the buffer, one more space after each group), and directly after them the ASCII
column of sixteen characters, without `|`; every line has 78 characters.  This holds for
all contents of the array `buf` on entry. -/
theorem netcat_fhexdump_format (buf0 : Nat → UChar) (data : List UChar) :
    ∃ (chunks : List (List UChar)) (last : List UChar),
      data = chunks.flatten ++ last ∧ (∀ c ∈ chunks, c.length = 16)
      ∧ last.length < 16
      ∧ netcat_fhexdump buf0 data
          = .ok (hexdump_lines 0 chunks
              ++ (if last = [] then [] else hexdump_line (16 * chunks.length) last ++ [10]))
      ∧ (∀ c ∈ chunks, ∀ off, (hexdump_line off c).length = 78)
      ∧ (hexdump_line (16 * chunks.length) last).length = 78 := by
  obtain ⟨chunks, last, e, hc, hl⟩ := chunks16_exists data.length data (Nat.le_refl _)
  refine ⟨chunks, last, e, hc, hl, ?_, fun c h off => hexdump_line_length off c (by rw [hc c h]),
    hexdump_line_length _ last (by omega)⟩
  rw [e]
  exact netcat_fhexdump_eq buf0 chunks last hc hl

/-! ### The scratch `getrq`, the stripped queue, and queues without IAC -/

/-- A byte that the machine accepts leaves `l` at its value, at zero, or one higher, and a
store only happens with `0 ≤ l < 4`: from `0 ≤ l ≤ 4` the machine stays there. -/
theorem telnet_byte_l_bound (st : TelnetStatic) (c : UChar) (t : TelnetStream)
    (h : telnet_byte st c = .ok t) (h0 : 0 ≤ st.l) (h4 : st.l ≤ 4) :
    0 ≤ t.static.l ∧ t.static.l ≤ 4 := by
  unfold telnet_byte at h
  by_cases h1 : c ≠ TELNET_IAC ∧ st.l = 0
  · rw [if_pos h1] at h
    simp only [Outcome.ok.injEq] at h
    subst h
    exact ⟨h0, h4⟩
  · rw [if_neg h1] at h
    by_cases h2 : st.l < 0 ∨ 4 ≤ st.l
    · rw [if_pos h2] at h
      exact absurd h (by simp)
    · rw [if_neg h2] at h
      dsimp only at h
      split_ifs at h <;> simp only [Outcome.ok.injEq] at h <;> subst h <;> dsimp only <;> omega

/-- As long as the machine accepts the bytes, `l` stays between 0 and 4. -/
theorem telnet_bytes_l_bound (cs : List UChar) :
    ∀ (st : TelnetStatic) (t : TelnetStream), telnet_bytes st cs = .ok t → 0 ≤ st.l →
      st.l ≤ 4 → 0 ≤ t.static.l ∧ t.static.l ≤ 4 := by
  induction cs with
  | nil =>
    intro st t h h0 h4
    simp only [telnet_bytes, Outcome.ok.injEq] at h
    subst h
    exact ⟨h0, h4⟩
  | cons c cs ih =>
    intro st t h h0 h4
    simp only [telnet_bytes, Outcome.bind_eq_ok] at h
    obtain ⟨r, hr, u, hu, e⟩ := h
    simp only [Outcome.ok.injEq] at e
    subst e
    obtain ⟨a, b⟩ := telnet_byte_l_bound st c r hr h0 h4
    exact ih r.static u hu a b

/-- The byte machine on data `a`, then `IAC x` for an unrecognised `x`, then the bytes `d`:
with three bytes or more in `d`, the third one is stored outside `getrq`. -/
theorem telnet_bytes_overrun (g0 g1 g2 g3 x : UChar) (hx : x.val < 240) (a d : List UChar)
    (ha : ∀ c ∈ a, c ≠ TELNET_IAC) :
    (d.length ≤ 2 → ∃ t, telnet_bytes { getrq := [g0, g1, g2, g3], l := 0 }
        (a ++ [TELNET_IAC, x] ++ d) = .ok t ∧ t.static.l = 2 + (d.length : Nat)
        ∧ t.stripped = a)
    ∧ (3 ≤ d.length → telnet_bytes { getrq := [g0, g1, g2, g3], l := 0 }
        (a ++ [TELNET_IAC, x] ++ d) = .undefined) := by
  obtain ⟨hA, hB⟩ := telnet_bytes_unknown g0 g1 g2 g3 x hx d
  have e : a ++ [TELNET_IAC, x] ++ d = a ++ ([TELNET_IAC, x] ++ d) := by
    simp only [List.append_assoc]
  rw [e, telnet_bytes_append, telnet_bytes_data a ha _ rfl]
  simp only [Outcome.bind_ok]
  constructor
  · intro hd
    obtain ⟨g, h⟩ := hA hd
    rw [h]
    simp only [Outcome.bind_ok]
    exact ⟨_, rfl, rfl, by simp⟩
  · intro hd
    rw [hB hd]
    simp only [Outcome.bind_undefined]

/-- Claim C26 fails on the code.  In a sequence of calls of `netcat_telnet_parse` that starts
from the reset state, `l` stays between 0 and 4 as long as every store `getrq[l++]` falls
inside the array; but when the bytes of the calls are data `a`, then `IAC x` with an
unrecognised `x` (below 240), then bytes `d`, nothing resets `l`: with two bytes in `d` the
calls end with `l = 4`, and with three bytes or more the third byte of `d` is stored at
`getrq[4]`, outside the array, however the bytes are cut into calls. -/
theorem telnet_scratch_overrun (st : TelnetStatic) (hg : st.getrq.length = 4)
    (chunks : List (List UChar)) :
    (∀ t, telnet_parse_chunks (netcat_telnet_reset st) chunks = .ok t →
      0 ≤ t.static.l ∧ t.static.l ≤ 4)
    ∧ ∀ (a d : List UChar) (x : UChar), chunks.flatten = a ++ [TELNET_IAC, x] ++ d →
        (∀ c ∈ a, c ≠ TELNET_IAC) → x.val < 240 →
        (d.length = 2 → ∃ t, telnet_parse_chunks (netcat_telnet_reset st) chunks = .ok t
            ∧ t.static.l = 4)
        ∧ (3 ≤ d.length →
            telnet_parse_chunks (netcat_telnet_reset st) chunks = .undefined) := by
  obtain ⟨g0, g1, g2, g3, hgl⟩ := getrq_cells st.getrq hg
  have hst : netcat_telnet_reset st = { getrq := [g0, g1, g2, g3], l := 0 } := by
    simp only [netcat_telnet_reset, hgl]
  rw [hst, telnet_parse_chunks_eq_bytes]
  constructor
  · intro t h
    exact telnet_bytes_l_bound _ _ t h (by simp) (by simp)
  · intro a d x hc ha hx
    rw [hc]
    obtain ⟨hA, hB⟩ := telnet_bytes_overrun g0 g1 g2 g3 x hx a d ha
    refine ⟨fun hd => ?_, hB⟩
    obtain ⟨t, h1, h2, _⟩ := hA (by omega)
    refine ⟨t, h1, ?_⟩
    rw [h2, hd]
    rfl

/-- Witness for C26: two calls, on `'A' FF 01` and on `'B' 'C' 'D'`, statics as at program
start: the second call stores `'D'` at `getrq[4]`. -/
theorem telnet_scratch_overrun_witness :
    telnet_static_init.getrq.length = 4
    ∧ (∀ c ∈ ([65] : List UChar), c ≠ TELNET_IAC) ∧ (1 : UChar).val < 240
    ∧ 3 ≤ ([66, 67, 68] : List UChar).length
    ∧ telnet_parse_chunks (netcat_telnet_reset telnet_static_init)
        [[65, 255, 1], [66, 67, 68]] = .undefined :=
  ⟨rfl, by decide!, by decide, by decide,
    ((telnet_scratch_overrun telnet_static_init rfl [[65, 255, 1], [66, 67, 68]]).2
      [65] [66, 67, 68] 1 rfl (by decide!) (by decide)).2 (by decide)⟩


/-! ### The code against the stripped data of the specification -/

theorem telnet_known_codes : ∀ c : UChar, 240 ≤ c.val →
    c = TELNET_SE ∨ c = TELNET_NOP ∨ c = TELNET_DM ∨ c = TELNET_BRK ∨ c = TELNET_IP
      ∨ c = TELNET_AO ∨ c = TELNET_AYT ∨ c = TELNET_EC ∨ c = TELNET_EL ∨ c = TELNET_GA
      ∨ c = TELNET_SB ∨ c = TELNET_WILL ∨ c = TELNET_WONT ∨ c = TELNET_DO
      ∨ c = TELNET_DONT ∨ c = TELNET_IAC := by
  decide!

/-- From statics that stand for a state of the specification, a byte that is not an
unrecognised command does to the queue and to the pending sequence what the specification
says. -/
theorem telnet_byte_spec (st : TelnetStatic) (ss : TelnetSpecState) (c : UChar)
    (hst : telnet_spec_state st = some ss) (hc : ss ≠ .iac ∨ 240 ≤ c.val) :
    (telnet_byte st c).bind (fun t => .ok (t.stripped, telnet_spec_state t.static))
      = .ok ((telnet_spec_step ss c).2, some (telnet_spec_step ss c).1) := by
  obtain ⟨g, l⟩ := st
  unfold telnet_spec_state at hst
  dsimp only at hst
  by_cases hg : g.length ≠ 4
  · rw [if_pos hg] at hst
    exact absurd hst (by simp)
  · rw [if_neg hg] at hst
    obtain ⟨g0, g1, g2, g3, rfl⟩ := getrq_cells g (by simpa using hg)
    by_cases h0 : l = 0
    · subst h0
      rw [if_pos rfl] at hst
      cases hst
      by_cases hi : c = TELNET_IAC
      · subst hi
        simp [telnet_byte, telnet_spec_step, telnet_spec_state, TELNET_IAC]
      · simp [telnet_byte, telnet_spec_step, telnet_spec_state, hi]
    · rw [if_neg h0] at hst
      by_cases h1 : l = 1
      · subst h1
        rw [if_pos rfl] at hst
        cases hst
        have hv : 240 ≤ c.val := by
          rcases hc with h | h
          · exact absurd rfl h
          · exact h
        rcases telnet_known_codes c hv with
          rfl | rfl | rfl | rfl | rfl | rfl | rfl | rfl | rfl | rfl | rfl | rfl | rfl | rfl
            | rfl | rfl <;>
          simp [telnet_byte, telnet_spec_step, telnet_spec_state, TELNET_IAC, TELNET_WILL,
            TELNET_WONT, TELNET_DONT, TELNET_DO, TELNET_SE, TELNET_NOP, TELNET_DM, TELNET_BRK,
            TELNET_IP, TELNET_AO, TELNET_AYT, TELNET_EC, TELNET_EL, TELNET_GA, TELNET_SB]
      · rw [if_neg h1] at hst
        split_ifs at hst with h2
        cases hst
        obtain ⟨h2, hcode⟩ := h2
        subst h2
        simp only [List.getD_cons_succ, List.getD_cons_zero] at hcode
        rcases hcode with rfl | rfl | rfl | rfl <;>
          simp [telnet_byte, telnet_spec_step, telnet_spec_state, TELNET_IAC, TELNET_WILL,
            TELNET_WONT, TELNET_DONT, TELNET_DO, TELNET_SE, TELNET_NOP, TELNET_DM, TELNET_BRK,
            TELNET_IP, TELNET_AO, TELNET_AYT, TELNET_EC, TELNET_EL, TELNET_GA, TELNET_SB]

/-- On a sequence of bytes without an unrecognised command, the byte machine keeps the
stripped data of the specification and ends with the pending sequence it describes. -/
theorem telnet_bytes_spec (cs : List UChar) :
    ∀ (st : TelnetStatic) (ss : TelnetSpecState), telnet_spec_state st = some ss →
      telnet_known_commands ss cs = true →
      ∃ t, telnet_bytes st cs = .ok t ∧ t.stripped = (telnet_spec_run ss cs).2
        ∧ telnet_spec_state t.static = some (telnet_spec_run ss cs).1 := by
  induction cs with
  | nil =>
    intro st ss hst _
    exact ⟨_, rfl, rfl, hst⟩
  | cons c cs ih =>
    intro st ss hst hk
    simp only [telnet_known_commands, Bool.and_eq_true, Bool.or_eq_true,
      decide_eq_true_eq] at hk
    have hb := telnet_byte_spec st ss c hst hk.1
    rw [Outcome.bind_eq_ok] at hb
    obtain ⟨r, hr, e⟩ := hb
    simp only [Outcome.ok.injEq, Prod.mk.injEq] at e
    obtain ⟨t, ht, hs, hf⟩ := ih r.static _ e.2 hk.2
    refine ⟨{ static := t.static, stripped := r.stripped ++ t.stripped,
              sent := r.sent ++ t.sent }, ?_, ?_, ?_⟩
    · simp only [telnet_bytes, hr, ht, Outcome.bind_ok]
    · simp only [telnet_spec_run, e.1, hs]
    · simp only [telnet_spec_run, hf]

theorem telnet_spec_run_append (a b : List UChar) :
    ∀ ss : TelnetSpecState, telnet_spec_run ss (a ++ b)
      = ((telnet_spec_run (telnet_spec_run ss a).1 b).1,
          (telnet_spec_run ss a).2 ++ (telnet_spec_run (telnet_spec_run ss a).1 b).2) := by
  induction a with
  | nil => intro ss; simp [telnet_spec_run]
  | cons c a ih =>
    intro ss
    rw [List.cons_append]
    simp only [telnet_spec_run]
    rw [ih]
    simp only [List.append_assoc]

/-- The stripped data of the specification are bytes of the input, in their order. -/
theorem telnet_spec_run_sublist (cs : List UChar) :
    ∀ ss : TelnetSpecState, (telnet_spec_run ss cs).2.Sublist cs := by
  induction cs with
  | nil => intro ss; exact List.Sublist.refl _
  | cons c cs ih =>
    intro ss
    have hs : (telnet_spec_step ss c).2 = [] ∨ (telnet_spec_step ss c).2 = [c] := by
      cases ss with
      | data =>
        by_cases hi : c = TELNET_IAC
        · exact Or.inl (by simp [telnet_spec_step, hi])
        · exact Or.inr (by simp [telnet_spec_step, hi])
      | iac =>
        by_cases hi : c = TELNET_IAC
        · exact Or.inr (by subst hi; simp [telnet_spec_step, TELNET_IAC])
        · refine Or.inl ?_
          simp only [telnet_spec_step, if_neg hi]
          split_ifs <;> rfl
      | negotiation => exact Or.inl rfl
    simp only [telnet_spec_run]
    rcases hs with e | e
    · rw [e]
      exact List.Sublist.cons _ (ih _)
    · rw [e]
      exact List.Sublist.cons₂ _ (ih _)

/-- The stripped data of the specification for `IAC x c d`, met in data, when `x` is not a
command code and `c` is not `IAC`: the byte `c` and the stripped data of `d`. -/
theorem telnet_spec_run_unknown (x c : UChar) (d : List UChar) (hx : x.val < 240)
    (hc : c ≠ TELNET_IAC) :
    (telnet_spec_run .data (TELNET_IAC :: x :: c :: d)).2 = c :: (telnet_spec_run .data d).2 := by
  obtain ⟨_, _, _, _, _, _, _, _, _, _, _, h12, h13, h14, h15, h16⟩ := telnet_unknown_ne x hx
  simp [telnet_spec_run, telnet_spec_step, h12, h13, h14, h15, h16, hc]

/-- Statics that stand for the data state of the specification: four cells and `l = 0`. -/
theorem telnet_spec_state_data (st : TelnetStatic) (h : telnet_spec_state st = some .data) :
    ∃ g0 g1 g2 g3, st = { getrq := [g0, g1, g2, g3], l := 0 } := by
  obtain ⟨g, l⟩ := st
  unfold telnet_spec_state at h
  dsimp only at h
  split_ifs at h with hg h0
  · obtain ⟨g0, g1, g2, g3, rfl⟩ := getrq_cells g (by simpa using hg)
    subst h0
    exact ⟨g0, g1, g2, g3, rfl⟩
  all_goals exact absurd h (by simp)

/-- The byte machine on a sequence without an unrecognised command that ends in data,
followed by `IAC x` with an unrecognised `x` and by further bytes: it keeps the stripped data
of the first part only, and a third further byte is stored outside `getrq`. -/
theorem telnet_bytes_spec_unknown (st : TelnetStatic) (ss : TelnetSpecState)
    (p d : List UChar) (x : UChar) (hst : telnet_spec_state st = some ss)
    (hk : telnet_known_commands ss p = true) (hf : (telnet_spec_run ss p).1 = .data)
    (hx : x.val < 240) :
    (d.length ≤ 2 → ∃ t, telnet_bytes st (p ++ TELNET_IAC :: x :: d) = .ok t
        ∧ t.stripped = (telnet_spec_run ss p).2)
    ∧ (3 ≤ d.length → telnet_bytes st (p ++ TELNET_IAC :: x :: d) = .undefined) := by
  obtain ⟨t, ht, hs, hfin⟩ := telnet_bytes_spec p st ss hst hk
  rw [hf] at hfin
  obtain ⟨g0, g1, g2, g3, hts⟩ := telnet_spec_state_data t.static hfin
  have e : TELNET_IAC :: x :: d = [TELNET_IAC, x] ++ d := rfl
  obtain ⟨hA, hB⟩ := telnet_bytes_unknown g0 g1 g2 g3 x hx d
  rw [e, telnet_bytes_append, ht, Outcome.bind_ok, hts]
  constructor
  · intro hd
    obtain ⟨g, h⟩ := hA hd
    rw [h, Outcome.bind_ok]
    exact ⟨_, rfl, by simp only [List.append_nil, hs]⟩
  · intro hd
    rw [hB hd, Outcome.bind_undefined]

/-- Claim C27 against the code.  For every state of the statics and every receive queue, a
call of `netcat_telnet_parse` either makes a store outside `getrq` or returns with the new
`recvq.len` between 0 and the old one.  When the statics stand for a state of the
specification and no `IAC` of the queue is followed by an unrecognised command, the call
returns and the first `recvq.len` bytes of the queue are the stripped data of the
specification, bytes of the input in their order.  When such a queue ends in data and is
followed by `IAC x`, `x` unrecognised, by a byte `c` other than `IAC` and by the bytes `d`,
the stripped data of the specification hold `c` and the stripped data of `d`, and the code
leaves nothing of them (`d` of one byte at most) or stores a byte outside `getrq`. -/
theorem telnet_parse_stripped (st : TelnetStatic) (recvq : List UChar) (ss : TelnetSpecState)
    (x c : UChar) (d : List UChar) :
    (netcat_telnet_parse st recvq = .undefined
      ∨ ∃ r, netcat_telnet_parse st recvq = .ok r ∧ 0 ≤ r.len
          ∧ r.len ≤ (recvq.length : Int) ∧ r.buf.length = recvq.length)
    ∧ (telnet_spec_state st = some ss → telnet_known_commands ss recvq = true →
        (∃ r, netcat_telnet_parse st recvq = .ok r
          ∧ r.len = (((telnet_spec_run ss recvq).2.length : Nat) : Int)
          ∧ r.buf.take r.len.toNat = (telnet_spec_run ss recvq).2
          ∧ (r.buf.take r.len.toNat).Sublist recvq
          ∧ telnet_spec_state r.static = some (telnet_spec_run ss recvq).1)
        ∧ ((telnet_spec_run ss recvq).1 = .data → x.val < 240 → c ≠ TELNET_IAC →
            (telnet_spec_run ss (recvq ++ TELNET_IAC :: x :: c :: d)).2
              = (telnet_spec_run ss recvq).2 ++ c :: (telnet_spec_run .data d).2
            ∧ (d.length ≤ 1 →
                ∃ r, netcat_telnet_parse st (recvq ++ TELNET_IAC :: x :: c :: d) = .ok r
                  ∧ r.buf.take r.len.toNat = (telnet_spec_run ss recvq).2)
            ∧ (2 ≤ d.length →
                netcat_telnet_parse st (recvq ++ TELNET_IAC :: x :: c :: d)
                  = .undefined))) := by
  refine ⟨?_, fun hst hk => ⟨?_, fun hf hx hc => ⟨?_, ?_, ?_⟩⟩⟩
  · cases hb : telnet_bytes st recvq with
    | ok t =>
      obtain ⟨r, h1, _, _, _, h5, h6⟩ := netcat_telnet_parse_of_bytes st recvq t hb
      have hlen := (netcat_telnet_parse_len st recvq r h1).2
      refine Or.inr ⟨r, h1, by omega, ?_, h6⟩
      rw [h5] at hlen ⊢
      simp only [Int.toNat_ofNat] at hlen
      exact_mod_cast hlen
    | undefined => exact Or.inl (netcat_telnet_parse_of_undefined st recvq hb)
    | aborted => exact absurd hb (telnet_bytes_ne_aborted recvq st)
    | outOfFuel => exact absurd hb (telnet_bytes_ne_outOfFuel recvq st)
  · obtain ⟨t, ht, hs, hfin⟩ := telnet_bytes_spec recvq st ss hst hk
    obtain ⟨r, h1, h2, h3, _, h5, _⟩ := netcat_telnet_parse_of_bytes st recvq t ht
    have e : r.buf.take r.len.toNat = t.stripped := h3
    refine ⟨r, h1, ?_, ?_, ?_, ?_⟩
    · rw [h5, hs]
    · rw [e, hs]
    · rw [e, hs]
      exact telnet_spec_run_sublist recvq ss
    · rw [h2]
      exact hfin
  · rw [telnet_spec_run_append, hf, telnet_spec_run_unknown x c d hx hc]
  · intro hd
    obtain ⟨t, ht, hs⟩ :=
      (telnet_bytes_spec_unknown st ss recvq (c :: d) x hst hk hf hx).1
        (by simp only [List.length_cons]; omega)
    obtain ⟨r, h1, _, h3, _⟩ := netcat_telnet_parse_of_bytes st _ t ht
    have e : r.buf.take r.len.toNat = t.stripped := h3
    exact ⟨r, h1, by rw [e, hs]⟩
  · intro hd
    exact netcat_telnet_parse_of_undefined st _
      ((telnet_bytes_spec_unknown st ss recvq (c :: d) x hst hk hf hx).2
        (by simp only [List.length_cons]; omega))

/-- Witness for C27: statics as at program start; the queue `'A' IAC WILL 1` is left as `'A'`,
as the specification says; the queue `'A' IAC WILL 1 IAC 01 'B'` is left as `'A'` too, while
the stripped data of the specification are `'A' 'B'`. -/
theorem telnet_parse_stripped_witness :
    telnet_spec_state telnet_static_init = some .data
    ∧ telnet_known_commands .data [65, 255, 251, 1] = true
    ∧ (telnet_spec_run .data [65, 255, 251, 1]) = (.data, [65])
    ∧ (1 : UChar).val < 240 ∧ (66 : UChar) ≠ TELNET_IAC
    ∧ ([] : List UChar).length ≤ 1
    ∧ (telnet_spec_run .data ([65, 255, 251, 1] ++ TELNET_IAC :: 1 :: 66 :: [])).2 = [65, 66]
    ∧ (∃ r, netcat_telnet_parse telnet_static_init [65, 255, 251, 1] = .ok r
        ∧ r.buf.take r.len.toNat = (telnet_spec_run .data [65, 255, 251, 1]).2)
    ∧ (∃ r, netcat_telnet_parse telnet_static_init
          ([65, 255, 251, 1] ++ TELNET_IAC :: 1 :: 66 :: []) = .ok r
        ∧ r.buf.take r.len.toNat = (telnet_spec_run .data [65, 255, 251, 1]).2) :=
  have h := (telnet_parse_stripped telnet_static_init [65, 255, 251, 1] .data 1 66 []).2
    (by decide!) (by decide!)
  have hA := h.1
  have hB := (h.2 (by decide!) (by decide) (by decide!)).2.1 (by decide)
  ⟨by decide!, by decide!, by decide!, by decide, by decide!, by decide, by decide!,
    match hA with
    | ⟨r, h1, _, h3, _⟩ => ⟨r, h1, h3⟩,
    hB⟩

/-- Claim C28: a call of `netcat_telnet_parse` with no sequence pending (`l = 0`) on a
queue that holds no byte `0xFF` returns with the bytes of the queue and `recvq.len`
unchanged, writes nothing to the socket, and leaves `l = 0` (and `getrq` as it was). -/
theorem telnet_pass_through (st : TelnetStatic) (recvq : List UChar)
    (hl : st.l = 0) (hq : ∀ c ∈ recvq, c ≠ TELNET_IAC) :
    netcat_telnet_parse st recvq
      = .ok { static := st, buf := recvq, len := recvq.length, sent := [] } := by
  obtain ⟨r, h1, h2, h3, h4, h5, h6⟩ :=
    netcat_telnet_parse_of_bytes st recvq _ (telnet_bytes_data recvq hq st hl)
  rw [h1]
  obtain ⟨rs, rb, rl, rsent⟩ := r
  simp only [TelnetCall.stripped] at h2 h3 h4 h5 h6
  subst h2 h4 h5
  simp only [Int.toNat_ofNat] at h3
  have hb : rb = recvq := by
    rw [← h3, List.take_of_length_le (by omega)]
  subst hb
  rfl

/-- Witness for C28: the queue `'H' 'i'`, statics as at program start. -/
theorem telnet_pass_through_witness :
    telnet_static_init.l = 0 ∧ (∀ c ∈ ([72, 105] : List UChar), c ≠ TELNET_IAC)
    ∧ netcat_telnet_parse telnet_static_init [72, 105]
      = .ok { static := telnet_static_init, buf := [72, 105],
              len := (([72, 105] : List UChar).length : Int), sent := [] } :=
  ⟨rfl, by decide!, telnet_pass_through telnet_static_init [72, 105] rfl (by decide!)⟩

/-! ### The scratch buffer `buf` -/

theorem nc_buffer_t.Owned.not_scratch {q : nc_buffer_t} (h : q.Owned) : q.scratch = false := by
  unfold nc_buffer_t.scratch
  rcases h with h | ⟨blk, hb, _⟩
  · simp [h]
  · simp [hb]

theorem scratch_queues_le (s : CoreState) :
    (s.main_recvq.Owned ∧ s.slave_sendq.Owned ∧ s.slave_recvq.Owned
        → s.scratch_queues ≤ 1)
    ∧ (s.main_sendq.Owned ∧ s.slave_sendq.Owned ∧ s.slave_recvq.Owned
        → s.scratch_queues ≤ 1)
    ∧ (s.main_sendq.Owned ∧ s.main_recvq.Owned ∧ s.slave_recvq.Owned
        → s.scratch_queues ≤ 1)
    ∧ (s.main_sendq.Owned ∧ s.main_recvq.Owned ∧ s.slave_sendq.Owned
        → s.scratch_queues ≤ 1) := by
  unfold CoreState.scratch_queues
  refine ⟨?_, ?_, ?_, ?_⟩ <;> rintro ⟨a, b, c⟩ <;>
    simp only [List.filter, a.not_scratch, b.not_scratch, c.not_scratch] <;>
    split <;> simp

/-- Claim C25: in every run of `core_readwrite` entered with queues that are empty or own
their bytes, at the top of the loop and before each of the two reads into `buf` every queue
of the two endpoints is empty or owns its bytes; while the loop runs at most one queue has
`head == NULL` and `len > 0`, and only in these places: `nc_slave->recvq` between the read
from the slave input and the code that moves or copies it, `nc_main->sendq` from that move
to the end of the section that writes it (which copies what is left), `nc_main->recvq`
between the read from the main socket and the code that moves or copies it, and
`nc_slave->sendq` from that move to the end of the section that writes it. -/
theorem core_scratch_discipline (o : CoreOpts) (s : CoreState) (es : List CoreEnv)
    (h : s.EntryOk) :
    ((core_readwrite o s es).pc = .loop_top ∨ (core_readwrite o s es).pc = .slave_read
        ∨ (core_readwrite o s es).pc = .main_read →
      (core_readwrite o s es).main_sendq.Owned ∧ (core_readwrite o s es).main_recvq.Owned
        ∧ (core_readwrite o s es).slave_sendq.Owned
        ∧ (core_readwrite o s es).slave_recvq.Owned
        ∧ (core_readwrite o s es).scratch_queues = 0)
    ∧ ((core_readwrite o s es).pc ≠ .exited → (core_readwrite o s es).pc ≠ .aborted →
        (core_readwrite o s es).pc ≠ .undefined →
      (core_readwrite o s es).scratch_queues ≤ 1
        ∧ ((core_readwrite o s es).slave_recvq.scratch = true →
            (core_readwrite o s es).pc = .slave_recvq)
        ∧ ((core_readwrite o s es).main_sendq.scratch = true →
            (core_readwrite o s es).pc = .main_sendq)
        ∧ ((core_readwrite o s es).main_recvq.scratch = true →
            (core_readwrite o s es).pc = .main_recvq)
        ∧ ((core_readwrite o s es).slave_sendq.scratch = true →
            (core_readwrite o s es).pc = .slave_sendq)) := by
  have hd := (core_readwrite_inv o s es h).1
  generalize core_readwrite o s es = v at hd
  have hall : v.main_sendq.Owned ∧ v.main_recvq.Owned ∧ v.slave_sendq.Owned
      ∧ v.slave_recvq.Owned → v.scratch_queues = 0 := by
    rintro ⟨a, b, c, d⟩
    simp [CoreState.scratch_queues, List.filter, a.not_scratch, b.not_scratch, c.not_scratch,
      d.not_scratch]
  obtain ⟨q1, q2, q3, q4⟩ := scratch_queues_le v
  unfold CoreState.Discipline at hd
  constructor
  · intro hpc
    rcases hpc with e | e | e <;> rw [e] at hd <;>
      exact ⟨hd.1, hd.2.1, hd.2.2.1, hd.2.2.2, hall hd⟩
  · intro h1 h2 h3
    have ns : ∀ {q : nc_buffer_t} {P : Prop}, q.Owned → q.scratch = true → P := by
      intro q P hq hs
      rw [hq.not_scratch] at hs
      exact absurd hs (by simp)
    cases hpc : v.pc <;> rw [hpc] at hd <;> simp only at hd
    case exited => exact absurd hpc h1
    case aborted => exact absurd hpc h2
    case undefined => exact absurd hpc h3
    case slave_recvq =>
      obtain ⟨a, b, c, _⟩ := hd
      exact ⟨q4 ⟨a, b, c⟩, fun _ => rfl, ns a, ns b, ns c⟩
    case main_sendq =>
      obtain ⟨_, b, c, d⟩ := hd
      exact ⟨q1 ⟨b, c, d⟩, ns d, fun _ => rfl, ns b, ns c⟩
    case main_recvq =>
      obtain ⟨a, _, c, d⟩ := hd
      exact ⟨q2 ⟨a, c, d⟩, ns d, ns a, fun _ => rfl, ns c⟩
    case slave_sendq =>
      obtain ⟨a, b, _, d⟩ := hd
      exact ⟨q3 ⟨a, b, d⟩, ns d, ns a, ns b, fun _ => rfl⟩
    all_goals
      obtain ⟨a, b, c, d⟩ := hd
      exact ⟨q1 ⟨b, c, d⟩, ns d, ns a, ns b, ns c⟩

/-- Witness for C25: stdin delivers `a b` while all queues are empty.  Before the section
that writes `nc_main->sendq` that queue is the only one in the scratch buffer; after the
socket accepted `a` only, the rest was copied, and before the read from the main socket no
queue is in the scratch buffer. -/
theorem core_scratch_discipline_witness :
    core_state_idle.EntryOk
    ∧ (core_readwrite opts_plain core_state_idle (run_scratch.take 3)).pc = .main_sendq
    ∧ (core_readwrite opts_plain core_state_idle (run_scratch.take 3)).main_sendq.scratch = true
    ∧ (core_readwrite opts_plain core_state_idle (run_scratch.take 3)).scratch_queues ≤ 1
    ∧ (core_readwrite opts_plain core_state_idle run_scratch).pc = .main_read
    ∧ (core_readwrite opts_plain core_state_idle run_scratch).main_sendq
        = { head := some [98], pos := 0, len := 1 }
    ∧ (core_readwrite opts_plain core_state_idle run_scratch).scratch_queues = 0 :=
  ⟨core_state_idle_entryOk, by decide!, by decide!,
    ((core_scratch_discipline opts_plain core_state_idle (run_scratch.take 3)
      core_state_idle_entryOk).2 (by decide!) (by decide!) (by decide!)).1,
    by decide!, by decide!,
    ((core_scratch_discipline opts_plain core_state_idle run_scratch
      core_state_idle_entryOk).1 (Or.inr (Or.inr (by decide!)))).2.2.2.2⟩

/-! ### The linear scan of the connect loop -/

theorem hex_value_digit (n : Nat) (h : n < 16) : hex_value (hex_digit n) = some n := by
  have : ∀ k : Fin 16, hex_value (hex_digit k.val) = some k.val := by decide
  exact this ⟨n, h⟩

theorem hex_value_space : hex_value 32 = none := by decide

theorem read_hex_byte_digits :
    ∀ x : UChar, read_hex_byte (hex_digit (x.val / 16)) (hex_digit (x.val % 16)) = some x := by
  decide!

theorem read_hex_byte_blank : read_hex_byte 32 32 = none := by decide

theorem hex_digit_ne_newline (n : Nat) (h : n < 16) : hex_digit n ≠ 10 := by
  have : ∀ k : Fin 16, hex_digit k.val ≠ 10 := by decide
  exact this ⟨n, h⟩

theorem hex_ascii_ne_newline : ∀ x : UChar, hex_ascii x ≠ 10 := by decide!

theorem sprintf_offset_ne_newline (n : Nat) : ∀ c ∈ sprintf_offset n, c ≠ 10 := by
  intro c hc
  simp only [sprintf_offset, List.mem_cons, List.mem_singleton, List.not_mem_nil,
    or_false] at hc
  rcases hc with rfl | rfl | rfl | rfl | rfl | rfl | rfl | rfl | rfl | rfl
  all_goals first
    | exact hex_digit_ne_newline _ (Nat.mod_lt _ (by omega))
    | decide

theorem hex_slot_ne_newline (j : Nat) (b : Option UChar) : ∀ c ∈ hex_slot j b, c ≠ 10 := by
  intro c hc
  unfold hex_slot at hc
  rcases List.mem_append.1 hc with h | h
  · cases b with
    | none =>
      simp only [List.mem_cons, List.mem_singleton, List.not_mem_nil, or_false] at h
      rcases h with rfl | rfl | rfl <;> decide
    | some x =>
      simp only [List.mem_cons, List.mem_singleton, List.not_mem_nil, or_false] at h
      rcases h with rfl | rfl | rfl
      · exact hex_digit_ne_newline _ (by have := x.isLt; omega)
      · exact hex_digit_ne_newline _ (Nat.mod_lt _ (by omega))
      · decide
  · split_ifs at h
    · simp only [List.mem_singleton] at h
      subst h
      decide
    · exact absurd h (List.not_mem_nil _)

theorem hex_slots_ne_newline (slots : List (Option UChar)) :
    ∀ j, ∀ c ∈ hex_slots j slots, c ≠ 10 := by
  induction slots with
  | nil => intro j c hc; exact absurd hc (List.not_mem_nil _)
  | cons b bs ih =>
    intro j c hc
    unfold hex_slots at hc
    rcases List.mem_append.1 hc with h | h
    · exact hex_slot_ne_newline j b c h
    · exact ih (j + 1) c h

theorem hex_slot_ascii_ne_newline (b : Option UChar) : hex_slot_ascii b ≠ 10 := by
  cases b with
  | none => decide
  | some x => exact hex_ascii_ne_newline x

/-- A line of the dump holds no newline. -/
theorem hexdump_line_ne_newline (off : Nat) (chunk : List UChar) :
    ∀ c ∈ hexdump_line off chunk, c ≠ 10 := by
  intro c hc
  unfold hexdump_line at hc
  rcases List.mem_append.1 hc with h | h
  · rcases List.mem_append.1 h with h | h
    · exact sprintf_offset_ne_newline _ c h
    · exact hex_slots_ne_newline _ 0 c h
  · obtain ⟨b, _, rfl⟩ := List.mem_map.1 h
    exact hex_slot_ascii_ne_newline b

/-- Reading the text of slots gives back their bytes. -/
theorem read_slots_slots (slots : List (Option UChar)) :
    ∀ (j : Nat) (tail : List UChar),
      read_slots j slots.length (hex_slots j slots ++ tail) = slots.filterMap id := by
  induction slots with
  | nil => intro j tail; rfl
  | cons b bs ih =>
    intro j tail
    have hdrop : (hex_slot j b ++ (hex_slots (j + 1) bs ++ tail)).drop
        (if j % 4 = 3 then 4 else 3) = hex_slots (j + 1) bs ++ tail := by
      unfold hex_slot
      cases b <;> split_ifs <;> rfl
    rw [List.length_cons, hex_slots, List.append_assoc, read_slots, hdrop, ih (j + 1) tail]
    cases b with
    | none =>
      have e0 : (hex_slot j none ++ (hex_slots (j + 1) bs ++ tail)).getD 0 32 = 32 := by
        unfold hex_slot; rfl
      have e1 : (hex_slot j none ++ (hex_slots (j + 1) bs ++ tail)).getD 1 32 = 32 := by
        unfold hex_slot; rfl
      rw [e0, e1, read_hex_byte_blank]
      rfl
    | some x =>
      have e0 : (hex_slot j (some x) ++ (hex_slots (j + 1) bs ++ tail)).getD 0 32
          = hex_digit (x.val / 16) := by
        unfold hex_slot; rfl
      have e1 : (hex_slot j (some x) ++ (hex_slots (j + 1) bs ++ tail)).getD 1 32
          = hex_digit (x.val % 16) := by
        unfold hex_slot; rfl
      rw [e0, e1, read_hex_byte_digits]
      rfl

theorem filterMap_slots (chunk : List UChar) (n : Nat) :
    (chunk.map some ++ List.replicate n none).filterMap id = chunk := by
  induction chunk with
  | nil =>
    induction n with
    | zero => rfl
    | succ n ih => simp [List.replicate_succ]
  | cons x xs ih => simp

/-- The slots of a line read back as the bytes of its chunk. -/
theorem read_line_hexdump_line (off : Nat) (chunk : List UChar) (h : chunk.length ≤ 16) :
    read_line (hexdump_line off chunk) = chunk := by
  unfold read_line hexdump_line
  have hd : (sprintf_offset (off % 4294967296)
      ++ hex_slots 0 (chunk.map some ++ List.replicate (16 - chunk.length) none)
      ++ (chunk.map some ++ List.replicate (16 - chunk.length) none).map hex_slot_ascii).drop 10
      = hex_slots 0 (chunk.map some ++ List.replicate (16 - chunk.length) none)
        ++ (chunk.map some ++ List.replicate (16 - chunk.length) none).map hex_slot_ascii := by
    rw [List.append_assoc]
    rfl
  have hl : (chunk.map some ++ List.replicate (16 - chunk.length) (none : Option UChar)).length
      = 16 := by
    simp only [List.length_append, List.length_map, List.length_replicate]
    omega
  rw [hd]
  have := read_slots_slots (chunk.map some ++ List.replicate (16 - chunk.length) none) 0
    ((chunk.map some ++ List.replicate (16 - chunk.length) none).map hex_slot_ascii)
  rw [hl] at this
  rw [this, filterMap_slots]

/-- The offset field of a line reads back as the offset, cut to 32 bits. -/
theorem read_offset_hexdump_line (off : Nat) (chunk : List UChar) :
    read_offset (hexdump_line off chunk) = some (off % 4294967296) := by
  unfold read_offset hexdump_line
  have ht : (sprintf_offset (off % 4294967296)
      ++ hex_slots 0 (chunk.map some ++ List.replicate (16 - chunk.length) none)
      ++ (chunk.map some ++ List.replicate (16 - chunk.length) none).map hex_slot_ascii).take 8
      = (sprintf_offset (off % 4294967296)).take 8 := by
    rw [List.append_assoc]
    rfl
  rw [ht]
  have hn : off % 4294967296 < 4294967296 := Nat.mod_lt _ (by omega)
  generalize off % 4294967296 = n at hn ⊢
  simp only [sprintf_offset, List.take, read_hex_digits,
    hex_value_digit _ (Nat.mod_lt _ (by omega : 0 < 16))]
  congr 1
  omega

theorem text_lines_line (line : List UChar) (h : ∀ c ∈ line, c ≠ 10) :
    ∀ (cur rest : List UChar),
      text_lines cur (line ++ 10 :: rest) = (cur ++ line) :: text_lines [] rest := by
  induction line with
  | nil =>
    intro cur rest
    simp [text_lines]
  | cons c cs ih =>
    intro cur rest
    have hc : c ≠ 10 := h c (List.mem_cons_self _ _)
    rw [List.cons_append, text_lines, if_neg hc,
      ih (fun x hx => h x (List.mem_cons_of_mem _ hx)), List.append_assoc]
    rfl

/-- The lines of a dump of chunks. -/
theorem text_lines_hexdump_lines (chunks : List (List UChar)) :
    ∀ (off : Nat) (rest : List UChar),
      text_lines [] (hexdump_lines off chunks ++ rest)
        = hexdump_line_list off chunks ++ text_lines [] rest := by
  induction chunks with
  | nil => intro off rest; rfl
  | cons c cs ih =>
    intro off rest
    rw [hexdump_lines, hexdump_line_list]
    have e : hexdump_line off c ++ [10] ++ hexdump_lines (off + 16) cs ++ rest
        = hexdump_line off c ++ 10 :: (hexdump_lines (off + 16) cs ++ rest) := by
      simp only [List.append_assoc, List.singleton_append, List.cons_append, List.nil_append]
    rw [e, text_lines_line _ (hexdump_line_ne_newline off c), ih]
    rfl

theorem hexdump_line_list_length (chunks : List (List UChar)) :
    ∀ off, (hexdump_line_list off chunks).length = chunks.length := by
  induction chunks with
  | nil => intro off; rfl
  | cons c cs ih => intro off; simp only [hexdump_line_list, List.length_cons, ih]

theorem hexdump_line_list_read (chunks : List (List UChar))
    (h : ∀ c ∈ chunks, c.length ≤ 16) :
    ∀ off, ((hexdump_line_list off chunks).map read_line).flatten = chunks.flatten := by
  induction chunks with
  | nil => intro off; rfl
  | cons c cs ih =>
    intro off
    simp only [hexdump_line_list, List.map_cons, List.flatten_cons,
      read_line_hexdump_line off c (h c (List.mem_cons_self _ _)),
      ih (fun x hx => h x (List.mem_cons_of_mem _ hx))]

theorem hexdump_line_list_offset (chunks : List (List UChar)) :
    ∀ (off k : Nat), k < chunks.length →
      read_offset ((hexdump_line_list off chunks).getD k [])
        = some ((off + 16 * k) % 4294967296) := by
  induction chunks with
  | nil => intro off k hk; exact absurd hk (by simp)
  | cons c cs ih =>
    intro off k hk
    cases k with
    | zero =>
      simp only [hexdump_line_list, List.getD_cons_zero, Nat.mul_zero, Nat.add_zero]
      exact read_offset_hexdump_line off c
    | succ k =>
      simp only [hexdump_line_list, List.getD_cons_succ]
      rw [ih (off + 16) k (by simpa using hk)]
      congr 2
      omega

theorem hexdump_line_list_concat (chunks : List (List UChar)) (last : List UChar) :
    ∀ off, hexdump_line_list off (chunks ++ [last])
      = hexdump_line_list off chunks ++ [hexdump_line (off + 16 * chunks.length) last] := by
  induction chunks with
  | nil => intro off; rfl
  | cons c cs ih =>
    intro off
    have e : off + 16 + 16 * cs.length = off + 16 * (cs.length + 1) := by omega
    rw [List.cons_append, hexdump_line_list, hexdump_line_list, ih (off + 16),
      List.length_cons, e, List.cons_append]

/-- What reads back from the text `netcat_fhexdump` writes: it has one line for each
started group of sixteen bytes, the slots of the lines hold the bytes of the buffer, and
the offset field of line `k` holds `16 * k` cut to 32 bits. -/
theorem netcat_fhexdump_read_back (buf0 : Nat → UChar) (data : List UChar) :
    ∃ out, netcat_fhexdump buf0 data = .ok out
      ∧ read_back out = data
      ∧ (text_lines [] out).length = (data.length + 15) / 16
      ∧ ∀ k, k < (data.length + 15) / 16 →
          read_offset ((text_lines [] out).getD k []) = some ((16 * k) % 4294967296) := by
  obtain ⟨chunks, last, e, hc, hl⟩ := chunks16_exists data.length data (Nat.le_refl _)
  have hout := netcat_fhexdump_eq buf0 chunks last hc hl
  rw [← e] at hout
  refine ⟨_, hout, ?_⟩
  have hlen : data.length = 16 * chunks.length + last.length := by
    rw [e, List.length_append, flatten_length_16 chunks hc]
  by_cases hlast : last = []
  · subst hlast
    have hlines : text_lines [] (hexdump_lines 0 chunks ++ (if ([] : List UChar) = [] then []
        else hexdump_line (16 * chunks.length) [] ++ [10])) = hexdump_line_list 0 chunks := by
      rw [if_pos rfl, text_lines_hexdump_lines]
      simp [text_lines]
    simp only [List.length_nil, Nat.add_zero] at hlen
    unfold read_back
    rw [hlines, hexdump_line_list_length,
      hexdump_line_list_read chunks (fun c h => by rw [hc c h]) 0]
    refine ⟨by rw [e, List.append_nil], by omega, fun k hk => ?_⟩
    rw [hexdump_line_list_offset chunks 0 k (by omega), Nat.zero_add]
  · have hlines : text_lines [] (hexdump_lines 0 chunks ++ (if last = [] then []
        else hexdump_line (16 * chunks.length) last ++ [10]))
        = hexdump_line_list 0 (chunks ++ [last]) := by
      rw [if_neg hlast, text_lines_hexdump_lines,
        text_lines_line _ (hexdump_line_ne_newline _ last), hexdump_line_list_concat,
        Nat.zero_add]
      rfl
    have hpos : 0 < last.length := List.length_pos.2 hlast
    have hc1 : ∀ c ∈ chunks ++ [last], c.length ≤ 16 := by
      intro c h
      rcases List.mem_append.1 h with h | h
      · rw [hc c h]
      · simp only [List.mem_singleton] at h
        subst h
        omega
    unfold read_back
    rw [hlines, hexdump_line_list_length, hexdump_line_list_read _ hc1 0]
    refine ⟨by rw [e]; simp, by simp only [List.length_append, List.length_singleton]; omega,
      fun k hk => ?_⟩
    rw [hexdump_line_list_offset _ 0 k
      (by simp only [List.length_append, List.length_singleton]; omega), Nat.zero_add]

/-- Claim C21 fails on the code for the offset field of buffers of more than 2^32 bytes,
which `netcat_fhexdump` prints from `(unsigned int) pos`: in the dump of 2^32 + 16 zero
bytes the offset field of line 2^28 reads 0 and not 16 * 2^28 = 2^32. -/
theorem netcat_fhexdump_offset_wraps :
    ∃ out, netcat_fhexdump (fun _ => 0) (List.replicate 4294967312 0) = .ok out
      ∧ read_offset ((text_lines [] out).getD 268435456 []) = some 0
      ∧ 16 * 268435456 = 4294967296 := by
  obtain ⟨out, h1, _, _, h4⟩ :=
    netcat_fhexdump_read_back (fun _ => 0) (List.replicate 4294967312 0)
  refine ⟨out, h1, ?_, by decide⟩
  rw [h4 268435456 (by rw [List.length_replicate]; decide)]

/-- Claim C21, amended: for every buffer `data` (and all contents of the array `buf` on
entry) `netcat_fhexdump` returns, and reading back the two-digit fields of the lines it
wrote, line by line and left to right, blank slots skipped, gives exactly `data`; the text
has `ceil(len / 16)` lines; the offset field of line `k` holds `16 * k` modulo 2^32, which
is `16 * k` for every buffer of at most 2^32 bytes. -/
theorem netcat_fhexdump_round_trip (buf0 : Nat → UChar) (data : List UChar) :
    ∃ out, netcat_fhexdump buf0 data = .ok out
      ∧ read_back out = data
      ∧ (text_lines [] out).length = (data.length + 15) / 16
      ∧ (∀ k, k < (data.length + 15) / 16 →
          read_offset ((text_lines [] out).getD k []) = some ((16 * k) % 4294967296))
      ∧ (data.length ≤ 4294967296 → ∀ k, k < (data.length + 15) / 16 →
          read_offset ((text_lines [] out).getD k []) = some (16 * k)) := by
  obtain ⟨out, h1, h2, h3, h4⟩ := netcat_fhexdump_read_back buf0 data
  refine ⟨out, h1, h2, h3, h4, fun hlen k hk => ?_⟩
  rw [h4 k hk, Nat.mod_eq_of_lt (by omega)]

/-- Witness for C21: the twenty bytes `ABCDEFGHIJKLMNOPABCD`, which give two lines, with
offsets 0 and 16. -/
theorem netcat_fhexdump_round_trip_witness :
    ∃ out, netcat_fhexdump (fun _ => 0) (hex_demo ++ hex_demo.take 4) = .ok out
      ∧ read_back out = hex_demo ++ hex_demo.take 4
      ∧ (text_lines [] out).length = 2
      ∧ read_offset ((text_lines [] out).getD 0 []) = some 0
      ∧ read_offset ((text_lines [] out).getD 1 []) = some 16 := by
  obtain ⟨out, h1, h2, h3, _, h5⟩ :=
    netcat_fhexdump_round_trip (fun _ => 0) (hex_demo ++ hex_demo.take 4)
  exact ⟨out, h1, h2, h3, h5 (by decide) 0 (by decide), h5 (by decide) 1 (by decide)⟩

/-! ## Theorems about `netcat_snprintnum` and `netcat_printstats` -/

theorem dec_digit_val (d : Nat) (h : d < 10) : (dec_digit d).val = 48 + d := by
  have : ∀ k : Fin 10, (dec_digit k.val).val = 48 + k.val := by decide
  exact this ⟨d, h⟩

theorem dec_loop_acc (fuel : Nat) :
    ∀ (n : Nat) (acc : List UChar), dec_loop fuel n acc = dec_loop fuel n [] ++ acc := by
  induction fuel with
  | zero => intro n acc; rfl
  | succ f ih =>
    intro n acc
    unfold dec_loop
    split_ifs
    · rfl
    · rw [ih (n / 10) (dec_digit (n % 10) :: acc), ih (n / 10) [dec_digit (n % 10)],
        List.append_assoc]
      rfl

theorem dec_loop_length (fuel : Nat) :
    ∀ n : Nat, (dec_loop (fuel + 1) n []).length ≤ fuel + 1
      ∧ 1 ≤ (dec_loop (fuel + 1) n []).length := by
  induction fuel with
  | zero =>
    intro n
    unfold dec_loop
    split_ifs <;> simp [dec_loop]
  | succ f ih =>
    intro n
    unfold dec_loop
    split_ifs
    · simp
    · rw [dec_loop_acc]
      have := ih (n / 10)
      simp only [List.length_append, List.length_singleton]
      omega

theorem dec_loop_digits (fuel : Nat) :
    ∀ n : Nat, ∀ c ∈ dec_loop fuel n [], 48 ≤ c.val ∧ c.val ≤ 57 := by
  induction fuel with
  | zero => intro n c hc; exact absurd hc (List.not_mem_nil _)
  | succ f ih =>
    intro n c hc
    unfold dec_loop at hc
    have hd := dec_digit_val (n % 10) (Nat.mod_lt _ (by omega))
    split_ifs at hc
    · simp only [List.mem_singleton] at hc
      subst hc
      omega
    · rw [dec_loop_acc] at hc
      rcases List.mem_append.1 hc with h | h
      · exact ih (n / 10) c h
      · simp only [List.mem_singleton] at h
        subst h
        omega

theorem dec_value_append (a : List UChar) (c : UChar) :
    dec_value (a ++ [c]) = 10 * dec_value a + (c.val - 48) := by
  simp [dec_value, List.foldl_append]

theorem dec_loop_value (fuel : Nat) :
    ∀ n : Nat, n < 10 ^ (fuel + 1) → dec_value (dec_loop (fuel + 1) n []) = n := by
  induction fuel with
  | zero =>
    intro n hn
    have hd := dec_digit_val (n % 10) (Nat.mod_lt _ (by omega))
    unfold dec_loop
    rw [if_pos (by omega)]
    simp only [dec_value, List.foldl_cons, List.foldl_nil, hd]
    omega
  | succ f ih =>
    intro n hn
    have hd := dec_digit_val (n % 10) (Nat.mod_lt _ (by omega))
    unfold dec_loop
    split_ifs with h0
    · simp only [dec_value, List.foldl_cons, List.foldl_nil, hd]
      omega
    · rw [dec_loop_acc, dec_value_append, ih (n / 10) (by
        rw [Nat.pow_succ] at hn
        omega), hd]
      omega

/-- The text of `%lu`: between one and twenty characters, all of them digits, and they read
as the number. -/
theorem print_dec_spec (n : Nat) :
    1 ≤ (print_dec n).length ∧ (print_dec n).length ≤ 20
      ∧ (∀ c ∈ print_dec n, 48 ≤ c.val ∧ c.val ≤ 57)
      ∧ (n < ULONG_RANGE → dec_value (print_dec n) = n) := by
  unfold print_dec
  refine ⟨(dec_loop_length 19 n).2, (dec_loop_length 19 n).1, dec_loop_digits 20 n, fun h => ?_⟩
  apply dec_loop_value 19 n
  unfold ULONG_RANGE at h
  have : (18446744073709551616 : Nat) < 10 ^ (19 + 1) := by norm_num
  omega

theorem print_dec_ne_zero (n : Nat) : ∀ c ∈ print_dec n, c ≠ 0 := by
  intro c hc h
  have := ((print_dec_spec n).2.2.1 c hc).1
  rw [h] at this
  exact absurd this (by decide)

/-- The loop of `netcat_snprintnum` on a 64-bit number: it makes no step for a number up
to 9999, and else between one and four steps, of which only the fourth may leave a number
above 9999. -/
theorem snprintnum_loop_spec (n : Nat) :
    (n ≤ 9999 → snprintnum_loop 5 n 0 = .ok (n, 0))
    ∧ (9999 < n → ∃ k, 1 ≤ k ∧ k ≤ 4
        ∧ snprintnum_loop 5 n 0 = .ok (scale_step^[k] n, k)
        ∧ (k < 4 → scale_step^[k] n ≤ 9999)
        ∧ (∀ j, j < k → 9999 < scale_step^[j] n)) := by
  constructor
  · intro h
    unfold snprintnum_loop
    rw [if_pos (by omega), if_neg (by omega)]
  · intro h
    have s0 : snprintnum_loop 5 n 0 = snprintnum_loop 4 (scale_step n) 1 := by
      rw [snprintnum_loop, if_pos (by omega), if_pos ⟨h, by decide⟩]
    by_cases h1 : scale_step n ≤ 9999
    · refine ⟨1, by omega, by omega, ?_, fun _ => h1, fun j hj => ?_⟩
      · rw [s0, snprintnum_loop, if_pos (by omega), if_neg (by omega)]
        rfl
      · have : j = 0 := by omega
        subst this
        exact h
    · have s1 : snprintnum_loop 4 (scale_step n) 1
          = snprintnum_loop 3 (scale_step (scale_step n)) 2 := by
        rw [snprintnum_loop, if_pos (by omega), if_pos ⟨by omega, by decide⟩]
      by_cases h2 : scale_step (scale_step n) ≤ 9999
      · refine ⟨2, by omega, by omega, ?_, fun _ => h2, fun j hj => ?_⟩
        · rw [s0, s1, snprintnum_loop, if_pos (by omega), if_neg (by omega)]
          rfl
        · have : j = 0 ∨ j = 1 := by omega
          rcases this with rfl | rfl
          · exact h
          · exact Nat.lt_of_not_le h1
      · have s2 : snprintnum_loop 3 (scale_step (scale_step n)) 2
            = snprintnum_loop 2 (scale_step (scale_step (scale_step n))) 3 := by
          rw [snprintnum_loop, if_pos (by omega), if_pos ⟨by omega, by decide⟩]
        by_cases h3 : scale_step (scale_step (scale_step n)) ≤ 9999
        · refine ⟨3, by omega, by omega, ?_, fun _ => h3, fun j hj => ?_⟩
          · rw [s0, s1, s2, snprintnum_loop, if_pos (by omega), if_neg (by omega)]
            rfl
          · have : j = 0 ∨ j = 1 ∨ j = 2 := by omega
            rcases this with rfl | rfl | rfl
            · exact h
            · exact Nat.lt_of_not_le h1
            · exact Nat.lt_of_not_le h2
        · have s3 : snprintnum_loop 2 (scale_step (scale_step (scale_step n))) 3
              = snprintnum_loop 1 (scale_step (scale_step (scale_step (scale_step n)))) 4 := by
            rw [snprintnum_loop, if_pos (by omega), if_pos ⟨by omega, by decide⟩]
          refine ⟨4, by omega, by omega, ?_, fun hk => absurd hk (by omega), fun j hj => ?_⟩
          · rw [s0, s1, s2, s3, snprintnum_loop, if_pos (by omega),
              if_neg (fun hh => hh.2 (by decide))]
            rfl
          · have : j = 0 ∨ j = 1 ∨ j = 2 ∨ j = 3 := by omega
            rcases this with rfl | rfl | rfl | rfl
            · exact h
            · exact Nat.lt_of_not_le h1
            · exact Nat.lt_of_not_le h2
            · exact Nat.lt_of_not_le h3

theorem scale_step_le (x : Nat) : scale_step x ≤ 18446744073709551 := by
  unfold scale_step ULONG_RANGE
  omega

theorem scale_step_ge (x : Nat) (h : 9999 < x) (hx : x + 500 < ULONG_RANGE) :
    10 ≤ scale_step x := by
  unfold scale_step ULONG_RANGE at *
  omega

theorem scale_step_wrap (x : Nat) (h : x < ULONG_RANGE) (hx : ULONG_RANGE ≤ x + 500) :
    scale_step x = 0 := by
  unfold scale_step ULONG_RANGE at *
  omega

/-- The scaled number is at least 10, unless the first addition of 500 wraps around. -/
theorem scale_iterate_bounds (n : Nat) (hn : n < ULONG_RANGE) (k : Nat)
    (hk : 1 ≤ k) (hall : ∀ j, j < k → 9999 < scale_step^[j] n) :
    (n + 500 < ULONG_RANGE → 10 ≤ scale_step^[k] n)
    ∧ (ULONG_RANGE ≤ n + 500 → k = 1 ∧ scale_step^[k] n = 0) := by
  obtain ⟨m, rfl⟩ : ∃ m, k = m + 1 := ⟨k - 1, by omega⟩
  have hprev := hall m (by omega)
  rw [Function.iterate_succ_apply']
  cases m with
  | zero =>
    simp only [Function.iterate_zero, id_eq] at hprev ⊢
    exact ⟨fun hw => scale_step_ge n hprev hw, fun hw => ⟨trivial, scale_step_wrap n hn hw⟩⟩
  | succ m =>
    rw [Function.iterate_succ_apply'] at hprev ⊢
    have hle := scale_step_le (scale_step^[m] n)
    generalize scale_step (scale_step^[m] n) = x at hprev hle ⊢
    constructor
    · intro _
      exact scale_step_ge x hprev (by unfold ULONG_RANGE; omega)
    · intro hw
      exfalso
      have h1 := hall 1 (by omega)
      simp only [Function.iterate_succ, Function.iterate_zero, Function.comp_apply,
        id_eq] at h1
      rw [scale_step_wrap n hn hw] at h1
      omega

theorem snprintf_fits (size : Nat) (text : List UChar) (h : text.length < size) :
    snprintf size text = text ++ [0] := by
  unfold snprintf
  rw [if_neg (by omega), List.take_of_length_le (by omega)]

theorem c_str_append (s rest : List UChar) (h : ∀ c ∈ s, c ≠ 0) :
    c_str (s ++ 0 :: rest) = s := by
  unfold c_str
  induction s with
  | nil => simp
  | cons c cs ih =>
    have hc : c ≠ 0 := h c (List.mem_cons_self _ _)
    simp only [List.cons_append, List.takeWhile_cons, hc, ne_eq, not_false_eq_true,
      decide_True, if_true, List.cons.injEq, true_and]
    exact ih (fun x hx => h x (List.mem_cons_of_mem _ hx))

/-- The suffix characters are `k`, `M`, `G`, `T`: not NUL and not digits. -/
theorem scale_suffix_spec (k : Nat) (h1 : 1 ≤ k) (h4 : k ≤ 4) :
    scale_suffixes.getD k 0 = [107, 77, 71, 84].getD (k - 1) 0
      ∧ scale_suffixes.getD k 0 ≠ 0 ∧ isdigit (scale_suffixes.getD k 0) = false
      ∧ (scale_suffixes.getD k 0 = 84 ↔ k = 4) := by
  have : k = 1 ∨ k = 2 ∨ k = 3 ∨ k = 4 := by omega
  rcases this with rfl | rfl | rfl | rfl <;> decide

/-- What `netcat_snprintnum` stores and returns, from the result of its loop. -/
theorem netcat_snprintnum_eq (size n v k : Nat) (hs : 22 ≤ size)
    (h : snprintnum_loop 5 n 0 = .ok (v, k)) :
    netcat_snprintnum size n
      = .ok (print_dec v ++ [scale_suffixes.getD k 0, 0],
             (((print_dec v).length + 1 : Nat) : Int)) := by
  unfold netcat_snprintnum
  rw [h, Outcome.bind_ok]
  dsimp only
  have hl := (print_dec_spec v).2.1
  rw [snprintf_fits _ _ (by simp only [List.length_append, List.length_singleton]; omega)]
  simp only [List.append_assoc, List.singleton_append, List.length_append,
    List.length_singleton]

/-- The largest 64-bit number: the sum `n + 500` wraps around to 499, and
`netcat_snprintnum` prints `0k`. -/
theorem netcat_snprintnum_wraps :
    netcat_snprintnum 32 18446744073709551615 = .ok ([48, 107, 0], 2)
      ∧ 18446744073709551615 < ULONG_RANGE := by
  decide!

/-- Claim C30 fails on the code for the 500 largest values.  For every 64-bit `n`,
`netcat_snprintnum` (with room for 22 bytes) prints `n` in decimal with no suffix when
`n <= 9999`; when `n > 9999` it prints a number `v` and the `k`-th suffix of `k`, `M`, `G`,
`T`, where `v` comes from `n` by `k` times `n := (n + 500) / 1000` in 64-bit arithmetic, and
`v <= 9999` unless the suffix is `T`.  The bound `10 <= v` holds when `n + 500 < 2^64`; for
the 500 values above, the first sum wraps around, `v` is 0 and the text is `0k`. -/
theorem netcat_snprintnum_scaled (size n : Nat) (hs : 22 ≤ size) (hn : n < ULONG_RANGE) :
    (n ≤ 9999 →
      netcat_snprintnum size n
          = .ok (print_dec n ++ [0, 0], (((print_dec n).length + 1 : Nat) : Int))
        ∧ c_str (print_dec n ++ [0, 0]) = print_dec n
        ∧ dec_value (print_dec n) = n)
    ∧ (9999 < n → ∃ k v sfx, 1 ≤ k ∧ k ≤ 4 ∧ v = scale_step^[k] n
        ∧ sfx = [107, 77, 71, 84].getD (k - 1) 0
        ∧ netcat_snprintnum size n
            = .ok (print_dec v ++ [sfx, 0], (((print_dec v).length + 1 : Nat) : Int))
        ∧ c_str (print_dec v ++ [sfx, 0]) = print_dec v ++ [sfx]
        ∧ dec_value (print_dec v) = v
        ∧ (sfx ≠ 84 → v ≤ 9999)
        ∧ (n + 500 < ULONG_RANGE → 10 ≤ v)
        ∧ (ULONG_RANGE ≤ n + 500 → v = 0 ∧ sfx = 107)) := by
  obtain ⟨hA, hB⟩ := snprintnum_loop_spec n
  constructor
  · intro h
    have := netcat_snprintnum_eq size n n 0 hs (hA h)
    exact ⟨this, c_str_append _ _ (print_dec_ne_zero n), (print_dec_spec n).2.2.2 hn⟩
  · intro h
    obtain ⟨k, k1, k4, hk, hlt, hall⟩ := hB h
    obtain ⟨e1, e2, _, e4⟩ := scale_suffix_spec k k1 k4
    obtain ⟨b1, b2⟩ := scale_iterate_bounds n hn k k1 hall
    have hv : scale_step^[k] n < ULONG_RANGE := by
      obtain ⟨m, rfl⟩ : ∃ m, k = m + 1 := ⟨k - 1, by omega⟩
      rw [Function.iterate_succ_apply']
      have := scale_step_le (scale_step^[m] n)
      unfold ULONG_RANGE
      omega
    refine ⟨k, scale_step^[k] n, _, k1, k4, rfl, rfl, ?_, ?_, (print_dec_spec _).2.2.2 hv,
      ?_, b1, ?_⟩
    · rw [← e1]
      exact netcat_snprintnum_eq size n _ k hs hk
    · rw [← e1]
      have : print_dec (scale_step^[k] n) ++ [scale_suffixes.getD k 0, 0]
          = (print_dec (scale_step^[k] n) ++ [scale_suffixes.getD k 0]) ++ 0 :: [] := by
        simp only [List.append_assoc, List.singleton_append]
      rw [this]
      apply c_str_append
      intro c hc
      rcases List.mem_append.1 hc with hc | hc
      · exact print_dec_ne_zero _ c hc
      · simp only [List.mem_singleton] at hc
        rw [hc]
        exact e2
    · intro hne
      apply hlt
      rw [← e1] at hne
      have := e4.not.1 hne
      omega
    · intro hw
      obtain ⟨rfl, hz⟩ := b2 hw
      exact ⟨hz, rfl⟩

/-- Witness for C30: 123456 is printed as `123k`, and for `2^64 - 1` the number printed
is 0, with the suffix `k`. -/
theorem netcat_snprintnum_scaled_witness :
    22 ≤ 32 ∧ 18446744073709551615 < ULONG_RANGE ∧ 9999 < 18446744073709551615
    ∧ netcat_snprintnum 32 123456 = .ok ([49, 50, 51, 107, 0], 4)
    ∧ ∃ k v sfx, 1 ≤ k ∧ k ≤ 4 ∧ v = scale_step^[k] 18446744073709551615
        ∧ netcat_snprintnum 32 18446744073709551615
            = .ok (print_dec v ++ [sfx, 0], (((print_dec v).length + 1 : Nat) : Int))
        ∧ c_str (print_dec v ++ [sfx, 0]) = print_dec v ++ [sfx]
        ∧ v = 0 ∧ sfx = 107 := by
  obtain ⟨k, v, sfx, h1, h2, h3, _, h5, h6, _, _, _, h10⟩ :=
    (netcat_snprintnum_scaled 32 18446744073709551615 (by decide) (by decide)).2 (by decide)
  exact ⟨by decide, by decide, by decide, by decide!,
    k, v, sfx, h1, h2, h3, h5, h6, h10 (by decide)⟩

/-! ### The strings of `netcat_printstats` -/

theorem strHolds_put (str0 : Nat → UChar) (s junk : List UChar) (h : ∀ c ∈ s, c ≠ 0) :
    StrHolds (hex_put str0 0 (s ++ 0 :: junk)) s := by
  refine ⟨fun k hk => ?_, ?_, h⟩
  · have := hex_put_at str0 0 (s ++ 0 :: junk) k (by simp; omega)
    rw [Nat.zero_add] at this
    rw [this, List.getD_eq_getElem?_getD, List.getD_eq_getElem?_getD,
      List.getElem?_append_left hk]
  · have := hex_put_at str0 0 (s ++ 0 :: junk) s.length (by simp)
    rw [Nat.zero_add] at this
    rw [this, List.getD_eq_getElem?_getD, List.getElem?_append_right (Nat.le_refl _)]
    simp

theorem strHolds_append (str : Nat → UChar) (s t : List UChar) (hs : StrHolds str s)
    (ht : ∀ c ∈ t, c ≠ 0) :
    StrHolds (hex_put str s.length (t ++ [0])) (s ++ t) := by
  obtain ⟨h1, _, h3⟩ := hs
  refine ⟨fun k hk => ?_, ?_, ?_⟩
  · by_cases hks : k < s.length
    · rw [hex_put_lt _ _ _ _ hks, h1 k hks, List.getD_eq_getElem?_getD,
        List.getD_eq_getElem?_getD, List.getElem?_append_left hks]
    · obtain ⟨d, rfl⟩ : ∃ d, k = s.length + d := ⟨k - s.length, by omega⟩
      simp only [List.length_append] at hk
      rw [hex_put_at _ _ _ d (by simp; omega), List.getD_eq_getElem?_getD,
        List.getD_eq_getElem?_getD, List.getElem?_append_left (by omega),
        List.getElem?_append_right (by omega)]
      simp
  · have := hex_put_at str s.length (t ++ [0]) t.length (by simp)
    rw [List.length_append, this, List.getD_eq_getElem?_getD,
      List.getElem?_append_right (Nat.le_refl _)]
    simp
  · intro c hc
    rcases List.mem_append.1 hc with hc | hc
    · exact h3 c hc
    · exact ht c hc

theorem strHolds_at (str : Nat → UChar) (s : List UChar) (hs : StrHolds str s) (k : Nat)
    (hk : k < s.length) : str k ∈ s := by
  rw [hs.1 k hk, List.getD_eq_getElem?_getD, List.getElem?_eq_getElem hk]
  exact List.getElem_mem _

theorem strHolds_c_string (str : Nat → UChar) (s : List UChar) (hs : StrHolds str s)
    (hl : s.length < 64) : c_string str 64 0 = some s := by
  rw [c_string_spec str s.length 64 0
    (fun k hk => by
      rw [Nat.zero_add]
      exact hs.2.2 _ (strHolds_at str s hs k hk))
    (by rw [Nat.zero_add]; exact hs.2.1) hl]
  congr 1
  apply List.ext_getElem
  · simp
  · intro k h1 h2
    simp only [List.getElem_map, List.getElem_range'_1, Nat.zero_add]
    rw [hs.1 k h2, List.getD_eq_getElem?_getD, List.getElem?_eq_getElem h2]
    rfl

theorem last_char_loop_spec (str : Nat → UChar) (m : Nat) :
    ∀ (fuel p : Nat), (∀ j, 1 ≤ j → j ≤ m → str (p + j) ≠ 0) →
      str (p + m + 1) = 0 →
      p + m + 1 < 64 → m ≤ fuel → last_char_loop fuel str p = .ok (p + m) := by
  induction m with
  | zero =>
    intro fuel p _ h0 hb _
    unfold last_char_loop
    rw [if_pos (by omega), if_neg (by simpa using h0)]
    rfl
  | succ m ih =>
    intro fuel p hne h0 hb hf
    obtain ⟨f, rfl⟩ : ∃ f, fuel = f + 1 := ⟨fuel - 1, by omega⟩
    unfold last_char_loop
    rw [if_pos (by omega), if_pos (hne 1 (by omega) (by omega))]
    simp only
    rw [ih f (p + 1) (fun j h1 h2 => by
        have := hne (j + 1) (by omega) (by omega)
        rwa [show p + 1 + j = p + (j + 1) by omega])
      (by rwa [show p + 1 + m + 1 = p + (m + 1) + 1 by omega]) (by omega) (by omega)]
    congr 1
    omega

theorem strHolds_last (str : Nat → UChar) (s : List UChar) (hs : StrHolds str s)
    (h1 : 1 ≤ s.length) (hl : s.length < 64) :
    last_char_loop 64 str 0 = .ok (s.length - 1) := by
  have := last_char_loop_spec str (s.length - 1) 64 0
    (fun j a b => by
      rw [Nat.zero_add]
      exact hs.2.2 _ (strHolds_at str s hs j (by omega)))
    (by rw [Nat.zero_add, Nat.sub_add_cancel h1]; exact hs.2.1) (by omega) (by omega)
  rw [this, Nat.zero_add]

/-- The string that the statements for one counter leave in the array, from the string `s`
that `netcat_snprintnum` stored: `s` itself when it ends in a digit or the counter is 0, else
`s` followed by the counter in parentheses. -/
theorem printstats_counter_eq (str0 : Nat → UChar) (n : Nat) (s junk : List UChar) (ret : Int)
    (hnum : netcat_snprintnum 32 n = .ok (s ++ 0 :: junk, ret))
    (hs : ∀ c ∈ s, c ≠ 0) (h1 : 1 ≤ s.length) (hl : s.length + 1 + junk.length ≤ 22) :
    printstats_counter str0 n
      = .ok (if 0 < n ∧ isdigit (s.getD (s.length - 1) 0) = false
          then s ++ ([32, 40] ++ print_dec n ++ [41]) else s) := by
  have hold := strHolds_put str0 s junk hs
  have hlast := strHolds_last _ s hold h1 (by omega)
  have h0 : hex_put str0 0 (s ++ 0 :: junk) 0 ≠ 0 :=
    hold.2.2 _ (strHolds_at _ s hold 0 (by omega))
  unfold printstats_counter
  rw [hnum, Outcome.bind_ok]
  dsimp only
  unfold str_store
  rw [if_pos (by simp only [List.length_append, List.length_cons]; omega), Outcome.bind_ok,
    if_neg h0, hlast, Outcome.bind_ok, hold.1 (s.length - 1) (by omega)]
  have hd := (print_dec_spec n).2.1
  have hlen : ([32, 40] ++ print_dec n ++ [41] : List UChar).length
      = (print_dec n).length + 3 := by
    simp only [List.length_append, List.length_cons, List.length_nil]
    omega
  by_cases hc : 0 < n ∧ isdigit (s.getD (s.length - 1) 0) = false
  · have hfit : ([32, 40] ++ print_dec n ++ [41] : List UChar).length < 64 - 32 := by
      rw [hlen]
      omega
    have hcap : s.length - 1 + 1 + ([32, 40] ++ print_dec n ++ [41] ++ [0] : List UChar).length
        ≤ 64 := by
      rw [List.length_append, hlen, List.length_singleton]
      omega
    have ht : ∀ c ∈ ([32, 40] ++ print_dec n ++ [41] : List UChar), c ≠ 0 := by
      intro c hcm
      simp only [List.mem_append, List.mem_cons, List.mem_singleton, List.not_mem_nil,
        or_false] at hcm
      rcases hcm with ((rfl | rfl) | h) | rfl
      · decide
      · decide
      · exact print_dec_ne_zero n c h
      · decide
    have hfin : (s ++ ([32, 40] ++ print_dec n ++ [41])).length < 64 := by
      rw [List.length_append, hlen]
      omega
    rw [if_pos hc, if_pos hc, snprintf_fits _ _ hfit, if_pos hcap, Outcome.bind_ok,
      Nat.sub_add_cancel h1, strHolds_c_string _ _ (strHolds_append _ s _ hold ht) hfin]
  · rw [if_neg hc, if_neg hc, Outcome.bind_ok, strHolds_c_string _ s hold (by omega)]

theorem isdigit_print_dec (n : Nat) (c : UChar) (h : c ∈ print_dec n) : isdigit c = true := by
  have := (print_dec_spec n).2.2.1 c h
  simp [isdigit, this.1, this.2]

theorem getD_last_mem (s : List UChar) (h : 1 ≤ s.length) : s.getD (s.length - 1) 0 ∈ s := by
  rw [List.getD_eq_getElem?_getD, List.getElem?_eq_getElem (by omega)]
  exact List.getElem_mem _

/-- The string left for one counter: the plain number up to 9999, and above the scaled
form followed by the exact count in parentheses. -/
theorem printstats_counter_spec (str0 : Nat → UChar) (n : Nat) :
    ∃ t, printstats_counter str0 n = .ok t ∧ (n ≤ 9999 → t = print_dec n)
      ∧ (9999 < n → stats_text_spec n = .ok t) := by
  obtain ⟨hA, hB⟩ := snprintnum_loop_spec n
  by_cases h : n ≤ 9999
  · have hnum := netcat_snprintnum_eq 32 n n 0 (by omega) (hA h)
    have e : scale_suffixes.getD 0 0 = 0 := rfl
    rw [e] at hnum
    have h1 := (print_dec_spec n).1
    have h20 := (print_dec_spec n).2.1
    have := printstats_counter_eq str0 n (print_dec n) [0] _ hnum (print_dec_ne_zero n) h1
      (by simp only [List.length_singleton]; omega)
    rw [if_neg (by
      rintro ⟨_, hd⟩
      rw [isdigit_print_dec n _ (getD_last_mem _ h1)] at hd
      exact absurd hd (by simp))] at this
    exact ⟨_, this, fun _ => rfl, fun h' => absurd h' (by omega)⟩
  · have h' : 9999 < n := by omega
    obtain ⟨k, k1, k4, hk, _, _⟩ := hB h'
    obtain ⟨_, e2, e3, _⟩ := scale_suffix_spec k k1 k4
    have hnum := netcat_snprintnum_eq 32 n _ k (by omega) hk
    have e : print_dec (scale_step^[k] n) ++ [scale_suffixes.getD k 0, 0]
        = (print_dec (scale_step^[k] n) ++ [scale_suffixes.getD k 0]) ++ 0 :: [] := by
      simp only [List.append_assoc, List.singleton_append]
    rw [e] at hnum
    have h20 := (print_dec_spec (scale_step^[k] n)).2.1
    have hne : ∀ c ∈ print_dec (scale_step^[k] n) ++ [scale_suffixes.getD k 0], c ≠ 0 := by
      intro c hc
      rcases List.mem_append.1 hc with hc | hc
      · exact print_dec_ne_zero _ c hc
      · simp only [List.mem_singleton] at hc
        rw [hc]
        exact e2
    have := printstats_counter_eq str0 n _ [] _ hnum hne
      (by simp only [List.length_append, List.length_singleton]; omega)
      (by simp only [List.length_append, List.length_singleton, List.length_nil]; omega)
    have hlast : (print_dec (scale_step^[k] n) ++ [scale_suffixes.getD k 0]).getD
        ((print_dec (scale_step^[k] n) ++ [scale_suffixes.getD k 0]).length - 1) 0
        = scale_suffixes.getD k 0 := by
      rw [List.getD_eq_getElem?_getD, List.length_append, List.length_singleton,
        Nat.add_sub_cancel, List.getElem?_append_right (Nat.le_refl _)]
      simp
    rw [hlast, if_pos ⟨by omega, e3⟩] at this
    refine ⟨_, this, fun h'' => absurd h'' h, fun _ => ?_⟩
    unfold stats_text_spec
    rw [hnum, Outcome.bind_ok]
    dsimp only
    rw [c_str_append _ _ hne]
    simp only [List.append_assoc]

/-- Claim C22 fails on the code for counters up to 9999: `netcat_printstats` appends the
exact count only after a scaled form that ends in a suffix.  With 42 bytes received and
none sent the two strings are `42` and `0`, not `42 (42)` and `0 (0)`. -/
theorem netcat_printstats_small :
    netcat_printstats (fun _ => 0) (fun _ => 0) 42 0
        = .ok { str_recv := [52, 50], str_sent := [48] }
      ∧ stats_text_spec 42 = .ok [52, 50, 32, 40, 52, 50, 41]
      ∧ stats_text_spec 0 = .ok [48, 32, 40, 48, 41] := by
  decide!

/-- Claim C22, amended: for all values of `bytes_recv` and `bytes_sent` (and all contents
of the two arrays on entry) `netcat_printstats` reaches its call of `ncprint`, and the
string for a counter `n` is the decimal text of `n` alone when `n <= 9999`, and, when
`n > 9999`, the scaled form that `netcat_snprintnum` computes followed by ` (n)`, the
exact count in parentheses. -/
theorem netcat_printstats_text (str_recv0 str_sent0 : Nat → UChar)
    (bytes_recv bytes_sent : Nat) :
    ∃ r s, netcat_printstats str_recv0 str_sent0 bytes_recv bytes_sent
        = .ok { str_recv := r, str_sent := s }
      ∧ (bytes_recv ≤ 9999 → r = print_dec bytes_recv)
      ∧ (9999 < bytes_recv → stats_text_spec bytes_recv = .ok r)
      ∧ (bytes_sent ≤ 9999 → s = print_dec bytes_sent)
      ∧ (9999 < bytes_sent → stats_text_spec bytes_sent = .ok s) := by
  obtain ⟨r, hr, r1, r2⟩ := printstats_counter_spec str_recv0 bytes_recv
  obtain ⟨s, hs, s1, s2⟩ := printstats_counter_spec str_sent0 bytes_sent
  refine ⟨r, s, ?_, r1, r2, s1, s2⟩
  unfold netcat_printstats
  rw [hr, hs]
  rfl

/-- Witness for C22: 123456 bytes received and 7 sent give `123k (123456)` and `7`. -/
theorem netcat_printstats_text_witness :
    netcat_printstats (fun _ => 0) (fun _ => 0) 123456 7
      = .ok { str_recv := [49, 50, 51, 107, 32, 40, 49, 50, 51, 52, 53, 54, 41],
              str_sent := [55] }
    ∧ ∃ r s, netcat_printstats (fun _ => 0) (fun _ => 0) 123456 7
        = .ok { str_recv := r, str_sent := s }
      ∧ (123456 ≤ 9999 → r = print_dec 123456)
      ∧ (9999 < 123456 → stats_text_spec 123456 = .ok r)
      ∧ (7 ≤ 9999 → s = print_dec 7)
      ∧ (9999 < 7 → stats_text_spec 7 = .ok s) :=
  ⟨by decide!, netcat_printstats_text (fun _ => 0) (fun _ => 0) 123456 7⟩

/-! ## Theorems about `netcat_getport` -/

theorem char_digit (c : Char) (h : c.isDigit = true) :
    c_isspace c = false ∧ c ≠ '-' ∧ c ≠ '+' ∧ 48 ≤ c.toNat ∧ c.toNat ≤ 57 := by
  simp only [Char.isDigit, Bool.and_eq_true, decide_eq_true_eq] at h
  obtain ⟨h1, h2⟩ := h
  have a : 48 ≤ c.toNat := h1
  have b : c.toNat ≤ 57 := h2
  refine ⟨?_, ?_, ?_, a, b⟩
  · unfold c_isspace
    have : c ≠ ' ' := by rintro rfl; exact absurd a (by decide)
    simp [this]
    omega
  · rintro rfl; exact absurd a (by decide)
  · rintro rfl; exact absurd a (by decide)

/-- The digits at the start of a string, up to a character that is no digit. -/
theorem strtol_digits_spec (ds : List Char) (hd : ∀ c ∈ ds, c.isDigit = true)
    (rest : List Char) (hr : ∀ c, rest.head? = some c → c.isDigit = false) :
    ∀ (acc k : Nat), strtol_digits (ds ++ rest) (acc : Int) k
      = (((ds.foldl (fun a c => 10 * a + (c.toNat - 48)) acc : Nat) : Int), k + ds.length) := by
  induction ds with
  | nil =>
    intro acc k
    cases rest with
    | nil => rfl
    | cons c cs =>
      have := hr c rfl
      simp [strtol_digits, this]
  | cons d ds ih =>
    intro acc k
    have h1 := hd d (List.mem_cons_self _ _)
    rw [List.cons_append, strtol_digits, if_pos h1]
    have e : (acc : Int) * 10 + ((d.toNat - 48 : Nat) : Int)
        = ((10 * acc + (d.toNat - 48) : Nat) : Int) := by
      push_cast
      ring
    rw [e, ih (fun c hc => hd c (List.mem_cons_of_mem _ hc))]
    simp only [List.foldl_cons, List.length_cons]
    congr 1
    omega

theorem strtol_sign_none (d : Char) (l : List Char) (s2 : d ≠ '-') (s3 : d ≠ '+') :
    strtol.match_1 (fun _ => Bool × Nat) (d :: l) (fun _ => (true, 1)) (fun _ => (false, 1))
      (fun _ => (false, 0)) = (false, 0) := by
  split
  · rename_i h
    simp only [List.cons.injEq] at h
    exact absurd h.1 s2
  · rename_i h
    simp only [List.cons.injEq] at h
    exact absurd h.1 s3
  · rfl

/-- Library function `strtol` on a string that starts with the digits `ds`, not followed by
a digit: the value of `ds` (at most `LONG_MAX`), and `endptr` after them. -/
theorem strtol_digits_value (ds rest : List Char) (hne : ds ≠ [])
    (hd : ∀ c ∈ ds, c.isDigit = true)
    (hr : ∀ c, rest.head? = some c → c.isDigit = false) :
    strtol (ds ++ rest)
      = (if (digits_value ds : Int) > LONG_MAX then LONG_MAX else (digits_value ds : Int),
         ds.length) := by
  obtain ⟨d, ds1, rfl⟩ := List.exists_cons_of_ne_nil hne
  obtain ⟨s1, s2, s3, _, _⟩ := char_digit d (hd d (List.mem_cons_self _ _))
  have hdig := strtol_digits_spec (d :: ds1) hd rest hr 0 0
  unfold strtol
  have hsp : ((d :: ds1 ++ rest).takeWhile c_isspace).length = 0 := by
    simp [List.takeWhile, s1]
  have h0 : ((0 : Nat) : Int) = 0 := rfl
  rw [h0] at hdig
  have hnn : ¬ (((List.foldl (fun a c => 10 * a + (c.toNat - 48)) 0 (d :: ds1) : Nat) : Int)
      < LONG_MIN) := by
    unfold LONG_MIN
    omega
  simp only [hsp, List.drop_zero]
  rw [List.cons_append, strtol_sign_none d (ds1 ++ rest) s2 s3, ← List.cons_append]
  simp only [List.drop_zero, hdig, List.length_cons, Nat.zero_add]
  rw [if_neg (by omega)]
  simp only [Bool.false_eq_true, if_false, if_neg hnn]
  rfl

theorem dec_loop_short (k : Nat) :
    ∀ (fuel n : Nat), n < 10 ^ (k + 1) → (dec_loop fuel n []).length ≤ k + 1 := by
  induction k with
  | zero =>
    intro fuel n hn
    cases fuel with
    | zero => simp [dec_loop]
    | succ f =>
      unfold dec_loop
      rw [if_pos (by omega)]
      simp
  | succ k ih =>
    intro fuel n hn
    cases fuel with
    | zero => simp [dec_loop]
    | succ f =>
      unfold dec_loop
      split_ifs
      · simp
      · rw [dec_loop_acc]
        have := ih f (n / 10) (by rw [Nat.pow_succ] at hn; omega)
        simp only [List.length_append, List.length_singleton]
        omega

theorem htons_lt (le : Bool) (x : Nat) : htons le x < 65536 := by
  unfold htons
  split_ifs <;> omega

/-- The string that `snprintf` leaves in `ascnum` for a 16-bit port number. -/
theorem getport_end_ascnum (dst : nc_port_t) (h : dst.num < 65536) :
    (getport_end dst).ascnum = print_dec dst.num := by
  unfold getport_end
  dsimp only
  rw [Nat.mod_eq_of_lt h]
  have hl := dec_loop_short 4 20 dst.num (by norm_num; omega)
  rw [snprintf_fits 8 _ (by unfold print_dec; omega)]
  exact c_str_append _ _ (print_dec_ne_zero _)

/-- The call `netcat_getport(dst, NULL, port_num)` for a port in `1 .. 65535`, when the
services database answers `getservbyport` with an entry of the port asked for. -/
theorem netcat_getport_null_spec (env : ServEnv) (port_num : Nat) (h0 : 0 < port_num)
    (h1 : port_num < 65536)
    (hdb : ∀ se, env.getservbyport (htons env.little_endian port_num) = some se →
      se.s_port = htons env.little_endian port_num) :
    ∃ dst, netcat_getport_null env port_num = .ok (some dst) ∧ dst.num = port_num
      ∧ dst.netnum = htons env.little_endian port_num ∧ dst.ascnum = print_dec port_num := by
  unfold netcat_getport_null
  rw [if_neg (by omega)]
  dsimp only
  cases hs : env.getservbyport (htons env.little_endian port_num) with
  | none =>
    exact ⟨_, rfl, rfl, rfl, getport_end_ascnum _ h1⟩
  | some se =>
    dsimp only
    rw [if_pos (hdb se hs).symm]
    exact ⟨_, rfl, rfl, rfl, getport_end_ascnum _ h1⟩

/-- The function `netcat_getport` on a string of digits. -/
theorem netcat_getport_dst_digits (env : ServEnv) (str : List Char) (port_num : Nat)
    (hne : str ≠ []) (hd : ∀ c ∈ str, c.isDigit = true) :
    netcat_getport_dst env (some str) port_num
      = if 1 ≤ digits_value str ∧ digits_value str ≤ 65535
        then netcat_getport_null env (digits_value str) else .ok none := by
  have hst := strtol_digits_value str [] hne hd (fun c h => absurd h (by simp))
  rw [List.append_nil] at hst
  unfold netcat_getport_dst
  dsimp only
  rw [if_neg hne, hst]
  dsimp only
  rw [if_pos rfl]
  by_cases hr : 1 ≤ digits_value str ∧ digits_value str ≤ 65535
  · have hv : ¬ ((digits_value str : Int) > LONG_MAX) := by
      unfold LONG_MAX
      omega
    rw [if_pos hr, if_neg hv, if_pos ⟨by omega, by omega⟩, Int.toNat_ofNat,
      Nat.mod_eq_of_lt (by omega)]
  · rw [if_neg hr]
    by_cases hv : (digits_value str : Int) > LONG_MAX
    · rw [if_pos hv, if_neg (by unfold LONG_MAX; omega)]
    · rw [if_neg hv, if_neg (by omega)]

/-- Claim C23: for a non-empty string of decimal digits, of value `n`,
`netcat_getport(dst, string, port_num)` returns FALSE when `n` is not in `1 .. 65535`; when
it is (and the services database answers `getservbyport` with an entry of the port asked
for, as the `assert` of the function requires) it returns TRUE with `dst->num = n`,
`dst->netnum = htons(n)` and the decimal text of `n` in `dst->ascnum`.  It returns FALSE
for the empty string, for a string that starts with digits and goes on with a character
that is no digit, and for a NULL string with `port_num = 0`. -/
theorem netcat_getport_numeric (env : ServEnv) (str : List Char) (port_num : Nat) :
    (str ≠ [] → (∀ c ∈ str, c.isDigit = true) →
      (¬ (1 ≤ digits_value str ∧ digits_value str ≤ 65535) →
        netcat_getport_dst env (some str) port_num = .ok none)
      ∧ (1 ≤ digits_value str → digits_value str ≤ 65535 →
          (∀ se, env.getservbyport (htons env.little_endian (digits_value str)) = some se →
            se.s_port = htons env.little_endian (digits_value str)) →
          ∃ dst, netcat_getport_dst env (some str) port_num = .ok (some dst)
            ∧ dst.num = digits_value str
            ∧ dst.netnum = htons env.little_endian (digits_value str)
            ∧ dst.ascnum = print_dec (digits_value str)
            ∧ dec_value dst.ascnum = digits_value str))
    ∧ netcat_getport_dst env (some []) port_num = .ok none
    ∧ (∀ (ds rest : List Char) (c : Char), str = ds ++ c :: rest → ds ≠ [] →
        (∀ x ∈ ds, x.isDigit = true) → c.isDigit = false →
        netcat_getport_dst env (some str) port_num = .ok none)
    ∧ netcat_getport_dst env none 0 = .ok none := by
  refine ⟨fun hne hd => ?_, rfl, fun ds rest c e hne hd hc => ?_, rfl⟩
  · rw [netcat_getport_dst_digits env str port_num hne hd]
    refine ⟨fun h => by rw [if_neg h], fun h1 h2 hdb => ?_⟩
    rw [if_pos ⟨h1, h2⟩]
    obtain ⟨dst, e1, e2, e3, e4⟩ :=
      netcat_getport_null_spec env (digits_value str) (by omega) (by omega) hdb
    refine ⟨dst, e1, e2, e3, e4, ?_⟩
    rw [e4]
    exact (print_dec_spec _).2.2.2 (by unfold ULONG_RANGE; omega)
  · subst e
    have hst := strtol_digits_value ds (c :: rest) hne hd (fun x h => by
      simp only [List.head?_cons, Option.some.injEq] at h
      rw [← h]
      exact hc)
    have hlen : 0 < ds.length := List.length_pos.2 hne
    unfold netcat_getport_dst
    dsimp only
    rw [if_neg (by simp), hst]
    dsimp only
    rw [if_neg (by simp only [List.length_append, List.length_cons]; omega),
      if_pos (by omega)]

/-- Witness for C23: the string `80` on a little-endian machine with an empty services
database gives port 80, `netnum` 0x5000 and the text `80`. -/
theorem netcat_getport_numeric_witness :
    (['8', '0'] : List Char) ≠ [] ∧ (∀ c ∈ (['8', '0'] : List Char), c.isDigit = true)
    ∧ digits_value ['8', '0'] = 80
    ∧ netcat_getport_dst serv_none (some ['8', '0']) 0
        = .ok (some { name := [], ascnum := [56, 48], num := 80, netnum := 20480 })
    ∧ ∃ dst, netcat_getport_dst serv_none (some ['8', '0']) 0 = .ok (some dst)
        ∧ dst.num = digits_value ['8', '0']
        ∧ dst.netnum = htons serv_none.little_endian (digits_value ['8', '0'])
        ∧ dst.ascnum = print_dec (digits_value ['8', '0'])
        ∧ dec_value dst.ascnum = digits_value ['8', '0'] :=
  ⟨by decide, by decide, by decide, by decide!,
    ((netcat_getport_numeric serv_none ['8', '0'] 0).1 (by decide) (by decide)).2
      (by decide) (by decide) (fun se h => absurd h (by simp [serv_none]))⟩

/-- The value `dst->num` of `netcat_getport` is what the model `netcat_getport` of the port
arguments of `main` gives, `services` being the port numbers of the database. -/
theorem netcat_getport_dst_num (env : ServEnv) (str : List Char) (port_num : Nat)
    (r : Option nc_port_t) (h : netcat_getport_dst env (some str) port_num = .ok r) :
    netcat_getport
        (fun s => match env.getservbyname s with
          | some se => some (htons env.little_endian (se.s_port % 65536))
          | none => none) str
      = match r with
        | some dst => some dst.num
        | none => none := by
  unfold netcat_getport_dst at h
  unfold netcat_getport
  dsimp only at h ⊢
  by_cases hne : str = []
  · rw [if_pos hne] at h ⊢
    simp only [Outcome.ok.injEq] at h
    subst h
    rfl
  · rw [if_neg hne] at h ⊢
    generalize strtol str = q at h ⊢
    obtain ⟨port, endoff⟩ := q
    dsimp only at h ⊢
    split_ifs at h ⊢ with c1 c2 c3
    · unfold netcat_getport_null at h
      unfold netcat_getport_num
      have hp : port.toNat % 65536 ≠ 0 := by omega
      rw [if_neg hp] at h ⊢
      dsimp only at h
      split at h
      · split_ifs at h
        simp only [Outcome.ok.injEq] at h
        subst h
        rfl
      · simp only [Outcome.ok.injEq] at h
        subst h
        rfl
    · simp only [Outcome.ok.injEq] at h
      subst h
      rfl
    · simp only [Outcome.ok.injEq] at h
      subst h
      rfl
    · cases hs : env.getservbyname str with
      | none =>
        rw [hs] at h
        simp only [Outcome.ok.injEq] at h
        subst h
        rfl
      | some se =>
        rw [hs] at h
        simp only [Outcome.ok.injEq] at h
        subst h
        simp only [getport_end, Option.some.injEq]
        exact Nat.mod_eq_of_lt (htons_lt _ _)

/-! ## Theorems about the socket functions -/

/-- The three ways `netcat_socket_new` ends. -/
theorem netcat_socket_new_spec (env : SockEnv) (errno : Int) :
    (env.socket.ret < 0 →
      netcat_socket_new env errno
        = { ret := -1, errno := env.socket.leave errno, closed := false })
    ∧ (0 ≤ env.socket.ret → env.setsockopt_linger.ret < 0 →
      netcat_socket_new env errno
        = { ret := -2,
            errno := env.close.leave (env.setsockopt_linger.leave (env.socket.leave errno)),
            closed := true })
    ∧ (0 ≤ env.socket.ret → 0 ≤ env.setsockopt_linger.ret →
        env.setsockopt_reuseaddr.ret < 0 →
      netcat_socket_new env errno
        = { ret := -2,
            errno := env.close.leave (env.setsockopt_reuseaddr.leave
              (env.setsockopt_linger.leave (env.socket.leave errno))),
            closed := true })
    ∧ (0 ≤ env.socket.ret → 0 ≤ env.setsockopt_linger.ret →
        0 ≤ env.setsockopt_reuseaddr.ret →
      netcat_socket_new env errno
        = { ret := env.socket.ret,
            errno := env.setsockopt_reuseaddr.leave
              (env.setsockopt_linger.leave (env.socket.leave errno)),
            closed := false }) := by
  unfold netcat_socket_new
  refine ⟨fun h => ?_, fun h1 h2 => ?_, fun h1 h2 h3 => ?_, fun h1 h2 h3 => ?_⟩
  · simp only [h, if_true]
  · simp only [Int.not_lt.2 h1, h2, if_false, if_true]
  · simp only [Int.not_lt.2 h1, Int.not_lt.2 h2, h3, if_false, if_true]
  · simp only [Int.not_lt.2 h1, Int.not_lt.2 h2, Int.not_lt.2 h3, if_false]

theorem socket_err_neg (env : SockEnv) (ret errno : Int) (h : ret < 0) :
    socket_err env ret errno
      = if 0 ≤ env.close.ret then .ok { ret := ret, errno := errno, closed := true }
        else .aborted := by
  unfold socket_err
  rw [if_pos h]

/-- The ways `netcat_socket_new_connect` ends once the socket is created, `sock` and `e0`
being what `netcat_socket_new` returned and left in `errno`. -/
theorem netcat_socket_new_connect_spec (env : SockEnv) (local_addr : Bool) (local_port : Nat)
    (errno : Int) (h0 : 0 ≤ (netcat_socket_new env errno).ret) :
    ((local_addr = true ∨ local_port ≠ 0) → env.bind.ret < 0 →
      netcat_socket_new_connect env PF_INET true local_addr local_port errno
        = if 0 ≤ env.close.ret then
            .ok { ret := -3, errno := env.bind.leave (netcat_socket_new env errno).errno,
                  closed := true }
          else .aborted)
    ∧ (∀ eb, eb = (if local_addr = true ∨ local_port ≠ 0
            then env.bind.leave (netcat_socket_new env errno).errno
            else (netcat_socket_new env errno).errno) →
        ¬ ((local_addr = true ∨ local_port ≠ 0) ∧ env.bind.ret < 0) →
        (env.fcntl_getfl.ret < 0 →
          netcat_socket_new_connect env PF_INET true local_addr local_port errno
            = if 0 ≤ env.close.ret then
                .ok { ret := -4, errno := env.fcntl_getfl.leave eb, closed := true }
              else .aborted)
        ∧ (0 ≤ env.fcntl_getfl.ret → env.fcntl_setfl.ret < 0 →
          netcat_socket_new_connect env PF_INET true local_addr local_port errno
            = if 0 ≤ env.close.ret then
                .ok { ret := -4, errno := env.fcntl_setfl.leave (env.fcntl_getfl.leave eb),
                      closed := true }
              else .aborted)
        ∧ (∀ ec, ec = env.connect.leave (env.fcntl_setfl.leave (env.fcntl_getfl.leave eb)) →
            0 ≤ env.fcntl_getfl.ret → 0 ≤ env.fcntl_setfl.ret →
            (env.connect.ret < 0 → ec ≠ EINPROGRESS →
              netcat_socket_new_connect env PF_INET true local_addr local_port errno
                = if 0 ≤ env.close.ret then .ok { ret := -5, errno := ec, closed := true }
                  else .aborted)
            ∧ (0 ≤ env.connect.ret ∨ ec = EINPROGRESS →
              netcat_socket_new_connect env PF_INET true local_addr local_port errno
                = .ok { ret := (netcat_socket_new env errno).ret, errno := ec,
                        closed := false }))) := by
  have hnl : ¬ (netcat_socket_new env errno).ret < 0 := Int.not_lt.2 h0
  have hpf : ¬ (PF_INET ≠ PF_INET) := fun h => h rfl
  refine ⟨fun hb hbr => ?_, fun eb heb hnb => ⟨fun hg => ?_, fun hg hs => ?_,
    fun ec hec hg hs => ⟨fun hc hne => ?_, fun hc => ?_⟩⟩⟩
  · unfold netcat_socket_new_connect
    simp only [Bool.true_eq_false, if_false, hpf, hnl, if_pos (And.intro hb hbr)]
    exact socket_err_neg env (-3) _ (by decide)
  · unfold netcat_socket_new_connect
    simp only [Bool.true_eq_false, if_false, hpf, hnl, if_neg hnb, Int.not_le.2 hg, hg, if_true,
      ← heb]
    exact socket_err_neg env (-4) _ (by decide)
  · unfold netcat_socket_new_connect
    simp only [Bool.true_eq_false, if_false, hpf, hnl, if_neg hnb, hg, hs, if_true, ← heb]
    exact socket_err_neg env (-4) _ (by decide)
  · unfold netcat_socket_new_connect
    simp only [Bool.true_eq_false, if_false, hpf, hnl, if_neg hnb, hg, Int.not_lt.2 hs,
      if_true, ← heb, ← hec, if_pos (And.intro hc hne)]
    exact socket_err_neg env (-5) _ (by decide)
  · unfold netcat_socket_new_connect
    have hcn : ¬ (env.connect.ret < 0 ∧ ec ≠ EINPROGRESS) := by
      rintro ⟨a, b⟩
      rcases hc with hc | hc
      · omega
      · exact b hc
    simp only [Bool.true_eq_false, if_false, hpf, hnl, if_neg hnb, hg, Int.not_lt.2 hs,
      if_true, ← heb, ← hec, if_neg hcn]

/-- The ways `netcat_socket_new_listen` ends once the socket is created. -/
theorem netcat_socket_new_listen_spec (env : SockEnv) (errno : Int)
    (h0 : 0 ≤ (netcat_socket_new env errno).ret) :
    (env.bind.ret < 0 →
      netcat_socket_new_listen env PF_INET errno
        = if 0 ≤ env.close.ret then
            .ok { ret := -3, errno := env.bind.leave (netcat_socket_new env errno).errno,
                  closed := true }
          else .aborted)
    ∧ (0 ≤ env.bind.ret → env.listen.ret < 0 →
      netcat_socket_new_listen env PF_INET errno
        = if 0 ≤ env.close.ret then
            .ok { ret := -4,
                  errno := env.listen.leave
                    (env.bind.leave (netcat_socket_new env errno).errno),
                  closed := true }
          else .aborted)
    ∧ (0 ≤ env.bind.ret → 0 ≤ env.listen.ret →
      netcat_socket_new_listen env PF_INET errno
        = .ok { ret := (netcat_socket_new env errno).ret,
                errno := env.listen.leave
                  (env.bind.leave (netcat_socket_new env errno).errno),
                closed := false }) := by
  have hnl : ¬ (netcat_socket_new env errno).ret < 0 := Int.not_lt.2 h0
  have hpf : ¬ (PF_INET ≠ PF_INET) := fun h => h rfl
  refine ⟨fun hb => ?_, fun hb hl => ?_, fun hb hl => ?_⟩
  · unfold netcat_socket_new_listen
    simp only [if_false, hpf, hnl, hb, if_true]
    exact socket_err_neg env (-3) _ (by decide)
  · unfold netcat_socket_new_listen
    simp only [if_false, hpf, hnl, Int.not_lt.2 hb, hl, if_true]
    exact socket_err_neg env (-4) _ (by decide)
  · unfold netcat_socket_new_listen
    simp only [if_false, hpf, hnl, Int.not_lt.2 hb, Int.not_lt.2 hl]

/-- Claim C24 holds for the return codes and fails for `errno` on the return of -2.
`netcat_socket_new` returns -1 when `socket` fails, with the `errno` of `socket`, and -2 when
one of the two `setsockopt` fails; but there `close(sock)` runs without `errno` being
saved, so `errno` is what `close` leaves, which is the value left by `setsockopt` only if
`close` does not set it.  The two other functions forward a negative result of
`netcat_socket_new` as it is; after the socket is created they return -3 when `bind`
fails, -4 when `fcntl` (connect) or `listen` (listen) fails, -5 when `connect` fails with
an `errno` other than `EINPROGRESS`, each time with the `errno` of the failing call and the
socket closed (a failing `close` ends the program in an `assert` instead), and otherwise
the descriptor. -/
theorem netcat_socket_error_codes (env : SockEnv) (errno : Int) (local_addr : Bool)
    (local_port : Nat) :
    ((env.socket.ret < 0 →
        netcat_socket_new env errno
          = { ret := -1, errno := env.socket.leave errno, closed := false })
      ∧ (0 ≤ env.socket.ret → env.setsockopt_linger.ret < 0 →
        netcat_socket_new env errno
          = { ret := -2,
              errno := env.close.leave (env.setsockopt_linger.leave (env.socket.leave errno)),
              closed := true })
      ∧ (0 ≤ env.socket.ret → 0 ≤ env.setsockopt_linger.ret →
          env.setsockopt_reuseaddr.ret < 0 →
        netcat_socket_new env errno
          = { ret := -2,
              errno := env.close.leave (env.setsockopt_reuseaddr.leave
                (env.setsockopt_linger.leave (env.socket.leave errno))),
              closed := true })
      ∧ (0 ≤ env.socket.ret → 0 ≤ env.setsockopt_linger.ret →
          0 ≤ env.setsockopt_reuseaddr.ret →
        netcat_socket_new env errno
          = { ret := env.socket.ret,
              errno := env.setsockopt_reuseaddr.leave
                (env.setsockopt_linger.leave (env.socket.leave errno)),
              closed := false }))
    ∧ ((netcat_socket_new env errno).ret < 0 →
        netcat_socket_new_connect env PF_INET true local_addr local_port errno
            = .ok (netcat_socket_new env errno)
          ∧ netcat_socket_new_listen env PF_INET errno = .ok (netcat_socket_new env errno))
    ∧ (0 ≤ (netcat_socket_new env errno).ret →
        ((local_addr = true ∨ local_port ≠ 0) → env.bind.ret < 0 →
          netcat_socket_new_connect env PF_INET true local_addr local_port errno
            = if 0 ≤ env.close.ret then
                .ok { ret := -3, errno := env.bind.leave (netcat_socket_new env errno).errno,
                      closed := true }
              else .aborted)
        ∧ (∀ eb, eb = (if local_addr = true ∨ local_port ≠ 0
                then env.bind.leave (netcat_socket_new env errno).errno
                else (netcat_socket_new env errno).errno) →
            ¬ ((local_addr = true ∨ local_port ≠ 0) ∧ env.bind.ret < 0) →
            (env.fcntl_getfl.ret < 0 →
              netcat_socket_new_connect env PF_INET true local_addr local_port errno
                = if 0 ≤ env.close.ret then
                    .ok { ret := -4, errno := env.fcntl_getfl.leave eb, closed := true }
                  else .aborted)
            ∧ (0 ≤ env.fcntl_getfl.ret → env.fcntl_setfl.ret < 0 →
              netcat_socket_new_connect env PF_INET true local_addr local_port errno
                = if 0 ≤ env.close.ret then
                    .ok { ret := -4,
                          errno := env.fcntl_setfl.leave (env.fcntl_getfl.leave eb),
                          closed := true }
                  else .aborted)
            ∧ (∀ ec,
                ec = env.connect.leave (env.fcntl_setfl.leave (env.fcntl_getfl.leave eb)) →
                0 ≤ env.fcntl_getfl.ret → 0 ≤ env.fcntl_setfl.ret →
                (env.connect.ret < 0 → ec ≠ EINPROGRESS →
                  netcat_socket_new_connect env PF_INET true local_addr local_port errno
                    = if 0 ≤ env.close.ret then
                        .ok { ret := -5, errno := ec, closed := true }
                      else .aborted)
                ∧ (0 ≤ env.connect.ret ∨ ec = EINPROGRESS →
                  netcat_socket_new_connect env PF_INET true local_addr local_port errno
                    = .ok { ret := (netcat_socket_new env errno).ret, errno := ec,
                            closed := false }))))
    ∧ (0 ≤ (netcat_socket_new env errno).ret →
        (env.bind.ret < 0 →
          netcat_socket_new_listen env PF_INET errno
            = if 0 ≤ env.close.ret then
                .ok { ret := -3, errno := env.bind.leave (netcat_socket_new env errno).errno,
                      closed := true }
              else .aborted)
        ∧ (0 ≤ env.bind.ret → env.listen.ret < 0 →
          netcat_socket_new_listen env PF_INET errno
            = if 0 ≤ env.close.ret then
                .ok { ret := -4,
                      errno := env.listen.leave
                        (env.bind.leave (netcat_socket_new env errno).errno),
                      closed := true }
              else .aborted)
        ∧ (0 ≤ env.bind.ret → 0 ≤ env.listen.ret →
          netcat_socket_new_listen env PF_INET errno
            = .ok { ret := (netcat_socket_new env errno).ret,
                    errno := env.listen.leave
                      (env.bind.leave (netcat_socket_new env errno).errno),
                    closed := false })) := by
  refine ⟨netcat_socket_new_spec env errno, fun h => ⟨?_, ?_⟩,
    fun h0 => netcat_socket_new_connect_spec env local_addr local_port errno h0,
    fun h0 => netcat_socket_new_listen_spec env errno h0⟩
  · unfold netcat_socket_new_connect
    simp only [Bool.true_eq_false, if_false, ne_eq, not_true_eq_false, h, if_true]
  · unfold netcat_socket_new_listen
    simp only [if_false, ne_eq, not_true_eq_false, h, if_true]

/-- Witness for C24, on the return of -2: the socket is created, `setsockopt(SO_REUSEADDR)`
fails and leaves `errno = 92`, and `close` fails and leaves `errno = 4`;
`netcat_socket_new` returns -2 with `errno = 4`, and `netcat_socket_new_connect` forwards
this. -/
theorem netcat_socket_error_codes_witness :
    0 ≤ sock_env_lost.socket.ret ∧ 0 ≤ sock_env_lost.setsockopt_linger.ret
    ∧ sock_env_lost.setsockopt_reuseaddr.ret < 0
    ∧ sock_env_lost.setsockopt_reuseaddr.leave
        (sock_env_lost.setsockopt_linger.leave (sock_env_lost.socket.leave 0)) = 92
    ∧ netcat_socket_new sock_env_lost 0 = { ret := -2, errno := 4, closed := true }
    ∧ netcat_socket_new_connect sock_env_lost PF_INET true false 0 0
        = .ok { ret := -2, errno := 4, closed := true } :=
  ⟨by decide, by decide, by decide, by decide,
    (netcat_socket_error_codes sock_env_lost 0 false 0).1.2.2.1 (by decide) (by decide)
      (by decide),
    by decide⟩

end Netcat
